import Mathlib

/-!
# Cache replacement engines: ARC, CACHEUS, LFU, LIRS

A shallow embedding of the four policy classes (`arc.cpp`, `cacheus.cpp`,
`lfu.cpp`, `lirs.cpp`) and the properties proved about them.

Modelling conventions.

* `std::list<long long int>` is a `List Int`; `front` is the head (MRU end),
  `back` is the last element (LRU end).
* `std::unordered_map` / `std::map` is an association list `KMap` whose
  `insert` first removes every older entry of the key, so keys stay unique and
  `size` is the number of keys.
* A list iterator stored in a position index is modelled by the identity of
  the list (or bucket) it points into; the node it designates is the node
  holding the key it is stored under.  Erasing through an iterator that is
  missing (`at` throws), that points into another list, or whose node is no
  longer in the list is undefined in C++ and makes the modelled operation
  return `none`.  The same holds for `back()` and `pop_front()` on an empty
  list.
* The one read of an empty list that the program survives is
  `HIR_nonresident_list.front()` in the last step of Engine D's `refer`: it
  reads the list's own header node, where the element count 0 is stored, so
  the comparison `front() == x` is made with 0.  It fails for every key other
  than 0 and the call returns; for the key 0 it succeeds and `pop_front()` is
  run on the empty list, which aborts the program: the call yields `none`.
* The access type is the string `"Read"` or `"Write"`; it is the two-valued
  type `RW`.
* `csize` is a non-negative `int`; the counters and the frequencies of
  Engine C are unbounded naturals (no run is long enough to overflow them).
* The members `migration`, `total_calls`, `total_hits`, `total_migration` are
  written by no `refer`; the three totals are left out and `migration`, which
  only `refresh` writes, starts at 0 also where the constructor does not set
  it.
* `Engine.exec` replays a sequence of `refer` and `refresh` calls and yields
  `none` as soon as a call is undefined; `Engine.history` does the same and
  keeps, beside the engine, the bookkeeping `Ghost` that the statements about
  past references are phrased with.
-/

/-- The access type passed to `refer`: the string `"Read"` or `"Write"`. -/
inductive RW where
  | Read
  | Write
deriving DecidableEq, Repr

/-- Association list standing for `std::unordered_map<K, V>` / `std::map<K, V>`. -/
abbrev KMap (K V : Type) := List (K × V)

namespace KMap

/-- Lookup, `m.find(k)`: the value stored under `k`, if any. -/
def find {K V : Type} [DecidableEq K] : KMap K V → K → Option V
  | [], _ => none
  | (a, v) :: r, k => if a = k then some v else find r k

/-- Membership test `m.count(k)`. -/
def count {K V : Type} [DecidableEq K] (m : KMap K V) (k : K) : Bool :=
  (find m k).isSome

/-- Removal `m.erase(k)`. -/
def erase {K V : Type} [DecidableEq K] (m : KMap K V) (k : K) : KMap K V :=
  m.filter (fun e => decide (e.1 ≠ k))

/-- Assignment `m[k] = v`. -/
def insert {K V : Type} [DecidableEq K] (m : KMap K V) (k : K) (v : V) : KMap K V :=
  (k, v) :: erase m k

/-- Number of entries `m.size()`. -/
def size {K V : Type} (m : KMap K V) : Nat := m.length

/-- The keys of the map, in storage order. -/
def keys {K V : Type} (m : KMap K V) : List K := m.map Prod.fst

/-- Entry with the least key: `m.begin()` of an ordered `std::map`. -/
def minEntry {K V : Type} [LinearOrder K] : KMap K V → Option (K × V)
  | [] => none
  | e :: r =>
    match minEntry r with
    | none => some e
    | some e' => if e.1 ≤ e'.1 then some e else some e'

end KMap

/-- Erase through a stored iterator: `L.erase(it)` where `it` was stored
under key `x`.  `it` is the identity of the list the iterator points into and
`self` the identity of `L`. -/
def eraseIter {I : Type} [DecidableEq I] (L : List Int) (self : I) (it : Option I)
    (x : Int) : Option (List Int) :=
  match it with
  | none => none
  | some i => if i = self ∧ x ∈ L then some (L.erase x) else none

/-! ## Call sequences and their history -/

/-- One call made by the trace driver: a reference or a per-run reset. -/
inductive Op where
  | refer (x : Int) (t : RW)
  | refresh
deriving DecidableEq, Repr

/-- The interface shared by the four engines. -/
structure Engine (σ : Type) where
  init : Nat → σ
  refer : σ → Int → RW → Option σ
  refresh : σ → σ
  isResident : σ → Int → Bool

/-- Bookkeeping about the calls made so far, kept beside an engine and never
read by it: for every key whether it was referenced with `Write` since it last
became resident, the access type and the time of its most recent reference,
and the number of references made. -/
structure Ghost where
  written : Int → Bool
  lastType : Int → Option RW
  lastTime : Int → Nat
  now : Nat

namespace Ghost

/-- Bookkeeping before the first call. -/
def start : Ghost :=
  { written := fun _ => false, lastType := fun _ => none, lastTime := fun _ => 0, now := 0 }

/-- Bookkeeping after a reference to `x` with access type `t`;
`wasResident` says whether `x` was resident when the call was made. -/
def note (g : Ghost) (wasResident : Bool) (x : Int) (t : RW) : Ghost :=
  { written := fun k =>
      if k = x then (decide (t = RW.Write) || (wasResident && g.written k))
      else g.written k,
    lastType := fun k => if k = x then some t else g.lastType k,
    lastTime := fun k => if k = x then g.now + 1 else g.lastTime k,
    now := g.now + 1 }

/-- Bookkeeping after the calls `refer(1, Write)`, `refer(1, Read)`. -/
def sample : Ghost := (start.note false 1 RW.Write).note true 1 RW.Read

end Ghost

namespace Engine

/-- Run a call sequence, keeping the bookkeeping beside the engine state. -/
def history {σ : Type} (E : Engine σ) : σ → Ghost → List Op → Option (σ × Ghost)
  | s, g, [] => some (s, g)
  | s, g, Op.refer x t :: rest =>
    (E.refer s x t).bind fun s1 => history E s1 (g.note (E.isResident s x) x t) rest
  | s, g, Op.refresh :: rest => history E (E.refresh s) g rest

/-- Run a call sequence. -/
def exec {σ : Type} (E : Engine σ) : σ → List Op → Option σ
  | s, [] => some s
  | s, Op.refer x t :: rest => (E.refer s x t).bind fun s1 => exec E s1 rest
  | s, Op.refresh :: rest => exec E (E.refresh s) rest

/-- The state `s` with bookkeeping `g` is reached from a fresh engine of
capacity `C` by some sequence of `refer` and `refresh` calls. -/
def Traced {σ : Type} (E : Engine σ) (C : Nat) (s : σ) (g : Ghost) : Prop :=
  ∃ ops, E.history (E.init C) Ghost.start ops = some (s, g)

/-- The state `s` is reached from a fresh engine of capacity `C` by some
sequence of `refer` and `refresh` calls. -/
def Reachable {σ : Type} (E : Engine σ) (C : Nat) (s : σ) : Prop :=
  ∃ ops, E.exec (E.init C) ops = some s

/-- The references of a trace, as driver calls. -/
def refs (l : List (Int × RW)) : List Op := l.map fun e => Op.refer e.1 e.2

/-- Referencing `x` with access type `t` twice in a row from `s`: both calls
return, the second one is a hit counted under `t`, and it leaves the resident
count unchanged. -/
def SecondIsHit {σ : Type} (E : Engine σ) (hits readHits writeHits resident : σ → Nat)
    (s : σ) (x : Int) (t : RW) : Prop :=
  ∃ s1 s2, E.refer s x t = some s1 ∧ E.refer s1 x t = some s2 ∧
    hits s2 = hits s1 + 1 ∧
    readHits s2 = readHits s1 + (if t = RW.Read then 1 else 0) ∧
    writeHits s2 = writeHits s1 + (if t = RW.Write then 1 else 0) ∧
    resident s2 = resident s1

/-- The calls `refer(1, Write)`, `refer(1, Read)`. -/
def sampleOps : List Op := [Op.refer 1 RW.Write, Op.refer 1 RW.Read]

/-- Summary of one call `refer s x t = some s1` by occurrence counts: `rc`
counts the occurrences of a key in the resident structure, `flag` reads its
dirty flag, `cnt` is the dirty-eviction counter and `ev` the evicted key, if
any. -/
def CountStep {σ : Type} (rc : σ → Int → Nat) (flag : σ → Int → Bool) (cnt : σ → Nat)
    (s s1 : σ) (x : Int) (t : RW) (ev : Option Int) : Prop :=
  (∀ k, rc s1 k + (if ev = some k then 1 else 0) =
        rc s k + (if k = x ∧ rc s x = 0 then 1 else 0)) ∧
  (∀ v, ev = some v → rc s v = 1 ∧ v ≠ x) ∧
  cnt s1 = cnt s + (match ev with
                    | some v => if flag s v = true then 1 else 0
                    | none => 0) ∧
  (∀ k, 0 < rc s1 k →
    flag s1 k = if k = x then (decide (t = RW.Write) || (decide (0 < rc s x) && flag s x))
                else flag s k)

/-- Summary of one call `refer s x t = some s1` as the dirty accounting sees
it: `flag` reads the dirty flag of a key, `cnt` the dirty-eviction counter and
`ev` is the evicted key, if any.  The resident keys afterwards are the former
ones and `x`, less the evicted key; the counter rises exactly when the evicted
key was flagged; `x` is flagged when the call is a `Write` or when it was
resident and flagged; every other resident key keeps its flag. -/
def DirtyStep {σ : Type} (E : Engine σ) (flag : σ → Int → Bool) (cnt : σ → Nat)
    (s s1 : σ) (x : Int) (t : RW) (ev : Option Int) : Prop :=
  (∀ k, E.isResident s1 k =
    ((E.isResident s k || decide (k = x)) && !decide (ev = some k))) ∧
  (∀ v, ev = some v → E.isResident s v = true ∧ v ≠ x) ∧
  cnt s1 = cnt s + (match ev with
                    | some v => if flag s v = true then 1 else 0
                    | none => 0) ∧
  (∀ k, E.isResident s1 k = true →
    flag s1 k = if k = x then (decide (t = RW.Write) || (E.isResident s x && flag s x))
                else flag s k)

/-- The dirty flag of every resident key says whether the key was referenced
with `Write` since it last became resident, and a resident key whose most
recent reference was a `Write` has been written since then. -/
def GhostOK {σ : Type} (E : Engine σ) (flag : σ → Int → Bool) (s : σ) (g : Ghost) : Prop :=
  ∀ k, E.isResident s k = true →
    flag s k = g.written k ∧ (g.lastType k = some RW.Write → g.written k = true)

/-- Dirty accounting across one call that takes `s` to `s1`, with the
bookkeeping `g` of the calls before it: evicting a key written since it became
resident adds exactly one to the counter `cnt`, evicting a key only read since
then adds nothing, a call that evicts nothing adds nothing, and no call adds
more than one. -/
def DirtyAccounting {σ : Type} (E : Engine σ) (cnt : σ → Nat) (s s1 : σ) (g : Ghost) :
    Prop :=
  (∀ v, E.isResident s v = true → E.isResident s1 v = false → g.written v = true →
    cnt s1 = cnt s + 1) ∧
  (∀ v, E.isResident s v = true → E.isResident s1 v = false → g.written v = false →
    cnt s1 = cnt s) ∧
  ((∀ v, E.isResident s v = true → E.isResident s1 v = true) → cnt s1 = cnt s) ∧
  cnt s1 ≤ cnt s + 1

end Engine

/-! ## Engine A: `ARCCache` -/

/-- The tag `enum ListSet` of `arc.h`. -/
inductive ListSet where
  | NONE
  | L1_SET
  | T1_SET
  | L2_SET
  | T2_SET
deriving DecidableEq, Repr

/-- State of `class ARCCache`. -/
structure ARCCache where
  csize : Nat
  p : Int
  L1 : List Int
  T1 : List Int
  L2 : List Int
  T2 : List Int
  list_map : KMap Int ListSet
  key_set_map : KMap Int ListSet
  accessType : KMap Int RW
  calls : Nat
  hits : Nat
  readHits : Nat
  writeHits : Nat
  evictedDirtyPage : Nat
  migration : Nat
deriving DecidableEq, Repr

namespace ARCCache

/-- Constructor `ARCCache::ARCCache(int n)`. -/
def init (n : Nat) : ARCCache :=
  { csize := n, p := 0, L1 := [], T1 := [], L2 := [], T2 := [],
    list_map := [], key_set_map := [], accessType := [],
    calls := 0, hits := 0, readHits := 0, writeHits := 0,
    evictedDirtyPage := 0, migration := 0 }

/-- The `while` loop of `clean_ghost_list`, with an iteration budget. -/
def clean_ghost_loop : Nat → ARCCache → ARCCache
  | 0, s => s
  | fuel + 1, s =>
    if s.T1.length + s.T2.length > s.csize then
      match s.T2.getLast? with
      | some victim =>
        clean_ghost_loop fuel
          { s with T2 := s.T2.dropLast,
                   list_map := s.list_map.erase victim,
                   key_set_map := s.key_set_map.erase victim }
      | none =>
        match s.T1.getLast? with
        | some victim =>
          clean_ghost_loop fuel
            { s with T1 := s.T1.dropLast,
                     list_map := s.list_map.erase victim,
                     key_set_map := s.key_set_map.erase victim }
        | none => s
    else s

/-- Method `ARCCache::clean_ghost_list` (its list argument is unused). -/
def clean_ghost_list (s : ARCCache) : ARCCache :=
  clean_ghost_loop (s.T1.length + s.T2.length) s

/-- The dirty check and flag removal shared by both branches of `replace`. -/
def dirtyEvict (s : ARCCache) (victim : Int) : ARCCache :=
  { s with
    evictedDirtyPage :=
      if s.accessType.find victim = some RW.Write then s.evictedDirtyPage + 1
      else s.evictedDirtyPage,
    accessType := s.accessType.erase victim }

/-- Method `ARCCache::replace`. -/
def replace (s : ARCCache) : Option ARCCache :=
  if (s.L1.length : Int) > s.p then
    match s.L1.getLast? with
    | none => none
    | some victim =>
      let s1 := { s with L1 := s.L1.dropLast,
                         list_map := s.list_map.erase victim,
                         key_set_map := s.key_set_map.erase victim }
      let s2 := { s1 with T1 := victim :: s1.T1,
                          list_map := s1.list_map.insert victim ListSet.T1_SET,
                          key_set_map := s1.key_set_map.insert victim ListSet.T1_SET }
      some (clean_ghost_list (dirtyEvict s2 victim))
  else
    match s.L2.getLast? with
    | some victim =>
      let s1 := { s with L2 := s.L2.dropLast,
                         list_map := s.list_map.erase victim,
                         key_set_map := s.key_set_map.erase victim }
      let s2 := { s1 with T2 := victim :: s1.T2,
                          list_map := s1.list_map.insert victim ListSet.T2_SET,
                          key_set_map := s1.key_set_map.insert victim ListSet.T2_SET }
      some (clean_ghost_list (dirtyEvict s2 victim))
    | none => some s

/-- The common tail of the hit branches: put `x` at the MRU end of `L2`. -/
def pushL2 (s : ARCCache) (x : Int) : ARCCache :=
  { s with L2 := x :: s.L2,
           list_map := s.list_map.insert x ListSet.L2_SET,
           key_set_map := s.key_set_map.insert x ListSet.L2_SET }

/-- Resident-hit branch of `refer` (after `calls++`). -/
def referHit (s : ARCCache) (current_set : ListSet) (x : Int) (rwtype : RW) :
    Option ARCCache :=
  let s := { s with hits := s.hits + 1 }
  let s := if rwtype = RW.Read then { s with readHits := s.readHits + 1 }
           else { s with writeHits := s.writeHits + 1 }
  let s := if rwtype = RW.Write then
             { s with accessType := s.accessType.insert x RW.Write } else s
  if current_set = ListSet.L1_SET then
    (eraseIter s.L1 ListSet.L1_SET (s.list_map.find x) x).map
      (fun l => pushL2 { s with L1 := l } x)
  else
    (eraseIter s.L2 ListSet.L2_SET (s.list_map.find x) x).map
      (fun l => pushL2 { s with L2 := l } x)

/-- Ghost-hit branch of `refer` (after `calls++`). -/
def referGhost (s : ARCCache) (current_set : ListSet) (x : Int) (rwtype : RW) :
    Option ARCCache :=
  let adapted : Option ARCCache :=
    if current_set = ListSet.T1_SET then
      (eraseIter s.T1 ListSet.T1_SET (s.list_map.find x) x).map
        (fun l => { s with p := min (s.csize : Int) (s.p + 1), T1 := l })
    else
      (eraseIter s.T2 ListSet.T2_SET (s.list_map.find x) x).map
        (fun l => { s with p := max 0 (s.p - 1), T2 := l })
  adapted.bind fun s =>
    let s := { s with list_map := s.list_map.erase x,
                      key_set_map := s.key_set_map.erase x }
    let r := if s.L1.length + s.L2.length = s.csize then replace s else some s
    r.map fun s =>
      let s := pushL2 s x
      clean_ghost_list { s with accessType := s.accessType.insert x rwtype }

/-- True-miss branch of `refer` (after `calls++`). -/
def referMiss (s : ARCCache) (x : Int) (rwtype : RW) : Option ARCCache :=
  let r :=
    if s.L1.length + s.L2.length = s.csize then replace s
    else if s.T1.length + s.T2.length = s.csize then some (clean_ghost_list s)
    else some s
  r.map fun s =>
    { s with L1 := x :: s.L1,
             list_map := s.list_map.insert x ListSet.L1_SET,
             key_set_map := s.key_set_map.insert x ListSet.L1_SET,
             accessType := s.accessType.insert x rwtype }

/-- Method `ARCCache::refer`. -/
def refer (s : ARCCache) (x : Int) (rwtype : RW) : Option ARCCache :=
  let s := { s with calls := s.calls + 1 }
  let current_set : ListSet :=
    match s.key_set_map.find x with
    | some v => v
    | none => ListSet.NONE
  if current_set = ListSet.L1_SET ∨ current_set = ListSet.L2_SET then
    referHit s current_set x rwtype
  else if current_set = ListSet.T1_SET ∨ current_set = ListSet.T2_SET then
    referGhost s current_set x rwtype
  else
    referMiss s x rwtype

/-- Method `ARCCache::refresh`. -/
def refresh (s : ARCCache) : ARCCache :=
  { s with calls := 0, hits := 0, migration := 0 }

/-- Number of resident blocks, `|L1| + |L2|`. -/
def resident (s : ARCCache) : Nat := s.L1.length + s.L2.length

/-- `ARCCache` as an engine; a key is resident when it is in `L1` or `L2`. -/
def engine : Engine ARCCache :=
  { init := init, refer := refer, refresh := refresh,
    isResident := fun s k => decide (k ∈ s.L1 ∨ k ∈ s.L2) }

end ARCCache

/-! ## Engine B: `CACHEUSCache` -/

/-- The tag `enum Segment` of `cacheus.h`. -/
inductive Segment where
  | NONE
  | READ
  | WRITE
deriving DecidableEq, Repr

/-- State of `class CACHEUSCache`. -/
structure CACHEUSCache where
  csize : Nat
  write_segment_size : Int
  read_segment_size : Int
  Read_List : List Int
  Write_List : List Int
  list_map : KMap Int Segment
  key_segment_map : KMap Int Segment
  accessType : KMap Int RW
  calls : Nat
  hits : Nat
  readHits : Nat
  writeHits : Nat
  evictedDirtyPage : Nat
  migration : Nat
deriving DecidableEq, Repr

namespace CACHEUSCache

/-- Constructor `CACHEUSCache::CACHEUSCache(int n)`.  The truncation
`(int)(csize * 0.1)` is `csize / 10` for every non-negative `int`. -/
def init (n : Nat) : CACHEUSCache :=
  let w : Int := max 1 ((n : Int) / 10)
  let r : Int := (n : Int) - w
  { csize := n,
    write_segment_size := w,
    read_segment_size := if r < 0 then 0 else r,
    Read_List := [], Write_List := [],
    list_map := [], key_segment_map := [], accessType := [],
    calls := 0, hits := 0, readHits := 0, writeHits := 0,
    evictedDirtyPage := 0, migration := 0 }

/-- The map removals and dirty check shared by `evict_read` and `evict_write`. -/
def dropVictim (s : CACHEUSCache) (victim : Int) : CACHEUSCache :=
  { s with
    list_map := s.list_map.erase victim,
    key_segment_map := s.key_segment_map.erase victim,
    evictedDirtyPage :=
      if s.accessType.find victim = some RW.Write then s.evictedDirtyPage + 1
      else s.evictedDirtyPage,
    accessType := s.accessType.erase victim }

/-- Method `CACHEUSCache::evict_read`. -/
def evict_read (s : CACHEUSCache) : CACHEUSCache :=
  match s.Read_List.getLast? with
  | none => s
  | some victim => dropVictim { s with Read_List := s.Read_List.dropLast } victim

/-- Method `CACHEUSCache::evict_write`. -/
def evict_write (s : CACHEUSCache) : CACHEUSCache :=
  match s.Write_List.getLast? with
  | none => s
  | some victim => dropVictim { s with Write_List := s.Write_List.dropLast } victim

/-- Method `CACHEUSCache::adapt_segments`: an empty body. -/
def adapt_segments (s : CACHEUSCache) : CACHEUSCache := s

/-- The insertion of `x` at the MRU end of the segment matching `rwtype`,
shared by the hit and the miss branch of `refer`. -/
def place (s : CACHEUSCache) (x : Int) (rwtype : RW) : CACHEUSCache :=
  if rwtype = RW.Read then
    { s with Read_List := x :: s.Read_List,
             key_segment_map := s.key_segment_map.insert x Segment.READ,
             list_map := s.list_map.insert x Segment.READ }
  else
    { s with Write_List := x :: s.Write_List,
             key_segment_map := s.key_segment_map.insert x Segment.WRITE,
             list_map := s.list_map.insert x Segment.WRITE,
             accessType := s.accessType.insert x RW.Write }

/-- Hit branch of `refer` (after `calls++`). -/
def referHit (s : CACHEUSCache) (current_segment : Segment) (x : Int) (rwtype : RW) :
    Option CACHEUSCache :=
  let s := { s with hits := s.hits + 1 }
  let s := if rwtype = RW.Read then { s with readHits := s.readHits + 1 }
           else { s with writeHits := s.writeHits + 1 }
  let removed : Option CACHEUSCache :=
    if current_segment = Segment.READ then
      (eraseIter s.Read_List Segment.READ (s.list_map.find x) x).map
        (fun l => { s with Read_List := l })
    else
      (eraseIter s.Write_List Segment.WRITE (s.list_map.find x) x).map
        (fun l => { s with Write_List := l })
  removed.map fun s => adapt_segments (place s x rwtype)

/-- The victim-segment decision of the miss branch: `some true` evicts from
the Read segment, `some false` from the Write segment, `none` is the early
`return`. -/
def chooseSegment (s : CACHEUSCache) : Option Bool :=
  if (s.Read_List.length : Int) > s.read_segment_size ∧ s.Read_List ≠ [] then some true
  else if (s.Write_List.length : Int) > s.write_segment_size ∧ s.Write_List ≠ [] then
    some false
  else if s.Read_List ≠ [] then some true
  else if s.Write_List ≠ [] then some false
  else none

/-- Miss branch of `refer` (after `calls++`). -/
def referMiss (s : CACHEUSCache) (x : Int) (rwtype : RW) : CACHEUSCache :=
  if s.Read_List.length + s.Write_List.length = s.csize then
    match chooseSegment s with
    | none => s
    | some evicting_read =>
      let s := if evicting_read then evict_read s else evict_write s
      adapt_segments (place s x rwtype)
  else
    adapt_segments (place s x rwtype)

/-- Method `CACHEUSCache::refer`. -/
def refer (s : CACHEUSCache) (x : Int) (rwtype : RW) : Option CACHEUSCache :=
  let s := { s with calls := s.calls + 1 }
  let current_segment : Segment :=
    match s.key_segment_map.find x with
    | some v => v
    | none => Segment.NONE
  if current_segment ≠ Segment.NONE then referHit s current_segment x rwtype
  else some (referMiss s x rwtype)

/-- Method `CACHEUSCache::refresh`. -/
def refresh (s : CACHEUSCache) : CACHEUSCache :=
  { s with calls := 0, hits := 0, migration := 0 }

/-- Number of resident blocks, `|Read_List| + |Write_List|`. -/
def resident (s : CACHEUSCache) : Nat := s.Read_List.length + s.Write_List.length

/-- `CACHEUSCache` as an engine; a key is resident when it is in a segment. -/
def engine : Engine CACHEUSCache :=
  { init := init, refer := refer, refresh := refresh,
    isResident := fun s k => decide (k ∈ s.Read_List ∨ k ∈ s.Write_List) }

end CACHEUSCache

/-! ## Engine C: `LFUCache` -/

/-- State of `class LFUCache`.  An iterator of `keyIterMap` is modelled by the
frequency of the bucket it points into. -/
structure LFUCache where
  csize : Nat
  keyFreq : KMap Int Nat
  keyIterMap : KMap Int Nat
  freqList : KMap Nat (List Int)
  accessType : KMap Int RW
  calls : Nat
  hits : Nat
  readHits : Nat
  writeHits : Nat
  evictedDirtyPage : Nat
  migration : Nat
deriving DecidableEq, Repr

namespace LFUCache

/-- Constructor `LFUCache::LFUCache(int n)`. -/
def init (n : Nat) : LFUCache :=
  { csize := n, keyFreq := [], keyIterMap := [], freqList := [], accessType := [],
    calls := 0, hits := 0, readHits := 0, writeHits := 0,
    evictedDirtyPage := 0, migration := 0 }

/-- The bucket `freqList[f]`, empty when the frequency has no entry. -/
def bucket (s : LFUCache) (f : Nat) : List Int := (s.freqList.find f).getD []

/-- Eviction block of the miss branch of `refer`. -/
def evict (s : LFUCache) : Option LFUCache :=
  match s.freqList.minEntry with
  | none => none
  | some (f, b) =>
    match b.getLast? with
    | none => none
    | some last =>
      let s := { s with freqList := s.freqList.insert f b.dropLast,
                        keyIterMap := s.keyIterMap.erase last,
                        keyFreq := s.keyFreq.erase last }
      let s := { s with
                 evictedDirtyPage :=
                   if s.accessType.find last = some RW.Write then s.evictedDirtyPage + 1
                   else s.evictedDirtyPage,
                 accessType := s.accessType.erase last }
      some (if b.dropLast = [] then { s with freqList := s.freqList.erase f } else s)

/-- The final two statements of `refer`: push `x` on the front of bucket
`currentFreq` and record its position. -/
def place (s : LFUCache) (x : Int) (currentFreq : Nat) : LFUCache :=
  { s with freqList := s.freqList.insert currentFreq (x :: bucket s currentFreq),
           keyIterMap := s.keyIterMap.insert x currentFreq }

/-- Hit branch of `refer` (after `calls++`), `currentFreq = keyFreq[x]`. -/
def referHit (s : LFUCache) (currentFreq : Nat) (x : Int) (rwtype : RW) :
    Option LFUCache :=
  let s := { s with hits := s.hits + 1 }
  (eraseIter (bucket s currentFreq) currentFreq (s.keyIterMap.find x) x).map fun b =>
    let s := { s with freqList := s.freqList.insert currentFreq b }
    let s := if b = [] then { s with freqList := s.freqList.erase currentFreq } else s
    let s := if rwtype = RW.Read then { s with readHits := s.readHits + 1 }
             else { s with writeHits := s.writeHits + 1,
                           accessType := s.accessType.insert x RW.Write }
    let s := { s with keyFreq := s.keyFreq.insert x (currentFreq + 1) }
    place s x (currentFreq + 1)

/-- Miss branch of `refer` (after `calls++`). -/
def referMiss (s : LFUCache) (x : Int) (rwtype : RW) : Option LFUCache :=
  let r := if s.keyIterMap.size = s.csize then evict s else some s
  r.map fun s =>
    place { s with keyFreq := s.keyFreq.insert x 1,
                   accessType := s.accessType.insert x rwtype } x 1

/-- Method `LFUCache::refer`. -/
def refer (s : LFUCache) (x : Int) (rwtype : RW) : Option LFUCache :=
  let s := { s with calls := s.calls + 1 }
  match s.keyFreq.find x with
  | none => referMiss s x rwtype
  | some currentFreq => referHit s currentFreq x rwtype

/-- Method `LFUCache::refresh`. -/
def refresh (s : LFUCache) : LFUCache :=
  { s with calls := 0, hits := 0, migration := 0 }

/-- Number of resident blocks, `keyIterMap.size()`. -/
def resident (s : LFUCache) : Nat := s.keyIterMap.size

/-- `LFUCache` as an engine; a key is resident when it has a frequency. -/
def engine : Engine LFUCache :=
  { init := init, refer := refer, refresh := refresh,
    isResident := fun s k => (s.keyFreq.find k).isSome }

end LFUCache

/-! ## Engine D: `LIRSCache` -/

/-- The tag `enum Status` of `lirs.h`. -/
inductive Status where
  | NON_RESIDENT_HIR
  | RESIDENT_HIR
  | LIR
deriving DecidableEq, Repr

/-- State of `class LIRSCache`.  `LIR_set` is a `std::set`, kept as a
duplicate-free list. -/
structure LIRSCache where
  csize : Nat
  lir_size : Int
  R : List Int
  R_map : KMap Int Unit
  resident_map : KMap Int Bool
  LIR_set : List Int
  HIR_nonresident_list : List Int
  key_status_map : KMap Int Status
  accessType : KMap Int RW
  calls : Nat
  hits : Nat
  readHits : Nat
  writeHits : Nat
  evictedDirtyPage : Nat
  migration : Nat
deriving DecidableEq, Repr

namespace LIRSCache

/-- Constructor `LIRSCache::LIRSCache(int n)`.  The truncation
`(int)(csize * 0.01)` is `csize / 100` for every non-negative `int`. -/
def init (n : Nat) : LIRSCache :=
  { csize := n, lir_size := max 1 ((n : Int) / 100),
    R := [], R_map := [], resident_map := [], LIR_set := [],
    HIR_nonresident_list := [], key_status_map := [], accessType := [],
    calls := 0, hits := 0, readHits := 0, writeHits := 0,
    evictedDirtyPage := 0, migration := 0 }

/-- The `while` loop of `prune_stack`, with an iteration budget. -/
def prune_loop : Nat → LIRSCache → Option LIRSCache
  | 0, s => some s
  | fuel + 1, s =>
    match s.R.getLast? with
    | none => some s
    | some key =>
      match s.key_status_map.find key with
      | none => none
      | some st =>
        if st = Status.LIR then some s
        else prune_loop fuel { s with R := s.R.dropLast, R_map := s.R_map.erase key }

/-- Method `LIRSCache::prune_stack`. -/
def prune_stack (s : LIRSCache) : Option LIRSCache := prune_loop s.R.length s

/-- Method `LIRSCache::evict_HIR_block`. -/
def evict_HIR_block (s : LIRSCache) : LIRSCache :=
  match s.HIR_nonresident_list with
  | [] => s
  | victim :: _ =>
    { s with
      resident_map := s.resident_map.erase victim,
      key_status_map := s.key_status_map.insert victim Status.NON_RESIDENT_HIR,
      evictedDirtyPage :=
        if s.accessType.find victim = some RW.Write then s.evictedDirtyPage + 1
        else s.evictedDirtyPage,
      accessType := s.accessType.erase victim }

/-- Method `LIRSCache::adjust_LIR_size`: an empty body. -/
def adjust_LIR_size (s : LIRSCache) : LIRSCache := s

/-- Step 1 of `refer`: move `x` to the top of the stack `R`. -/
def touchStack (s : LIRSCache) (x : Int) : Option LIRSCache :=
  let r : Option LIRSCache :=
    if s.R_map.count x then
      (eraseIter s.R () (s.R_map.find x) x).map
        (fun l => { s with R := l, R_map := s.R_map.erase x })
    else some s
  r.map fun s => { s with R := x :: s.R, R_map := s.R_map.insert x () }

/-- Resident-hit branch of `refer`. -/
def referHit (s : LIRSCache) (x : Int) (rwtype : RW) : Option LIRSCache :=
  let s := { s with hits := s.hits + 1 }
  let s := if rwtype = RW.Read then { s with readHits := s.readHits + 1 }
           else { s with writeHits := s.writeHits + 1 }
  let s := if rwtype = RW.Write then
             { s with accessType := s.accessType.insert x RW.Write } else s
  match s.key_status_map.find x with
  | none => none
  | some st =>
    if st = Status.LIR then prune_stack s
    else if st = Status.RESIDENT_HIR then
      if (s.LIR_set.length : Int) < s.lir_size then
        prune_stack { s with key_status_map := s.key_status_map.insert x Status.LIR,
                             LIR_set := s.LIR_set.insert x }
      else some s
    else some s

/-- Miss branch of `refer`. -/
def referMiss (s : LIRSCache) (x : Int) (rwtype : RW) : LIRSCache :=
  let s := if s.resident_map.size = s.csize then evict_HIR_block s else s
  { s with resident_map := s.resident_map.insert x true,
           key_status_map := s.key_status_map.insert x Status.RESIDENT_HIR,
           accessType := s.accessType.insert x rwtype }

/-- Step 3 of `refer`: `if (HIR_nonresident_list.front() == x) pop_front()`.
On the empty list `front()` has no element to return: the program reads the
value 0 there, so for every key other than 0 the test fails and the state is
unchanged, while for the key 0 it goes on to `pop_front()` of the empty list,
which is undefined (the program aborts) and yields `none`. -/
def finalPrune (s : LIRSCache) (x : Int) : Option LIRSCache :=
  match s.HIR_nonresident_list with
  | [] => if x = 0 then none else some s
  | k :: rest => if k = x then some { s with HIR_nonresident_list := rest } else some s

/-- Method `LIRSCache::refer`. -/
def refer (s : LIRSCache) (x : Int) (rwtype : RW) : Option LIRSCache :=
  let s := { s with calls := s.calls + 1 }
  (touchStack s x).bind fun s =>
    let r : Option LIRSCache :=
      if s.resident_map.count x then referHit s x rwtype
      else some (referMiss s x rwtype)
    r.bind fun s => finalPrune s x

/-- Method `LIRSCache::refresh`. -/
def refresh (s : LIRSCache) : LIRSCache :=
  { s with calls := 0, hits := 0, migration := 0 }

/-- Number of resident blocks, `resident_map.size()`. -/
def resident (s : LIRSCache) : Nat := s.resident_map.size

/-- `LIRSCache` as an engine; a key is resident when it is in `resident_map`. -/
def engine : Engine LIRSCache :=
  { init := init, refer := refer, refresh := refresh,
    isResident := fun s k => s.resident_map.count k }

end LIRSCache



/-! ## Invariants -/

namespace ARCCache

/-- The tag that list membership assigns to key `k`. -/
def tagOf (s : ARCCache) (k : Int) : Option ListSet :=
  if k ∈ s.L1 then some ListSet.L1_SET
  else if k ∈ s.T1 then some ListSet.T1_SET
  else if k ∈ s.L2 then some ListSet.L2_SET
  else if k ∈ s.T2 then some ListSet.T2_SET
  else none

/-- Key `k` occurs at most once in the four lists together, and both maps
record exactly the list it is in. -/
def KeyOK (s : ARCCache) (k : Int) : Prop :=
  s.L1.count k + s.T1.count k + s.L2.count k + s.T2.count k ≤ 1 ∧
  s.key_set_map.find k = tagOf s k ∧
  s.list_map.find k = tagOf s k

/-- The structural invariant of Engine A. -/
def Inv (C : Nat) (s : ARCCache) : Prop :=
  s.csize = C ∧ 0 ≤ s.p ∧ s.p ≤ (C : Int) ∧ ∀ k, KeyOK s k

/-- The state after steps 1 to 3 of the `L1` branch of `replace`: the victim
has moved from the LRU end of `L1` to the MRU end of `T1`. -/
def moveL1T1 (s : ARCCache) (v : Int) : ARCCache :=
  { s with L1 := s.L1.dropLast, T1 := v :: s.T1,
           list_map := (s.list_map.erase v).insert v ListSet.T1_SET,
           key_set_map := (s.key_set_map.erase v).insert v ListSet.T1_SET }

/-- The state after steps 1 to 3 of the `L2` branch of `replace`. -/
def moveL2T2 (s : ARCCache) (v : Int) : ARCCache :=
  { s with L2 := s.L2.dropLast, T2 := v :: s.T2,
           list_map := (s.list_map.erase v).insert v ListSet.T2_SET,
           key_set_map := (s.key_set_map.erase v).insert v ListSet.T2_SET }

/-- The call `replace` on `s` evicts the resident key `v` and yields `s1`:
`v` is the LRU key of `L1` (when `|L1| > p`) or of `L2` (otherwise), it leaves
that list, and its dirty flag is counted and cleared. -/
def Evicts (s s1 : ARCCache) (v : Int) : Prop :=
  ((s.L1.getLast? = some v ∧ (s.L1.length : Int) > s.p ∧
      s1.L1 = s.L1.dropLast ∧ s1.L2 = s.L2) ∨
   (s.L2.getLast? = some v ∧ (s.L1.length : Int) ≤ s.p ∧
      s1.L1 = s.L1 ∧ s1.L2 = s.L2.dropLast)) ∧
  s1.evictedDirtyPage =
    s.evictedDirtyPage + (if s.accessType.find v = some RW.Write then 1 else 0) ∧
  s1.accessType = s.accessType.erase v

/-- What one call of `replace` does to the resident lists and the counters:
either nothing (the safety `return`), or one resident key is evicted. -/
def ReplaceEffect (s s1 : ARCCache) : Prop :=
  (s1 = s ∧ s.L2 = [] ∧ (s.L1.length : Int) ≤ s.p) ∨ ∃ v, Evicts s s1 v

/-- The fields that neither `replace` nor `clean_ghost_list` touches. -/
def SameCounters (s s1 : ARCCache) : Prop :=
  s1.csize = s.csize ∧ s1.p = s.p ∧ s1.calls = s.calls ∧ s1.hits = s.hits ∧
  s1.readHits = s.readHits ∧ s1.writeHits = s.writeHits ∧ s1.migration = s.migration

/-- The state of `refer` after `calls++`. -/
def called (s : ARCCache) : ARCCache := { s with calls := s.calls + 1 }

/-- The counter updates of the resident-hit branch of `refer`. -/
def hitCounted (s : ARCCache) (x : Int) (t : RW) : ARCCache :=
  { s with calls := s.calls + 1, hits := s.hits + 1,
           readHits := if t = RW.Read then s.readHits + 1 else s.readHits,
           writeHits := if t = RW.Read then s.writeHits else s.writeHits + 1,
           accessType := if t = RW.Write then s.accessType.insert x RW.Write
                         else s.accessType }

/-- The state of the ghost-hit branch of `refer` for a key of `T1`, just
before the fullness test. -/
def ghostT1 (s : ARCCache) (x : Int) : ARCCache :=
  { s with calls := s.calls + 1, p := min (s.csize : Int) (s.p + 1),
           T1 := s.T1.erase x, list_map := s.list_map.erase x,
           key_set_map := s.key_set_map.erase x }

/-- The state of the ghost-hit branch of `refer` for a key of `T2`, just
before the fullness test. -/
def ghostT2 (s : ARCCache) (x : Int) : ARCCache :=
  { s with calls := s.calls + 1, p := max 0 (s.p - 1),
           T2 := s.T2.erase x, list_map := s.list_map.erase x,
           key_set_map := s.key_set_map.erase x }

/-- The fullness test of `refer` followed by `replace`. -/
def makeRoom (s : ARCCache) : Option ARCCache :=
  if s.L1.length + s.L2.length = s.csize then replace s else some s

/-- The last four statements of the ghost-hit branch of `refer`. -/
def afterGhost (s : ARCCache) (x : Int) (t : RW) : ARCCache :=
  clean_ghost_list { pushL2 s x with accessType := s.accessType.insert x t }

/-- The insertion that ends the miss branch of `refer`. -/
def insertL1 (s : ARCCache) (x : Int) (t : RW) : ARCCache :=
  { s with L1 := x :: s.L1,
           list_map := s.list_map.insert x ListSet.L1_SET,
           key_set_map := s.key_set_map.insert x ListSet.L1_SET,
           accessType := s.accessType.insert x t }

/-- The fullness test and `replace` take the consistent state `s` to `s1`:
`s1` is consistent, and either nothing was evicted (the engine was not full,
or `replace` took its safety `return`) or one resident key was. -/
def MadeRoom (s s1 : ARCCache) : Prop :=
  makeRoom s = some s1 ∧ (∀ k, KeyOK s1 k) ∧ SameCounters s s1 ∧
  ((s1 = s ∧ (s.L1.length + s.L2.length ≠ s.csize ∨
              (s.L2 = [] ∧ (s.L1.length : Int) ≤ s.p))) ∨
   (s.L1.length + s.L2.length = s.csize ∧ ∃ v, Evicts s s1 v)) ∧
  (∀ k, s1.L1.count k ≤ s.L1.count k ∧ s1.L2.count k ≤ s.L2.count k ∧
    s1.T1.count k + s1.T2.count k ≤
      s.T1.count k + s.T2.count k + s.L1.count k + s.L2.count k)

/-- The five ways a `refer` call on a consistent state can go, each with the
state it returns. -/
def ReferCase (s : ARCCache) (x : Int) (t : RW) (s1 : ARCCache) : Prop :=
  (s.L1.count x = 1 ∧ s1 = pushL2 { hitCounted s x t with L1 := s.L1.erase x } x) ∨
  (s.L2.count x = 1 ∧ s1 = pushL2 { hitCounted s x t with L2 := s.L2.erase x } x) ∨
  (s.T1.count x = 1 ∧ s.L1.count x = 0 ∧ s.L2.count x = 0 ∧
    ∃ m, MadeRoom (ghostT1 s x) m ∧ s1 = afterGhost m x t) ∨
  (s.T2.count x = 1 ∧ s.L1.count x = 0 ∧ s.L2.count x = 0 ∧
    ∃ m, MadeRoom (ghostT2 s x) m ∧ s1 = afterGhost m x t) ∨
  (s.L1.count x = 0 ∧ s.T1.count x = 0 ∧ s.L2.count x = 0 ∧ s.T2.count x = 0 ∧
    ∃ m, MadeRoom (called s) m ∧ s1 = insertL1 m x t)

/-- Number of occurrences of `k` in the resident lists. -/
def resCount (s : ARCCache) (k : Int) : Nat := s.L1.count k + s.L2.count k

/-- The dirty flag of key `k`: its recorded access type is `"Write"`. -/
def isDirty (s : ARCCache) (k : Int) : Bool :=
  decide (s.accessType.find k = some RW.Write)

/-- Summary of one `refer s x t = some s1` in terms of residency, the dirty
counter and the dirty flags; `ev` is the evicted key, if any. -/
def StepSummary (s s1 : ARCCache) (x : Int) (t : RW) (ev : Option Int) : Prop :=
  (∀ k, resCount s1 k + (if ev = some k then 1 else 0) =
        resCount s k + (if k = x ∧ resCount s x = 0 then 1 else 0)) ∧
  (∀ v, ev = some v → resCount s v = 1 ∧ v ≠ x) ∧
  s1.evictedDirtyPage = s.evictedDirtyPage +
    (match ev with
     | some v => if s.accessType.find v = some RW.Write then 1 else 0
     | none => 0) ∧
  (∀ k, s1.accessType.find k =
    if k = x then
      (if 0 < resCount s x then
        (if t = RW.Write then some RW.Write else s.accessType.find x)
       else some t)
    else if ev = some k then none else s.accessType.find k)

end ARCCache

namespace CACHEUSCache

/-- The segment that list membership assigns to key `k`. -/
def segOf (s : CACHEUSCache) (k : Int) : Option Segment :=
  if k ∈ s.Read_List then some Segment.READ
  else if k ∈ s.Write_List then some Segment.WRITE
  else none

/-- Number of occurrences of `k` in the two segments. -/
def resCount (s : CACHEUSCache) (k : Int) : Nat :=
  s.Read_List.count k + s.Write_List.count k

/-- The dirty flag of key `k`: its recorded access type is `"Write"`. -/
def isDirty (s : CACHEUSCache) (k : Int) : Bool :=
  decide (s.accessType.find k = some RW.Write)

/-- Key `k` occurs at most once in the two segments together, both maps record
exactly the segment it is in, and a key outside the cache has no recorded
access type. -/
def KeyOK (s : CACHEUSCache) (k : Int) : Prop :=
  resCount s k ≤ 1 ∧
  s.key_segment_map.find k = segOf s k ∧
  s.list_map.find k = segOf s k ∧
  (resCount s k = 0 → s.accessType.find k = none)

/-- The structural invariant of Engine B. -/
def Inv (C : Nat) (s : CACHEUSCache) : Prop :=
  s.csize = C ∧ resident s ≤ C ∧
  s.write_segment_size = (init C).write_segment_size ∧
  s.read_segment_size = (init C).read_segment_size ∧
  ∀ k, KeyOK s k

/-- The state of `refer` after `calls++`. -/
def called (s : CACHEUSCache) : CACHEUSCache := { s with calls := s.calls + 1 }

/-- The counter updates of the hit branch of `refer`. -/
def hitCounted (s : CACHEUSCache) (t : RW) : CACHEUSCache :=
  { s with calls := s.calls + 1, hits := s.hits + 1,
           readHits := if t = RW.Read then s.readHits + 1 else s.readHits,
           writeHits := if t = RW.Read then s.writeHits else s.writeHits + 1 }

/-- The state after `evict_read` removed the LRU key `v` of the Read segment. -/
def popRead (s : CACHEUSCache) (v : Int) : CACHEUSCache :=
  dropVictim { s with Read_List := s.Read_List.dropLast } v

/-- The state after `evict_write` removed the LRU key `v` of the Write segment. -/
def popWrite (s : CACHEUSCache) (v : Int) : CACHEUSCache :=
  dropVictim { s with Write_List := s.Write_List.dropLast } v

/-- The ways a `refer` call on a consistent state of capacity at least one can
go, each with the state it returns. -/
def ReferCase (s : CACHEUSCache) (x : Int) (t : RW) (s1 : CACHEUSCache) : Prop :=
  (s.Read_List.count x = 1 ∧
    s1 = place { hitCounted s t with Read_List := s.Read_List.erase x } x t) ∨
  (s.Write_List.count x = 1 ∧
    s1 = place { hitCounted s t with Write_List := s.Write_List.erase x } x t) ∨
  (resCount s x = 0 ∧ resident s ≠ s.csize ∧ s1 = place (called s) x t) ∨
  (resCount s x = 0 ∧ resident s = s.csize ∧
    ∃ v, s.Read_List.getLast? = some v ∧ chooseSegment s = some true ∧
      s1 = place (popRead (called s) v) x t) ∨
  (resCount s x = 0 ∧ resident s = s.csize ∧
    ∃ v, s.Write_List.getLast? = some v ∧ chooseSegment s = some false ∧
      s1 = place (popWrite (called s) v) x t)

end CACHEUSCache

namespace LFUCache

/-- The dirty flag of key `k`: its recorded access type is `"Write"`. -/
def isDirty (s : LFUCache) (k : Int) : Bool :=
  decide (s.accessType.find k = some RW.Write)

/-- One when `k` is resident, zero otherwise. -/
def resCount (s : LFUCache) (k : Int) : Nat :=
  if (s.keyFreq.find k).isSome then 1 else 0

/-- Total length of all frequency buckets. -/
def totalLen (m : KMap Nat (List Int)) : Nat := (m.map fun e => e.2.length).sum

/-- Key `k` is in the bucket of frequency `f` exactly when `keyFreq[k] = f`,
it occurs there once, and frequencies start at one. -/
def KeyOK (s : LFUCache) (k : Int) : Prop :=
  (∀ f, (bucket s f).count k = if s.keyFreq.find k = some f then 1 else 0) ∧
  (∀ f, s.keyFreq.find k = some f → 1 ≤ f)

/-- The structural invariant of Engine C. -/
def Inv (C : Nat) (s : LFUCache) : Prop :=
  s.csize = C ∧ s.keyIterMap = s.keyFreq ∧ s.keyFreq.keys.Nodup ∧
  s.keyIterMap.size ≤ C ∧ s.freqList.keys.Nodup ∧
  totalLen s.freqList = s.keyIterMap.size ∧
  (∀ f b, s.freqList.find f = some b → b ≠ []) ∧
  ∀ k, KeyOK s k

/-- The state of `refer` after `calls++`. -/
def called (s : LFUCache) : LFUCache := { s with calls := s.calls + 1 }

/-- The frequency map after bucket `f` has been given the contents `b`,
the entry being removed when `b` is empty. -/
def setBucket (m : KMap Nat (List Int)) (f : Nat) (b : List Int) : KMap Nat (List Int) :=
  if b = [] then (m.insert f b).erase f else m.insert f b

/-- The state returned by the eviction block when the minimum-frequency bucket
is `b` at frequency `f` and its LRU key is `last`. -/
def evicted (s : LFUCache) (f : Nat) (b : List Int) (last : Int) : LFUCache :=
  { s with freqList := setBucket s.freqList f b.dropLast,
           keyIterMap := s.keyIterMap.erase last,
           keyFreq := s.keyFreq.erase last,
           evictedDirtyPage :=
             if s.accessType.find last = some RW.Write then s.evictedDirtyPage + 1
             else s.evictedDirtyPage,
           accessType := s.accessType.erase last }

/-- The insertion that ends the miss branch of `refer`. -/
def insertNew (s : LFUCache) (x : Int) (t : RW) : LFUCache :=
  place { s with keyFreq := s.keyFreq.insert x 1,
                 accessType := s.accessType.insert x t } x 1

/-- The state returned by the hit branch of `refer` for a key of frequency `f`. -/
def hitResult (s : LFUCache) (f : Nat) (x : Int) (t : RW) : LFUCache :=
  place { s with calls := s.calls + 1, hits := s.hits + 1,
                 freqList := setBucket s.freqList f ((bucket s f).erase x),
                 readHits := if t = RW.Read then s.readHits + 1 else s.readHits,
                 writeHits := if t = RW.Read then s.writeHits else s.writeHits + 1,
                 accessType := if t = RW.Read then s.accessType
                               else s.accessType.insert x RW.Write,
                 keyFreq := s.keyFreq.insert x (f + 1) } x (f + 1)

/-- The ways a `refer` call on a consistent state of capacity at least one can
go, each with the state it returns. -/
def ReferCase (s : LFUCache) (x : Int) (t : RW) (s1 : LFUCache) : Prop :=
  (∃ f, s.keyFreq.find x = some f ∧ s1 = hitResult s f x t) ∨
  (s.keyFreq.find x = none ∧ s.keyIterMap.size ≠ s.csize ∧
    s1 = insertNew (called s) x t) ∨
  (s.keyFreq.find x = none ∧ s.keyIterMap.size = s.csize ∧
    ∃ f b last, s.freqList.minEntry = some (f, b) ∧ b.getLast? = some last ∧
      s1 = insertNew (evicted (called s) f b last) x t)

/-- Within every bucket the keys are ordered by the time of their most recent
reference, newest first, and no key was referenced in the future. -/
def TimeOK (s : LFUCache) (g : Ghost) : Prop :=
  (∀ f, (bucket s f).Pairwise (fun a b => g.lastTime b < g.lastTime a)) ∧
  ∀ k, g.lastTime k ≤ g.now

end LFUCache

namespace LIRSCache

/-- Key `k` occurs at most once in the stack `R`, and `R_map` has an entry
for it exactly when it is in `R`. -/
def StackOK (s : LIRSCache) (k : Int) : Prop :=
  s.R.count k ≤ 1 ∧ s.R_map.find k = if k ∈ s.R then some () else none

/-- The structural invariant of Engine D: the history list is empty, the
stack and its index agree, and every key of the stack and every resident key
has a status. -/
def Inv (C : Nat) (s : LIRSCache) : Prop :=
  s.csize = C ∧ s.HIR_nonresident_list = [] ∧
  (∀ k, StackOK s k) ∧
  (∀ k, k ∈ s.R → (s.key_status_map.find k).isSome = true) ∧
  (∀ k, s.resident_map.count k = true → (s.key_status_map.find k).isSome = true)

/-- The state of `refer` after `calls++` and the stack update. -/
def touched (s : LIRSCache) (x : Int) : LIRSCache :=
  { s with calls := s.calls + 1, R := x :: s.R.erase x, R_map := s.R_map.insert x () }

/-- The counter updates of the resident-hit branch of `refer`. -/
def hitCounted (s : LIRSCache) (x : Int) (t : RW) : LIRSCache :=
  { s with hits := s.hits + 1,
           readHits := if t = RW.Read then s.readHits + 1 else s.readHits,
           writeHits := if t = RW.Read then s.writeHits else s.writeHits + 1,
           accessType := if t = RW.Write then s.accessType.insert x RW.Write
                         else s.accessType }

/-- The promotion of a resident-ordinary key to high-value status. -/
def promoted (s : LIRSCache) (x : Int) : LIRSCache :=
  { s with key_status_map := s.key_status_map.insert x Status.LIR,
           LIR_set := s.LIR_set.insert x }

/-- The insertion that ends the miss branch of `refer`. -/
def inserted (s : LIRSCache) (x : Int) (t : RW) : LIRSCache :=
  { s with resident_map := s.resident_map.insert x true,
           key_status_map := s.key_status_map.insert x Status.RESIDENT_HIR,
           accessType := s.accessType.insert x t }

/-- The state `s1` differs from `s` in the stack and its index only. -/
def SameButStack (s s1 : LIRSCache) : Prop :=
  s1 = { s with R := s1.R, R_map := s1.R_map }

end LIRSCache

/-! ## Sample states -/

/-- Engine A of capacity 1 after `refer(1, Write)`, `refer(1, Read)`. -/
def ARCCache.sample : ARCCache :=
  { csize := 1, p := 0, L1 := [], T1 := [], L2 := [1], T2 := [],
    list_map := [(1, ListSet.L2_SET)], key_set_map := [(1, ListSet.L2_SET)],
    accessType := [(1, RW.Write)], calls := 2, hits := 1, readHits := 1,
    writeHits := 0, evictedDirtyPage := 0, migration := 0 }

/-- Engine B of capacity 1 after `refer(1, Write)`, `refer(1, Read)`. -/
def CACHEUSCache.sample : CACHEUSCache :=
  { csize := 1, write_segment_size := 1, read_segment_size := 0,
    Read_List := [1], Write_List := [],
    list_map := [(1, Segment.READ)], key_segment_map := [(1, Segment.READ)],
    accessType := [(1, RW.Write)], calls := 2, hits := 1, readHits := 1,
    writeHits := 0, evictedDirtyPage := 0, migration := 0 }

/-- Engine C of capacity 1 after `refer(1, Write)`, `refer(1, Read)`. -/
def LFUCache.sample : LFUCache :=
  { csize := 1, keyFreq := [(1, 2)], keyIterMap := [(1, 2)], freqList := [(2, [1])],
    accessType := [(1, RW.Write)], calls := 2, hits := 1, readHits := 1,
    writeHits := 0, evictedDirtyPage := 0, migration := 0 }

/-- Engine D of capacity 1 after `refer(1, Write)`, `refer(1, Read)`. -/
def LIRSCache.sample : LIRSCache :=
  { csize := 1, lir_size := 1, R := [1], R_map := [(1, ())],
    resident_map := [(1, true)], LIR_set := [1], HIR_nonresident_list := [],
    key_status_map := [(1, Status.LIR)], accessType := [(1, RW.Write)],
    calls := 2, hits := 1, readHits := 1, writeHits := 0,
    evictedDirtyPage := 0, migration := 0 }

/-- Engine C of capacity 2 after the `Read` references 1, 2, 1, 3. -/
def LFUCache.scenario : LFUCache :=
  { csize := 2, keyFreq := [(3, 1), (1, 2)], keyIterMap := [(3, 1), (1, 2)],
    freqList := [(1, [3]), (2, [1])], accessType := [(3, RW.Read), (1, RW.Read)],
    calls := 4, hits := 1, readHits := 1, writeHits := 0,
    evictedDirtyPage := 0, migration := 0 }


/-! ## Further definitions: per-call outcomes, counter overrides, trimming steps -/

namespace Engine

/-- For each call of a reference sequence run from `s`, whether the call was
counted as a hit (the counter `hits` rose). -/
def outcomes {σ : Type} (E : Engine σ) (hits : σ → Nat) :
    σ → List (Int × RW) → Option (List Bool)
  | _, [] => some []
  | s, e :: rest =>
    (E.refer s e.1 e.2).bind fun s1 =>
      (outcomes E hits s1 rest).map fun l => decide (hits s < hits s1) :: l

end Engine

namespace ARCCache

/-- State `s` with the three per-run counters overridden. -/
def withStats (s : ARCCache) (c h m : Nat) : ARCCache :=
  { s with calls := c, hits := h, migration := m }

/-- One iteration of the loop of `clean_ghost_list` that drops `v` from the
LRU end of `T2`. -/
def trimT2 (s : ARCCache) (v : Int) : ARCCache :=
  { s with T2 := s.T2.dropLast,
           list_map := s.list_map.erase v,
           key_set_map := s.key_set_map.erase v }

/-- One iteration of the loop of `clean_ghost_list` that drops `v` from the
LRU end of `T1`. -/
def trimT1 (s : ARCCache) (v : Int) : ARCCache :=
  { s with T1 := s.T1.dropLast,
           list_map := s.list_map.erase v,
           key_set_map := s.key_set_map.erase v }

/-- The references of the replacement scenario: capacity 4, all `Read`. -/
def scenarioRefs : List (Int × RW) :=
  [(1, RW.Read), (2, RW.Read), (3, RW.Read), (4, RW.Read), (1, RW.Read), (5, RW.Read)]

/-- The state after the first five references of the scenario (capacity 4):
the engine is full and `|L1| = 3 > p = 0`. -/
def fullState : ARCCache :=
  { csize := 4, p := 0, L1 := [4, 3, 2], T1 := [], L2 := [1], T2 := [],
    list_map := [(1, ListSet.L2_SET), (4, ListSet.L1_SET), (3, ListSet.L1_SET),
                 (2, ListSet.L1_SET)],
    key_set_map := [(1, ListSet.L2_SET), (4, ListSet.L1_SET), (3, ListSet.L1_SET),
                    (2, ListSet.L1_SET)],
    accessType := [(4, RW.Read), (3, RW.Read), (2, RW.Read), (1, RW.Read)],
    calls := 5, hits := 1, readHits := 1, writeHits := 0,
    evictedDirtyPage := 0, migration := 0 }

/-- The state after all six references of the scenario. -/
def scenario : ARCCache :=
  { csize := 4, p := 0, L1 := [5, 4, 3], T1 := [2], L2 := [1], T2 := [],
    list_map := [(5, ListSet.L1_SET), (2, ListSet.T1_SET), (1, ListSet.L2_SET),
                 (4, ListSet.L1_SET), (3, ListSet.L1_SET)],
    key_set_map := [(5, ListSet.L1_SET), (2, ListSet.T1_SET), (1, ListSet.L2_SET),
                    (4, ListSet.L1_SET), (3, ListSet.L1_SET)],
    accessType := [(5, RW.Read), (4, RW.Read), (3, RW.Read), (1, RW.Read)],
    calls := 6, hits := 1, readHits := 1, writeHits := 0,
    evictedDirtyPage := 0, migration := 0 }

/-- Bookkeeping after the six references of the scenario. -/
def scenarioGhost : Ghost :=
  (((((Ghost.start.note false 1 RW.Read).note false 2 RW.Read).note false 3 RW.Read).note
    false 4 RW.Read).note true 1 RW.Read).note false 5 RW.Read

end ARCCache

namespace CACHEUSCache

/-- State `s` with the three per-run counters overridden. -/
def withStats (s : CACHEUSCache) (c h m : Nat) : CACHEUSCache :=
  { s with calls := c, hits := h, migration := m }

/-- The value `0.1 * C` rounded to the nearest integer, as the specification
words the write target (a tie goes up). -/
def roundTenth (C : Nat) : Int := ((C : Int) + 5) / 10

/-- The references of the victim scenario: capacity 10, `Write` to `1 .. 11`. -/
def scenarioRefs : List (Int × RW) :=
  [(1, RW.Write), (2, RW.Write), (3, RW.Write), (4, RW.Write), (5, RW.Write),
   (6, RW.Write), (7, RW.Write), (8, RW.Write), (9, RW.Write), (10, RW.Write),
   (11, RW.Write)]

/-- All keys of `l` tagged `WRITE`. -/
def tagWrite (l : List Int) : KMap Int Segment := l.map fun k => (k, Segment.WRITE)

/-- All keys of `l` flagged `"Write"`. -/
def flagWrite (l : List Int) : KMap Int RW := l.map fun k => (k, RW.Write)

/-- The state after the first ten references of the scenario (capacity 10):
the engine is full, every key is in the Write segment. -/
def fullState : CACHEUSCache :=
  { csize := 10, write_segment_size := 1, read_segment_size := 9,
    Read_List := [], Write_List := [10, 9, 8, 7, 6, 5, 4, 3, 2, 1],
    list_map := tagWrite [10, 9, 8, 7, 6, 5, 4, 3, 2, 1],
    key_segment_map := tagWrite [10, 9, 8, 7, 6, 5, 4, 3, 2, 1],
    accessType := flagWrite [10, 9, 8, 7, 6, 5, 4, 3, 2, 1],
    calls := 10, hits := 0, readHits := 0, writeHits := 0,
    evictedDirtyPage := 0, migration := 0 }

/-- The state after all eleven references of the scenario. -/
def scenario : CACHEUSCache :=
  { csize := 10, write_segment_size := 1, read_segment_size := 9,
    Read_List := [], Write_List := [11, 10, 9, 8, 7, 6, 5, 4, 3, 2],
    list_map := tagWrite [11, 10, 9, 8, 7, 6, 5, 4, 3, 2],
    key_segment_map := tagWrite [11, 10, 9, 8, 7, 6, 5, 4, 3, 2],
    accessType := flagWrite [11, 10, 9, 8, 7, 6, 5, 4, 3, 2],
    calls := 11, hits := 0, readHits := 0, writeHits := 0,
    evictedDirtyPage := 1, migration := 0 }

end CACHEUSCache

namespace LFUCache

/-- State `s` with the three per-run counters overridden. -/
def withStats (s : LFUCache) (c h m : Nat) : LFUCache :=
  { s with calls := c, hits := h, migration := m }

end LFUCache

namespace LIRSCache

/-- State `s` with the three per-run counters overridden. -/
def withStats (s : LIRSCache) (c h m : Nat) : LIRSCache :=
  { s with calls := c, hits := h, migration := m }

end LIRSCache


/-! ## Further definitions: stack pruning and tags of Engine D -/

namespace LIRSCache

/-- Key `k` has the status `LIR` in `key_status_map`. -/
def isLIR (s : LIRSCache) (k : Int) : Bool :=
  decide (s.key_status_map.find k = some Status.LIR)

/-- The keys at the bottom of the stack `R` below its last `LIR` key, the
bottom one first. -/
def prunedKeys (s : LIRSCache) : List Int :=
  s.R.reverse.takeWhile (fun k => !isLIR s k)

/-- The state with the stack cut back to its last `LIR` key: the keys below
it are removed from `R` and from `R_map`. -/
def pruned (s : LIRSCache) : LIRSCache :=
  { s with R := s.R.rdropWhile (fun k => !isLIR s k),
           R_map := (prunedKeys s).foldl (fun m k => m.erase k) s.R_map }

/-- The ways a `refer` call on a consistent state can go when it returns (its
key is not 0), each with the state it returns. -/
def ReferCase (s : LIRSCache) (x : Int) (t : RW) (s1 : LIRSCache) : Prop :=
  (s.resident_map.count x = true ∧ s.key_status_map.find x = some Status.LIR ∧
    s1 = pruned (hitCounted (touched s x) x t)) ∨
  (s.resident_map.count x = true ∧ s.key_status_map.find x = some Status.RESIDENT_HIR ∧
    (s.LIR_set.length : Int) < s.lir_size ∧
    s1 = pruned (promoted (hitCounted (touched s x) x t) x)) ∨
  (s.resident_map.count x = true ∧ s.key_status_map.find x = some Status.RESIDENT_HIR ∧
    ¬ (s.LIR_set.length : Int) < s.lir_size ∧ s1 = hitCounted (touched s x) x t) ∨
  (s.resident_map.count x = true ∧
    s.key_status_map.find x = some Status.NON_RESIDENT_HIR ∧
    s1 = hitCounted (touched s x) x t) ∨
  (s.resident_map.count x = false ∧ s1 = inserted (touched s x) x t)

/-- The tags of Engine D agree with its sets: `LIR_set` holds exactly the keys
of status `LIR`, `resident_map` exactly the keys of status `LIR` or
`RESIDENT_HIR`, no key is tagged twice or `NON_RESIDENT_HIR`, nothing was
evicted, and `LIR_set` is within its target. -/
def Tags (s : LIRSCache) : Prop :=
  (∀ k, k ∈ s.LIR_set ↔ s.key_status_map.find k = some Status.LIR) ∧
  (∀ k, s.resident_map.count k = true ↔
    (s.key_status_map.find k = some Status.LIR ∨
     s.key_status_map.find k = some Status.RESIDENT_HIR)) ∧
  s.key_status_map.keys.Nodup ∧ s.LIR_set.Nodup ∧
  (∀ k, s.key_status_map.find k ≠ some Status.NON_RESIDENT_HIR) ∧
  s.evictedDirtyPage = 0 ∧
  (s.LIR_set.length : Int) ≤ s.lir_size

/-- The references of the pruning scenario: capacity 3. -/
def stackRefs : List (Int × RW) :=
  [(1, RW.Read), (1, RW.Read), (2, RW.Write), (3, RW.Read)]

/-- Engine D of capacity 3 after the references of `stackRefs`: key 1 is
`LIR` and lies at the bottom of the stack below two ordinary keys. -/
def stackState : LIRSCache :=
  { csize := 3, lir_size := 1, R := [3, 2, 1], R_map := [(3, ()), (2, ()), (1, ())],
    resident_map := [(3, true), (2, true), (1, true)], LIR_set := [1],
    HIR_nonresident_list := [],
    key_status_map := [(3, Status.RESIDENT_HIR), (2, Status.RESIDENT_HIR), (1, Status.LIR)],
    accessType := [(3, RW.Read), (2, RW.Write), (1, RW.Read)],
    calls := 4, hits := 1, readHits := 1, writeHits := 0,
    evictedDirtyPage := 0, migration := 0 }

/-- Bookkeeping after the references of `stackRefs`. -/
def stackGhost : Ghost :=
  (((Ghost.start.note false 1 RW.Read).note true 1 RW.Read).note false 2 RW.Write).note
    false 3 RW.Read

end LIRSCache

namespace ARCCache

/-- Engine A of capacity 4 after `refer(1, Read)`, `refer(2, Write)`: two
resident keys, below capacity. -/
def fillState : ARCCache :=
  { csize := 4, p := 0, L1 := [2, 1], T1 := [], L2 := [], T2 := [],
    list_map := [(2, ListSet.L1_SET), (1, ListSet.L1_SET)],
    key_set_map := [(2, ListSet.L1_SET), (1, ListSet.L1_SET)],
    accessType := [(2, RW.Write), (1, RW.Read)],
    calls := 2, hits := 0, readHits := 0, writeHits := 0,
    evictedDirtyPage := 0, migration := 0 }

end ARCCache


/-! ## Lemmas on association lists and lists -/

namespace KMap

theorem erase_cons_eq {K V : Type} [DecidableEq K] (r : KMap K V) (k : K) (v : V) :
    erase ((k, v) :: r) k = erase r k := by
  simp [erase, List.filter]

theorem erase_cons_ne {K V : Type} [DecidableEq K] (r : KMap K V) {a k : K} (v : V)
    (h : a ≠ k) : erase ((a, v) :: r) k = (a, v) :: erase r k := by
  simp [erase, List.filter, h]

theorem find_cons_eq {K V : Type} [DecidableEq K] (r : KMap K V) (k : K) (v : V) :
    find ((k, v) :: r) k = some v := by
  simp [find]

theorem find_cons_ne {K V : Type} [DecidableEq K] (r : KMap K V) {a k : K} (v : V)
    (h : a ≠ k) : find ((a, v) :: r) k = find r k := by
  simp [find, h]

theorem find_erase_self {K V : Type} [DecidableEq K] (m : KMap K V) (k : K) :
    (m.erase k).find k = none := by
  induction m with
  | nil => rfl
  | cons e r ih =>
    obtain ⟨a, v⟩ := e
    by_cases h : a = k
    · subst h; rw [erase_cons_eq]; exact ih
    · rw [erase_cons_ne r v h, find_cons_ne _ v h]; exact ih

theorem find_erase_ne {K V : Type} [DecidableEq K] (m : KMap K V) {k j : K} (h : j ≠ k) :
    (m.erase k).find j = m.find j := by
  induction m with
  | nil => rfl
  | cons e r ih =>
    obtain ⟨a, v⟩ := e
    by_cases h1 : a = k
    · subst h1
      rw [erase_cons_eq, find_cons_ne r v (fun h3 => h h3.symm)]; exact ih
    · rw [erase_cons_ne r v h1]
      by_cases h2 : a = j
      · subst h2; rw [find_cons_eq, find_cons_eq]
      · rw [find_cons_ne _ v h2, find_cons_ne _ v h2]; exact ih

theorem find_insert_self {K V : Type} [DecidableEq K] (m : KMap K V) (k : K) (v : V) :
    (m.insert k v).find k = some v := by
  simp [insert, find]

theorem find_insert_ne {K V : Type} [DecidableEq K] (m : KMap K V) {k j : K} (v : V)
    (h : j ≠ k) : (m.insert k v).find j = m.find j := by
  have h2 : k ≠ j := fun h3 => h h3.symm
  unfold insert
  rw [find_cons_ne _ v h2, find_erase_ne m h]

theorem find_erase {K V : Type} [DecidableEq K] (m : KMap K V) (k j : K) :
    (m.erase k).find j = if j = k then none else m.find j := by
  by_cases h : j = k
  · subst h; simp [find_erase_self]
  · simp [h, find_erase_ne m h]

theorem find_insert {K V : Type} [DecidableEq K] (m : KMap K V) (k j : K) (v : V) :
    (m.insert k v).find j = if j = k then some v else m.find j := by
  by_cases h : j = k
  · subst h; simp [find_insert_self]
  · simp [h, find_insert_ne m v h]

theorem find_eq_none_iff {K V : Type} [DecidableEq K] (m : KMap K V) (k : K) :
    m.find k = none ↔ k ∉ m.keys := by
  induction m with
  | nil => simp [find, keys]
  | cons e r ih =>
    obtain ⟨a, v⟩ := e
    by_cases h : a = k
    · simp [find, keys, h]
    · have h2 : k ≠ a := fun h3 => h h3.symm
      simpa [find, keys, h, h2] using ih

theorem keys_erase {K V : Type} [DecidableEq K] (m : KMap K V) (k : K) :
    (m.erase k).keys = m.keys.filter (fun a => decide (a ≠ k)) := by
  induction m with
  | nil => rfl
  | cons e r ih =>
    obtain ⟨a, v⟩ := e
    by_cases h : a = k
    · subst h; rw [erase_cons_eq, ih]; simp [keys, List.filter]
    · rw [erase_cons_ne r v h]
      simp only [keys, List.map_cons] at ih ⊢
      rw [ih]; simp [List.filter, h]

theorem nodup_erase {K V : Type} [DecidableEq K] (m : KMap K V) (k : K)
    (h : m.keys.Nodup) : (m.erase k).keys.Nodup := by
  rw [keys_erase]; exact h.filter _

theorem nodup_insert {K V : Type} [DecidableEq K] (m : KMap K V) (k : K) (v : V)
    (h : m.keys.Nodup) : (m.insert k v).keys.Nodup := by
  have h1 := nodup_erase m k h
  have h2 : k ∉ (m.erase k).keys := (find_eq_none_iff _ _).1 (find_erase_self m k)
  simpa [insert, keys] using And.intro h2 h1

theorem size_erase_of_none {K V : Type} [DecidableEq K] (m : KMap K V) (k : K)
    (h : m.find k = none) : (m.erase k) = m := by
  induction m with
  | nil => rfl
  | cons e r ih =>
    obtain ⟨a, v⟩ := e
    by_cases h1 : a = k
    · subst h1; rw [find_cons_eq] at h; cases h
    · rw [find_cons_ne r v h1] at h
      rw [erase_cons_ne r v h1, ih h]

theorem size_erase_of_some {K V : Type} [DecidableEq K] (m : KMap K V) (k : K) (v : V)
    (hn : m.keys.Nodup) (h : m.find k = some v) : (m.erase k).size + 1 = m.size := by
  induction m with
  | nil => simp [find] at h
  | cons e r ih =>
    obtain ⟨a, w⟩ := e
    have hn1 : a ∉ keys r ∧ (keys r).Nodup := by simpa [keys] using hn
    by_cases h1 : a = k
    · subst h1
      have h2 : find r a = none := (find_eq_none_iff _ _).2 hn1.1
      rw [erase_cons_eq, size_erase_of_none r a h2]
      simp [size]
    · rw [find_cons_ne r w h1] at h
      have := ih hn1.2 h
      rw [erase_cons_ne r w h1]
      simp only [size, List.length_cons] at this ⊢
      omega

theorem size_insert_of_none {K V : Type} [DecidableEq K] (m : KMap K V) (k : K) (v : V)
    (h : m.find k = none) : (m.insert k v).size = m.size + 1 := by
  simp [insert, size, size_erase_of_none m k h]

theorem size_insert_of_some {K V : Type} [DecidableEq K] (m : KMap K V) (k : K) (v w : V)
    (hn : m.keys.Nodup) (h : m.find k = some w) : (m.insert k v).size = m.size := by
  have := size_erase_of_some m k w hn h
  simp only [size] at this
  simp [insert, size, this]

theorem minEntry_eq_none {K V : Type} [LinearOrder K] (m : KMap K V) :
    m.minEntry = none ↔ m = [] := by
  cases m with
  | nil => simp [minEntry]
  | cons e r =>
    simp only [minEntry]
    cases minEntry r with
    | none => simp
    | some e' => by_cases h : e.1 ≤ e'.1 <;> simp [h]

theorem minEntry_spec {K V : Type} [LinearOrder K] (m : KMap K V) (f : K) (b : V)
    (h : m.minEntry = some (f, b)) :
    m.find f = some b ∧ ∀ f' b', m.find f' = some b' → f ≤ f' := by
  induction m generalizing f b with
  | nil => simp [minEntry] at h
  | cons e r ih =>
    obtain ⟨a, v⟩ := e
    simp only [minEntry] at h
    cases hr : minEntry r with
    | none =>
      rw [hr] at h
      have hnil := (minEntry_eq_none r).1 hr
      simp only [Option.some.injEq, Prod.mk.injEq] at h
      obtain ⟨rfl, rfl⟩ := h
      subst hnil
      refine ⟨by simp [find], ?_⟩
      intro f' b' hf
      by_cases h1 : a = f'
      · exact le_of_eq h1
      · simp [find, h1] at hf
    | some e' =>
      obtain ⟨a', v'⟩ := e'
      rw [hr] at h
      have ih' := ih a' v' hr
      by_cases hle : a ≤ a'
      · simp only [hle, if_true, Option.some.injEq, Prod.mk.injEq] at h
        obtain ⟨rfl, rfl⟩ := h
        refine ⟨by simp [find], ?_⟩
        intro f' b' hf
        by_cases h1 : a = f'
        · exact le_of_eq h1
        · simp only [find, h1, if_false] at hf
          exact le_trans hle (ih'.2 f' b' hf)
      · simp only [hle, if_false, Option.some.injEq, Prod.mk.injEq] at h
        obtain ⟨rfl, rfl⟩ := h
        have hne : a ≠ a' := fun h2 => hle (le_of_eq h2)
        refine ⟨by simpa [find, hne] using ih'.1, ?_⟩
        intro f' b' hf
        by_cases h1 : a = f'
        · subst h1; exact le_of_lt (lt_of_not_le hle)
        · simp only [find, h1, if_false] at hf
          exact ih'.2 f' b' hf

end KMap

theorem count_of_getLast {L : List Int} {v : Int} (h : L.getLast? = some v) (k : Int) :
    L.count k = L.dropLast.count k + if k = v then 1 else 0 := by
  have h1 : L.dropLast ++ [v] = L := List.dropLast_append_getLast? v (by simp [h])
  conv_lhs => rw [← h1]
  rw [List.count_append, List.count_singleton]
  by_cases h2 : k = v
  · subst h2; simp
  · have h3 : ¬ v = k := fun h4 => h2 h4.symm
    simp [h2, h3]

theorem length_of_getLast {L : List Int} {v : Int} (h : L.getLast? = some v) :
    L.length = L.dropLast.length + 1 := by
  have h1 : L.dropLast ++ [v] = L := List.dropLast_append_getLast? v (by simp [h])
  conv_lhs => rw [← h1]
  simp

theorem count_erase_eq (L : List Int) (x k : Int) :
    (L.erase x).count k = L.count k - if k = x then 1 else 0 := by
  rw [List.count_erase]
  by_cases h : k = x
  · subst h; simp
  · have h3 : ¬ x = k := fun h4 => h h4.symm
    simp [h, h3]

theorem count_cons_eq (L : List Int) (x k : Int) :
    (x :: L).count k = L.count k + if k = x then 1 else 0 := by
  rw [List.count_cons]
  by_cases h : k = x
  · subst h; simp
  · have h3 : ¬ x = k := fun h4 => h h4.symm
    simp [h, h3]

theorem mem_iff_count (L : List Int) (k : Int) : k ∈ L ↔ 0 < L.count k :=
  List.count_pos_iff.symm

theorem eraseIter_eq_some {I : Type} [DecidableEq I] {L : List Int} {self : I}
    {it : Option I} {x : Int} {l : List Int} (h : eraseIter L self it x = some l) :
    it = some self ∧ x ∈ L ∧ l = L.erase x := by
  unfold eraseIter at h
  cases it with
  | none => simp at h
  | some i =>
    by_cases h1 : i = self ∧ x ∈ L
    · simp only [h1, and_self, if_true, Option.some.injEq] at h
      exact ⟨by rw [h1.1], h1.2, h.symm⟩
    · simp [h1] at h

theorem eraseIter_of_mem {I : Type} [DecidableEq I] (L : List Int) (self : I) (x : Int)
    (h : x ∈ L) : eraseIter L self (some self) x = some (L.erase x) := by
  simp [eraseIter, h]

/-! ## Lemmas on call sequences -/

namespace Engine

theorem history_invariant {σ : Type} (E : Engine σ) (P : σ → Ghost → Prop)
    (hstep : ∀ s g x t s1, P s g → E.refer s x t = some s1 →
      P s1 (g.note (E.isResident s x) x t))
    (hrefresh : ∀ s g, P s g → P (E.refresh s) g) :
    ∀ ops s0 g0 s g, P s0 g0 → E.history s0 g0 ops = some (s, g) → P s g := by
  intro ops
  induction ops with
  | nil =>
    intro s0 g0 s g h0 h
    simp only [history, Option.some.injEq, Prod.mk.injEq] at h
    obtain ⟨rfl, rfl⟩ := h
    exact h0
  | cons op rest ih =>
    intro s0 g0 s g h0 h
    cases op with
    | refer x t =>
      simp only [history] at h
      cases hr : E.refer s0 x t with
      | none => simp [hr] at h
      | some s1 =>
        rw [hr] at h
        exact ih s1 _ s g (hstep s0 g0 x t s1 h0 hr) h
    | refresh =>
      simp only [history] at h
      exact ih _ g0 s g (hrefresh s0 g0 h0) h

theorem exec_history {σ : Type} (E : Engine σ) :
    ∀ ops s0 g0 s, E.exec s0 ops = some s → ∃ g, E.history s0 g0 ops = some (s, g) := by
  intro ops
  induction ops with
  | nil =>
    intro s0 g0 s h
    simp only [exec, Option.some.injEq] at h
    exact ⟨g0, by simp [history, h]⟩
  | cons op rest ih =>
    intro s0 g0 s h
    cases op with
    | refer x t =>
      simp only [exec] at h
      cases hr : E.refer s0 x t with
      | none => simp [hr] at h
      | some s1 =>
        rw [hr] at h
        obtain ⟨g, hg⟩ := ih s1 (g0.note (E.isResident s0 x) x t) s h
        exact ⟨g, by simp [history, hr, hg]⟩
    | refresh =>
      simp only [exec] at h
      obtain ⟨g, hg⟩ := ih _ g0 s h
      exact ⟨g, by simp [history, hg]⟩

theorem history_exec {σ : Type} (E : Engine σ) :
    ∀ ops s0 g0 s g, E.history s0 g0 ops = some (s, g) → E.exec s0 ops = some s := by
  intro ops
  induction ops with
  | nil =>
    intro s0 g0 s g h
    simp only [history, Option.some.injEq, Prod.mk.injEq] at h
    simp [exec, h.1]
  | cons op rest ih =>
    intro s0 g0 s g h
    cases op with
    | refer x t =>
      simp only [history] at h
      cases hr : E.refer s0 x t with
      | none => simp [hr] at h
      | some s1 =>
        rw [hr] at h
        simp [exec, hr, ih _ _ _ _ h]
    | refresh =>
      simp only [history] at h
      simp [exec, ih _ _ _ _ h]

theorem traced_invariant {σ : Type} (E : Engine σ) (C : Nat) (P : σ → Ghost → Prop)
    (h0 : P (E.init C) Ghost.start)
    (hstep : ∀ s g x t s1, P s g → E.refer s x t = some s1 →
      P s1 (g.note (E.isResident s x) x t))
    (hrefresh : ∀ s g, P s g → P (E.refresh s) g)
    {s : σ} {g : Ghost} (h : E.Traced C s g) : P s g := by
  obtain ⟨ops, hops⟩ := h
  exact history_invariant E P hstep hrefresh ops _ _ s g h0 hops

theorem reachable_traced {σ : Type} (E : Engine σ) (C : Nat) {s : σ}
    (h : E.Reachable C s) : ∃ g, E.Traced C s g := by
  obtain ⟨ops, hops⟩ := h
  obtain ⟨g, hg⟩ := exec_history E ops _ Ghost.start s hops
  exact ⟨g, ops, hg⟩

theorem traced_reachable {σ : Type} (E : Engine σ) (C : Nat) {s : σ} {g : Ghost}
    (h : E.Traced C s g) : E.Reachable C s := by
  obtain ⟨ops, hops⟩ := h
  exact ⟨ops, history_exec E ops _ _ s g hops⟩

theorem reachable_invariant {σ : Type} (E : Engine σ) (C : Nat) (P : σ → Prop)
    (h0 : P (E.init C))
    (hstep : ∀ s x t s1, P s → E.refer s x t = some s1 → P s1)
    (hrefresh : ∀ s, P s → P (E.refresh s))
    {s : σ} (h : E.Reachable C s) : P s := by
  obtain ⟨g, hg⟩ := reachable_traced E C h
  exact traced_invariant E C (fun s _ => P s) h0
    (fun s _ x t s1 hp hr => hstep s x t s1 hp hr) (fun s _ hp => hrefresh s hp) hg

theorem reachable_refer {σ : Type} (E : Engine σ) (C : Nat) {s s1 : σ} (x : Int) (t : RW)
    (h : E.Reachable C s) (hr : E.refer s x t = some s1) : E.Reachable C s1 := by
  obtain ⟨ops, hops⟩ := h
  refine ⟨ops ++ [Op.refer x t], ?_⟩
  have key : ∀ ops s0, E.exec s0 ops = some s →
      E.exec s0 (ops ++ [Op.refer x t]) = some s1 := by
    intro ops
    induction ops with
    | nil =>
      intro s0 h0
      simp only [exec, Option.some.injEq] at h0
      subst h0
      simp [exec, hr]
    | cons op rest ih =>
      intro s0 h0
      cases op with
      | refer y u =>
        simp only [exec, List.cons_append] at h0 ⊢
        cases hy : E.refer s0 y u with
        | none => simp [hy] at h0
        | some s2 =>
          rw [hy] at h0
          simpa using ih s2 h0
      | refresh =>
        simp only [exec, List.cons_append] at h0 ⊢
        exact ih _ h0
  exact key ops _ hops

end Engine


/-! ## Engine A: structural lemmas -/

namespace ARCCache

theorem arc_tagOf_eq (s : ARCCache) (k : Int) :
    tagOf s k =
      if 0 < s.L1.count k then some ListSet.L1_SET
      else if 0 < s.T1.count k then some ListSet.T1_SET
      else if 0 < s.L2.count k then some ListSet.L2_SET
      else if 0 < s.T2.count k then some ListSet.T2_SET
      else none := by
  simp only [tagOf, mem_iff_count]

/-- A key is absent when it occurs in none of the four lists. -/
theorem arc_absent_iff (s : ARCCache) (k : Int) (h : KeyOK s k) :
    s.key_set_map.find k = none ↔
      s.L1.count k = 0 ∧ s.T1.count k = 0 ∧ s.L2.count k = 0 ∧ s.T2.count k = 0 := by
  simp only [KeyOK, arc_tagOf_eq] at h
  rw [h.2.1]
  constructor
  · intro h1
    split_ifs at h1; omega
  · intro ⟨h1, h2, h3, h4⟩
    simp [h1, h2, h3, h4]

theorem arc_keyOK_congr (s s1 : ARCCache) (k : Int)
    (h1 : s1.L1.count k = s.L1.count k) (h2 : s1.T1.count k = s.T1.count k)
    (h3 : s1.L2.count k = s.L2.count k) (h4 : s1.T2.count k = s.T2.count k)
    (h5 : s1.key_set_map.find k = s.key_set_map.find k)
    (h6 : s1.list_map.find k = s.list_map.find k) (h : KeyOK s k) : KeyOK s1 k := by
  simp only [KeyOK, arc_tagOf_eq] at h ⊢
  rw [h1, h2, h3, h4, h5, h6]
  exact h

theorem arc_keyOK_absent (s : ARCCache) (k : Int)
    (h1 : s.L1.count k = 0) (h2 : s.T1.count k = 0)
    (h3 : s.L2.count k = 0) (h4 : s.T2.count k = 0)
    (h5 : s.key_set_map.find k = none) (h6 : s.list_map.find k = none) : KeyOK s k := by
  simp [KeyOK, arc_tagOf_eq, h1, h2, h3, h4, h5, h6]

theorem arc_keyOK_L1 (s : ARCCache) (k : Int)
    (h1 : s.L1.count k = 1) (h2 : s.T1.count k = 0)
    (h3 : s.L2.count k = 0) (h4 : s.T2.count k = 0)
    (h5 : s.key_set_map.find k = some ListSet.L1_SET)
    (h6 : s.list_map.find k = some ListSet.L1_SET) : KeyOK s k := by
  simp [KeyOK, arc_tagOf_eq, h1, h2, h3, h4, h5, h6]

theorem arc_keyOK_T1 (s : ARCCache) (k : Int)
    (h1 : s.L1.count k = 0) (h2 : s.T1.count k = 1)
    (h3 : s.L2.count k = 0) (h4 : s.T2.count k = 0)
    (h5 : s.key_set_map.find k = some ListSet.T1_SET)
    (h6 : s.list_map.find k = some ListSet.T1_SET) : KeyOK s k := by
  simp [KeyOK, arc_tagOf_eq, h1, h2, h3, h4, h5, h6]

theorem arc_keyOK_L2 (s : ARCCache) (k : Int)
    (h1 : s.L1.count k = 0) (h2 : s.T1.count k = 0)
    (h3 : s.L2.count k = 1) (h4 : s.T2.count k = 0)
    (h5 : s.key_set_map.find k = some ListSet.L2_SET)
    (h6 : s.list_map.find k = some ListSet.L2_SET) : KeyOK s k := by
  simp [KeyOK, arc_tagOf_eq, h1, h2, h3, h4, h5, h6]

theorem arc_keyOK_T2 (s : ARCCache) (k : Int)
    (h1 : s.L1.count k = 0) (h2 : s.T1.count k = 0)
    (h3 : s.L2.count k = 0) (h4 : s.T2.count k = 1)
    (h5 : s.key_set_map.find k = some ListSet.T2_SET)
    (h6 : s.list_map.find k = some ListSet.T2_SET) : KeyOK s k := by
  simp [KeyOK, arc_tagOf_eq, h1, h2, h3, h4, h5, h6]

/-- What the tag of a consistent key says about the lists. -/
theorem arc_keyOK_tag (s : ARCCache) (k : Int) (h : KeyOK s k) :
    (s.key_set_map.find k = some ListSet.L1_SET ↔ s.L1.count k = 1) ∧
    (s.key_set_map.find k = some ListSet.T1_SET ↔ s.T1.count k = 1) ∧
    (s.key_set_map.find k = some ListSet.L2_SET ↔ s.L2.count k = 1) ∧
    (s.key_set_map.find k = some ListSet.T2_SET ↔ s.T2.count k = 1) ∧
    s.key_set_map.find k ≠ some ListSet.NONE ∧
    s.list_map.find k = s.key_set_map.find k := by
  simp only [KeyOK, arc_tagOf_eq] at h
  obtain ⟨h0, h1, h2⟩ := h
  rw [h2, h1]
  refine ⟨?_, ?_, ?_, ?_, ?_, rfl⟩
  · constructor
    · intro h3; split_ifs at h3 <;> first | omega | cases h3
    · intro h3; simp [h3]
  · constructor
    · intro h3; split_ifs at h3 <;> first | omega | cases h3
    · intro h3
      have : s.L1.count k = 0 := by omega
      simp [h3, this]
  · constructor
    · intro h3; split_ifs at h3 <;> first | omega | cases h3
    · intro h3
      have : s.L1.count k = 0 := by omega
      have : s.T1.count k = 0 := by omega
      simp [*]
  · constructor
    · intro h3; split_ifs at h3 <;> first | omega | cases h3
    · intro h3
      have : s.L1.count k = 0 := by omega
      have : s.T1.count k = 0 := by omega
      have : s.L2.count k = 0 := by omega
      simp [*]
  · intro h3; split_ifs at h3 <;> cases h3

/-! ### `clean_ghost_list` -/

theorem arc_clean_ghost_loop_frame (n : Nat) (s : ARCCache) :
    (clean_ghost_loop n s).csize = s.csize ∧ (clean_ghost_loop n s).p = s.p ∧
    (clean_ghost_loop n s).L1 = s.L1 ∧ (clean_ghost_loop n s).L2 = s.L2 ∧
    (clean_ghost_loop n s).accessType = s.accessType ∧
    (clean_ghost_loop n s).calls = s.calls ∧ (clean_ghost_loop n s).hits = s.hits ∧
    (clean_ghost_loop n s).readHits = s.readHits ∧
    (clean_ghost_loop n s).writeHits = s.writeHits ∧
    (clean_ghost_loop n s).evictedDirtyPage = s.evictedDirtyPage ∧
    (clean_ghost_loop n s).migration = s.migration := by
  induction n generalizing s with
  | zero => simp [clean_ghost_loop]
  | succ n ih =>
    unfold clean_ghost_loop
    split_ifs with hc
    · cases h2 : s.T2.getLast? with
      | some v => simpa using ih _
      | none =>
        cases h1 : s.T1.getLast? with
        | some v => simpa using ih _
        | none => simp
    · simp

/-- The loop does nothing when the ghost lists are within capacity. -/
theorem arc_clean_ghost_loop_id (n : Nat) (s : ARCCache)
    (h : s.T1.length + s.T2.length ≤ s.csize) : clean_ghost_loop n s = s := by
  cases n with
  | zero => rfl
  | succ n =>
    unfold clean_ghost_loop
    have : ¬ s.T1.length + s.T2.length > s.csize := by omega
    simp [this]

theorem arc_keyOK_popT2 (s : ARCCache) (v : Int) (h : s.T2.getLast? = some v)
    (H : ∀ k, KeyOK s k) (k : Int) :
    KeyOK { s with T2 := s.T2.dropLast,
                   list_map := s.list_map.erase v,
                   key_set_map := s.key_set_map.erase v } k := by
  have Hk := H k
  have hc := count_of_getLast h k
  by_cases hk : k = v
  · subst hk
    simp only [if_true] at hc
    have h0 := Hk.1
    apply arc_keyOK_absent <;> simp only [KMap.find_erase_self] <;> omega
  · simp only [hk, if_false, Nat.add_zero] at hc
    refine arc_keyOK_congr s _ k ?_ ?_ ?_ ?_ ?_ ?_ Hk
    · rfl
    · rfl
    · rfl
    · exact hc.symm
    · exact KMap.find_erase_ne _ hk
    · exact KMap.find_erase_ne _ hk

theorem arc_keyOK_popT1 (s : ARCCache) (v : Int) (h : s.T1.getLast? = some v)
    (H : ∀ k, KeyOK s k) (k : Int) :
    KeyOK { s with T1 := s.T1.dropLast,
                   list_map := s.list_map.erase v,
                   key_set_map := s.key_set_map.erase v } k := by
  have Hk := H k
  have hc := count_of_getLast h k
  by_cases hk : k = v
  · subst hk
    simp only [if_true] at hc
    have h0 := Hk.1
    apply arc_keyOK_absent <;> simp only [KMap.find_erase_self] <;> omega
  · simp only [hk, if_false, Nat.add_zero] at hc
    refine arc_keyOK_congr s _ k ?_ ?_ ?_ ?_ ?_ ?_ Hk
    · rfl
    · exact hc.symm
    · rfl
    · rfl
    · exact KMap.find_erase_ne _ hk
    · exact KMap.find_erase_ne _ hk

theorem arc_clean_ghost_loop_keyOK (n : Nat) (s : ARCCache) (H : ∀ k, KeyOK s k) :
    ∀ k, KeyOK (clean_ghost_loop n s) k := by
  induction n generalizing s with
  | zero => simpa [clean_ghost_loop] using H
  | succ n ih =>
    unfold clean_ghost_loop
    split_ifs with hc
    · cases h2 : s.T2.getLast? with
      | some v => exact ih _ (arc_keyOK_popT2 s v h2 H)
      | none =>
        cases h1 : s.T1.getLast? with
        | some v => exact ih _ (arc_keyOK_popT1 s v h1 H)
        | none => exact H
    · exact H

/-- Ghost trimming never adds an occurrence of a key. -/
theorem arc_clean_ghost_loop_count_le (n : Nat) (s : ARCCache) (k : Int) :
    (clean_ghost_loop n s).T1.count k ≤ s.T1.count k ∧
    (clean_ghost_loop n s).T2.count k ≤ s.T2.count k := by
  induction n generalizing s with
  | zero => simp [clean_ghost_loop]
  | succ n ih =>
    unfold clean_ghost_loop
    split_ifs with hc
    · cases h2 : s.T2.getLast? with
      | some v =>
        have := ih { s with T2 := s.T2.dropLast,
                            list_map := s.list_map.erase v,
                            key_set_map := s.key_set_map.erase v }
        have hc2 := count_of_getLast h2 k
        simp only at this ⊢
        omega
      | none =>
        cases h1 : s.T1.getLast? with
        | some v =>
          have := ih { s with T1 := s.T1.dropLast,
                              list_map := s.list_map.erase v,
                              key_set_map := s.key_set_map.erase v }
          have hc2 := count_of_getLast h1 k
          simp only at this ⊢
          omega
        | none => simp
    · simp

/-- With enough budget the loop ends with the ghost lists within capacity. -/
theorem arc_clean_ghost_loop_bound (n : Nat) (s : ARCCache)
    (h : s.T1.length + s.T2.length ≤ n) :
    (clean_ghost_loop n s).T1.length + (clean_ghost_loop n s).T2.length ≤ s.csize := by
  induction n generalizing s with
  | zero =>
    simp only [clean_ghost_loop]
    omega
  | succ n ih =>
    unfold clean_ghost_loop
    split_ifs with hc
    · cases h2 : s.T2.getLast? with
      | some v =>
        have hl := length_of_getLast h2
        exact ih { s with T2 := s.T2.dropLast,
                          list_map := s.list_map.erase v,
                          key_set_map := s.key_set_map.erase v }
          (by simp only; omega)
      | none =>
        cases h1 : s.T1.getLast? with
        | some v =>
          have hl := length_of_getLast h1
          exact ih { s with T1 := s.T1.dropLast,
                            list_map := s.list_map.erase v,
                            key_set_map := s.key_set_map.erase v }
            (by simp only; omega)
        | none =>
          have e1 := List.getLast?_eq_none_iff.1 h1
          have e2 := List.getLast?_eq_none_iff.1 h2
          simp only [e1, e2, List.length_nil] at hc ⊢
          omega
    · omega

theorem arc_clean_ghost_list_bound (s : ARCCache) :
    (clean_ghost_list s).T1.length + (clean_ghost_list s).T2.length ≤ s.csize :=
  arc_clean_ghost_loop_bound _ s (le_refl _)

theorem arc_clean_ghost_list_keyOK (s : ARCCache) (H : ∀ k, KeyOK s k) :
    ∀ k, KeyOK (clean_ghost_list s) k :=
  arc_clean_ghost_loop_keyOK _ s H

theorem arc_clean_ghost_list_frame (s : ARCCache) :
    (clean_ghost_list s).csize = s.csize ∧ (clean_ghost_list s).p = s.p ∧
    (clean_ghost_list s).L1 = s.L1 ∧ (clean_ghost_list s).L2 = s.L2 ∧
    (clean_ghost_list s).accessType = s.accessType ∧
    (clean_ghost_list s).calls = s.calls ∧ (clean_ghost_list s).hits = s.hits ∧
    (clean_ghost_list s).readHits = s.readHits ∧
    (clean_ghost_list s).writeHits = s.writeHits ∧
    (clean_ghost_list s).evictedDirtyPage = s.evictedDirtyPage ∧
    (clean_ghost_list s).migration = s.migration :=
  arc_clean_ghost_loop_frame _ s

theorem arc_clean_ghost_list_id (s : ARCCache)
    (h : s.T1.length + s.T2.length ≤ s.csize) : clean_ghost_list s = s :=
  arc_clean_ghost_loop_id _ s h

/-! ### `replace` -/

/-- The state built by `replace` when it evicts `victim` from `L1`. -/
theorem arc_replace_L1 (s : ARCCache) (v : Int) (h : (s.L1.length : Int) > s.p)
    (hv : s.L1.getLast? = some v) :
    replace s = some (clean_ghost_list (dirtyEvict (moveL1T1 s v) v)) := by
  simp [replace, h, hv, moveL1T1]

/-- The state built by `replace` when it evicts `victim` from `L2`. -/
theorem arc_replace_L2 (s : ARCCache) (v : Int) (h : ¬ (s.L1.length : Int) > s.p)
    (hv : s.L2.getLast? = some v) :
    replace s = some (clean_ghost_list (dirtyEvict (moveL2T2 s v) v)) := by
  simp [replace, h, hv, moveL2T2]

/-- The safety `return` of `replace`: nothing is evicted. -/
theorem arc_replace_none (s : ARCCache) (h : ¬ (s.L1.length : Int) > s.p)
    (hv : s.L2.getLast? = none) : replace s = some s := by
  simp [replace, h, hv]

theorem arc_keyOK_moveL1T1 (s : ARCCache) (v : Int) (h : s.L1.getLast? = some v)
    (H : ∀ k, KeyOK s k) (k : Int) : KeyOK (moveL1T1 s v) k := by
  have Hk := H k
  have hc := count_of_getLast h k
  have hc2 := count_cons_eq s.T1 v k
  by_cases hk : k = v
  · subst hk
    simp only [if_true] at hc hc2
    have h0 := Hk.1
    apply arc_keyOK_T1 <;> simp only [moveL1T1, KMap.find_insert_self] <;> omega
  · simp only [hk, if_false, Nat.add_zero] at hc hc2
    refine arc_keyOK_congr s _ k ?_ ?_ ?_ ?_ ?_ ?_ Hk
    · exact hc.symm
    · exact hc2
    · rfl
    · rfl
    · simp only [moveL1T1, KMap.find_insert_ne _ _ hk, KMap.find_erase_ne _ hk]
    · simp only [moveL1T1, KMap.find_insert_ne _ _ hk, KMap.find_erase_ne _ hk]

theorem arc_keyOK_moveL2T2 (s : ARCCache) (v : Int) (h : s.L2.getLast? = some v)
    (H : ∀ k, KeyOK s k) (k : Int) : KeyOK (moveL2T2 s v) k := by
  have Hk := H k
  have hc := count_of_getLast h k
  have hc2 := count_cons_eq s.T2 v k
  by_cases hk : k = v
  · subst hk
    simp only [if_true] at hc hc2
    have h0 := Hk.1
    apply arc_keyOK_T2 <;> simp only [moveL2T2, KMap.find_insert_self] <;> omega
  · simp only [hk, if_false, Nat.add_zero] at hc hc2
    refine arc_keyOK_congr s _ k ?_ ?_ ?_ ?_ ?_ ?_ Hk
    · rfl
    · rfl
    · exact hc.symm
    · exact hc2
    · simp only [moveL2T2, KMap.find_insert_ne _ _ hk, KMap.find_erase_ne _ hk]
    · simp only [moveL2T2, KMap.find_insert_ne _ _ hk, KMap.find_erase_ne _ hk]

theorem arc_keyOK_dirtyEvict (s : ARCCache) (v k : Int) (h : KeyOK s k) :
    KeyOK (dirtyEvict s v) k :=
  arc_keyOK_congr s _ k rfl rfl rfl rfl rfl rfl h

/-- The effect of the tail of `replace` on a state `m` in which the victim
has already been moved. -/
theorem arc_replace_tail (m : ARCCache) (v : Int) (H : ∀ k, KeyOK m k) :
    (∀ k, KeyOK (clean_ghost_list (dirtyEvict m v)) k) ∧
    (clean_ghost_list (dirtyEvict m v)).csize = m.csize ∧
    (clean_ghost_list (dirtyEvict m v)).p = m.p ∧
    (clean_ghost_list (dirtyEvict m v)).L1 = m.L1 ∧
    (clean_ghost_list (dirtyEvict m v)).L2 = m.L2 ∧
    (clean_ghost_list (dirtyEvict m v)).calls = m.calls ∧
    (clean_ghost_list (dirtyEvict m v)).hits = m.hits ∧
    (clean_ghost_list (dirtyEvict m v)).readHits = m.readHits ∧
    (clean_ghost_list (dirtyEvict m v)).writeHits = m.writeHits ∧
    (clean_ghost_list (dirtyEvict m v)).migration = m.migration ∧
    (clean_ghost_list (dirtyEvict m v)).evictedDirtyPage =
      m.evictedDirtyPage + (if m.accessType.find v = some RW.Write then 1 else 0) ∧
    (clean_ghost_list (dirtyEvict m v)).accessType = m.accessType.erase v ∧
    (∀ k, (clean_ghost_list (dirtyEvict m v)).T1.count k ≤ m.T1.count k ∧
          (clean_ghost_list (dirtyEvict m v)).T2.count k ≤ m.T2.count k) := by
  obtain ⟨f1, f2, f3, f4, f5, f6, f7, f8, f9, f10, f11⟩ :=
    arc_clean_ghost_list_frame (dirtyEvict m v)
  refine ⟨?_, f1, f2, f3, f4, f6, f7, f8, f9, f11, ?_, ?_, ?_⟩
  · exact arc_clean_ghost_list_keyOK (dirtyEvict m v) (fun k => arc_keyOK_dirtyEvict m v k (H k))
  · rw [f10]; simp only [dirtyEvict]; split_ifs <;> rfl
  · rw [f5]; rfl
  · intro k
    exact arc_clean_ghost_loop_count_le _ (dirtyEvict m v) k

theorem arc_replace_spec (s : ARCCache) (hp : 0 ≤ s.p) (H : ∀ k, KeyOK s k) :
    ∃ s1, replace s = some s1 ∧ (∀ k, KeyOK s1 k) ∧ SameCounters s s1 ∧
      ReplaceEffect s s1 ∧
      (∀ k, s1.T1.count k + s1.T2.count k ≤
        s.T1.count k + s.T2.count k + s.L1.count k + s.L2.count k) := by
  by_cases h : (s.L1.length : Int) > s.p
  · cases hv : s.L1.getLast? with
    | none =>
      have := List.getLast?_eq_none_iff.1 hv
      simp only [this, List.length_nil] at h
      omega
    | some v =>
      refine ⟨_, arc_replace_L1 s v h hv, ?_⟩
      obtain ⟨t1, t2, t3, t4, t5, t6, t7, t8, t9, t10, t11, t12, t13⟩ :=
        arc_replace_tail (moveL1T1 s v) v (arc_keyOK_moveL1T1 s v hv H)
      refine ⟨t1, ⟨t2, t3, t6, t7, t8, t9, t10⟩, ?_, ?_⟩
      · right
        exact ⟨v, Or.inl ⟨hv, h, t4, t5⟩, t11, t12⟩
      · intro k
        have hcl := t13 k
        have hc := count_of_getLast hv k
        have hc2 := count_cons_eq s.T1 v k
        have e1 : (moveL1T1 s v).T1 = v :: s.T1 := rfl
        have e2 : (moveL1T1 s v).T2 = s.T2 := rfl
        rw [e1, e2] at hcl
        omega
  · cases hv : s.L2.getLast? with
    | none =>
      refine ⟨s, arc_replace_none s h hv, H, ⟨rfl, rfl, rfl, rfl, rfl, rfl, rfl⟩, ?_, ?_⟩
      · left
        exact ⟨rfl, List.getLast?_eq_none_iff.1 hv, by omega⟩
      · intro k; omega
    | some v =>
      refine ⟨_, arc_replace_L2 s v h hv, ?_⟩
      obtain ⟨t1, t2, t3, t4, t5, t6, t7, t8, t9, t10, t11, t12, t13⟩ :=
        arc_replace_tail (moveL2T2 s v) v (arc_keyOK_moveL2T2 s v hv H)
      refine ⟨t1, ⟨t2, t3, t6, t7, t8, t9, t10⟩, ?_, ?_⟩
      · right
        exact ⟨v, Or.inr ⟨hv, by omega, t4, t5⟩, t11, t12⟩
      · intro k
        have hcl := t13 k
        have hc := count_of_getLast hv k
        have hc2 := count_cons_eq s.T2 v k
        have e1 : (moveL2T2 s v).T1 = s.T1 := rfl
        have e2 : (moveL2T2 s v).T2 = v :: s.T2 := rfl
        rw [e1, e2] at hcl
        omega

/-- An eviction removes exactly one occurrence of the victim from the
resident lists. -/
theorem arc_evicts_count {s s1 : ARCCache} {v : Int} (h : Evicts s s1 v) (k : Int) :
    s.L1.count k + s.L2.count k =
      s1.L1.count k + s1.L2.count k + (if k = v then 1 else 0) := by
  obtain ⟨h1 | h1, _, _⟩ := h
  · obtain ⟨hv, _, e1, e2⟩ := h1
    rw [e1, e2, count_of_getLast hv k]; omega
  · obtain ⟨hv, _, e1, e2⟩ := h1
    rw [e1, e2, count_of_getLast hv k]; omega

theorem arc_evicts_length {s s1 : ARCCache} {v : Int} (h : Evicts s s1 v) :
    s.L1.length + s.L2.length = s1.L1.length + s1.L2.length + 1 := by
  obtain ⟨h1 | h1, _, _⟩ := h
  · obtain ⟨hv, _, e1, e2⟩ := h1
    rw [e1, e2, length_of_getLast hv]; omega
  · obtain ⟨hv, _, e1, e2⟩ := h1
    rw [e1, e2, length_of_getLast hv]; omega

theorem arc_replaceEffect_count {s s1 : ARCCache} (h : ReplaceEffect s s1) (k : Int) :
    s1.L1.count k ≤ s.L1.count k ∧ s1.L2.count k ≤ s.L2.count k := by
  rcases h with ⟨rfl, _, _⟩ | ⟨v, h1 | h1, _, _⟩
  · exact ⟨le_refl _, le_refl _⟩
  · obtain ⟨hv, _, e1, e2⟩ := h1
    rw [e1, e2, count_of_getLast hv k]; omega
  · obtain ⟨hv, _, e1, e2⟩ := h1
    rw [e1, e2, count_of_getLast hv k]; omega

/-- The fullness test followed by `replace`, on a consistent state. -/
theorem arc_makeRoom_spec (s : ARCCache) (hp : 0 ≤ s.p) (H : ∀ k, KeyOK s k) :
    ∃ s1, MadeRoom s s1 := by
  by_cases hfull : s.L1.length + s.L2.length = s.csize
  · obtain ⟨s1, h1, h2, h3, h4, h5⟩ := arc_replace_spec s hp H
    refine ⟨s1, by simp [makeRoom, hfull, h1], h2, h3, ?_, ?_⟩
    · rcases h4 with ⟨e, e2, e3⟩ | h4
      · exact Or.inl ⟨e, Or.inr ⟨e2, e3⟩⟩
      · exact Or.inr ⟨hfull, h4⟩
    · intro k
      have := arc_replaceEffect_count h4 k
      exact ⟨this.1, this.2, h5 k⟩
  · refine ⟨s, by simp [makeRoom, hfull], H, ⟨rfl, rfl, rfl, rfl, rfl, rfl, rfl⟩,
      Or.inl ⟨rfl, Or.inl hfull⟩, ?_⟩
    intro k
    exact ⟨le_refl _, le_refl _, by omega⟩

/-! ### The branches of `refer` -/

theorem arc_refer_hit_L1 (s : ARCCache) (x : Int) (t : RW)
    (h : s.key_set_map.find x = some ListSet.L1_SET)
    (hl : s.list_map.find x = some ListSet.L1_SET) (hm : x ∈ s.L1) :
    refer s x t = some (pushL2 { hitCounted s x t with L1 := s.L1.erase x } x) := by
  cases t <;> simp [refer, h, referHit, eraseIter, hl, hm, hitCounted]

theorem arc_refer_hit_L2 (s : ARCCache) (x : Int) (t : RW)
    (h : s.key_set_map.find x = some ListSet.L2_SET)
    (hl : s.list_map.find x = some ListSet.L2_SET) (hm : x ∈ s.L2) :
    refer s x t = some (pushL2 { hitCounted s x t with L2 := s.L2.erase x } x) := by
  cases t <;> simp [refer, h, referHit, eraseIter, hl, hm, hitCounted]

theorem arc_refer_ghost_T1 (s : ARCCache) (x : Int) (t : RW)
    (h : s.key_set_map.find x = some ListSet.T1_SET)
    (hl : s.list_map.find x = some ListSet.T1_SET) (hm : x ∈ s.T1) :
    refer s x t = (makeRoom (ghostT1 s x)).map (fun m => afterGhost m x t) := by
  simp [refer, h, referGhost, eraseIter, hl, hm, makeRoom, ghostT1, afterGhost, pushL2]

theorem arc_refer_ghost_T2 (s : ARCCache) (x : Int) (t : RW)
    (h : s.key_set_map.find x = some ListSet.T2_SET)
    (hl : s.list_map.find x = some ListSet.T2_SET) (hm : x ∈ s.T2) :
    refer s x t = (makeRoom (ghostT2 s x)).map (fun m => afterGhost m x t) := by
  simp [refer, h, referGhost, eraseIter, hl, hm, makeRoom, ghostT2, afterGhost, pushL2]

theorem arc_refer_miss (s : ARCCache) (x : Int) (t : RW)
    (h : s.key_set_map.find x = none) :
    refer s x t = (makeRoom (called s)).map (fun m => insertL1 m x t) := by
  have hid : s.T1.length + s.T2.length = s.csize →
      clean_ghost_list (called s) = called s :=
    fun e => arc_clean_ghost_list_id (called s) (le_of_eq e)
  by_cases h1 : s.L1.length + s.L2.length = s.csize
  · simp [refer, h, referMiss, called, insertL1, makeRoom, h1]
  · by_cases h2 : s.T1.length + s.T2.length = s.csize
    · have := hid h2
      simp only [called] at this
      simp [refer, h, referMiss, called, insertL1, makeRoom, h1, h2, this]
    · simp [refer, h, referMiss, called, insertL1, makeRoom, h1, h2]

/-! ### Consistency is kept by every branch -/

theorem arc_keyOK_pushL2 (s : ARCCache) (x : Int) (H : ∀ k, KeyOK s k)
    (hx : s.L1.count x + s.T1.count x + s.L2.count x + s.T2.count x = 0) (k : Int) :
    KeyOK (pushL2 s x) k := by
  have hc := count_cons_eq s.L2 x k
  by_cases hk : k = x
  · subst hk
    simp only [if_true] at hc
    apply arc_keyOK_L2 <;> simp only [pushL2, KMap.find_insert_self] <;> omega
  · simp only [hk, if_false, Nat.add_zero] at hc
    refine arc_keyOK_congr s _ k ?_ ?_ ?_ ?_ ?_ ?_ (H k)
    · rfl
    · rfl
    · exact hc
    · rfl
    · simp only [pushL2, KMap.find_insert_ne _ _ hk]
    · simp only [pushL2, KMap.find_insert_ne _ _ hk]

theorem arc_keyOK_insertL1 (s : ARCCache) (x : Int) (t : RW) (H : ∀ k, KeyOK s k)
    (hx : s.L1.count x + s.T1.count x + s.L2.count x + s.T2.count x = 0) (k : Int) :
    KeyOK (insertL1 s x t) k := by
  have hc := count_cons_eq s.L1 x k
  by_cases hk : k = x
  · subst hk
    simp only [if_true] at hc
    apply arc_keyOK_L1 <;> simp only [insertL1, KMap.find_insert_self] <;> omega
  · simp only [hk, if_false, Nat.add_zero] at hc
    refine arc_keyOK_congr s _ k ?_ ?_ ?_ ?_ ?_ ?_ (H k)
    · exact hc
    · rfl
    · rfl
    · rfl
    · simp only [insertL1, KMap.find_insert_ne _ _ hk]
    · simp only [insertL1, KMap.find_insert_ne _ _ hk]

theorem arc_keyOK_hit_L1 (s : ARCCache) (x : Int) (t : RW) (H : ∀ k, KeyOK s k)
    (hx : s.L1.count x = 1) (k : Int) :
    KeyOK (pushL2 { hitCounted s x t with L1 := s.L1.erase x } x) k := by
  have hc := count_cons_eq s.L2 x k
  have hc2 := count_erase_eq s.L1 x k
  have h0 := (H k).1
  by_cases hk : k = x
  · subst hk
    simp only [if_true] at hc hc2
    apply arc_keyOK_L2 <;> simp only [pushL2, hitCounted, KMap.find_insert_self] <;> omega
  · simp only [hk, if_false, Nat.add_zero, Nat.sub_zero] at hc hc2
    refine arc_keyOK_congr s _ k ?_ ?_ ?_ ?_ ?_ ?_ (H k)
    · exact hc2
    · rfl
    · exact hc
    · rfl
    · simp only [pushL2, hitCounted, KMap.find_insert_ne _ _ hk]
    · simp only [pushL2, hitCounted, KMap.find_insert_ne _ _ hk]

theorem arc_keyOK_hit_L2 (s : ARCCache) (x : Int) (t : RW) (H : ∀ k, KeyOK s k)
    (hx : s.L2.count x = 1) (k : Int) :
    KeyOK (pushL2 { hitCounted s x t with L2 := s.L2.erase x } x) k := by
  have hc := count_cons_eq (s.L2.erase x) x k
  have hc2 := count_erase_eq s.L2 x k
  have h0 := (H k).1
  by_cases hk : k = x
  · subst hk
    simp only [if_true] at hc hc2
    apply arc_keyOK_L2 <;> simp only [pushL2, hitCounted, KMap.find_insert_self] <;> omega
  · simp only [hk, if_false, Nat.add_zero, Nat.sub_zero] at hc hc2
    refine arc_keyOK_congr s _ k ?_ ?_ ?_ ?_ ?_ ?_ (H k)
    · rfl
    · rfl
    · exact hc.trans hc2
    · rfl
    · simp only [pushL2, hitCounted, KMap.find_insert_ne _ _ hk]
    · simp only [pushL2, hitCounted, KMap.find_insert_ne _ _ hk]

theorem arc_keyOK_ghostT1 (s : ARCCache) (x : Int) (H : ∀ k, KeyOK s k)
    (hx : s.T1.count x = 1) (k : Int) : KeyOK (ghostT1 s x) k := by
  have hc2 := count_erase_eq s.T1 x k
  have h0 := (H k).1
  by_cases hk : k = x
  · subst hk
    simp only [if_true] at hc2
    apply arc_keyOK_absent <;> simp only [ghostT1, KMap.find_erase_self] <;> omega
  · simp only [hk, if_false, Nat.sub_zero] at hc2
    refine arc_keyOK_congr s _ k ?_ ?_ ?_ ?_ ?_ ?_ (H k)
    · rfl
    · exact hc2
    · rfl
    · rfl
    · simp only [ghostT1, KMap.find_erase_ne _ hk]
    · simp only [ghostT1, KMap.find_erase_ne _ hk]

theorem arc_keyOK_ghostT2 (s : ARCCache) (x : Int) (H : ∀ k, KeyOK s k)
    (hx : s.T2.count x = 1) (k : Int) : KeyOK (ghostT2 s x) k := by
  have hc2 := count_erase_eq s.T2 x k
  have h0 := (H k).1
  by_cases hk : k = x
  · subst hk
    simp only [if_true] at hc2
    apply arc_keyOK_absent <;> simp only [ghostT2, KMap.find_erase_self] <;> omega
  · simp only [hk, if_false, Nat.sub_zero] at hc2
    refine arc_keyOK_congr s _ k ?_ ?_ ?_ ?_ ?_ ?_ (H k)
    · rfl
    · rfl
    · rfl
    · exact hc2
    · simp only [ghostT2, KMap.find_erase_ne _ hk]
    · simp only [ghostT2, KMap.find_erase_ne _ hk]

theorem arc_keyOK_afterGhost (s : ARCCache) (x : Int) (t : RW) (H : ∀ k, KeyOK s k)
    (hx : s.L1.count x + s.T1.count x + s.L2.count x + s.T2.count x = 0) :
    ∀ k, KeyOK (afterGhost s x t) k := by
  unfold afterGhost
  apply arc_clean_ghost_list_keyOK
  intro k
  exact arc_keyOK_congr (pushL2 s x) _ k rfl rfl rfl rfl rfl rfl (arc_keyOK_pushL2 s x H hx k)

theorem arc_afterGhost_frame (s : ARCCache) (x : Int) (t : RW) :
    (afterGhost s x t).csize = s.csize ∧ (afterGhost s x t).p = s.p ∧
    (afterGhost s x t).L1 = s.L1 ∧ (afterGhost s x t).L2 = x :: s.L2 ∧
    (afterGhost s x t).accessType = s.accessType.insert x t ∧
    (afterGhost s x t).calls = s.calls ∧ (afterGhost s x t).hits = s.hits ∧
    (afterGhost s x t).readHits = s.readHits ∧
    (afterGhost s x t).writeHits = s.writeHits ∧
    (afterGhost s x t).evictedDirtyPage = s.evictedDirtyPage ∧
    (afterGhost s x t).migration = s.migration := by
  unfold afterGhost
  exact arc_clean_ghost_list_frame _

/-! ### The step theorem -/

/-- On a consistent state `refer` returns, and it does so in one of the five
ways of `ReferCase`. -/
theorem arc_refer_cases (C : Nat) (s : ARCCache) (x : Int) (t : RW) (hI : Inv C s) :
    ∃ s1, refer s x t = some s1 ∧ ReferCase s x t s1 := by
  obtain ⟨hC, hp0, hpC, H⟩ := hI
  have Hx := H x
  obtain ⟨g1, g2, g3, g4, g5, g6⟩ := arc_keyOK_tag s x Hx
  have h0 := Hx.1
  cases hf : s.key_set_map.find x with
  | none =>
    have habs := (arc_absent_iff s x Hx).1 hf
    obtain ⟨m, hm⟩ := arc_makeRoom_spec (called s) hp0 (fun k =>
      arc_keyOK_congr s _ k rfl rfl rfl rfl rfl rfl (H k))
    refine ⟨insertL1 m x t, ?_, ?_⟩
    · rw [arc_refer_miss s x t hf, hm.1]; rfl
    · exact Or.inr (Or.inr (Or.inr (Or.inr
        ⟨habs.1, habs.2.1, habs.2.2.1, habs.2.2.2, m, hm, rfl⟩)))
  | some tag =>
    rw [hf] at g1 g2 g3 g4 g5 g6
    cases tag with
    | NONE => exact absurd rfl g5
    | L1_SET =>
      have hc := g1.1 rfl
      refine ⟨_, arc_refer_hit_L1 s x t hf g6 ((mem_iff_count _ _).2 (by omega)), ?_⟩
      exact Or.inl ⟨hc, rfl⟩
    | L2_SET =>
      have hc := g3.1 rfl
      refine ⟨_, arc_refer_hit_L2 s x t hf g6 ((mem_iff_count _ _).2 (by omega)), ?_⟩
      exact Or.inr (Or.inl ⟨hc, rfl⟩)
    | T1_SET =>
      have hc := g2.1 rfl
      have hp1 : 0 ≤ (ghostT1 s x).p := by
        simp only [ghostT1]; omega
      obtain ⟨m, hm⟩ := arc_makeRoom_spec (ghostT1 s x) hp1 (arc_keyOK_ghostT1 s x H hc)
      refine ⟨afterGhost m x t, ?_, ?_⟩
      · rw [arc_refer_ghost_T1 s x t hf g6 ((mem_iff_count _ _).2 (by omega)), hm.1]; rfl
      · exact Or.inr (Or.inr (Or.inl ⟨hc, by omega, by omega, m, hm, rfl⟩))
    | T2_SET =>
      have hc := g4.1 rfl
      have hp1 : 0 ≤ (ghostT2 s x).p := by
        simp only [ghostT2]; omega
      obtain ⟨m, hm⟩ := arc_makeRoom_spec (ghostT2 s x) hp1 (arc_keyOK_ghostT2 s x H hc)
      refine ⟨afterGhost m x t, ?_, ?_⟩
      · rw [arc_refer_ghost_T2 s x t hf g6 ((mem_iff_count _ _).2 (by omega)), hm.1]; rfl
      · exact Or.inr (Or.inr (Or.inr (Or.inl ⟨hc, by omega, by omega, m, hm, rfl⟩)))

theorem arc_inv_init (C : Nat) : Inv C (init C) := by
  refine ⟨rfl, le_refl _, by simp [init], ?_⟩
  intro k
  apply arc_keyOK_absent <;> rfl

theorem arc_inv_refresh (C : Nat) (s : ARCCache) (h : Inv C s) : Inv C (refresh s) := by
  obtain ⟨h1, h2, h3, h4⟩ := h
  exact ⟨h1, h2, h3, fun k => arc_keyOK_congr s _ k rfl rfl rfl rfl rfl rfl (h4 k)⟩

theorem arc_referCase_inv (C : Nat) (s s1 : ARCCache) (x : Int) (t : RW) (hI : Inv C s)
    (h : ReferCase s x t s1) : Inv C s1 := by
  obtain ⟨hC, hp0, hpC, H⟩ := hI
  rcases h with ⟨hc, rfl⟩ | ⟨hc, rfl⟩ | ⟨hc, c1, c2, m, hm, rfl⟩ |
    ⟨hc, c1, c2, m, hm, rfl⟩ | ⟨c1, c2, c3, c4, m, hm, rfl⟩
  · exact ⟨hC, hp0, hpC, arc_keyOK_hit_L1 s x t H hc⟩
  · exact ⟨hC, hp0, hpC, arc_keyOK_hit_L2 s x t H hc⟩
  · obtain ⟨_, hk, hs, _, hcnt⟩ := hm
    obtain ⟨f1, f2, _⟩ := arc_afterGhost_frame m x t
    obtain ⟨s1, s2, _⟩ := hs
    have hx := hcnt x
    have h0 := (H x).1
    have e1 : (ghostT1 s x).T1.count x = 0 := by
      have := count_erase_eq s.T1 x x
      simp only [ghostT1]; simp only [if_true] at this; omega
    have e2 : (ghostT1 s x).T2 = s.T2 := rfl
    have e3 : (ghostT1 s x).L1 = s.L1 := rfl
    have e4 : (ghostT1 s x).L2 = s.L2 := rfl
    rw [e2, e3, e4] at hx
    refine ⟨by rw [f1, s1]; exact hC, ?_, ?_, arc_keyOK_afterGhost m x t hk (by omega)⟩
    · rw [f2, s2]; simp only [ghostT1]; omega
    · rw [f2, s2]; simp only [ghostT1]; omega
  · obtain ⟨_, hk, hs, _, hcnt⟩ := hm
    obtain ⟨f1, f2, _⟩ := arc_afterGhost_frame m x t
    obtain ⟨s1, s2, _⟩ := hs
    have hx := hcnt x
    have h0 := (H x).1
    have e1 : (ghostT2 s x).T2.count x = 0 := by
      have := count_erase_eq s.T2 x x
      simp only [ghostT2]; simp only [if_true] at this; omega
    have e2 : (ghostT2 s x).T1 = s.T1 := rfl
    have e3 : (ghostT2 s x).L1 = s.L1 := rfl
    have e4 : (ghostT2 s x).L2 = s.L2 := rfl
    rw [e2, e3, e4] at hx
    refine ⟨by rw [f1, s1]; exact hC, ?_, ?_, arc_keyOK_afterGhost m x t hk (by omega)⟩
    · rw [f2, s2]; simp only [ghostT2]; omega
    · rw [f2, s2]; simp only [ghostT2]; omega
  · obtain ⟨_, hk, hs, _, hcnt⟩ := hm
    obtain ⟨s1, s2, _⟩ := hs
    have hx := hcnt x
    have e1 : (called s).T1 = s.T1 := rfl
    have e2 : (called s).T2 = s.T2 := rfl
    have e3 : (called s).L1 = s.L1 := rfl
    have e4 : (called s).L2 = s.L2 := rfl
    rw [e1, e2, e3, e4] at hx
    refine ⟨?_, ?_, ?_, arc_keyOK_insertL1 m x t hk (by omega)⟩
    · show m.csize = C
      rw [s1]; exact hC
    · show 0 ≤ m.p
      rw [s2]; exact hp0
    · show m.p ≤ (C : Int)
      rw [s2]; exact hpC

theorem arc_refer_inv (C : Nat) (s s1 : ARCCache) (x : Int) (t : RW) (hI : Inv C s)
    (h : refer s x t = some s1) : Inv C s1 := by
  obtain ⟨s2, h2, hc⟩ := arc_refer_cases C s x t hI
  rw [h2] at h
  have e : s2 = s1 := Option.some.inj h
  subst e
  exact arc_referCase_inv C s _ x t hI hc

theorem arc_refer_referCase (C : Nat) (s s1 : ARCCache) (x : Int) (t : RW) (hI : Inv C s)
    (h : refer s x t = some s1) : ReferCase s x t s1 := by
  obtain ⟨s2, h2, hc⟩ := arc_refer_cases C s x t hI
  rw [h2] at h
  have e : s2 = s1 := Option.some.inj h
  subst e
  exact hc

theorem arc_reachable_inv (C : Nat) (s : ARCCache) (h : engine.Reachable C s) : Inv C s :=
  Engine.reachable_invariant engine C (Inv C) (arc_inv_init C)
    (fun s x t s1 hI hr => arc_refer_inv C s s1 x t hI hr)
    (fun s hI => arc_inv_refresh C s hI) h

/-! ### Residency, counters and dirty flags across one call -/

theorem arc_isResident_iff (s : ARCCache) (k : Int) :
    engine.isResident s k = true ↔ 0 < resCount s k := by
  simp only [engine, resCount, decide_eq_true_eq, mem_iff_count]
  omega

theorem arc_resCount_le_one (s : ARCCache) (k : Int) (h : KeyOK s k) : resCount s k ≤ 1 := by
  have := h.1
  simp only [resCount]; omega

theorem arc_madeRoom_summary (s0 m : ARCCache) (x : Int) (H0 : ∀ k, KeyOK s0 k)
    (hx : resCount s0 x = 0) (hm : MadeRoom s0 m) :
    ∃ ev : Option Int,
      (∀ k, resCount m k + (if ev = some k then 1 else 0) = resCount s0 k) ∧
      (∀ v, ev = some v → resCount s0 v = 1 ∧ v ≠ x) ∧
      m.evictedDirtyPage = s0.evictedDirtyPage +
        (match ev with
         | some v => if s0.accessType.find v = some RW.Write then 1 else 0
         | none => 0) ∧
      (∀ k, m.accessType.find k = if ev = some k then none else s0.accessType.find k) := by
  obtain ⟨_, _, _, hcase, _⟩ := hm
  rcases hcase with ⟨rfl, _⟩ | ⟨_, v, hev⟩
  · exact ⟨none, by simp, by simp, by simp, by simp⟩
  · refine ⟨some v, ?_, ?_, ?_, ?_⟩
    · intro k
      have := arc_evicts_count hev k
      simp only [resCount, Option.some.injEq]
      by_cases hk : k = v
      · subst hk; simp only [if_true] at this ⊢; omega
      · have hk2 : ¬ v = k := fun e => hk e.symm
        simp only [hk, if_false, hk2] at this ⊢; omega
    · intro w hw
      simp only [Option.some.injEq] at hw
      subst hw
      have h1 := arc_evicts_count hev v
      have h2 := arc_resCount_le_one s0 v (H0 v)
      simp only [if_true, resCount] at h1 h2 ⊢
      refine ⟨by omega, ?_⟩
      intro e
      subst e
      simp only [resCount] at hx
      omega
    · exact hev.2.1
    · intro k
      rw [hev.2.2, KMap.find_erase]
      by_cases hk : k = v
      · subst hk; simp
      · have hk2 : ¬ v = k := fun e => hk e.symm
        simp [hk, hk2]

theorem arc_referCase_summary (s s1 : ARCCache) (x : Int) (t : RW) (H : ∀ k, KeyOK s k)
    (h : ReferCase s x t s1) : ∃ ev, StepSummary s s1 x t ev := by
  rcases h with ⟨hc, rfl⟩ | ⟨hc, rfl⟩ | ⟨hc, c1, c2, m, hm, rfl⟩ |
    ⟨hc, c1, c2, m, hm, rfl⟩ | ⟨c1, c2, c3, c4, m, hm, rfl⟩
  · refine ⟨none, ?_, by simp, by simp [pushL2, hitCounted], ?_⟩
    · intro k
      have e1 := count_erase_eq s.L1 x k
      have e2 := count_cons_eq s.L2 x k
      have hx : ¬ resCount s x = 0 := by simp only [resCount]; omega
      simp only [resCount, pushL2, hitCounted, e1, e2]
      by_cases hk : k = x
      · subst hk; simp only [resCount] at hx; simp [hx]; omega
      · simp [hk]
    · intro k
      have hx : 0 < resCount s x := by simp only [resCount]; omega
      by_cases hk : k = x
      · subst hk
        cases t <;> simp [pushL2, hitCounted, hx, KMap.find_insert_self]
      · cases t <;> simp [pushL2, hitCounted, hk, KMap.find_insert_ne _ _ hk]
  · refine ⟨none, ?_, by simp, by simp [pushL2, hitCounted], ?_⟩
    · intro k
      have e1 := count_erase_eq s.L2 x k
      have e2 := count_cons_eq (s.L2.erase x) x k
      have hx : ¬ resCount s x = 0 := by simp only [resCount]; omega
      simp only [resCount, pushL2, hitCounted, e1, e2]
      by_cases hk : k = x
      · subst hk; simp only [resCount] at hx; simp [hx]; omega
      · simp [hk]
    · intro k
      have hx : 0 < resCount s x := by simp only [resCount]; omega
      by_cases hk : k = x
      · subst hk
        cases t <;> simp [pushL2, hitCounted, hx, KMap.find_insert_self]
      · cases t <;> simp [pushL2, hitCounted, hk, KMap.find_insert_ne _ _ hk]
  · have hx0 : resCount s x = 0 := by simp only [resCount]; omega
    obtain ⟨ev, r1, r2, r3, r4⟩ := arc_madeRoom_summary (ghostT1 s x) m x
      (arc_keyOK_ghostT1 s x H hc) hx0 hm
    obtain ⟨f1, f2, f3, f4, f5, f6, f7, f8, f9, f10, f11⟩ := arc_afterGhost_frame m x t
    refine ⟨ev, ?_, r2, ?_, ?_⟩
    · intro k
      have := r1 k
      have e2 := count_cons_eq m.L2 x k
      simp only [resCount, f3, f4, e2] at this ⊢
      have e3 : (ghostT1 s x).L1 = s.L1 := rfl
      have e4 : (ghostT1 s x).L2 = s.L2 := rfl
      rw [e3, e4] at this
      by_cases hk : k = x
      · subst hk
        have hev : ¬ ev = some k := fun e => (r2 k e).2 rfl
        simp only [resCount] at hx0
        simp only [hev, if_false, true_and, hx0, if_true] at this ⊢
        omega
      · simp only [hk, if_false, false_and] at this ⊢; omega
    · rw [f10, r3]; rfl
    · intro k
      rw [f5, KMap.find_insert, r4 k]
      by_cases hk : k = x
      · subst hk; simp [hx0]
      · simp only [hk, if_false]; rfl
  · have hx0 : resCount s x = 0 := by simp only [resCount]; omega
    obtain ⟨ev, r1, r2, r3, r4⟩ := arc_madeRoom_summary (ghostT2 s x) m x
      (arc_keyOK_ghostT2 s x H hc) hx0 hm
    obtain ⟨f1, f2, f3, f4, f5, f6, f7, f8, f9, f10, f11⟩ := arc_afterGhost_frame m x t
    refine ⟨ev, ?_, r2, ?_, ?_⟩
    · intro k
      have := r1 k
      have e2 := count_cons_eq m.L2 x k
      simp only [resCount, f3, f4, e2] at this ⊢
      have e3 : (ghostT2 s x).L1 = s.L1 := rfl
      have e4 : (ghostT2 s x).L2 = s.L2 := rfl
      rw [e3, e4] at this
      by_cases hk : k = x
      · subst hk
        have hev : ¬ ev = some k := fun e => (r2 k e).2 rfl
        simp only [resCount] at hx0
        simp only [hev, if_false, true_and, hx0, if_true] at this ⊢
        omega
      · simp only [hk, if_false, false_and] at this ⊢; omega
    · rw [f10, r3]; rfl
    · intro k
      rw [f5, KMap.find_insert, r4 k]
      by_cases hk : k = x
      · subst hk; simp [hx0]
      · simp only [hk, if_false]; rfl
  · have hx0 : resCount s x = 0 := by simp only [resCount]; omega
    obtain ⟨ev, r1, r2, r3, r4⟩ := arc_madeRoom_summary (called s) m x
      (fun k => arc_keyOK_congr s _ k rfl rfl rfl rfl rfl rfl (H k)) hx0 hm
    refine ⟨ev, ?_, r2, ?_, ?_⟩
    · intro k
      have := r1 k
      have e2 := count_cons_eq m.L1 x k
      simp only [resCount, insertL1, e2] at this ⊢
      have e3 : (called s).L1 = s.L1 := rfl
      have e4 : (called s).L2 = s.L2 := rfl
      rw [e3, e4] at this
      by_cases hk : k = x
      · subst hk
        have hev : ¬ ev = some k := fun e => (r2 k e).2 rfl
        simp only [resCount] at hx0
        simp only [hev, if_false, true_and, hx0, if_true] at this ⊢
        omega
      · simp only [hk, if_false, false_and] at this ⊢; omega
    · show m.evictedDirtyPage = _
      rw [r3]; rfl
    · intro k
      show (m.accessType.insert x t).find k = _
      rw [KMap.find_insert, r4 k]
      by_cases hk : k = x
      · subst hk; simp [hx0]
      · simp only [hk, if_false]; rfl

theorem arc_length_erase_add (L : List Int) (x : Int) (h : L.count x = 1) :
    (L.erase x).length + 1 = L.length := by
  have hm : x ∈ L := (mem_iff_count L x).2 (by omega)
  have h1 := List.length_erase_of_mem hm
  have h2 := List.length_pos_of_mem hm
  omega

theorem arc_referCase_counters (s s1 : ARCCache) (x : Int) (t : RW)
    (h : ReferCase s x t s1) :
    s1.calls = s.calls + 1 ∧ s1.csize = s.csize ∧ 0 < resCount s1 x ∧
    ((0 < resCount s x ∧ s1.hits = s.hits + 1 ∧
        s1.readHits = s.readHits + (if t = RW.Read then 1 else 0) ∧
        s1.writeHits = s.writeHits + (if t = RW.Read then 0 else 1) ∧
        resident s1 = resident s) ∨
     (resCount s x = 0 ∧ s1.hits = s.hits ∧ s1.readHits = s.readHits ∧
        s1.writeHits = s.writeHits)) := by
  rcases h with ⟨hc, rfl⟩ | ⟨hc, rfl⟩ | ⟨hc, c1, c2, m, hm, rfl⟩ |
    ⟨hc, c1, c2, m, hm, rfl⟩ | ⟨c1, c2, c3, c4, m, hm, rfl⟩
  · have hl := arc_length_erase_add s.L1 x hc
    refine ⟨rfl, rfl, ?_, Or.inl ⟨?_, rfl, ?_, ?_, ?_⟩⟩
    · simp [resCount, pushL2]
    · simp only [resCount]; omega
    · cases t <;> simp [pushL2, hitCounted]
    · cases t <;> simp [pushL2, hitCounted]
    · simp only [resident, pushL2, hitCounted, List.length_cons]; omega
  · have hl := arc_length_erase_add s.L2 x hc
    refine ⟨rfl, rfl, ?_, Or.inl ⟨?_, rfl, ?_, ?_, ?_⟩⟩
    · simp [resCount, pushL2]
    · simp only [resCount]; omega
    · cases t <;> simp [pushL2, hitCounted]
    · cases t <;> simp [pushL2, hitCounted]
    · simp only [resident, pushL2, hitCounted, List.length_cons]; omega
  · obtain ⟨f1, f2, f3, f4, f5, f6, f7, f8, f9, f10, f11⟩ := arc_afterGhost_frame m x t
    obtain ⟨_, _, ⟨s1, s2, s3, s4, s5, s6, s7⟩, _, _⟩ := hm
    refine ⟨by rw [f6, s3]; rfl, by rw [f1, s1]; rfl, ?_, Or.inr ⟨?_, ?_, ?_, ?_⟩⟩
    · simp [resCount, f4]
    · simp only [resCount]; omega
    · rw [f7, s4]; rfl
    · rw [f8, s5]; rfl
    · rw [f9, s6]; rfl
  · obtain ⟨f1, f2, f3, f4, f5, f6, f7, f8, f9, f10, f11⟩ := arc_afterGhost_frame m x t
    obtain ⟨_, _, ⟨s1, s2, s3, s4, s5, s6, s7⟩, _, _⟩ := hm
    refine ⟨by rw [f6, s3]; rfl, by rw [f1, s1]; rfl, ?_, Or.inr ⟨?_, ?_, ?_, ?_⟩⟩
    · simp [resCount, f4]
    · simp only [resCount]; omega
    · rw [f7, s4]; rfl
    · rw [f8, s5]; rfl
    · rw [f9, s6]; rfl
  · obtain ⟨_, _, ⟨s1, s2, s3, s4, s5, s6, s7⟩, _, _⟩ := hm
    refine ⟨?_, ?_, ?_, Or.inr ⟨?_, ?_, ?_, ?_⟩⟩
    · show m.calls = _
      rw [s3]; rfl
    · show m.csize = _
      rw [s1]; rfl
    · simp [resCount, insertL1]
    · simp only [resCount]; omega
    · show m.hits = _
      rw [s4]; rfl
    · show m.readHits = _
      rw [s5]; rfl
    · show m.writeHits = _
      rw [s6]; rfl

end ARCCache


/-! ## Engine B: structural lemmas -/

namespace CACHEUSCache

theorem cacheus_segOf_eq (s : CACHEUSCache) (k : Int) :
    segOf s k =
      if 0 < s.Read_List.count k then some Segment.READ
      else if 0 < s.Write_List.count k then some Segment.WRITE
      else none := by
  simp only [segOf, mem_iff_count]

theorem cacheus_keyOK_tag (s : CACHEUSCache) (k : Int) (h : KeyOK s k) :
    (s.key_segment_map.find k = some Segment.READ ↔ s.Read_List.count k = 1) ∧
    (s.key_segment_map.find k = some Segment.WRITE ↔ s.Write_List.count k = 1) ∧
    s.key_segment_map.find k ≠ some Segment.NONE ∧
    (s.key_segment_map.find k = none ↔ resCount s k = 0) ∧
    s.list_map.find k = s.key_segment_map.find k := by
  simp only [KeyOK, cacheus_segOf_eq, resCount] at h
  obtain ⟨h0, h1, h2, _⟩ := h
  rw [h2, h1]
  refine ⟨?_, ?_, ?_, ?_, rfl⟩
  · constructor
    · intro h3; split_ifs at h3 <;> first | omega | cases h3
    · intro h3; simp [h3]
  · constructor
    · intro h3; split_ifs at h3 <;> first | omega | cases h3
    · intro h3
      have : s.Read_List.count k = 0 := by omega
      simp [h3, this]
  · intro h3; split_ifs at h3 <;> cases h3
  · simp only [resCount]
    constructor
    · intro h3; split_ifs at h3; omega
    · intro h3
      have : s.Read_List.count k = 0 := by omega
      have : s.Write_List.count k = 0 := by omega
      simp [*]

theorem cacheus_keyOK_congr (s s1 : CACHEUSCache) (k : Int)
    (h1 : s1.Read_List.count k = s.Read_List.count k)
    (h2 : s1.Write_List.count k = s.Write_List.count k)
    (h3 : s1.key_segment_map.find k = s.key_segment_map.find k)
    (h4 : s1.list_map.find k = s.list_map.find k)
    (h5 : resCount s k = 0 → s1.accessType.find k = s.accessType.find k)
    (h : KeyOK s k) : KeyOK s1 k := by
  simp only [KeyOK, cacheus_segOf_eq, resCount] at h h5 ⊢
  rw [h1, h2, h3, h4]
  refine ⟨h.1, h.2.1, h.2.2.1, ?_⟩
  intro h6
  rw [h5 h6]
  exact h.2.2.2 h6

theorem cacheus_keyOK_absent (s : CACHEUSCache) (k : Int)
    (h1 : s.Read_List.count k = 0) (h2 : s.Write_List.count k = 0)
    (h3 : s.key_segment_map.find k = none) (h4 : s.list_map.find k = none)
    (h5 : s.accessType.find k = none) : KeyOK s k := by
  simp [KeyOK, cacheus_segOf_eq, resCount, h1, h2, h3, h4, h5]

theorem cacheus_keyOK_READ (s : CACHEUSCache) (k : Int)
    (h1 : s.Read_List.count k = 1) (h2 : s.Write_List.count k = 0)
    (h3 : s.key_segment_map.find k = some Segment.READ)
    (h4 : s.list_map.find k = some Segment.READ) : KeyOK s k := by
  simp [KeyOK, cacheus_segOf_eq, resCount, h1, h2, h3, h4]

theorem cacheus_keyOK_WRITE (s : CACHEUSCache) (k : Int)
    (h1 : s.Read_List.count k = 0) (h2 : s.Write_List.count k = 1)
    (h3 : s.key_segment_map.find k = some Segment.WRITE)
    (h4 : s.list_map.find k = some Segment.WRITE) : KeyOK s k := by
  simp [KeyOK, cacheus_segOf_eq, resCount, h1, h2, h3, h4]

/-! ### The victim decision -/

theorem cacheus_chooseSegment_true (s : CACHEUSCache) (h : chooseSegment s = some true) :
    s.Read_List ≠ [] := by
  unfold chooseSegment at h
  split_ifs at h with h1 h2 h3 h4
  · exact h1.2
  · cases h
  · exact h3
  · cases h

theorem cacheus_chooseSegment_false (s : CACHEUSCache) (h : chooseSegment s = some false) :
    s.Write_List ≠ [] := by
  unfold chooseSegment at h
  split_ifs at h with h1 h2 h3 h4
  · cases h
  · exact h2.2
  · cases h
  · exact h4

theorem cacheus_chooseSegment_none (s : CACHEUSCache) (h : chooseSegment s = none) :
    s.Read_List = [] ∧ s.Write_List = [] := by
  unfold chooseSegment at h
  split_ifs at h with h1 h2 h3 h4
  exact ⟨not_not.1 h3, not_not.1 h4⟩

theorem cacheus_evict_read_eq (s : CACHEUSCache) (v : Int) (h : s.Read_List.getLast? = some v) :
    evict_read s = popRead s v := by
  simp [evict_read, h, popRead]

theorem cacheus_evict_write_eq (s : CACHEUSCache) (v : Int) (h : s.Write_List.getLast? = some v) :
    evict_write s = popWrite s v := by
  simp [evict_write, h, popWrite]

/-! ### The branches of `refer` -/

theorem cacheus_refer_hit_READ (s : CACHEUSCache) (x : Int) (t : RW)
    (h : s.key_segment_map.find x = some Segment.READ)
    (hl : s.list_map.find x = some Segment.READ) (hm : x ∈ s.Read_List) :
    refer s x t =
      some (place { hitCounted s t with Read_List := s.Read_List.erase x } x t) := by
  cases t <;> simp [refer, h, referHit, eraseIter, hl, hm, hitCounted, adapt_segments]

theorem cacheus_refer_hit_WRITE (s : CACHEUSCache) (x : Int) (t : RW)
    (h : s.key_segment_map.find x = some Segment.WRITE)
    (hl : s.list_map.find x = some Segment.WRITE) (hm : x ∈ s.Write_List) :
    refer s x t =
      some (place { hitCounted s t with Write_List := s.Write_List.erase x } x t) := by
  cases t <;> simp [refer, h, referHit, eraseIter, hl, hm, hitCounted, adapt_segments]

theorem cacheus_refer_miss (s : CACHEUSCache) (x : Int) (t : RW)
    (h : s.key_segment_map.find x = none) :
    refer s x t = some (referMiss (called s) x t) := by
  simp [refer, h, called]

theorem cacheus_referMiss_room (s : CACHEUSCache) (x : Int) (t : RW)
    (h : resident s ≠ s.csize) : referMiss (called s) x t = place (called s) x t := by
  simp only [resident] at h
  simp [referMiss, called, h, adapt_segments]

theorem cacheus_referMiss_full (s : CACHEUSCache) (x : Int) (t : RW) (hC : 1 ≤ s.csize)
    (h : resident s = s.csize) :
    ∃ v, (s.Read_List.getLast? = some v ∧ chooseSegment s = some true ∧
            referMiss (called s) x t = place (popRead (called s) v) x t) ∨
         (s.Write_List.getLast? = some v ∧ chooseSegment s = some false ∧
            referMiss (called s) x t = place (popWrite (called s) v) x t) := by
  have hfull : (called s).Read_List.length + (called s).Write_List.length
      = (called s).csize := h
  have hcs : chooseSegment (called s) = chooseSegment s := rfl
  cases hch : chooseSegment s with
  | none =>
    obtain ⟨e1, e2⟩ := cacheus_chooseSegment_none s hch
    simp only [resident, e1, e2, List.length_nil] at h
    omega
  | some b =>
    cases b with
    | true =>
      have hne := cacheus_chooseSegment_true s hch
      cases hv : s.Read_List.getLast? with
      | none => exact absurd (List.getLast?_eq_none_iff.1 hv) hne
      | some v =>
        refine ⟨v, Or.inl ⟨rfl, rfl, ?_⟩⟩
        have hv2 : (called s).Read_List.getLast? = some v := hv
        simp only [referMiss, hfull, if_true, hcs, hch, cacheus_evict_read_eq _ v hv2,
          adapt_segments]
    | false =>
      have hne := cacheus_chooseSegment_false s hch
      cases hv : s.Write_List.getLast? with
      | none => exact absurd (List.getLast?_eq_none_iff.1 hv) hne
      | some v =>
        refine ⟨v, Or.inr ⟨rfl, rfl, ?_⟩⟩
        have hv2 : (called s).Write_List.getLast? = some v := hv
        simp only [referMiss, hfull, if_true, hcs, hch, cacheus_evict_write_eq _ v hv2,
          adapt_segments]
        rfl

/-! ### Consistency is kept by every branch -/

theorem cacheus_place_lists (s : CACHEUSCache) (x : Int) (t : RW) (k : Int) :
    (place s x t).Read_List.count k =
      s.Read_List.count k + (if t = RW.Read ∧ k = x then 1 else 0) ∧
    (place s x t).Write_List.count k =
      s.Write_List.count k + (if t = RW.Write ∧ k = x then 1 else 0) := by
  have e1 := count_cons_eq s.Read_List x k
  have e2 := count_cons_eq s.Write_List x k
  cases t
  · by_cases hk : k = x
    · subst hk; simp [place]
    · simp [place, hk]
  · by_cases hk : k = x
    · subst hk; simp [place]
    · simp [place, hk]

theorem cacheus_place_frame (s : CACHEUSCache) (x : Int) (t : RW) :
    (place s x t).csize = s.csize ∧ (place s x t).calls = s.calls ∧
    (place s x t).hits = s.hits ∧ (place s x t).readHits = s.readHits ∧
    (place s x t).writeHits = s.writeHits ∧
    (place s x t).evictedDirtyPage = s.evictedDirtyPage ∧
    (place s x t).migration = s.migration ∧
    (place s x t).write_segment_size = s.write_segment_size ∧
    (place s x t).read_segment_size = s.read_segment_size ∧
    resident (place s x t) = resident s + 1 ∧
    (∀ k, k ≠ x → (place s x t).key_segment_map.find k = s.key_segment_map.find k) ∧
    (∀ k, k ≠ x → (place s x t).list_map.find k = s.list_map.find k) ∧
    (∀ k, k ≠ x → (place s x t).accessType.find k = s.accessType.find k) ∧
    (place s x t).accessType.find x =
      (if t = RW.Write then some RW.Write else s.accessType.find x) := by
  cases t
  · have hp : place s x RW.Read =
        { s with Read_List := x :: s.Read_List,
                 key_segment_map := s.key_segment_map.insert x Segment.READ,
                 list_map := s.list_map.insert x Segment.READ } := by
      simp [place]
    rw [hp]
    refine ⟨rfl, rfl, rfl, rfl, rfl, rfl, rfl, rfl, rfl, ?_, ?_, ?_, ?_, ?_⟩
    · simp only [resident, List.length_cons]; omega
    · intro k hk; exact KMap.find_insert_ne _ _ hk
    · intro k hk; exact KMap.find_insert_ne _ _ hk
    · intro k _; rfl
    · simp
  · have hp : place s x RW.Write =
        { s with Write_List := x :: s.Write_List,
                 key_segment_map := s.key_segment_map.insert x Segment.WRITE,
                 list_map := s.list_map.insert x Segment.WRITE,
                 accessType := s.accessType.insert x RW.Write } := by
      simp [place]
    rw [hp]
    refine ⟨rfl, rfl, rfl, rfl, rfl, rfl, rfl, rfl, rfl, ?_, ?_, ?_, ?_, ?_⟩
    · simp only [resident, List.length_cons]; omega
    · intro k hk; exact KMap.find_insert_ne _ _ hk
    · intro k hk; exact KMap.find_insert_ne _ _ hk
    · intro k hk; exact KMap.find_insert_ne _ _ hk
    · simp [KMap.find_insert_self]

theorem cacheus_keyOK_place (s : CACHEUSCache) (x : Int) (t : RW)
    (H : ∀ k, k ≠ x → KeyOK s k) (hx : resCount s x = 0) (k : Int) :
    KeyOK (place s x t) k := by
  obtain ⟨c1, c2⟩ := cacheus_place_lists s x t k
  obtain ⟨_, _, _, _, _, _, _, _, _, _, f1, f2, f3, _⟩ := cacheus_place_frame s x t
  by_cases hk : k = x
  · subst hk
    simp only [resCount] at hx
    cases t
    · simp only [and_true, if_true, and_self, if_false, false_and] at c1 c2
      have hr : ¬ RW.Read = RW.Write := by decide
      simp only [hr, if_false] at c2
      apply cacheus_keyOK_READ
      · omega
      · omega
      · simp [place, KMap.find_insert_self]
      · simp [place, KMap.find_insert_self]
    · have hr : ¬ RW.Write = RW.Read := by decide
      simp only [hr, and_true, if_true, and_self, if_false, false_and] at c1 c2
      apply cacheus_keyOK_WRITE
      · omega
      · omega
      · simp [place, KMap.find_insert_self]
      · simp [place, KMap.find_insert_self]
  · simp only [hk, and_false, if_false, Nat.add_zero] at c1 c2
    exact cacheus_keyOK_congr s _ k c1 c2 (f1 k hk) (f2 k hk) (fun _ => f3 k hk) (H k hk)

theorem cacheus_keyOK_popRead (s : CACHEUSCache) (v : Int) (h : s.Read_List.getLast? = some v)
    (H : ∀ k, KeyOK s k) (k : Int) : KeyOK (popRead s v) k := by
  have Hk := H k
  have hc := count_of_getLast h k
  have h0 := Hk.1
  simp only [resCount] at h0
  by_cases hk : k = v
  · subst hk
    simp only [if_true] at hc
    apply cacheus_keyOK_absent <;>
      simp only [popRead, dropVictim, KMap.find_erase_self] <;> omega
  · simp only [hk, if_false, Nat.add_zero] at hc
    refine cacheus_keyOK_congr s _ k ?_ ?_ ?_ ?_ ?_ Hk
    · exact hc.symm
    · rfl
    · simp only [popRead, dropVictim, KMap.find_erase_ne _ hk]
    · simp only [popRead, dropVictim, KMap.find_erase_ne _ hk]
    · intro _; simp only [popRead, dropVictim, KMap.find_erase_ne _ hk]

theorem cacheus_keyOK_popWrite (s : CACHEUSCache) (v : Int) (h : s.Write_List.getLast? = some v)
    (H : ∀ k, KeyOK s k) (k : Int) : KeyOK (popWrite s v) k := by
  have Hk := H k
  have hc := count_of_getLast h k
  have h0 := Hk.1
  simp only [resCount] at h0
  by_cases hk : k = v
  · subst hk
    simp only [if_true] at hc
    apply cacheus_keyOK_absent <;>
      simp only [popWrite, dropVictim, KMap.find_erase_self] <;> omega
  · simp only [hk, if_false, Nat.add_zero] at hc
    refine cacheus_keyOK_congr s _ k ?_ ?_ ?_ ?_ ?_ Hk
    · rfl
    · exact hc.symm
    · simp only [popWrite, dropVictim, KMap.find_erase_ne _ hk]
    · simp only [popWrite, dropVictim, KMap.find_erase_ne _ hk]
    · intro _; simp only [popWrite, dropVictim, KMap.find_erase_ne _ hk]

theorem cacheus_keyOK_called (s : CACHEUSCache) (H : ∀ k, KeyOK s k) (k : Int) :
    KeyOK (called s) k :=
  cacheus_keyOK_congr s _ k rfl rfl rfl rfl (fun _ => rfl) (H k)

/-! ### The step theorem -/

theorem cacheus_refer_cases (C : Nat) (hC : 1 ≤ C) (s : CACHEUSCache) (x : Int) (t : RW)
    (hI : Inv C s) : ∃ s1, refer s x t = some s1 ∧ ReferCase s x t s1 := by
  obtain ⟨hcs, hres, _, _, H⟩ := hI
  obtain ⟨g1, g2, g3, g4, g5⟩ := cacheus_keyOK_tag s x (H x)
  have h0 := (H x).1
  simp only [resCount] at h0
  cases hf : s.key_segment_map.find x with
  | none =>
    have habs := g4.1 hf
    by_cases hfull : resident s = s.csize
    · obtain ⟨v, hv | hv⟩ := cacheus_referMiss_full s x t (by omega) hfull
      · refine ⟨_, by rw [cacheus_refer_miss s x t hf, hv.2.2], ?_⟩
        exact Or.inr (Or.inr (Or.inr (Or.inl ⟨habs, hfull, v, hv.1, hv.2.1, rfl⟩)))
      · refine ⟨_, by rw [cacheus_refer_miss s x t hf, hv.2.2], ?_⟩
        exact Or.inr (Or.inr (Or.inr (Or.inr ⟨habs, hfull, v, hv.1, hv.2.1, rfl⟩)))
    · refine ⟨_, by rw [cacheus_refer_miss s x t hf, cacheus_referMiss_room s x t hfull], ?_⟩
      exact Or.inr (Or.inr (Or.inl ⟨habs, hfull, rfl⟩))
  | some tag =>
    rw [hf] at g1 g2 g3 g5
    cases tag with
    | NONE => exact absurd rfl g3
    | READ =>
      have hc := g1.1 rfl
      refine ⟨_, cacheus_refer_hit_READ s x t hf g5 ((mem_iff_count _ _).2 (by omega)), ?_⟩
      exact Or.inl ⟨hc, rfl⟩
    | WRITE =>
      have hc := g2.1 rfl
      refine ⟨_, cacheus_refer_hit_WRITE s x t hf g5 ((mem_iff_count _ _).2 (by omega)), ?_⟩
      exact Or.inr (Or.inl ⟨hc, rfl⟩)

theorem cacheus_inv_init (C : Nat) : Inv C (init C) := by
  refine ⟨rfl, by simp [init, resident], rfl, rfl, ?_⟩
  intro k
  apply cacheus_keyOK_absent <;> rfl

theorem cacheus_inv_refresh (C : Nat) (s : CACHEUSCache) (h : Inv C s) : Inv C (refresh s) := by
  obtain ⟨h1, h2, h3, h4, h5⟩ := h
  exact ⟨h1, h2, h3, h4, fun k => cacheus_keyOK_congr s _ k rfl rfl rfl rfl (fun _ => rfl) (h5 k)⟩

theorem cacheus_referCase_inv (C : Nat) (s s1 : CACHEUSCache) (x : Int) (t : RW) (hI : Inv C s)
    (h : ReferCase s x t s1) : Inv C s1 := by
  obtain ⟨hcs, hres, hw, hr, H⟩ := hI
  rcases h with ⟨hc, rfl⟩ | ⟨hc, rfl⟩ | ⟨hc, hnf, rfl⟩ |
    ⟨hc, hfull, v, hv, _, rfl⟩ | ⟨hc, hfull, v, hv, _, rfl⟩
  · obtain ⟨f1, _, _, _, _, _, _, f8, f9, f10, _⟩ :=
      cacheus_place_frame { hitCounted s t with Read_List := s.Read_List.erase x } x t
    have hl := ARCCache.arc_length_erase_add s.Read_List x hc
    have h0 := (H x).1
    simp only [resCount] at h0
    refine ⟨by rw [f1]; exact hcs, ?_, by rw [f8]; exact hw, by rw [f9]; exact hr, ?_⟩
    · rw [f10]; simp only [resident, hitCounted] at hres ⊢; omega
    · apply cacheus_keyOK_place
      · intro k hk
        have e := count_erase_eq s.Read_List x k
        simp only [hk, if_false, Nat.sub_zero] at e
        exact cacheus_keyOK_congr s _ k e rfl rfl rfl (fun _ => rfl) (H k)
      · have e := count_erase_eq s.Read_List x x
        simp only [if_true] at e
        simp only [resCount, hitCounted]; omega
  · obtain ⟨f1, _, _, _, _, _, _, f8, f9, f10, _⟩ :=
      cacheus_place_frame { hitCounted s t with Write_List := s.Write_List.erase x } x t
    have hl := ARCCache.arc_length_erase_add s.Write_List x hc
    have h0 := (H x).1
    simp only [resCount] at h0
    refine ⟨by rw [f1]; exact hcs, ?_, by rw [f8]; exact hw, by rw [f9]; exact hr, ?_⟩
    · rw [f10]; simp only [resident, hitCounted] at hres ⊢; omega
    · apply cacheus_keyOK_place
      · intro k hk
        have e := count_erase_eq s.Write_List x k
        simp only [hk, if_false, Nat.sub_zero] at e
        exact cacheus_keyOK_congr s _ k rfl e rfl rfl (fun _ => rfl) (H k)
      · have e := count_erase_eq s.Write_List x x
        simp only [if_true] at e
        simp only [resCount, hitCounted]; omega
  · obtain ⟨f1, _, _, _, _, _, _, f8, f9, f10, _⟩ := cacheus_place_frame (called s) x t
    refine ⟨by rw [f1]; exact hcs, ?_, by rw [f8]; exact hw, by rw [f9]; exact hr, ?_⟩
    · rw [f10]
      have : resident (called s) = resident s := rfl
      rw [this]; omega
    · exact cacheus_keyOK_place _ x t (fun k _ => cacheus_keyOK_called s H k) hc
  · obtain ⟨f1, _, _, _, _, _, _, f8, f9, f10, _⟩ := cacheus_place_frame (popRead (called s) v) x t
    have hl := length_of_getLast hv
    have hpop := cacheus_keyOK_popRead (called s) v hv (cacheus_keyOK_called s H)
    refine ⟨by rw [f1]; exact hcs, ?_, by rw [f8]; exact hw, by rw [f9]; exact hr, ?_⟩
    · rw [f10]
      simp only [resident, popRead, dropVictim, called] at hres ⊢
      omega
    · apply cacheus_keyOK_place _ x t (fun k _ => hpop k)
      have e := count_of_getLast hv x
      simp only [resCount, popRead, dropVictim, called] at hc ⊢
      omega
  · obtain ⟨f1, _, _, _, _, _, _, f8, f9, f10, _⟩ := cacheus_place_frame (popWrite (called s) v) x t
    have hl := length_of_getLast hv
    have hpop := cacheus_keyOK_popWrite (called s) v hv (cacheus_keyOK_called s H)
    refine ⟨by rw [f1]; exact hcs, ?_, by rw [f8]; exact hw, by rw [f9]; exact hr, ?_⟩
    · rw [f10]
      simp only [resident, popWrite, dropVictim, called] at hres ⊢
      omega
    · apply cacheus_keyOK_place _ x t (fun k _ => hpop k)
      have e := count_of_getLast hv x
      simp only [resCount, popWrite, dropVictim, called] at hc ⊢
      omega

theorem cacheus_refer_inv (C : Nat) (hC : 1 ≤ C) (s s1 : CACHEUSCache) (x : Int) (t : RW)
    (hI : Inv C s) (h : refer s x t = some s1) : Inv C s1 := by
  obtain ⟨s2, h2, hc⟩ := cacheus_refer_cases C hC s x t hI
  rw [h2] at h
  have e : s2 = s1 := Option.some.inj h
  subst e
  exact cacheus_referCase_inv C s _ x t hI hc

theorem cacheus_refer_referCase (C : Nat) (hC : 1 ≤ C) (s s1 : CACHEUSCache) (x : Int) (t : RW)
    (hI : Inv C s) (h : refer s x t = some s1) : ReferCase s x t s1 := by
  obtain ⟨s2, h2, hc⟩ := cacheus_refer_cases C hC s x t hI
  rw [h2] at h
  have e : s2 = s1 := Option.some.inj h
  subst e
  exact hc

theorem cacheus_reachable_inv (C : Nat) (hC : 1 ≤ C) (s : CACHEUSCache)
    (h : engine.Reachable C s) : Inv C s :=
  Engine.reachable_invariant engine C (Inv C) (cacheus_inv_init C)
    (fun s x t s1 hI hr => cacheus_refer_inv C hC s s1 x t hI hr)
    (fun s hI => cacheus_inv_refresh C s hI) h

/-! ### Residency, counters and dirty flags across one call -/

theorem cacheus_isResident_iff (s : CACHEUSCache) (k : Int) :
    engine.isResident s k = true ↔ 0 < resCount s k := by
  simp only [engine, resCount, decide_eq_true_eq, mem_iff_count]
  omega

theorem cacheus_place_resCount (s : CACHEUSCache) (x : Int) (t : RW) (k : Int) :
    resCount (place s x t) k = resCount s k + (if k = x then 1 else 0) := by
  obtain ⟨c1, c2⟩ := cacheus_place_lists s x t k
  simp only [resCount, c1, c2]
  cases t
  · have hr : ¬ RW.Read = RW.Write := by decide
    simp only [hr, true_and, false_and, if_false]; omega
  · have hr : ¬ RW.Write = RW.Read := by decide
    simp only [hr, true_and, false_and, if_false]; omega

theorem cacheus_place_isDirty (s : CACHEUSCache) (x : Int) (t : RW) (k : Int) :
    isDirty (place s x t) k =
      if k = x then (decide (t = RW.Write) || isDirty s x) else isDirty s k := by
  obtain ⟨_, _, _, _, _, _, _, _, _, _, _, _, f3, f4⟩ := cacheus_place_frame s x t
  by_cases hk : k = x
  · subst hk
    simp only [isDirty, f4, if_true]
    cases t <;> simp
  · simp only [isDirty, f3 k hk, hk, if_false]

theorem cacheus_referCase_counters (s s1 : CACHEUSCache) (x : Int) (t : RW)
    (h : ReferCase s x t s1) :
    s1.calls = s.calls + 1 ∧ s1.csize = s.csize ∧ 0 < resCount s1 x ∧
    ((0 < resCount s x ∧ s1.hits = s.hits + 1 ∧
        s1.readHits = s.readHits + (if t = RW.Read then 1 else 0) ∧
        s1.writeHits = s.writeHits + (if t = RW.Read then 0 else 1) ∧
        resident s1 = resident s) ∨
     (resCount s x = 0 ∧ s1.hits = s.hits ∧ s1.readHits = s.readHits ∧
        s1.writeHits = s.writeHits)) := by
  have hpos : ∀ m : CACHEUSCache, 0 < resCount (place m x t) x := by
    intro m
    rw [cacheus_place_resCount]; simp
  rcases h with ⟨hc, rfl⟩ | ⟨hc, rfl⟩ | ⟨hc, hnf, rfl⟩ |
    ⟨hc, hfull, v, hv, _, rfl⟩ | ⟨hc, hfull, v, hv, _, rfl⟩
  · obtain ⟨f1, f2, f3, f4, f5, f6, f7, f8, f9, f10, _⟩ :=
      cacheus_place_frame { hitCounted s t with Read_List := s.Read_List.erase x } x t
    have hl := ARCCache.arc_length_erase_add s.Read_List x hc
    refine ⟨by rw [f2]; rfl, by rw [f1]; rfl, hpos _, Or.inl ⟨?_, by rw [f3]; rfl, ?_, ?_, ?_⟩⟩
    · simp only [resCount]; omega
    · rw [f4]; cases t <;> simp [hitCounted]
    · rw [f5]; cases t <;> simp [hitCounted]
    · rw [f10]; simp only [resident, hitCounted]; omega
  · obtain ⟨f1, f2, f3, f4, f5, f6, f7, f8, f9, f10, _⟩ :=
      cacheus_place_frame { hitCounted s t with Write_List := s.Write_List.erase x } x t
    have hl := ARCCache.arc_length_erase_add s.Write_List x hc
    refine ⟨by rw [f2]; rfl, by rw [f1]; rfl, hpos _, Or.inl ⟨?_, by rw [f3]; rfl, ?_, ?_, ?_⟩⟩
    · simp only [resCount]; omega
    · rw [f4]; cases t <;> simp [hitCounted]
    · rw [f5]; cases t <;> simp [hitCounted]
    · rw [f10]; simp only [resident, hitCounted]; omega
  · obtain ⟨f1, f2, f3, f4, f5, f6, f7, f8, f9, f10, _⟩ := cacheus_place_frame (called s) x t
    exact ⟨by rw [f2]; rfl, by rw [f1]; rfl, hpos _,
      Or.inr ⟨hc, by rw [f3]; rfl, by rw [f4]; rfl, by rw [f5]; rfl⟩⟩
  · obtain ⟨f1, f2, f3, f4, f5, f6, f7, f8, f9, f10, _⟩ :=
      cacheus_place_frame (popRead (called s) v) x t
    exact ⟨by rw [f2]; rfl, by rw [f1]; rfl, hpos _,
      Or.inr ⟨hc, by rw [f3]; rfl, by rw [f4]; rfl, by rw [f5]; rfl⟩⟩
  · obtain ⟨f1, f2, f3, f4, f5, f6, f7, f8, f9, f10, _⟩ :=
      cacheus_place_frame (popWrite (called s) v) x t
    exact ⟨by rw [f2]; rfl, by rw [f1]; rfl, hpos _,
      Or.inr ⟨hc, by rw [f3]; rfl, by rw [f4]; rfl, by rw [f5]; rfl⟩⟩

theorem cacheus_referCase_countStep (s s1 : CACHEUSCache) (x : Int) (t : RW)
    (H : ∀ k, KeyOK s k) (h : ReferCase s x t s1) :
    ∃ ev, Engine.CountStep resCount isDirty (fun s => s.evictedDirtyPage) s s1 x t ev := by
  have hclean : resCount s x = 0 → isDirty s x = false := by
    intro h0
    simp [isDirty, (H x).2.2.2 h0]
  rcases h with ⟨hc, rfl⟩ | ⟨hc, rfl⟩ | ⟨hc, hnf, rfl⟩ |
    ⟨hc, hfull, v, hv, _, rfl⟩ | ⟨hc, hfull, v, hv, _, rfl⟩
  · have hx : 0 < resCount s x := by simp only [resCount]; omega
    have hx0 : ¬ resCount s x = 0 := by omega
    refine ⟨none, ?_, by simp, ?_, ?_⟩
    · intro k
      have e := count_erase_eq s.Read_List x k
      rw [cacheus_place_resCount]
      simp only [resCount, hitCounted, e] at hx0 ⊢
      by_cases hk : k = x
      · subst hk; simp only [hx0, if_true, and_false, if_false]; simp; omega
      · simp [hk]
    · exact (cacheus_place_frame _ x t).2.2.2.2.2.1
    · intro k _
      rw [cacheus_place_isDirty]
      by_cases hk : k = x
      · subst hk; simp [hx, isDirty, hitCounted]
      · simp [hk, isDirty, hitCounted]
  · have hx : 0 < resCount s x := by simp only [resCount]; omega
    have hx0 : ¬ resCount s x = 0 := by omega
    refine ⟨none, ?_, by simp, ?_, ?_⟩
    · intro k
      have e := count_erase_eq s.Write_List x k
      rw [cacheus_place_resCount]
      simp only [resCount, hitCounted, e] at hx0 ⊢
      by_cases hk : k = x
      · subst hk; simp only [hx0, if_true, and_false, if_false]; simp; omega
      · simp [hk]
    · exact (cacheus_place_frame _ x t).2.2.2.2.2.1
    · intro k _
      rw [cacheus_place_isDirty]
      by_cases hk : k = x
      · subst hk; simp [hx, isDirty, hitCounted]
      · simp [hk, isDirty, hitCounted]
  · refine ⟨none, ?_, by simp, ?_, ?_⟩
    · intro k
      rw [cacheus_place_resCount]
      have : resCount (called s) k = resCount s k := rfl
      rw [this]
      by_cases hk : k = x
      · subst hk; simp [hc]
      · simp [hk]
    · exact (cacheus_place_frame _ x t).2.2.2.2.2.1
    · intro k _
      rw [cacheus_place_isDirty]
      have hd : ∀ j, isDirty (called s) j = isDirty s j := fun _ => rfl
      by_cases hk : k = x
      · subst hk; simp [hc, hd, hclean hc]
      · simp [hk, hd]
  · have hcv := count_of_getLast hv
    have hle := fun k => (H k).1
    simp only [resCount] at hle hc
    have hvx : v ≠ x := by
      intro e
      subst e
      have := hcv v
      simp only [if_true] at this
      omega
    have hrc : ∀ k, resCount (popRead (called s) v) k + (if k = v then 1 else 0)
        = resCount s k := by
      intro k
      have := hcv k
      simp only [resCount, popRead, dropVictim, called]
      omega
    refine ⟨some v, ?_, ?_, ?_, ?_⟩
    · intro k
      rw [cacheus_place_resCount]
      have := hrc k
      simp only [Option.some.injEq]
      by_cases hk : k = x
      · subst hk
        have h1 : ¬ k = v := fun e => hvx e.symm
        have h2 : ¬ v = k := hvx
        simp only [h1, h2, if_false, if_true, true_and, resCount, hc] at this ⊢
        omega
      · by_cases hk2 : k = v
        · subst hk2; simp only [hk, if_false, if_true, false_and] at this ⊢; omega
        · have h2 : ¬ v = k := fun e => hk2 e.symm
          simp only [hk, hk2, h2, if_false, false_and] at this ⊢; omega
    · intro w hw
      simp only [Option.some.injEq] at hw
      subst hw
      have := hcv v
      have := hle v
      simp only [if_true] at *
      exact ⟨by simp only [resCount]; omega, hvx⟩
    · have hf := (cacheus_place_frame (popRead (called s) v) x t).2.2.2.2.2.1
      show (place (popRead (called s) v) x t).evictedDirtyPage = _
      rw [hf]
      simp only [popRead, dropVictim, called, isDirty, decide_eq_true_eq]
      split_ifs <;> rfl
    · intro k hk0
      rw [cacheus_place_isDirty]
      have hev : ∀ j, j ≠ v → isDirty (popRead (called s) v) j = isDirty s j := by
        intro j hj
        simp only [isDirty, popRead, dropVictim, called, KMap.find_erase_ne _ hj]
      by_cases hk : k = x
      · subst hk
        simp [hc, hev k (fun e => hvx e.symm), hclean (by simp only [resCount]; omega)]
      · have hkv : k ≠ v := by
          intro e
          subst e
          rw [cacheus_place_resCount] at hk0
          have := hrc k
          have := hle k
          simp only [hk, if_false, if_true, resCount] at *
          omega
        simp [hk, hev k hkv]
  · have hcv := count_of_getLast hv
    have hle := fun k => (H k).1
    simp only [resCount] at hle hc
    have hvx : v ≠ x := by
      intro e
      subst e
      have := hcv v
      simp only [if_true] at this
      omega
    have hrc : ∀ k, resCount (popWrite (called s) v) k + (if k = v then 1 else 0)
        = resCount s k := by
      intro k
      have := hcv k
      simp only [resCount, popWrite, dropVictim, called]
      omega
    refine ⟨some v, ?_, ?_, ?_, ?_⟩
    · intro k
      rw [cacheus_place_resCount]
      have := hrc k
      simp only [Option.some.injEq]
      by_cases hk : k = x
      · subst hk
        have h1 : ¬ k = v := fun e => hvx e.symm
        have h2 : ¬ v = k := hvx
        simp only [h1, h2, if_false, if_true, true_and, resCount, hc] at this ⊢
        omega
      · by_cases hk2 : k = v
        · subst hk2; simp only [hk, if_false, if_true, false_and] at this ⊢; omega
        · have h2 : ¬ v = k := fun e => hk2 e.symm
          simp only [hk, hk2, h2, if_false, false_and] at this ⊢; omega
    · intro w hw
      simp only [Option.some.injEq] at hw
      subst hw
      have := hcv v
      have := hle v
      simp only [if_true] at *
      exact ⟨by simp only [resCount]; omega, hvx⟩
    · have hf := (cacheus_place_frame (popWrite (called s) v) x t).2.2.2.2.2.1
      show (place (popWrite (called s) v) x t).evictedDirtyPage = _
      rw [hf]
      simp only [popWrite, dropVictim, called, isDirty, decide_eq_true_eq]
      split_ifs <;> rfl
    · intro k hk0
      rw [cacheus_place_isDirty]
      have hev : ∀ j, j ≠ v → isDirty (popWrite (called s) v) j = isDirty s j := by
        intro j hj
        simp only [isDirty, popWrite, dropVictim, called, KMap.find_erase_ne _ hj]
      by_cases hk : k = x
      · subst hk
        simp [hc, hev k (fun e => hvx e.symm), hclean (by simp only [resCount]; omega)]
      · have hkv : k ≠ v := by
          intro e
          subst e
          rw [cacheus_place_resCount] at hk0
          have := hrc k
          have := hle k
          simp only [hk, if_false, if_true, resCount] at *
          omega
        simp [hk, hev k hkv]

end CACHEUSCache


/-! ## Engine C: structural lemmas -/

namespace LFUCache

/-! ### The frequency map -/

theorem lfu_erase_insert (m : KMap Nat (List Int)) (f : Nat) (b : List Int) :
    (m.insert f b).erase f = m.erase f := by
  unfold KMap.insert
  rw [KMap.erase_cons_eq]
  exact KMap.size_erase_of_none _ _ (KMap.find_erase_self m f)

theorem lfu_find_setBucket (m : KMap Nat (List Int)) (f : Nat) (b : List Int) (f1 : Nat) :
    (setBucket m f b).find f1 =
      if f1 = f then (if b = [] then none else some b) else m.find f1 := by
  unfold setBucket
  by_cases hb : b = []
  · simp only [hb, if_true, lfu_erase_insert, KMap.find_erase]
  · simp only [hb, if_false, KMap.find_insert]

theorem lfu_getD_setBucket (m : KMap Nat (List Int)) (f : Nat) (b : List Int) (f1 : Nat) :
    ((setBucket m f b).find f1).getD [] = if f1 = f then b else (m.find f1).getD [] := by
  rw [lfu_find_setBucket]
  by_cases h1 : f1 = f
  · by_cases hb : b = []
    · simp [h1, hb]
    · simp [h1, hb]
  · simp [h1]

theorem lfu_nodup_setBucket (m : KMap Nat (List Int)) (f : Nat) (b : List Int)
    (h : m.keys.Nodup) : (setBucket m f b).keys.Nodup := by
  unfold setBucket
  split_ifs
  · exact KMap.nodup_erase _ _ (KMap.nodup_insert _ _ _ h)
  · exact KMap.nodup_insert _ _ _ h

theorem lfu_nonempty_setBucket (m : KMap Nat (List Int)) (f : Nat) (b : List Int)
    (h : ∀ f1 c, m.find f1 = some c → c ≠ []) :
    ∀ f1 c, (setBucket m f b).find f1 = some c → c ≠ [] := by
  intro f1 c hc
  rw [lfu_find_setBucket] at hc
  by_cases h1 : f1 = f
  · by_cases hb : b = []
    · simp [h1, hb] at hc
    · simp only [h1, hb, if_true, if_false, Option.some.injEq] at hc
      rw [← hc]; exact hb
  · simp only [h1, if_false] at hc
    exact h f1 c hc

theorem lfu_totalLen_cons (e : Nat × List Int) (m : KMap Nat (List Int)) :
    totalLen (e :: m) = e.2.length + totalLen m := by
  simp [totalLen]

theorem lfu_totalLen_erase (m : KMap Nat (List Int)) (f : Nat) (h : m.keys.Nodup) :
    totalLen (m.erase f) + ((m.find f).getD []).length = totalLen m := by
  induction m with
  | nil => simp [KMap.erase, KMap.find, totalLen]
  | cons e r ih =>
    obtain ⟨a, c⟩ := e
    have hn : a ∉ KMap.keys r ∧ (KMap.keys r).Nodup := by simpa [KMap.keys] using h
    by_cases ha : a = f
    · subst ha
      have h2 : KMap.find r a = none := (KMap.find_eq_none_iff _ _).2 hn.1
      rw [KMap.erase_cons_eq, KMap.size_erase_of_none r a h2, KMap.find_cons_eq,
        lfu_totalLen_cons]
      simp only [Option.getD_some]
      omega
    · rw [KMap.erase_cons_ne r c ha, KMap.find_cons_ne r c ha, lfu_totalLen_cons,
        lfu_totalLen_cons]
      have := ih hn.2
      omega

theorem lfu_totalLen_setBucket (m : KMap Nat (List Int)) (f : Nat) (b : List Int)
    (h : m.keys.Nodup) :
    totalLen (setBucket m f b) + ((m.find f).getD []).length = totalLen m + b.length := by
  have h1 := lfu_totalLen_erase m f h
  unfold setBucket
  by_cases hb : b = []
  · simp only [hb, if_true, lfu_erase_insert, List.length_nil]
    omega
  · simp only [hb, if_false]
    unfold KMap.insert
    rw [lfu_totalLen_cons]
    simp only
    omega

/-! ### The bucket view of the operations -/

theorem lfu_bucket_evicted (s : LFUCache) (f : Nat) (b : List Int) (last : Int) (f1 : Nat) :
    bucket (evicted s f b last) f1 = if f1 = f then b.dropLast else bucket s f1 := by
  simp only [bucket, evicted, lfu_getD_setBucket]

theorem lfu_place_freqList (s : LFUCache) (x : Int) (f : Nat) :
    (place s x f).freqList = setBucket s.freqList f (x :: bucket s f) := by
  simp [place, setBucket]

theorem lfu_bucket_place (s : LFUCache) (x : Int) (f : Nat) (f1 : Nat) :
    bucket (place s x f) f1 = if f1 = f then x :: bucket s f else bucket s f1 := by
  simp only [bucket, lfu_place_freqList, lfu_getD_setBucket]

theorem lfu_bucket_insertNew (s : LFUCache) (x : Int) (t : RW) (f1 : Nat) :
    bucket (insertNew s x t) f1 = if f1 = 1 then x :: bucket s 1 else bucket s f1 := by
  simp only [insertNew, lfu_bucket_place]
  rfl

theorem lfu_bucket_hitResult (s : LFUCache) (f : Nat) (x : Int) (t : RW) (f1 : Nat) :
    bucket (hitResult s f x t) f1 =
      if f1 = f + 1 then x :: bucket s (f + 1)
      else if f1 = f then (bucket s f).erase x else bucket s f1 := by
  simp only [hitResult, lfu_bucket_place]
  have hne : ¬ f + 1 = f := by omega
  by_cases h1 : f1 = f + 1
  · simp only [h1, if_true, bucket, lfu_getD_setBucket, hne, if_false]
  · simp only [h1, if_false, bucket, lfu_getD_setBucket]

/-! ### The branches of `refer` -/

theorem lfu_evict_eq (s : LFUCache) (f : Nat) (b : List Int) (last : Int)
    (h : s.freqList.minEntry = some (f, b)) (hl : b.getLast? = some last) :
    evict s = some (evicted s f b last) := by
  by_cases hb : b.dropLast = []
  · simp [evict, h, hl, evicted, setBucket, hb]
  · simp [evict, h, hl, evicted, setBucket, hb]

theorem lfu_refer_hit (s : LFUCache) (f : Nat) (x : Int) (t : RW)
    (h : s.keyFreq.find x = some f) (hi : s.keyIterMap.find x = some f)
    (hm : x ∈ bucket s f) : refer s x t = some (hitResult s f x t) := by
  by_cases he : (bucket s f).erase x = []
  · simp only [bucket] at hm he
    cases t <;>
      simp [refer, h, referHit, eraseIter, hi, hm, hitResult, setBucket, he, bucket, place]
  · simp only [bucket] at hm he
    cases t <;>
      simp [refer, h, referHit, eraseIter, hi, hm, hitResult, setBucket, he, bucket, place]

theorem lfu_refer_miss (s : LFUCache) (x : Int) (t : RW) (h : s.keyFreq.find x = none) :
    refer s x t =
      (if s.keyIterMap.size = s.csize then evict (called s) else some (called s)).map
        (fun m => insertNew m x t) := by
  simp [refer, h, referMiss, called, insertNew]

/-! ### Consistency is kept by every branch -/

theorem lfu_bucket_of_find (s : LFUCache) (f : Nat) (b : List Int)
    (h : s.freqList.find f = some b) : bucket s f = b := by
  simp [bucket, h]

theorem lfu_find_of_mem_bucket (s : LFUCache) (f : Nat) (k : Int) (h : 0 < (bucket s f).count k) :
    ∃ b, s.freqList.find f = some b := by
  cases hf : s.freqList.find f with
  | none => simp [bucket, hf] at h
  | some b => exact ⟨b, rfl⟩

theorem lfu_keyFreq_of_mem (s : LFUCache) (f : Nat) (k : Int) (H : KeyOK s k)
    (h : 0 < (bucket s f).count k) : s.keyFreq.find k = some f := by
  have := H.1 f
  by_cases hk : s.keyFreq.find k = some f
  · exact hk
  · simp only [hk, if_false] at this; omega

theorem lfu_keyOK_evicted (s : LFUCache) (f : Nat) (b : List Int) (last : Int)
    (hf : s.freqList.find f = some b) (hl : b.getLast? = some last)
    (H : ∀ k, KeyOK s k) (k : Int) : KeyOK (evicted s f b last) k := by
  have hb := lfu_bucket_of_find s f b hf
  have hc := count_of_getLast hl
  have hlast : s.keyFreq.find last = some f := by
    apply lfu_keyFreq_of_mem s f last (H last)
    rw [hb, hc last]; simp
  refine ⟨?_, ?_⟩
  · intro f1
    rw [lfu_bucket_evicted]
    have h1 := (H k).1 f1
    by_cases hk : k = last
    · subst hk
      have e : (evicted s f b k).keyFreq.find k = none := KMap.find_erase_self _ _
      rw [e]
      by_cases h2 : f1 = f
      · subst h2
        have := hc k
        rw [hb, hlast] at h1
        simp only [if_true] at this h1 ⊢
        simp only [reduceCtorEq, if_false]
        omega
      · have h3 : ¬ some f = some f1 := fun e => h2 (Option.some.inj e).symm
        rw [hlast] at h1
        simp only [h2, if_false, reduceCtorEq, h3] at h1 ⊢
        exact h1
    · have e : (evicted s f b last).keyFreq.find k = s.keyFreq.find k :=
        KMap.find_erase_ne _ hk
      rw [e]
      by_cases h2 : f1 = f
      · subst h2
        have := hc k
        rw [hb] at h1
        simp only [hk, if_false, Nat.add_zero, if_true] at this ⊢
        rw [← this]; exact h1
      · simp only [h2, if_false]; exact h1
  · intro f1 h1
    by_cases hk : k = last
    · subst hk
      have e : (evicted s f b k).keyFreq.find k = none := KMap.find_erase_self _ _
      rw [e] at h1; cases h1
    · have e : (evicted s f b last).keyFreq.find k = s.keyFreq.find k :=
        KMap.find_erase_ne _ hk
      rw [e] at h1
      exact (H k).2 f1 h1

theorem lfu_keyOK_insertNew (s : LFUCache) (x : Int) (t : RW) (hx : s.keyFreq.find x = none)
    (H : ∀ k, KeyOK s k) (k : Int) : KeyOK (insertNew s x t) k := by
  have hkf : ∀ j, (insertNew s x t).keyFreq.find j =
      if j = x then some 1 else s.keyFreq.find j := by
    intro j
    simp only [insertNew, place]
    exact KMap.find_insert _ _ _ _
  refine ⟨?_, ?_⟩
  · intro f1
    rw [lfu_bucket_insertNew, hkf]
    have h1 := (H k).1 f1
    have e := count_cons_eq (bucket s 1) x k
    by_cases hk : k = x
    · subst hk
      rw [hx] at h1
      simp only [if_true, reduceCtorEq, if_false] at e h1 ⊢
      by_cases h2 : f1 = 1
      · subst h2
        simp only [if_true, e, h1]
      · have h3 : ¬ (1 : Nat) = f1 := fun e => h2 e.symm
        simp only [h2, if_false, Option.some.injEq, h3, h1]
    · simp only [hk, if_false, Nat.add_zero] at e ⊢
      by_cases h2 : f1 = 1
      · subst h2
        simp only [if_true, e]; exact h1
      · simp only [h2, if_false]; exact h1
  · intro f1 h1
    rw [hkf] at h1
    by_cases hk : k = x
    · simp only [hk, if_true, Option.some.injEq] at h1
      omega
    · simp only [hk, if_false] at h1
      exact (H k).2 f1 h1

theorem lfu_keyOK_hitResult (s : LFUCache) (f : Nat) (x : Int) (t : RW)
    (hx : s.keyFreq.find x = some f) (H : ∀ k, KeyOK s k) (k : Int) :
    KeyOK (hitResult s f x t) k := by
  have hkf : ∀ j, (hitResult s f x t).keyFreq.find j =
      if j = x then some (f + 1) else s.keyFreq.find j := by
    intro j
    simp only [hitResult, place]
    exact KMap.find_insert _ _ _ _
  have hne : ¬ f + 1 = f := by omega
  have hne2 : ¬ f = f + 1 := by omega
  refine ⟨?_, ?_⟩
  · intro f1
    rw [lfu_bucket_hitResult, hkf]
    have h1 := (H k).1 f1
    have e := count_cons_eq (bucket s (f + 1)) x k
    have e2 := count_erase_eq (bucket s f) x k
    by_cases hk : k = x
    · subst hk
      rw [hx] at h1
      simp only [if_true, Option.some.injEq] at e e2 h1 ⊢
      by_cases h2 : f1 = f + 1
      · subst h2
        have h3 := (H k).1 (f + 1)
        rw [hx] at h3
        simp only [Option.some.injEq, hne2, if_false] at h3
        simp only [if_true, e, h3]
      · have h3 : ¬ f + 1 = f1 := fun e => h2 e.symm
        simp only [h2, if_false, h3]
        by_cases h4 : f1 = f
        · subst h4
          simp only [if_true, e2] at h1 ⊢
          omega
        · have h5 : ¬ f = f1 := fun e => h4 e.symm
          simp only [h4, h5, if_false] at h1 ⊢
          exact h1
    · simp only [hk, if_false, Nat.add_zero, Nat.sub_zero] at e e2 ⊢
      by_cases h2 : f1 = f + 1
      · subst h2
        simp only [if_true, e]; exact h1
      · simp only [h2, if_false]
        by_cases h4 : f1 = f
        · subst h4
          simp only [if_true, e2]; exact h1
        · simp only [h4, if_false]; exact h1
  · intro f1 h1
    rw [hkf] at h1
    by_cases hk : k = x
    · simp only [hk, if_true, Option.some.injEq] at h1
      omega
    · simp only [hk, if_false] at h1
      exact (H k).2 f1 h1

theorem lfu_hitResult_fields (s : LFUCache) (f : Nat) (x : Int) (t : RW) :
    (hitResult s f x t).csize = s.csize ∧
    (hitResult s f x t).keyIterMap = s.keyIterMap.insert x (f + 1) ∧
    (hitResult s f x t).keyFreq = s.keyFreq.insert x (f + 1) ∧
    (hitResult s f x t).freqList =
      setBucket (setBucket s.freqList f ((bucket s f).erase x)) (f + 1)
        (x :: bucket s (f + 1)) ∧
    (hitResult s f x t).calls = s.calls + 1 ∧
    (hitResult s f x t).hits = s.hits + 1 ∧
    (hitResult s f x t).readHits = s.readHits + (if t = RW.Read then 1 else 0) ∧
    (hitResult s f x t).writeHits = s.writeHits + (if t = RW.Read then 0 else 1) ∧
    (hitResult s f x t).evictedDirtyPage = s.evictedDirtyPage ∧
    (hitResult s f x t).accessType =
      (if t = RW.Read then s.accessType else s.accessType.insert x RW.Write) ∧
    (hitResult s f x t).migration = s.migration := by
  have hne : ¬ f + 1 = f := by omega
  refine ⟨rfl, rfl, rfl, ?_, rfl, rfl, ?_, ?_, rfl, rfl, rfl⟩
  · unfold hitResult
    rw [lfu_place_freqList]
    simp only [bucket, lfu_getD_setBucket, hne, if_false]
  · cases t <;> simp [hitResult, place]
  · cases t <;> simp [hitResult, place]

theorem lfu_insertNew_fields (s : LFUCache) (x : Int) (t : RW) :
    (insertNew s x t).csize = s.csize ∧
    (insertNew s x t).keyIterMap = s.keyIterMap.insert x 1 ∧
    (insertNew s x t).keyFreq = s.keyFreq.insert x 1 ∧
    (insertNew s x t).freqList = setBucket s.freqList 1 (x :: bucket s 1) ∧
    (insertNew s x t).calls = s.calls ∧ (insertNew s x t).hits = s.hits ∧
    (insertNew s x t).readHits = s.readHits ∧
    (insertNew s x t).writeHits = s.writeHits ∧
    (insertNew s x t).evictedDirtyPage = s.evictedDirtyPage ∧
    (insertNew s x t).accessType = s.accessType.insert x t ∧
    (insertNew s x t).migration = s.migration := by
  refine ⟨rfl, rfl, rfl, ?_, rfl, rfl, rfl, rfl, rfl, rfl, rfl⟩
  unfold insertNew
  rw [lfu_place_freqList]
  rfl

theorem lfu_inv_init (C : Nat) : Inv C (init C) := by
  refine ⟨rfl, rfl, by simp [init, KMap.keys], by simp [init, KMap.size],
    by simp [init, KMap.keys], by simp [init, totalLen, KMap.size], ?_, ?_⟩
  · intro f b h; simp [init, KMap.find] at h
  · intro k
    refine ⟨?_, ?_⟩
    · intro f; simp [init, bucket, KMap.find]
    · intro f h; simp [init, KMap.find] at h

theorem lfu_inv_refresh (C : Nat) (s : LFUCache) (h : Inv C s) : Inv C (refresh s) := h

theorem lfu_inv_hitResult (C : Nat) (s : LFUCache) (f : Nat) (x : Int) (t : RW)
    (hI : Inv C s) (hx : s.keyFreq.find x = some f) : Inv C (hitResult s f x t) := by
  obtain ⟨h1, h2, h3, h4, h5, h6, h7, H⟩ := hI
  obtain ⟨f1, f2, f3, f4, _⟩ := lfu_hitResult_fields s f x t
  have hcx : (bucket s f).count x = 1 := by
    have := (H x).1 f
    simpa [hx] using this
  have hlen := ARCCache.arc_length_erase_add (bucket s f) x hcx
  refine ⟨by rw [f1]; exact h1, by rw [f2, f3, h2], by rw [f3]; exact KMap.nodup_insert _ _ _ h3,
    ?_, ?_, ?_, ?_, lfu_keyOK_hitResult s f x t hx H⟩
  · rw [f2, KMap.size_insert_of_some _ x _ f (by rw [h2]; exact h3) (by rw [h2]; exact hx)]
    exact h4
  · rw [f4]; exact lfu_nodup_setBucket _ _ _ (lfu_nodup_setBucket _ _ _ h5)
  · rw [f4, f2, KMap.size_insert_of_some _ x _ f (by rw [h2]; exact h3) (by rw [h2]; exact hx)]
    have t1 := lfu_totalLen_setBucket s.freqList f ((bucket s f).erase x) h5
    have t2 := lfu_totalLen_setBucket (setBucket s.freqList f ((bucket s f).erase x)) (f + 1)
      (x :: bucket s (f + 1)) (lfu_nodup_setBucket _ _ _ h5)
    have hne : ¬ f + 1 = f := by omega
    rw [lfu_getD_setBucket] at t2
    simp only [hne, if_false, List.length_cons] at t2
    have e1 : ((s.freqList.find f).getD []) = bucket s f := rfl
    have e2 : ((s.freqList.find (f + 1)).getD []) = bucket s (f + 1) := rfl
    rw [e1] at t1
    rw [e2] at t2
    omega
  · rw [f4]
    exact lfu_nonempty_setBucket _ _ _ (lfu_nonempty_setBucket _ _ _ h7)

theorem lfu_inv_insertNew (C : Nat) (s : LFUCache) (x : Int) (t : RW)
    (h1 : s.csize = C) (h2 : s.keyIterMap = s.keyFreq) (h3 : s.keyFreq.keys.Nodup)
    (h4 : s.keyIterMap.size + 1 ≤ C) (h5 : s.freqList.keys.Nodup)
    (h6 : totalLen s.freqList = s.keyIterMap.size)
    (h7 : ∀ f b, s.freqList.find f = some b → b ≠ []) (H : ∀ k, KeyOK s k)
    (hx : s.keyFreq.find x = none) : Inv C (insertNew s x t) := by
  obtain ⟨f1, f2, f3, f4, _⟩ := lfu_insertNew_fields s x t
  have hsz : (s.keyIterMap.insert x 1).size = s.keyIterMap.size + 1 :=
    KMap.size_insert_of_none _ x 1 (by rw [h2]; exact hx)
  refine ⟨by rw [f1]; exact h1, by rw [f2, f3, h2], by rw [f3]; exact KMap.nodup_insert _ _ _ h3,
    ?_, ?_, ?_, ?_, lfu_keyOK_insertNew s x t hx H⟩
  · rw [f2, hsz]; exact h4
  · rw [f4]; exact lfu_nodup_setBucket _ _ _ h5
  · rw [f4, f2, hsz]
    have t1 := lfu_totalLen_setBucket s.freqList 1 (x :: bucket s 1) h5
    have e1 : ((s.freqList.find 1).getD []) = bucket s 1 := rfl
    rw [e1] at t1
    simp only [List.length_cons] at t1
    omega
  · rw [f4]
    exact lfu_nonempty_setBucket _ _ _ h7

/-- The eviction block on a full consistent state: the facts needed to go on
with the insertion. -/
theorem lfu_evicted_facts (C : Nat) (s : LFUCache) (f : Nat) (b : List Int) (last : Int)
    (hI : Inv C s) (hm : s.freqList.minEntry = some (f, b)) (hl : b.getLast? = some last) :
    s.keyFreq.find last = some f ∧
    (evicted s f b last).csize = C ∧
    (evicted s f b last).keyIterMap = (evicted s f b last).keyFreq ∧
    (evicted s f b last).keyFreq.keys.Nodup ∧
    (evicted s f b last).keyIterMap.size + 1 = s.keyIterMap.size ∧
    (evicted s f b last).freqList.keys.Nodup ∧
    totalLen (evicted s f b last).freqList = (evicted s f b last).keyIterMap.size ∧
    (∀ f1 c, (evicted s f b last).freqList.find f1 = some c → c ≠ []) ∧
    (∀ k, KeyOK (evicted s f b last) k) := by
  obtain ⟨h1, h2, h3, h4, h5, h6, h7, H⟩ := hI
  have hf := (KMap.minEntry_spec _ f b hm).1
  have hb := lfu_bucket_of_find s f b hf
  have hc := count_of_getLast hl
  have hlast : s.keyFreq.find last = some f := by
    apply lfu_keyFreq_of_mem s f last (H last)
    rw [hb, hc last]; simp
  have hsz : (s.keyIterMap.erase last).size + 1 = s.keyIterMap.size :=
    KMap.size_erase_of_some _ last f (by rw [h2]; exact h3) (by rw [h2]; exact hlast)
  refine ⟨hlast, h1, ?_, KMap.nodup_erase _ _ h3, hsz, lfu_nodup_setBucket _ _ _ h5, ?_,
    lfu_nonempty_setBucket _ _ _ h7, lfu_keyOK_evicted s f b last hf hl H⟩
  · show s.keyIterMap.erase last = s.keyFreq.erase last
    rw [h2]
  · show totalLen (setBucket s.freqList f b.dropLast) = (s.keyIterMap.erase last).size
    have t1 := lfu_totalLen_setBucket s.freqList f b.dropLast h5
    have hlen := length_of_getLast hl
    rw [hf] at t1
    simp only [Option.getD_some] at t1
    omega

theorem lfu_refer_cases (C : Nat) (hC : 1 ≤ C) (s : LFUCache) (x : Int) (t : RW)
    (hI : Inv C s) : ∃ s1, refer s x t = some s1 ∧ ReferCase s x t s1 := by
  obtain ⟨h1, h2, h3, h4, h5, h6, h7, H⟩ := hI
  cases hx : s.keyFreq.find x with
  | some f =>
    have hcx : (bucket s f).count x = 1 := by
      have := (H x).1 f
      simpa [hx] using this
    refine ⟨_, lfu_refer_hit s f x t hx (by rw [h2]; exact hx)
      ((mem_iff_count _ _).2 (by omega)), Or.inl ⟨f, hx, rfl⟩⟩
  | none =>
    by_cases hfull : s.keyIterMap.size = s.csize
    · have hpos : 0 < s.keyFreq.length := by
        have : s.keyIterMap.size = s.keyFreq.length := by rw [h2]; rfl
        omega
      obtain ⟨f, b, hm⟩ : ∃ f b, s.freqList.minEntry = some (f, b) := by
        cases hme : s.freqList.minEntry with
        | some e => exact ⟨e.1, e.2, rfl⟩
        | none =>
          exfalso
          have hnil := (KMap.minEntry_eq_none _).1 hme
          cases hkf : s.keyFreq with
          | nil => rw [hkf] at hpos; simp at hpos
          | cons e r =>
            obtain ⟨k, fk⟩ := e
            have hk : s.keyFreq.find k = some fk := by rw [hkf]; exact KMap.find_cons_eq _ _ _
            have := (H k).1 fk
            simp [hk, bucket, hnil, KMap.find] at this
      have hf := (KMap.minEntry_spec _ f b hm).1
      have hne := h7 f b hf
      obtain ⟨last, hl⟩ : ∃ last, b.getLast? = some last := by
        cases hl : b.getLast? with
        | some l => exact ⟨l, rfl⟩
        | none => exact absurd (List.getLast?_eq_none_iff.1 hl) hne
      have hm2 : (called s).freqList.minEntry = some (f, b) := hm
      refine ⟨insertNew (evicted (called s) f b last) x t, ?_,
        Or.inr (Or.inr ⟨hx, hfull, f, b, last, hm, hl, rfl⟩)⟩
      rw [lfu_refer_miss s x t hx]
      simp only [hfull, if_true, lfu_evict_eq (called s) f b last hm2 hl, Option.map_some']
    · refine ⟨insertNew (called s) x t, ?_, Or.inr (Or.inl ⟨hx, hfull, rfl⟩)⟩
      rw [lfu_refer_miss s x t hx]
      simp only [hfull, if_false, Option.map_some']

theorem lfu_inv_called (C : Nat) (s : LFUCache) (h : Inv C s) : Inv C (called s) := h

theorem lfu_referCase_inv (C : Nat) (s s1 : LFUCache) (x : Int) (t : RW) (hI : Inv C s)
    (h : ReferCase s x t s1) : Inv C s1 := by
  rcases h with ⟨f, hx, rfl⟩ | ⟨hx, hnf, rfl⟩ | ⟨hx, hfull, f, b, last, hm, hl, rfl⟩
  · exact lfu_inv_hitResult C s f x t hI hx
  · obtain ⟨h1, h2, h3, h4, h5, h6, h7, H⟩ := hI
    refine lfu_inv_insertNew C (called s) x t h1 h2 h3 ?_ h5 h6 h7 H hx
    have : (called s).keyIterMap.size = s.keyIterMap.size := rfl
    rw [this]; omega
  · obtain ⟨e0, e1, e2, e3, e4, e5, e6, e7, e8⟩ :=
      lfu_evicted_facts C (called s) f b last (lfu_inv_called C s hI) hm hl
    obtain ⟨h1, h2, h3, h4, h5, h6, h7, H⟩ := hI
    refine lfu_inv_insertNew C _ x t e1 e2 e3 ?_ e5 e6 e7 e8 ?_
    · have : (called s).keyIterMap.size = s.keyIterMap.size := rfl
      rw [this] at e4; omega
    · show (s.keyFreq.erase last).find x = none
      rw [KMap.find_erase]
      split_ifs
      · rfl
      · exact hx

theorem lfu_refer_inv (C : Nat) (hC : 1 ≤ C) (s s1 : LFUCache) (x : Int) (t : RW)
    (hI : Inv C s) (h : refer s x t = some s1) : Inv C s1 := by
  obtain ⟨s2, h2, hc⟩ := lfu_refer_cases C hC s x t hI
  rw [h2] at h
  have e : s2 = s1 := Option.some.inj h
  subst e
  exact lfu_referCase_inv C s _ x t hI hc

theorem lfu_refer_referCase (C : Nat) (hC : 1 ≤ C) (s s1 : LFUCache) (x : Int) (t : RW)
    (hI : Inv C s) (h : refer s x t = some s1) : ReferCase s x t s1 := by
  obtain ⟨s2, h2, hc⟩ := lfu_refer_cases C hC s x t hI
  rw [h2] at h
  have e : s2 = s1 := Option.some.inj h
  subst e
  exact hc

theorem lfu_reachable_inv (C : Nat) (hC : 1 ≤ C) (s : LFUCache)
    (h : engine.Reachable C s) : Inv C s :=
  Engine.reachable_invariant engine C (Inv C) (lfu_inv_init C)
    (fun s x t s1 hI hr => lfu_refer_inv C hC s s1 x t hI hr)
    (fun s hI => lfu_inv_refresh C s hI) h

/-! ### Residency, counters and dirty flags across one call -/

theorem lfu_isResident_iff (s : LFUCache) (k : Int) :
    engine.isResident s k = true ↔ 0 < resCount s k := by
  simp only [engine, resCount]
  cases s.keyFreq.find k <;> simp

theorem lfu_resCount_le_one (s : LFUCache) (k : Int) : resCount s k ≤ 1 := by
  simp only [resCount]; split_ifs <;> omega

theorem lfu_resCount_eq_zero (s : LFUCache) (k : Int) :
    resCount s k = 0 ↔ s.keyFreq.find k = none := by
  simp only [resCount]
  cases s.keyFreq.find k <;> simp

theorem lfu_resCount_pos (s : LFUCache) (k : Int) :
    0 < resCount s k ↔ ∃ f, s.keyFreq.find k = some f := by
  simp only [resCount]
  cases s.keyFreq.find k <;> simp

theorem lfu_referCase_counters (C : Nat) (s s1 : LFUCache) (x : Int) (t : RW) (hI : Inv C s)
    (h : ReferCase s x t s1) :
    s1.calls = s.calls + 1 ∧ s1.csize = s.csize ∧ 0 < resCount s1 x ∧
    ((0 < resCount s x ∧ s1.hits = s.hits + 1 ∧
        s1.readHits = s.readHits + (if t = RW.Read then 1 else 0) ∧
        s1.writeHits = s.writeHits + (if t = RW.Read then 0 else 1) ∧
        resident s1 = resident s) ∨
     (resCount s x = 0 ∧ s1.hits = s.hits ∧ s1.readHits = s.readHits ∧
        s1.writeHits = s.writeHits)) := by
  obtain ⟨h1, h2, h3, h4, h5, h6, h7, H⟩ := hI
  rcases h with ⟨f, hx, rfl⟩ | ⟨hx, hnf, rfl⟩ | ⟨hx, hfull, f, b, last, hm, hl, rfl⟩
  · obtain ⟨f1, f2, f3, f4, f5, f6, f7, f8, _⟩ := lfu_hitResult_fields s f x t
    refine ⟨f5, f1, ?_, Or.inl ⟨?_, f6, f7, f8, ?_⟩⟩
    · rw [lfu_resCount_pos, f3]; exact ⟨f + 1, KMap.find_insert_self _ _ _⟩
    · rw [lfu_resCount_pos]; exact ⟨f, hx⟩
    · simp only [resident]
      rw [f2, KMap.size_insert_of_some _ x _ f (by rw [h2]; exact h3) (by rw [h2]; exact hx)]
  · obtain ⟨f1, f2, f3, f4, f5, f6, f7, f8, _⟩ := lfu_insertNew_fields (called s) x t
    refine ⟨by rw [f5]; rfl, by rw [f1]; rfl, ?_, Or.inr ⟨?_, by rw [f6]; rfl,
      by rw [f7]; rfl, by rw [f8]; rfl⟩⟩
    · rw [lfu_resCount_pos, f3]; exact ⟨1, KMap.find_insert_self _ _ _⟩
    · rw [lfu_resCount_eq_zero]; exact hx
  · obtain ⟨f1, f2, f3, f4, f5, f6, f7, f8, _⟩ :=
      lfu_insertNew_fields (evicted (called s) f b last) x t
    refine ⟨by rw [f5]; rfl, by rw [f1]; rfl, ?_, Or.inr ⟨?_, by rw [f6]; rfl,
      by rw [f7]; rfl, by rw [f8]; rfl⟩⟩
    · rw [lfu_resCount_pos, f3]; exact ⟨1, KMap.find_insert_self _ _ _⟩
    · rw [lfu_resCount_eq_zero]; exact hx

theorem lfu_resCount_insert (m : KMap Int Nat) (x k : Int) (v : Nat) :
    (if ((m.insert x v).find k).isSome then 1 else 0) =
      if k = x then 1 else (if (m.find k).isSome then 1 else 0) := by
  rw [KMap.find_insert]
  by_cases hk : k = x
  · simp [hk]
  · simp [hk]

theorem lfu_referCase_countStep (C : Nat) (s s1 : LFUCache) (x : Int) (t : RW) (hI : Inv C s)
    (h : ReferCase s x t s1) :
    ∃ ev, Engine.CountStep resCount isDirty (fun s => s.evictedDirtyPage) s s1 x t ev := by
  rcases h with ⟨f, hx, rfl⟩ | ⟨hx, hnf, rfl⟩ | ⟨hx, hfull, f, b, last, hm, hl, rfl⟩
  · obtain ⟨f1, f2, f3, f4, f5, f6, f7, f8, f9, f10, _⟩ := lfu_hitResult_fields s f x t
    have hx1 : resCount s x = 1 := by simp [resCount, hx]
    refine ⟨none, ?_, by simp, ?_, ?_⟩
    · intro k
      simp only [resCount, f3, lfu_resCount_insert] at hx1 ⊢
      by_cases hk : k = x
      · subst hk; simp [hx]
      · simp [hk]
    · exact f9
    · intro k _
      simp only [isDirty, f10]
      by_cases hk : k = x
      · subst hk
        cases t <;> simp [hx1, KMap.find_insert_self]
      · cases t <;> simp [hk, KMap.find_insert_ne _ _ hk]
  · obtain ⟨f1, f2, f3, f4, f5, f6, f7, f8, f9, f10, _⟩ := lfu_insertNew_fields (called s) x t
    have hx0 : resCount s x = 0 := (lfu_resCount_eq_zero s x).2 hx
    refine ⟨none, ?_, by simp, ?_, ?_⟩
    · intro k
      simp only [resCount, f3, lfu_resCount_insert] at hx0 ⊢
      by_cases hk : k = x
      · subst hk; simp [hx, called]
      · simp [hk, called]
    · exact f9
    · intro k _
      simp only [isDirty, f10]
      by_cases hk : k = x
      · subst hk
        cases t <;> simp [hx0, KMap.find_insert_self]
      · simp [hk, KMap.find_insert_ne _ _ hk, called]
  · obtain ⟨f1, f2, f3, f4, f5, f6, f7, f8, f9, f10, _⟩ :=
      lfu_insertNew_fields (evicted (called s) f b last) x t
    obtain ⟨e0, _⟩ := lfu_evicted_facts C (called s) f b last (lfu_inv_called C s hI) hm hl
    have e0s : s.keyFreq.find last = some f := e0
    have hx0 : resCount s x = 0 := (lfu_resCount_eq_zero s x).2 hx
    have hlx : last ≠ x := by
      intro e; subst e; rw [hx] at e0s; cases e0s
    have hkf : (evicted (called s) f b last).keyFreq = s.keyFreq.erase last := rfl
    have hat : (evicted (called s) f b last).accessType = s.accessType.erase last := rfl
    refine ⟨some last, ?_, ?_, ?_, ?_⟩
    · intro k
      simp only [resCount, f3, lfu_resCount_insert, hkf, KMap.find_erase, Option.some.injEq]
        at hx0 ⊢
      by_cases hk : k = x
      · subst hk
        have h1 : ¬ last = k := hlx
        simp [hx, h1]
      · by_cases hk2 : k = last
        · subst hk2; simp [hk, e0s]
        · have h2 : ¬ last = k := fun e => hk2 e.symm
          simp [hk, hk2, h2]
    · intro w hw
      simp only [Option.some.injEq] at hw
      subst hw
      exact ⟨by simp [resCount, e0s], hlx⟩
    · show (insertNew (evicted (called s) f b last) x t).evictedDirtyPage = _
      rw [f9]
      simp only [evicted, called, isDirty, decide_eq_true_eq]
      split_ifs <;> rfl
    · intro k hk0
      simp only [isDirty, f10, hat]
      by_cases hk : k = x
      · subst hk
        cases t <;> simp [hx0, KMap.find_insert_self]
      · have hkl : k ≠ last := by
          intro e
          subst e
          simp only [resCount, f3, lfu_resCount_insert, hkf, KMap.find_erase, hk, if_false,
            if_true] at hk0
          simp at hk0
        simp [hk, KMap.find_insert_ne _ _ hk, KMap.find_erase_ne _ hkl]

/-! ### Buckets are ordered by the time of the last reference -/

theorem lfu_pairwise_note (g : Ghost) (w : Bool) (x : Int) (t : RW) (l : List Int)
    (h : l.Pairwise (fun a b => g.lastTime b < g.lastTime a)) (hx : x ∉ l) :
    l.Pairwise (fun a b => (g.note w x t).lastTime b < (g.note w x t).lastTime a) := by
  refine List.Pairwise.imp_of_mem ?_ h
  intro a b ha hb hab
  have h1 : a ≠ x := fun e => hx (e ▸ ha)
  have h2 : b ≠ x := fun e => hx (e ▸ hb)
  simpa [Ghost.note, h1, h2] using hab

theorem lfu_pairwise_note_cons (g : Ghost) (w : Bool) (x : Int) (t : RW) (l : List Int)
    (h : l.Pairwise (fun a b => g.lastTime b < g.lastTime a)) (hx : x ∉ l)
    (hnow : ∀ k, g.lastTime k ≤ g.now) :
    (x :: l).Pairwise
      (fun a b => (g.note w x t).lastTime b < (g.note w x t).lastTime a) := by
  rw [List.pairwise_cons]
  refine ⟨?_, lfu_pairwise_note g w x t l h hx⟩
  intro a ha
  have h1 : a ≠ x := fun e => hx (e ▸ ha)
  have := hnow a
  simp only [Ghost.note, h1, if_false, if_true]
  omega

/-- How one call changes a bucket: keys may leave it, and `x` may be put on
its front. -/
theorem lfu_referCase_bucket (C : Nat) (s s1 : LFUCache) (x : Int) (t : RW) (hI : Inv C s)
    (h : ReferCase s x t s1) (f1 : Nat) :
    ∃ l, l.Sublist (bucket s f1) ∧ x ∉ l ∧ (bucket s1 f1 = l ∨ bucket s1 f1 = x :: l) := by
  obtain ⟨h1, h2, h3, h4, h5, h6, h7, H⟩ := hI
  have hcnt := (H x).1
  rcases h with ⟨f, hx, rfl⟩ | ⟨hx, hnf, rfl⟩ | ⟨hx, hfull, f, b, last, hm, hl, rfl⟩
  · rw [lfu_bucket_hitResult]
    have hne : ¬ f = f + 1 := by omega
    by_cases e1 : f1 = f + 1
    · subst e1
      refine ⟨bucket s (f + 1), List.Sublist.refl _, ?_, Or.inr (by simp)⟩
      have := hcnt (f + 1)
      simp only [hx, Option.some.injEq, hne, if_false] at this
      exact List.count_eq_zero.1 this
    · by_cases e2 : f1 = f
      · subst e2
        refine ⟨(bucket s f1).erase x, List.erase_sublist _ _, ?_, Or.inl (by simp [e1])⟩
        have := hcnt f1
        have e := count_erase_eq (bucket s f1) x x
        simp only [hx, if_true] at this e
        exact List.count_eq_zero.1 (by omega)
      · refine ⟨bucket s f1, List.Sublist.refl _, ?_, Or.inl (by simp [e1, e2])⟩
        have := hcnt f1
        have h3 : ¬ f = f1 := fun e => e2 e.symm
        simp only [hx, Option.some.injEq, h3, if_false] at this
        exact List.count_eq_zero.1 this
  · rw [lfu_bucket_insertNew]
    have hx0 : ∀ f2, x ∉ bucket s f2 := by
      intro f2
      have := hcnt f2
      simp only [hx, reduceCtorEq, if_false] at this
      exact List.count_eq_zero.1 this
    have hb : ∀ f2, bucket (called s) f2 = bucket s f2 := fun _ => rfl
    by_cases e1 : f1 = 1
    · subst e1
      exact ⟨bucket s 1, List.Sublist.refl _, hx0 1, Or.inr (by simp [hb])⟩
    · exact ⟨bucket s f1, List.Sublist.refl _, hx0 f1, Or.inl (by simp [e1, hb])⟩
  · rw [lfu_bucket_insertNew]
    have hx0 : ∀ f2, x ∉ bucket s f2 := by
      intro f2
      have := hcnt f2
      simp only [hx, reduceCtorEq, if_false] at this
      exact List.count_eq_zero.1 this
    have hf := (KMap.minEntry_spec _ f b hm).1
    have hbb := lfu_bucket_of_find s f b hf
    have hb : ∀ f2, bucket (evicted (called s) f b last) f2 =
        if f2 = f then b.dropLast else bucket s f2 := by
      intro f2; rw [lfu_bucket_evicted]; rfl
    have hsub : ∀ f2, (bucket (evicted (called s) f b last) f2).Sublist (bucket s f2) := by
      intro f2
      rw [hb]
      by_cases e : f2 = f
      · subst e
        simp only [if_true, hbb]
        exact List.dropLast_sublist _
      · simp only [e, if_false]
        exact List.Sublist.refl _
    have hx1 : ∀ f2, x ∉ bucket (evicted (called s) f b last) f2 :=
      fun f2 hmem => hx0 f2 ((hsub f2).subset hmem)
    by_cases e1 : f1 = 1
    · subst e1
      exact ⟨_, hsub 1, hx1 1, Or.inr (by simp)⟩
    · exact ⟨_, hsub f1, hx1 f1, Or.inl (by simp [e1])⟩

theorem lfu_timeOK_step (C : Nat) (s s1 : LFUCache) (g : Ghost) (w : Bool) (x : Int) (t : RW)
    (hI : Inv C s) (hT : TimeOK s g) (h : ReferCase s x t s1) :
    TimeOK s1 (g.note w x t) := by
  refine ⟨?_, ?_⟩
  · intro f1
    obtain ⟨l, hsub, hxl, hb | hb⟩ := lfu_referCase_bucket C s s1 x t hI h f1
    · rw [hb]
      exact lfu_pairwise_note g w x t l ((hT.1 f1).sublist hsub) hxl
    · rw [hb]
      exact lfu_pairwise_note_cons g w x t l ((hT.1 f1).sublist hsub) hxl hT.2
  · intro k
    have := hT.2 k
    simp only [Ghost.note]
    split_ifs <;> omega

theorem lfu_timeOK_init (C : Nat) : TimeOK (init C) Ghost.start := by
  refine ⟨?_, ?_⟩
  · intro f; simp [init, bucket, KMap.find]
  · intro k; simp [Ghost.start]

theorem lfu_traced_inv (C : Nat) (hC : 1 ≤ C) (s : LFUCache) (g : Ghost)
    (h : engine.Traced C s g) : Inv C s ∧ TimeOK s g :=
  Engine.traced_invariant engine C (fun s g => Inv C s ∧ TimeOK s g)
    ⟨lfu_inv_init C, lfu_timeOK_init C⟩
    (fun s g x t s1 hP hr =>
      ⟨lfu_refer_inv C hC s s1 x t hP.1 hr,
       lfu_timeOK_step C s s1 g _ x t hP.1 hP.2 (lfu_refer_referCase C hC s s1 x t hP.1 hr)⟩)
    (fun s _ hP => ⟨lfu_inv_refresh C s hP.1, hP.2⟩) h

end LFUCache


/-! ## Engine D: structural lemmas -/

namespace LIRSCache

theorem lirs_erase_erase (m : KMap Int Unit) (x : Int) : (m.erase x).erase x = m.erase x :=
  KMap.size_erase_of_none _ _ (KMap.find_erase_self m x)

theorem lirs_touchStack_eq (s : LIRSCache) (x : Int) (h : StackOK s x) :
    touchStack { s with calls := s.calls + 1 } x = some (touched s x) := by
  obtain ⟨_, h2⟩ := h
  by_cases hx : x ∈ s.R
  · simp only [hx, if_true] at h2
    simp [touchStack, KMap.count, h2, eraseIter, hx, touched, KMap.insert, lirs_erase_erase]
  · simp only [hx, if_false] at h2
    simp [touchStack, KMap.count, h2, touched, List.erase_of_not_mem hx]

theorem lirs_stackOK_touched (s : LIRSCache) (x : Int) (H : ∀ k, StackOK s k) (k : Int) :
    StackOK (touched s x) k := by
  obtain ⟨h1, h2⟩ := H k
  have e1 := count_cons_eq (s.R.erase x) x k
  have e2 := count_erase_eq s.R x k
  have hx := (H x).1
  simp only [StackOK, touched, mem_iff_count, KMap.find_insert] at h2 ⊢
  by_cases hk : k = x
  · subst hk
    simp only [if_true] at e1 e2 ⊢
    refine ⟨by omega, ?_⟩
    have : 0 < List.count k (k :: s.R.erase k) := by omega
    simp [this]
  · simp only [hk, if_false, Nat.add_zero, Nat.sub_zero] at e1 e2 ⊢
    rw [e1, e2]
    exact ⟨h1, h2⟩

theorem lirs_mem_touched (s : LIRSCache) (x k : Int) (h : k ∈ (touched s x).R) :
    k = x ∨ k ∈ s.R := by
  simp only [touched, List.mem_cons] at h
  rcases h with h | h
  · exact Or.inl h
  · exact Or.inr (List.mem_of_mem_erase h)

/-! ### `prune_stack` -/

theorem lirs_prune_loop_spec (n : Nat) (s : LIRSCache)
    (hst : ∀ k, k ∈ s.R → (s.key_status_map.find k).isSome = true)
    (H : ∀ k, StackOK s k) :
    ∃ s1, prune_loop n s = some s1 ∧ SameButStack s s1 ∧ s1.R.Sublist s.R ∧
      ∀ k, StackOK s1 k := by
  induction n generalizing s with
  | zero => exact ⟨s, rfl, rfl, List.Sublist.refl _, H⟩
  | succ n ih =>
    unfold prune_loop
    cases hl : s.R.getLast? with
    | none => exact ⟨s, rfl, rfl, List.Sublist.refl _, H⟩
    | some key =>
      have hmem : key ∈ s.R := List.mem_of_mem_getLast? (by simp [hl])
      have hsome := hst key hmem
      dsimp only
      cases hs : s.key_status_map.find key with
      | none => rw [hs] at hsome; cases hsome
      | some st =>
        dsimp only
        by_cases hlir : st = Status.LIR
        · simp only [hlir, if_true]
          exact ⟨s, rfl, rfl, List.Sublist.refl _, H⟩
        · simp only [hlir, if_false]
          have hc := count_of_getLast hl
          have hsub : s.R.dropLast.Sublist s.R := List.dropLast_sublist _
          obtain ⟨s1, r1, r2, r3, r4⟩ :=
            ih { s with R := s.R.dropLast, R_map := s.R_map.erase key }
              (fun k hk => hst k (hsub.subset hk))
              (by
                intro k
                obtain ⟨h1, h2⟩ := H k
                have := hc k
                simp only [StackOK, mem_iff_count, KMap.find_erase] at h2 ⊢
                by_cases hk : k = key
                · subst hk
                  simp only [if_true] at this ⊢
                  have h0 : List.count k s.R.dropLast = 0 := by omega
                  simp [h0]
                · simp only [hk, if_false, Nat.add_zero] at this ⊢
                  rw [← this]
                  exact ⟨h1, h2⟩)
          refine ⟨s1, r1, ?_, r3.trans hsub, r4⟩
          unfold SameButStack at r2 ⊢
          rw [r2]

theorem lirs_prune_stack_spec (s : LIRSCache)
    (hst : ∀ k, k ∈ s.R → (s.key_status_map.find k).isSome = true)
    (H : ∀ k, StackOK s k) :
    ∃ s1, prune_stack s = some s1 ∧ SameButStack s s1 ∧ s1.R.Sublist s.R ∧
      ∀ k, StackOK s1 k :=
  lirs_prune_loop_spec _ s hst H

/-! ### The branches of `refer` -/

theorem lirs_finalPrune_eq (s : LIRSCache) (x : Int) (h : s.HIR_nonresident_list = []) :
    finalPrune s x = if x = 0 then none else some s := by
  simp only [finalPrune, h]

theorem lirs_finalPrune_id (s : LIRSCache) (x : Int) (h : s.HIR_nonresident_list = [])
    (hx : x ≠ 0) : finalPrune s x = some s := by
  rw [lirs_finalPrune_eq s x h, if_neg hx]

theorem lirs_finalPrune_zero (s : LIRSCache) (h : s.HIR_nonresident_list = []) :
    finalPrune s 0 = none := by
  rw [lirs_finalPrune_eq s 0 h, if_pos rfl]

theorem lirs_referMiss_eq (s : LIRSCache) (x : Int) (t : RW) (h : s.HIR_nonresident_list = []) :
    referMiss s x t = inserted s x t := by
  have he : evict_HIR_block s = s := by simp [evict_HIR_block, h]
  simp only [referMiss, he, ite_self, inserted]

theorem lirs_refer_unfold (s : LIRSCache) (x : Int) (t : RW) (h : StackOK s x) :
    refer s x t =
      (if (touched s x).resident_map.count x = true then referHit (touched s x) x t
       else some (referMiss (touched s x) x t)).bind (fun m => finalPrune m x) := by
  unfold refer
  simp only [lirs_touchStack_eq s x h, Option.some_bind]

theorem lirs_sameButStack_fields (s s1 : LIRSCache) (h : SameButStack s s1) :
    s1.csize = s.csize ∧ s1.lir_size = s.lir_size ∧ s1.resident_map = s.resident_map ∧
    s1.LIR_set = s.LIR_set ∧ s1.HIR_nonresident_list = s.HIR_nonresident_list ∧
    s1.key_status_map = s.key_status_map ∧ s1.accessType = s.accessType ∧
    s1.calls = s.calls ∧ s1.hits = s.hits ∧ s1.readHits = s.readHits ∧
    s1.writeHits = s.writeHits ∧ s1.evictedDirtyPage = s.evictedDirtyPage ∧
    s1.migration = s.migration := by
  unfold SameButStack at h
  refine ⟨?_, ?_, ?_, ?_, ?_, ?_, ?_, ?_, ?_, ?_, ?_, ?_, ?_⟩ <;> (rw [h])

/-- The resident-hit branch returns, and its result differs from the counted
state, possibly promoted, in the stack only. -/
theorem lirs_referHit_spec (m : LIRSCache) (x : Int) (t : RW)
    (hst : ∀ k, k ∈ m.R → (m.key_status_map.find k).isSome = true)
    (H : ∀ k, StackOK m k) (hx : (m.key_status_map.find x).isSome = true) :
    ∃ s1 base, referHit m x t = some s1 ∧
      (base = hitCounted m x t ∨ base = promoted (hitCounted m x t) x) ∧
      SameButStack base s1 ∧ s1.R.Sublist m.R ∧ ∀ k, StackOK s1 k := by
  have hst1 : ∀ k, k ∈ (hitCounted m x t).R →
      ((hitCounted m x t).key_status_map.find k).isSome = true := hst
  have H1 : ∀ k, StackOK (hitCounted m x t) k := H
  have hst2 : ∀ k, k ∈ (promoted (hitCounted m x t) x).R →
      ((promoted (hitCounted m x t) x).key_status_map.find k).isSome = true := by
    intro k hk
    have := hst k hk
    simp only [promoted, hitCounted, KMap.find_insert]
    split_ifs
    · rfl
    · exact this
  have H2 : ∀ k, StackOK (promoted (hitCounted m x t) x) k := H
  cases hs : m.key_status_map.find x with
  | none => rw [hs] at hx; cases hx
  | some st =>
    by_cases h1 : st = Status.LIR
    · have e : referHit m x t = prune_stack (hitCounted m x t) := by
        cases t <;> simp [referHit, hitCounted, hs, h1]
      rw [e]
      obtain ⟨s1, r1, r2, r3, r4⟩ := lirs_prune_stack_spec _ hst1 H1
      exact ⟨s1, _, r1, Or.inl rfl, r2, r3, r4⟩
    · by_cases h2 : st = Status.RESIDENT_HIR
      · by_cases h3 : (m.LIR_set.length : Int) < m.lir_size
        · have e : referHit m x t = prune_stack (promoted (hitCounted m x t) x) := by
            cases t <;> simp [referHit, hitCounted, promoted, hs, h2, h3]
          rw [e]
          obtain ⟨s1, r1, r2, r3, r4⟩ := lirs_prune_stack_spec _ hst2 H2
          exact ⟨s1, _, r1, Or.inr rfl, r2, r3, r4⟩
        · have e : referHit m x t = some (hitCounted m x t) := by
            cases t <;> simp [referHit, hitCounted, hs, h2, h3]
          rw [e]
          exact ⟨_, _, rfl, Or.inl rfl, rfl, List.Sublist.refl _, H1⟩
      · have e : referHit m x t = some (hitCounted m x t) := by
          cases t <;> simp [referHit, hitCounted, hs, h1, h2]
        rw [e]
        exact ⟨_, _, rfl, Or.inl rfl, rfl, List.Sublist.refl _, H1⟩

/-! ### The step theorem -/

/-- On a consistent state `refer` reaches its last step with a consistent
state `s1` and returns it, unless the key is 0, when the last step is
undefined; the call is a hit exactly when the key is in `resident_map`, a hit
leaves `resident_map` unchanged and a miss adds the key to it. -/
theorem lirs_refer_pre (C : Nat) (s : LIRSCache) (x : Int) (t : RW) (hI : Inv C s) :
    ∃ s1, refer s x t = (if x = 0 then none else some s1) ∧ Inv C s1 ∧
      s1.calls = s.calls + 1 ∧
      s1.resident_map.count x = true ∧ s1.evictedDirtyPage = s.evictedDirtyPage ∧
      ((s.resident_map.count x = true ∧ s1.hits = s.hits + 1 ∧
          s1.readHits = s.readHits + (if t = RW.Read then 1 else 0) ∧
          s1.writeHits = s.writeHits + (if t = RW.Read then 0 else 1) ∧
          s1.resident_map = s.resident_map) ∨
       (s.resident_map.count x = false ∧ s1.hits = s.hits ∧
          s1.readHits = s.readHits ∧ s1.writeHits = s.writeHits ∧
          s1.resident_map = s.resident_map.insert x true)) := by
  obtain ⟨h1, h2, H, hst, hrs⟩ := hI
  have Ht := lirs_stackOK_touched s x H
  rw [lirs_refer_unfold s x t (H x)]
  have hrm : (touched s x).resident_map = s.resident_map := rfl
  have hksm : (touched s x).key_status_map = s.key_status_map := rfl
  by_cases hres : s.resident_map.count x = true
  · have hres2 : (touched s x).resident_map.count x = true := hres
    rw [if_pos hres2]
    have hstt : ∀ k, k ∈ (touched s x).R →
        ((touched s x).key_status_map.find k).isSome = true := by
      intro k hk
      rcases lirs_mem_touched s x k hk with e | e
      · subst e; exact hrs k hres
      · exact hst k e
    obtain ⟨s1, base, r1, rb, r2, r3, r4⟩ :=
      lirs_referHit_spec (touched s x) x t hstt Ht (hrs x hres)
    obtain ⟨f1, f2, f3, f4, f5, f6, f7, f8, f9, f10, f11, f12, f13⟩ :=
      lirs_sameButStack_fields base s1 r2
    have hbase : base.csize = s.csize ∧ base.HIR_nonresident_list = s.HIR_nonresident_list ∧
        base.resident_map = s.resident_map ∧ base.calls = s.calls + 1 ∧
        base.hits = s.hits + 1 ∧
        base.readHits = s.readHits + (if t = RW.Read then 1 else 0) ∧
        base.writeHits = s.writeHits + (if t = RW.Read then 0 else 1) ∧
        base.evictedDirtyPage = s.evictedDirtyPage ∧
        (∀ k, (s.key_status_map.find k).isSome = true →
          (base.key_status_map.find k).isSome = true) := by
      rcases rb with rfl | rfl
      · refine ⟨rfl, rfl, rfl, rfl, rfl, ?_, ?_, rfl, fun k hk => hk⟩
        · cases t <;> simp [hitCounted, touched]
        · cases t <;> simp [hitCounted, touched]
      · refine ⟨rfl, rfl, rfl, rfl, rfl, ?_, ?_, rfl, ?_⟩
        · cases t <;> simp [hitCounted, touched, promoted]
        · cases t <;> simp [hitCounted, touched, promoted]
        · intro k hk
          simp only [promoted, hitCounted, touched, KMap.find_insert]
          split_ifs
          · rfl
          · exact hk
    obtain ⟨b1, b2, b3, b4, b5, b6, b7, b8, b9⟩ := hbase
    have hHIR : s1.HIR_nonresident_list = [] := by rw [f5, b2, h2]
    refine ⟨s1, ?_, ?_, by rw [f8, b4], by rw [f3, b3]; exact hres, by rw [f12, b8],
      Or.inl ⟨hres, by rw [f9, b5], by rw [f10, b6], by rw [f11, b7], by rw [f3, b3]⟩⟩
    · rw [r1]
      simp only [Option.some_bind, lirs_finalPrune_eq s1 x hHIR]
    · refine ⟨by rw [f1, b1, h1], hHIR, r4, ?_, ?_⟩
      · intro k hk
        rw [f6]
        apply b9
        rcases lirs_mem_touched s x k (r3.subset hk) with e | e
        · subst e; exact hrs k hres
        · exact hst k e
      · intro k hk
        rw [f6]
        apply b9
        rw [f3, b3] at hk
        exact hrs k hk
  · have hres2 : ¬ (touched s x).resident_map.count x = true := hres
    have hHIR : (touched s x).HIR_nonresident_list = [] := h2
    rw [if_neg hres2]
    have hH2 : (inserted (touched s x) x t).HIR_nonresident_list = [] := h2
    rw [lirs_referMiss_eq (touched s x) x t hHIR, Option.some_bind,
      lirs_finalPrune_eq _ x hH2]
    refine ⟨_, rfl, ?_, rfl, ?_, rfl, Or.inr ⟨by simpa using hres, rfl, rfl, rfl, rfl⟩⟩
    · refine ⟨h1, h2, Ht, ?_, ?_⟩
      · intro k hk
        show (((touched s x).key_status_map.insert x Status.RESIDENT_HIR).find k).isSome
          = true
        rw [KMap.find_insert]
        split_ifs with e
        · rfl
        · rcases lirs_mem_touched s x k hk with e1 | e1
          · exact absurd e1 e
          · exact hst k e1
      · intro k hk
        show (((touched s x).key_status_map.insert x Status.RESIDENT_HIR).find k).isSome
          = true
        rw [KMap.find_insert]
        split_ifs with e
        · rfl
        · apply hrs k
          have hk2 : ((s.resident_map.insert x true).find k).isSome = true := hk
          rw [KMap.find_insert_ne _ _ e] at hk2
          exact hk2
    · show ((s.resident_map.insert x true).find x).isSome = true
      rw [KMap.find_insert_self]; rfl

/-- On a consistent state `refer` with a key other than 0 returns a consistent
state; the call is a hit exactly when the key is in `resident_map`, a hit
leaves `resident_map` unchanged and a miss adds the key to it. -/
theorem lirs_refer_spec (C : Nat) (s : LIRSCache) (x : Int) (t : RW) (hI : Inv C s)
    (hx : x ≠ 0) :
    ∃ s1, refer s x t = some s1 ∧ Inv C s1 ∧ s1.calls = s.calls + 1 ∧
      s1.resident_map.count x = true ∧ s1.evictedDirtyPage = s.evictedDirtyPage ∧
      ((s.resident_map.count x = true ∧ s1.hits = s.hits + 1 ∧
          s1.readHits = s.readHits + (if t = RW.Read then 1 else 0) ∧
          s1.writeHits = s.writeHits + (if t = RW.Read then 0 else 1) ∧
          s1.resident_map = s.resident_map) ∨
       (s.resident_map.count x = false ∧ s1.hits = s.hits ∧
          s1.readHits = s.readHits ∧ s1.writeHits = s.writeHits ∧
          s1.resident_map = s.resident_map.insert x true)) := by
  obtain ⟨s1, h1, h2⟩ := lirs_refer_pre C s x t hI
  rw [if_neg hx] at h1
  exact ⟨s1, h1, h2⟩

/-- On a consistent state `refer` with the key 0 does not return: its last
step pops the front of the empty history list. -/
theorem lirs_refer_zero (C : Nat) (s : LIRSCache) (t : RW) (hI : Inv C s) :
    refer s 0 t = none := by
  obtain ⟨s1, h1, _⟩ := lirs_refer_pre C s 0 t hI
  rw [h1, if_pos rfl]

/-- A call of `refer` that returns on a consistent state has a key other
than 0. -/
theorem lirs_refer_key (C : Nat) (s s1 : LIRSCache) (x : Int) (t : RW) (hI : Inv C s)
    (h : refer s x t = some s1) : x ≠ 0 := by
  intro e
  subst e
  rw [lirs_refer_zero C s t hI] at h
  cases h

/-- On a consistent state `refer` returns exactly when its key is not 0. -/
theorem lirs_refer_returns (C : Nat) (s : LIRSCache) (x : Int) (t : RW) (hI : Inv C s) :
    (∃ s1, refer s x t = some s1) ↔ x ≠ 0 := by
  constructor
  · rintro ⟨s1, h1⟩
    exact lirs_refer_key C s s1 x t hI h1
  · intro hx
    obtain ⟨s1, h1, _⟩ := lirs_refer_spec C s x t hI hx
    exact ⟨s1, h1⟩

theorem lirs_inv_init (C : Nat) : Inv C (init C) := by
  refine ⟨rfl, rfl, ?_, ?_, ?_⟩
  · intro k; simp [StackOK, init, KMap.find]
  · intro k hk; simp [init] at hk
  · intro k hk; simp [init, KMap.count, KMap.find] at hk

theorem lirs_inv_refresh (C : Nat) (s : LIRSCache) (h : Inv C s) : Inv C (refresh s) := h

theorem lirs_refer_inv (C : Nat) (s s1 : LIRSCache) (x : Int) (t : RW)
    (hI : Inv C s) (h : refer s x t = some s1) : Inv C s1 := by
  obtain ⟨s2, h2, hc, _⟩ := lirs_refer_spec C s x t hI (lirs_refer_key C s s1 x t hI h)
  rw [h2] at h
  have e : s2 = s1 := Option.some.inj h
  subst e
  exact hc

theorem lirs_reachable_inv (C : Nat) (s : LIRSCache) (h : engine.Reachable C s) : Inv C s :=
  Engine.reachable_invariant engine C (Inv C) (lirs_inv_init C)
    (fun s x t s1 hI hr => lirs_refer_inv C s s1 x t hI hr)
    (fun s hI => lirs_inv_refresh C s hI) h

end LIRSCache


/-! ## Dirty accounting against the history of calls -/

namespace Engine

theorem dirtyStep_of_countStep {σ : Type} (E : Engine σ) (rc : σ → Int → Nat)
    (flag : σ → Int → Bool) (cnt : σ → Nat)
    (hres : ∀ s k, E.isResident s k = true ↔ 0 < rc s k)
    (s s1 : σ) (x : Int) (t : RW) (ev : Option Int)
    (h : CountStep rc flag cnt s s1 x t ev) : E.DirtyStep flag cnt s s1 x t ev := by
  obtain ⟨h1, h2, h3, h4⟩ := h
  refine ⟨?_, ?_, h3, ?_⟩
  · intro k
    have hk := h1 k
    rw [Bool.eq_iff_iff]
    simp only [Bool.and_eq_true, Bool.or_eq_true, Bool.not_eq_true', decide_eq_true_eq,
      decide_eq_false_iff_not, hres]
    by_cases hev : ev = some k
    · obtain ⟨e1, e2⟩ := h2 k hev
      simp only [hev, if_true, e2, false_and, if_false] at hk
      constructor
      · intro hpos; omega
      · intro hc; exact absurd hev hc.2
    · simp only [hev, if_false, Nat.add_zero] at hk
      by_cases hkx : k = x
      · subst hkx
        simp only [true_and] at hk
        constructor
        · intro _; exact ⟨Or.inr rfl, hev⟩
        · intro _
          by_cases h0 : rc s k = 0
          · simp only [h0, if_true] at hk; omega
          · simp only [h0, if_false] at hk; omega
      · simp only [hkx, false_and, if_false, Nat.add_zero] at hk
        rw [hk]
        constructor
        · intro hp; exact ⟨Or.inl hp, hev⟩
        · intro hc
          rcases hc.1 with hp | hp
          · exact hp
          · exact absurd hp hkx
  · intro v hv
    obtain ⟨e1, e2⟩ := h2 v hv
    exact ⟨(hres s v).2 (by omega), e2⟩
  · intro k hk
    have := h4 k ((hres s1 k).1 hk)
    rw [this]
    by_cases hkx : k = x
    · simp only [hkx, if_true]
      by_cases hr : E.isResident s x = true
      · have hp := (hres s x).1 hr
        simp [hr, hp]
      · have hp : ¬ 0 < rc s x := fun hp => hr ((hres s x).2 hp)
        simp [hr, hp]
    · simp only [hkx, if_false]

theorem dirtyStep_resident {σ : Type} (E : Engine σ) (flag : σ → Int → Bool)
    (cnt : σ → Nat) (s s1 : σ) (x : Int) (t : RW) (ev : Option Int)
    (h : E.DirtyStep flag cnt s s1 x t ev) (k : Int) (hk : E.isResident s1 k = true)
    (hkx : k ≠ x) : E.isResident s k = true := by
  have := h.1 k
  rw [this] at hk
  simp only [Bool.and_eq_true, Bool.or_eq_true, decide_eq_true_eq] at hk
  rcases hk.1 with hp | hp
  · exact hp
  · exact absurd hp hkx

theorem ghostOK_step {σ : Type} (E : Engine σ) (flag : σ → Int → Bool)
    (cnt : σ → Nat) (s s1 : σ) (x : Int) (t : RW) (ev : Option Int) (g : Ghost)
    (h : E.DirtyStep flag cnt s s1 x t ev) (hg : E.GhostOK flag s g) :
    E.GhostOK flag s1 (g.note (E.isResident s x) x t) := by
  intro k hk
  have hf := h.2.2.2 k hk
  by_cases hkx : k = x
  · subst hkx
    simp only [if_true] at hf
    refine ⟨?_, ?_⟩
    · rw [hf]
      simp only [Ghost.note, if_true]
      by_cases hr : E.isResident s k = true
      · rw [(hg k hr).1]
      · have : E.isResident s k = false := by simpa using hr
        simp [this]
    · intro hl
      simp only [Ghost.note, if_true, Option.some.injEq] at hl ⊢
      simp [hl]
  · have hr := dirtyStep_resident E flag cnt s s1 x t ev h k hk hkx
    simp only [hkx, if_false] at hf
    obtain ⟨g1, g2⟩ := hg k hr
    refine ⟨?_, ?_⟩
    · rw [hf, g1]; simp [Ghost.note, hkx]
    · intro hl
      simp only [Ghost.note, hkx, if_false] at hl ⊢
      exact g2 hl

theorem evicted_of_gone {σ : Type} (E : Engine σ) (flag : σ → Int → Bool)
    (cnt : σ → Nat) (s s1 : σ) (x : Int) (t : RW) (ev : Option Int)
    (h : E.DirtyStep flag cnt s s1 x t ev) (v : Int) (hv : E.isResident s v = true)
    (hv1 : E.isResident s1 v = false) : ev = some v := by
  have := h.1 v
  rw [hv1, hv] at this
  simpa using this.symm

theorem accounting_of_step {σ : Type} (E : Engine σ) (flag : σ → Int → Bool)
    (cnt : σ → Nat) (s s1 : σ) (x : Int) (t : RW) (ev : Option Int) (g : Ghost)
    (h : E.DirtyStep flag cnt s s1 x t ev) (hg : E.GhostOK flag s g) :
    E.DirtyAccounting cnt s s1 g := by
  have h3 := h.2.2.1
  refine ⟨?_, ?_, ?_, ?_⟩
  · intro v hv hv1 hw
    have hev := evicted_of_gone E flag cnt s s1 x t ev h v hv hv1
    rw [hev] at h3
    simp only [(hg v hv).1, hw, if_true] at h3
    exact h3
  · intro v hv hv1 hw
    have hev := evicted_of_gone E flag cnt s s1 x t ev h v hv hv1
    rw [hev] at h3
    simp only [(hg v hv).1, hw] at h3
    simpa using h3
  · intro hall
    cases hev : ev with
    | none => rw [hev] at h3; simpa using h3
    | some v =>
      exfalso
      obtain ⟨e1, e2⟩ := h.2.1 v hev
      have := h.1 v
      rw [hall v e1, e1, hev] at this
      simp at this
  · cases hev : ev with
    | none => rw [hev] at h3; simp only at h3; omega
    | some v =>
      rw [hev] at h3
      simp only at h3
      split_ifs at h3 <;> omega

/-- The counters of an engine whose every call adds one to `calls` and adds
the same amount, zero or one, to `hits` and to `readHits + writeHits`, and
whose reset zeroes `calls` and `hits` only. -/
theorem counters_invariant {σ : Type} (E : Engine σ) (I : σ → Prop)
    (calls hits both : σ → Nat)
    (hI : ∀ s x t s1, I s → E.refer s x t = some s1 → I s1)
    (hIr : ∀ s, I s → I (E.refresh s))
    (hstep : ∀ s x t s1, I s → E.refer s x t = some s1 →
      calls s1 = calls s + 1 ∧ ∃ d, d ≤ 1 ∧ hits s1 = hits s + d ∧ both s1 = both s + d)
    (hrefresh : ∀ s, calls (E.refresh s) = 0 ∧ hits (E.refresh s) = 0 ∧
      both (E.refresh s) = both s) :
    ∀ ops s0 s, I s0 → E.exec s0 ops = some s →
      (hits s0 ≤ calls s0 → hits s0 ≤ both s0 → hits s ≤ calls s ∧ hits s ≤ both s) ∧
      (Op.refresh ∉ ops → both s0 = hits s0 → both s = hits s) := by
  intro ops
  induction ops with
  | nil =>
    intro s0 s _ h
    simp only [exec, Option.some.injEq] at h
    subst h
    exact ⟨fun a b => ⟨a, b⟩, fun _ a => a⟩
  | cons op rest ih =>
    intro s0 s h0 h
    cases op with
    | refer x t =>
      simp only [exec] at h
      cases hr : E.refer s0 x t with
      | none => simp [hr] at h
      | some s1 =>
        rw [hr] at h
        obtain ⟨c1, d, hd, c2, c3⟩ := hstep s0 x t s1 h0 hr
        obtain ⟨i1, i2⟩ := ih s1 s (hI s0 x t s1 h0 hr) h
        refine ⟨fun a b => i1 (by omega) (by omega), ?_⟩
        intro hn a
        exact i2 (fun hm => hn (List.mem_cons_of_mem _ hm)) (by omega)
    | refresh =>
      simp only [exec] at h
      obtain ⟨c1, c2, c3⟩ := hrefresh s0
      obtain ⟨i1, i2⟩ := ih _ s (hIr s0 h0) h
      refine ⟨fun _ _ => i1 (by omega) (by omega), ?_⟩
      intro hn
      exact absurd (List.mem_cons_self _ _) hn

end Engine


/-! ## Helper lemmas for the stated properties -/

namespace ARCCache

theorem arc_referCase_countStep (s s1 : ARCCache) (x : Int) (t : RW) (H : ∀ k, KeyOK s k)
    (h : ReferCase s x t s1) :
    ∃ ev, Engine.CountStep resCount isDirty (fun s => s.evictedDirtyPage) s s1 x t ev := by
  obtain ⟨ev, h1, h2, h3, h4⟩ := arc_referCase_summary s s1 x t H h
  refine ⟨ev, h1, h2, ?_, ?_⟩
  · show s1.evictedDirtyPage = _
    rw [h3]
    cases ev with
    | none => rfl
    | some v => simp only [isDirty, decide_eq_true_eq]
  · intro k hk
    simp only [isDirty, h4 k]
    by_cases hkx : k = x
    · subst hkx
      by_cases hp : 0 < resCount s k
      · cases t <;> simp [hp]
      · cases t <;> simp [hp]
    · have hev : ¬ ev = some k := by
        intro e
        have := h1 k
        obtain ⟨e1, _⟩ := h2 k e
        simp only [e, if_true, hkx, false_and, if_false] at this
        omega
      simp [hkx, hev]

theorem arc_traced_inv (C : Nat) (s : ARCCache) (g : Ghost) (h : engine.Traced C s g) :
    Inv C s ∧ engine.GhostOK isDirty s g := by
  refine Engine.traced_invariant engine C (fun s g => Inv C s ∧ engine.GhostOK isDirty s g)
    ⟨arc_inv_init C, ?_⟩ ?_ ?_ h
  · intro k hk
    simp [engine, init] at hk
  · intro s g x t s1 hP hr
    have hc := arc_refer_referCase C s s1 x t hP.1 hr
    obtain ⟨ev, hcs⟩ := arc_referCase_countStep s s1 x t hP.1.2.2.2 hc
    exact ⟨arc_referCase_inv C s s1 x t hP.1 hc,
      Engine.ghostOK_step engine isDirty _ s s1 x t ev g
        (Engine.dirtyStep_of_countStep engine resCount isDirty _ arc_isResident_iff
          s s1 x t ev hcs) hP.2⟩
  · intro s g hP
    exact ⟨arc_inv_refresh C s hP.1, fun k hk => hP.2 k hk⟩

/-- Every call on a traced state returns and obeys the dirty accounting. -/
theorem arc_accounting (C : Nat) (s : ARCCache) (g : Ghost) (x : Int) (t : RW)
    (h : engine.Traced C s g) :
    ∃ s1, refer s x t = some s1 ∧
      engine.DirtyAccounting (fun s => s.evictedDirtyPage) s s1 g := by
  obtain ⟨hI, hG⟩ := arc_traced_inv C s g h
  obtain ⟨s1, hr, hc⟩ := arc_refer_cases C s x t hI
  obtain ⟨ev, hcs⟩ := arc_referCase_countStep s s1 x t hI.2.2.2 hc
  exact ⟨s1, hr, Engine.accounting_of_step engine isDirty _ s s1 x t ev g
    (Engine.dirtyStep_of_countStep engine resCount isDirty _ arc_isResident_iff
      s s1 x t ev hcs) hG⟩

theorem arc_counters_step (C : Nat) (s s1 : ARCCache) (x : Int) (t : RW) (hI : Inv C s)
    (hr : refer s x t = some s1) :
    s1.calls = s.calls + 1 ∧ ∃ d, d ≤ 1 ∧ s1.hits = s.hits + d ∧
      s1.readHits + s1.writeHits = s.readHits + s.writeHits + d := by
  obtain ⟨c1, _, _, c4 | c4⟩ := arc_referCase_counters s s1 x t (arc_refer_referCase C s s1 x t hI hr)
  · refine ⟨c1, 1, le_refl _, c4.2.1, ?_⟩
    rw [c4.2.2.1, c4.2.2.2.1]
    cases t <;> simp <;> omega
  · refine ⟨c1, 0, by omega, c4.2.1, ?_⟩
    have e1 := c4.2.2.1
    have e2 := c4.2.2.2
    omega

theorem arc_secondIsHit (C : Nat) (s : ARCCache) (x : Int) (t : RW) (hI : Inv C s) :
    engine.SecondIsHit (fun s => s.hits) (fun s => s.readHits) (fun s => s.writeHits)
      resident s x t := by
  obtain ⟨s1, hr1, hc1⟩ := arc_refer_cases C s x t hI
  have hI1 := arc_referCase_inv C s s1 x t hI hc1
  obtain ⟨_, _, hpos, _⟩ := arc_referCase_counters s s1 x t hc1
  obtain ⟨s2, hr2, hc2⟩ := arc_refer_cases C s1 x t hI1
  obtain ⟨_, _, _, c4 | c4⟩ := arc_referCase_counters s1 s2 x t hc2
  · refine ⟨s1, s2, hr1, hr2, c4.2.1, c4.2.2.1, ?_, c4.2.2.2.2⟩
    show s2.writeHits = s1.writeHits + (if t = RW.Write then 1 else 0)
    rw [c4.2.2.2.1]
    cases t <;> simp
  · omega

end ARCCache

namespace CACHEUSCache

theorem cacheus_traced_inv (C : Nat) (hC : 1 ≤ C) (s : CACHEUSCache) (g : Ghost)
    (h : engine.Traced C s g) : Inv C s ∧ engine.GhostOK isDirty s g := by
  refine Engine.traced_invariant engine C (fun s g => Inv C s ∧ engine.GhostOK isDirty s g)
    ⟨cacheus_inv_init C, ?_⟩ ?_ ?_ h
  · intro k hk
    simp [engine, init] at hk
  · intro s g x t s1 hP hr
    have hc := cacheus_refer_referCase C hC s s1 x t hP.1 hr
    obtain ⟨ev, hcs⟩ := cacheus_referCase_countStep s s1 x t hP.1.2.2.2.2 hc
    exact ⟨cacheus_referCase_inv C s s1 x t hP.1 hc,
      Engine.ghostOK_step engine isDirty _ s s1 x t ev g
        (Engine.dirtyStep_of_countStep engine resCount isDirty _ cacheus_isResident_iff
          s s1 x t ev hcs) hP.2⟩
  · intro s g hP
    exact ⟨cacheus_inv_refresh C s hP.1, fun k hk => hP.2 k hk⟩

/-- Every call on a traced state returns and obeys the dirty accounting. -/
theorem cacheus_accounting (C : Nat) (hC : 1 ≤ C) (s : CACHEUSCache) (g : Ghost) (x : Int) (t : RW)
    (h : engine.Traced C s g) :
    ∃ s1, refer s x t = some s1 ∧
      engine.DirtyAccounting (fun s => s.evictedDirtyPage) s s1 g := by
  obtain ⟨hI, hG⟩ := cacheus_traced_inv C hC s g h
  obtain ⟨s1, hr, hc⟩ := cacheus_refer_cases C hC s x t hI
  obtain ⟨ev, hcs⟩ := cacheus_referCase_countStep s s1 x t hI.2.2.2.2 hc
  exact ⟨s1, hr, Engine.accounting_of_step engine isDirty _ s s1 x t ev g
    (Engine.dirtyStep_of_countStep engine resCount isDirty _ cacheus_isResident_iff
      s s1 x t ev hcs) hG⟩

theorem cacheus_counters_step (C : Nat) (hC : 1 ≤ C) (s s1 : CACHEUSCache) (x : Int) (t : RW)
    (hI : Inv C s) (hr : refer s x t = some s1) :
    s1.calls = s.calls + 1 ∧ ∃ d, d ≤ 1 ∧ s1.hits = s.hits + d ∧
      s1.readHits + s1.writeHits = s.readHits + s.writeHits + d := by
  obtain ⟨c1, _, _, c4 | c4⟩ :=
    cacheus_referCase_counters s s1 x t (cacheus_refer_referCase C hC s s1 x t hI hr)
  · refine ⟨c1, 1, le_refl _, c4.2.1, ?_⟩
    rw [c4.2.2.1, c4.2.2.2.1]
    cases t <;> simp <;> omega
  · refine ⟨c1, 0, by omega, c4.2.1, ?_⟩
    have e1 := c4.2.2.1
    have e2 := c4.2.2.2
    omega

theorem cacheus_secondIsHit (C : Nat) (hC : 1 ≤ C) (s : CACHEUSCache) (x : Int) (t : RW)
    (hI : Inv C s) :
    engine.SecondIsHit (fun s => s.hits) (fun s => s.readHits) (fun s => s.writeHits)
      resident s x t := by
  obtain ⟨s1, hr1, hc1⟩ := cacheus_refer_cases C hC s x t hI
  have hI1 := cacheus_referCase_inv C s s1 x t hI hc1
  obtain ⟨_, _, hpos, _⟩ := cacheus_referCase_counters s s1 x t hc1
  obtain ⟨s2, hr2, hc2⟩ := cacheus_refer_cases C hC s1 x t hI1
  obtain ⟨_, _, _, c4 | c4⟩ := cacheus_referCase_counters s1 s2 x t hc2
  · refine ⟨s1, s2, hr1, hr2, c4.2.1, c4.2.2.1, ?_, c4.2.2.2.2⟩
    show s2.writeHits = s1.writeHits + (if t = RW.Write then 1 else 0)
    rw [c4.2.2.2.1]
    cases t <;> simp
  · omega

end CACHEUSCache

namespace LFUCache

theorem lfu_ghost_inv (C : Nat) (hC : 1 ≤ C) (s : LFUCache) (g : Ghost)
    (h : engine.Traced C s g) : Inv C s ∧ engine.GhostOK isDirty s g := by
  refine Engine.traced_invariant engine C (fun s g => Inv C s ∧ engine.GhostOK isDirty s g)
    ⟨lfu_inv_init C, ?_⟩ ?_ ?_ h
  · intro k hk
    simp [engine, init, KMap.find] at hk
  · intro s g x t s1 hP hr
    have hc := lfu_refer_referCase C hC s s1 x t hP.1 hr
    obtain ⟨ev, hcs⟩ := lfu_referCase_countStep C s s1 x t hP.1 hc
    exact ⟨lfu_referCase_inv C s s1 x t hP.1 hc,
      Engine.ghostOK_step engine isDirty _ s s1 x t ev g
        (Engine.dirtyStep_of_countStep engine resCount isDirty _ lfu_isResident_iff
          s s1 x t ev hcs) hP.2⟩
  · intro s g hP
    exact ⟨lfu_inv_refresh C s hP.1, fun k hk => hP.2 k hk⟩

/-- Every call on a traced state returns and obeys the dirty accounting. -/
theorem lfu_accounting (C : Nat) (hC : 1 ≤ C) (s : LFUCache) (g : Ghost) (x : Int) (t : RW)
    (h : engine.Traced C s g) :
    ∃ s1, refer s x t = some s1 ∧
      engine.DirtyAccounting (fun s => s.evictedDirtyPage) s s1 g := by
  obtain ⟨hI, hG⟩ := lfu_ghost_inv C hC s g h
  obtain ⟨s1, hr, hc⟩ := lfu_refer_cases C hC s x t hI
  obtain ⟨ev, hcs⟩ := lfu_referCase_countStep C s s1 x t hI hc
  exact ⟨s1, hr, Engine.accounting_of_step engine isDirty _ s s1 x t ev g
    (Engine.dirtyStep_of_countStep engine resCount isDirty _ lfu_isResident_iff
      s s1 x t ev hcs) hG⟩

theorem lfu_counters_step (C : Nat) (hC : 1 ≤ C) (s s1 : LFUCache) (x : Int) (t : RW)
    (hI : Inv C s) (hr : refer s x t = some s1) :
    s1.calls = s.calls + 1 ∧ ∃ d, d ≤ 1 ∧ s1.hits = s.hits + d ∧
      s1.readHits + s1.writeHits = s.readHits + s.writeHits + d := by
  obtain ⟨c1, _, _, c4 | c4⟩ :=
    lfu_referCase_counters C s s1 x t hI (lfu_refer_referCase C hC s s1 x t hI hr)
  · refine ⟨c1, 1, le_refl _, c4.2.1, ?_⟩
    rw [c4.2.2.1, c4.2.2.2.1]
    cases t <;> simp <;> omega
  · refine ⟨c1, 0, by omega, c4.2.1, ?_⟩
    have e1 := c4.2.2.1
    have e2 := c4.2.2.2
    omega

theorem lfu_secondIsHit (C : Nat) (hC : 1 ≤ C) (s : LFUCache) (x : Int) (t : RW)
    (hI : Inv C s) :
    engine.SecondIsHit (fun s => s.hits) (fun s => s.readHits) (fun s => s.writeHits)
      resident s x t := by
  obtain ⟨s1, hr1, hc1⟩ := lfu_refer_cases C hC s x t hI
  have hI1 := lfu_referCase_inv C s s1 x t hI hc1
  obtain ⟨_, _, hpos, _⟩ := lfu_referCase_counters C s s1 x t hI hc1
  obtain ⟨s2, hr2, hc2⟩ := lfu_refer_cases C hC s1 x t hI1
  obtain ⟨_, _, _, c4 | c4⟩ := lfu_referCase_counters C s1 s2 x t hI1 hc2
  · refine ⟨s1, s2, hr1, hr2, c4.2.1, c4.2.2.1, ?_, c4.2.2.2.2⟩
    show s2.writeHits = s1.writeHits + (if t = RW.Write then 1 else 0)
    rw [c4.2.2.2.1]
    cases t <;> simp
  · omega

theorem lfu_pairwise_last {R : Int → Int → Prop} (l : List Int) (v k : Int)
    (h : l.Pairwise R) (hl : l.getLast? = some v) (hk : k ∈ l) (hkv : k ≠ v) : R k v := by
  have h1 : l.dropLast ++ [v] = l := List.dropLast_append_getLast? v (by simp [hl])
  rw [← h1] at h hk
  rw [List.pairwise_append] at h
  rcases List.mem_append.1 hk with hm | hm
  · exact h.2.2 k hm v (by simp)
  · simp only [List.mem_singleton] at hm
    exact absurd hm hkv

/-- A miss on a full engine evicts the oldest key of the least frequency. -/
theorem lfu_victim (C : Nat) (hC : 1 ≤ C) (s : LFUCache) (g : Ghost) (x : Int) (t : RW)
    (h : engine.Traced C s g) (hfull : resident s = C) (hx : s.keyFreq.find x = none) :
    ∃ s1 v fv, refer s x t = some s1 ∧
      s.keyFreq.find v = some fv ∧ s1.keyFreq.find v = none ∧
      (∀ k fk, k ≠ v → s.keyFreq.find k = some fk →
        fv ≤ fk ∧ (fk = fv → g.lastTime v < g.lastTime k) ∧
        s1.keyFreq.find k = some fk) ∧
      (∀ k, k ≠ x → s.keyFreq.find k = none → s1.keyFreq.find k = none) ∧
      s1.keyFreq.find x = some 1 ∧ resident s1 = C := by
  obtain ⟨hI, hT⟩ := lfu_traced_inv C hC s g h
  obtain ⟨s1, hr, hc⟩ := lfu_refer_cases C hC s x t hI
  have hcs : s.csize = C := hI.1
  have hI1 := lfu_referCase_inv C s s1 x t hI hc
  rcases hc with ⟨f, hf, _⟩ | ⟨_, hnf, _⟩ | ⟨_, _, f, b, last, hm, hl, rfl⟩
  · rw [hx] at hf; cases hf
  · exact absurd (hfull.trans hcs.symm) hnf
  · obtain ⟨e0, _⟩ := lfu_evicted_facts C (called s) f b last (lfu_inv_called C s hI) hm hl
    have e0s : s.keyFreq.find last = some f := e0
    have hlx : last ≠ x := by
      intro e; subst e; rw [hx] at e0s; cases e0s
    have hkf : ∀ k, (insertNew (evicted (called s) f b last) x t).keyFreq.find k =
        if k = x then some 1 else if k = last then none else s.keyFreq.find k := by
      intro k
      have e1 : (insertNew (evicted (called s) f b last) x t).keyFreq =
          (s.keyFreq.erase last).insert x 1 := rfl
      rw [e1, KMap.find_insert, KMap.find_erase]
    have hfb := (KMap.minEntry_spec _ f b hm)
    have hbb := lfu_bucket_of_find s f b hfb.1
    refine ⟨_, last, f, hr, e0s, ?_, ?_, ?_, ?_, ?_⟩
    · rw [hkf]; simp [hlx]
    · intro k fk hkl hk
      have hkx : k ≠ x := by
        intro e; subst e; rw [hx] at hk; cases hk
      have hcnt : (bucket s fk).count k = 1 := by
        have := (hI.2.2.2.2.2.2.2 k).1 fk
        simpa [hk] using this
      refine ⟨?_, ?_, ?_⟩
      · obtain ⟨b1, hb1⟩ := lfu_find_of_mem_bucket s fk k (by omega)
        exact hfb.2 fk b1 hb1
      · intro e
        subst e
        have hmem : k ∈ b := by
          rw [← hbb]; exact (mem_iff_count _ _).2 (by omega)
        have hp := hT.1 fk
        rw [hbb] at hp
        exact lfu_pairwise_last b last k hp hl hmem hkl
      · rw [hkf]; simp [hkx, hkl, hk]
    · intro k hkx hk
      rw [hkf]; simp [hkx, hk]
    · rw [hkf]; simp
    · have := hI1.2.2.2.1
      have h2 := hI1.1
      obtain ⟨_, _, _, c4⟩ := lfu_referCase_counters C s _ x t hI
        (Or.inr (Or.inr ⟨hx, hfull.trans hcs.symm, f, b, last, hm, hl, rfl⟩))
      have e4 := (lfu_evicted_facts C (called s) f b last (lfu_inv_called C s hI) hm hl).2.2.2.2.1
      have e5 : (insertNew (evicted (called s) f b last) x t).keyIterMap.size =
          (evicted (called s) f b last).keyIterMap.size + 1 := by
        have : (insertNew (evicted (called s) f b last) x t).keyIterMap =
            ((evicted (called s) f b last).keyIterMap).insert x 1 := rfl
        rw [this]
        apply KMap.size_insert_of_none
        show (s.keyIterMap.erase last).find x = none
        rw [hI.2.1, KMap.find_erase]
        split_ifs
        · rfl
        · exact hx
      have e6 : (called s).keyIterMap.size = s.keyIterMap.size := rfl
      simp only [resident] at hfull ⊢
      omega

end LFUCache

namespace LIRSCache

theorem lirs_counters_step (C : Nat) (s s1 : LIRSCache) (x : Int) (t : RW)
    (hI : Inv C s) (hr : refer s x t = some s1) :
    s1.calls = s.calls + 1 ∧ ∃ d, d ≤ 1 ∧ s1.hits = s.hits + d ∧
      s1.readHits + s1.writeHits = s.readHits + s.writeHits + d := by
  obtain ⟨s2, h2, _, c1, _, _, c4 | c4⟩ :=
    lirs_refer_spec C s x t hI (lirs_refer_key C s s1 x t hI hr)
  · rw [h2] at hr
    have e : s2 = s1 := Option.some.inj hr
    subst e
    refine ⟨c1, 1, le_refl _, c4.2.1, ?_⟩
    rw [c4.2.2.1, c4.2.2.2.1]
    cases t <;> simp <;> omega
  · rw [h2] at hr
    have e : s2 = s1 := Option.some.inj hr
    subst e
    refine ⟨c1, 0, by omega, c4.2.1, ?_⟩
    have e1 := c4.2.2.1
    have e2 := c4.2.2.2.1
    omega

theorem lirs_secondIsHit (C : Nat) (s : LIRSCache) (x : Int) (t : RW) (hI : Inv C s)
    (hx : x ≠ 0) :
    engine.SecondIsHit (fun s => s.hits) (fun s => s.readHits) (fun s => s.writeHits)
      resident s x t := by
  obtain ⟨s1, hr1, hI1, _, hres, _, _⟩ := lirs_refer_spec C s x t hI hx
  obtain ⟨s2, hr2, _, _, _, _, c4 | c4⟩ := lirs_refer_spec C s1 x t hI1 hx
  · refine ⟨s1, s2, hr1, hr2, c4.2.1, c4.2.2.1, ?_, ?_⟩
    · show s2.writeHits = s1.writeHits + (if t = RW.Write then 1 else 0)
      rw [c4.2.2.2.1]
      cases t <;> simp
    · show s2.resident_map.size = s1.resident_map.size
      rw [c4.2.2.2.2]
  · rw [hres] at c4
    exact absurd c4.1 (by simp)

end LIRSCache


/-! ## The stated properties -/

/-- C1 (Engine A capacity): the claim that `|L1| + |L2|` never exceeds the
capacity fails on the code.  With capacity 1 the references 1, 2, 1 all
return, and they end with two resident blocks: the ghost hit on key 1 raises
`p` to 1, `replace` then finds `|L1| = 1 ≤ p` with `L2` empty, takes its
safety `return` without evicting, and key 1 is put in `L2` beside key 2. -/
theorem arc_capacity_overrun :
    (ARCCache.engine.exec (ARCCache.init 1)
      (Engine.refs [(1, RW.Read), (2, RW.Read), (1, RW.Read)])).map
        (fun s => (s.csize, s.L1, s.L2, s.L1.length + s.L2.length)) =
      some (1, [2], [1], 2) := by
  rfl

/-- C2 (Engine D capacity): the claim that the number of resident keys never
exceeds the capacity fails on the code.  With capacity 1 the references 1, 2
both return and leave two keys in `resident_map`: the miss on key 2 calls
`evict_HIR_block`, which finds `HIR_nonresident_list` empty and returns
without evicting. -/
theorem lirs_capacity_overrun :
    (LIRSCache.engine.exec (LIRSCache.init 1)
      (Engine.refs [(1, RW.Read), (2, RW.Read)])).map
        (fun s => (s.csize, s.resident_map.keys, s.resident_map.size)) =
      some (1, [2, 1], 2) := by
  rfl

/-- C3 (Engine B capacity): for every capacity `C ≥ 1`, in every state reached
from a fresh engine by `refer` (and `refresh`) calls,
`|Read_List| + |Write_List| ≤ C`, and every further `refer` call returns. -/
theorem cacheus_capacity (C : Nat) (hC : 1 ≤ C) (s : CACHEUSCache)
    (h : CACHEUSCache.engine.Reachable C s) :
    s.Read_List.length + s.Write_List.length ≤ C ∧
    ∀ x t, ∃ s1, CACHEUSCache.refer s x t = some s1 := by
  have hI := CACHEUSCache.cacheus_reachable_inv C hC s h
  refine ⟨hI.2.1, ?_⟩
  intro x t
  obtain ⟨s1, h1, _⟩ := CACHEUSCache.cacheus_refer_cases C hC s x t hI
  exact ⟨s1, h1⟩

/-- Witness of C3: capacity 1 after `refer(1, Write)`, `refer(1, Read)`. -/
theorem cacheus_capacity_witness :
    1 ≤ 1 ∧ CACHEUSCache.engine.Reachable 1 CACHEUSCache.sample ∧
    CACHEUSCache.sample.Read_List.length + CACHEUSCache.sample.Write_List.length ≤ 1 :=
  ⟨le_refl 1, ⟨Engine.sampleOps, rfl⟩,
    (cacheus_capacity 1 (le_refl 1) CACHEUSCache.sample ⟨Engine.sampleOps, rfl⟩).1⟩

/-- C4 (Engine C capacity): for every capacity `C ≥ 1`, in every state reached
from a fresh engine by `refer` (and `refresh`) calls the number of resident
keys is at most `C`; that number is the size of `keyIterMap`, whose keys are
distinct and are the keys of `keyFreq`, and it equals the total length of the
frequency buckets.  Every further `refer` call returns. -/
theorem lfu_capacity (C : Nat) (hC : 1 ≤ C) (s : LFUCache)
    (h : LFUCache.engine.Reachable C s) :
    s.keyIterMap.size ≤ C ∧
    s.keyFreq.keys = s.keyIterMap.keys ∧ s.keyIterMap.keys.Nodup ∧
    LFUCache.totalLen s.freqList = s.keyIterMap.size ∧
    ∀ x t, ∃ s1, LFUCache.refer s x t = some s1 := by
  obtain ⟨h1, h2, h3, h4, h5, h6, h7, H⟩ := LFUCache.lfu_reachable_inv C hC s h
  refine ⟨h4, by rw [h2], by rw [h2]; exact h3, h6, ?_⟩
  intro x t
  obtain ⟨s1, r1, _⟩ := LFUCache.lfu_refer_cases C hC s x t ⟨h1, h2, h3, h4, h5, h6, h7, H⟩
  exact ⟨s1, r1⟩

/-- Witness of C4: capacity 1 after `refer(1, Write)`, `refer(1, Read)`. -/
theorem lfu_capacity_witness :
    1 ≤ 1 ∧ LFUCache.engine.Reachable 1 LFUCache.sample ∧
    LFUCache.sample.keyIterMap.size ≤ 1 :=
  ⟨le_refl 1, ⟨Engine.sampleOps, rfl⟩,
    (lfu_capacity 1 (le_refl 1) LFUCache.sample ⟨Engine.sampleOps, rfl⟩).1⟩

/-- C5 (Engine A index and tag consistency): in every state reached from a
fresh engine of capacity `C ≥ 1`, the lists `L1`, `T1`, `L2`, `T2` are
duplicate-free and pairwise disjoint, a key has an entry in `list_map` exactly
when it is in one of the four lists, and `key_set_map` maps a key to
`L1_SET`, `T1_SET`, `L2_SET`, `T2_SET` exactly when it is in the corresponding
list and has no entry exactly when the key is in no list. -/
theorem arc_index_tag_consistency (C : Nat) (hC : 1 ≤ C) (s : ARCCache)
    (h : ARCCache.engine.Reachable C s) :
    (s.L1.Nodup ∧ s.T1.Nodup ∧ s.L2.Nodup ∧ s.T2.Nodup) ∧
    (s.L1.Disjoint s.T1 ∧ s.L1.Disjoint s.L2 ∧ s.L1.Disjoint s.T2 ∧
      s.T1.Disjoint s.L2 ∧ s.T1.Disjoint s.T2 ∧ s.L2.Disjoint s.T2) ∧
    (∀ k, (s.list_map.find k).isSome = true ↔
      (k ∈ s.L1 ∨ k ∈ s.T1 ∨ k ∈ s.L2 ∨ k ∈ s.T2)) ∧
    (∀ k, (s.key_set_map.find k = some ListSet.L1_SET ↔ k ∈ s.L1) ∧
          (s.key_set_map.find k = some ListSet.T1_SET ↔ k ∈ s.T1) ∧
          (s.key_set_map.find k = some ListSet.L2_SET ↔ k ∈ s.L2) ∧
          (s.key_set_map.find k = some ListSet.T2_SET ↔ k ∈ s.T2) ∧
          (s.key_set_map.find k = none ↔
            ¬ (k ∈ s.L1 ∨ k ∈ s.T1 ∨ k ∈ s.L2 ∨ k ∈ s.T2))) := by
  have _ := hC
  obtain ⟨_, _, _, H⟩ := ARCCache.arc_reachable_inv C s h
  have hsum : ∀ k, s.L1.count k + s.T1.count k + s.L2.count k + s.T2.count k ≤ 1 :=
    fun k => (H k).1
  refine ⟨⟨?_, ?_, ?_, ?_⟩, ⟨?_, ?_, ?_, ?_, ?_, ?_⟩, ?_, ?_⟩
  · exact List.nodup_iff_count_le_one.2 (fun k => by have := hsum k; omega)
  · exact List.nodup_iff_count_le_one.2 (fun k => by have := hsum k; omega)
  · exact List.nodup_iff_count_le_one.2 (fun k => by have := hsum k; omega)
  · exact List.nodup_iff_count_le_one.2 (fun k => by have := hsum k; omega)
  · intro k h1 h2
    rw [mem_iff_count] at h1 h2; have := hsum k; omega
  · intro k h1 h2
    rw [mem_iff_count] at h1 h2; have := hsum k; omega
  · intro k h1 h2
    rw [mem_iff_count] at h1 h2; have := hsum k; omega
  · intro k h1 h2
    rw [mem_iff_count] at h1 h2; have := hsum k; omega
  · intro k h1 h2
    rw [mem_iff_count] at h1 h2; have := hsum k; omega
  · intro k h1 h2
    rw [mem_iff_count] at h1 h2; have := hsum k; omega
  · intro k
    obtain ⟨g1, g2, g3, g4, g5, g6⟩ := ARCCache.arc_keyOK_tag s k (H k)
    have ha := ARCCache.arc_absent_iff s k (H k)
    have := hsum k
    rw [g6]
    simp only [mem_iff_count]
    constructor
    · intro hs
      by_contra hn
      have h0 : s.key_set_map.find k = none := ha.2 ⟨by omega, by omega, by omega, by omega⟩
      rw [h0] at hs
      cases hs
    · intro hm
      cases hf : s.key_set_map.find k with
      | some v => rfl
      | none =>
        have := ha.1 hf
        omega
  · intro k
    obtain ⟨g1, g2, g3, g4, g5, g6⟩ := ARCCache.arc_keyOK_tag s k (H k)
    have ha := ARCCache.arc_absent_iff s k (H k)
    have := hsum k
    simp only [mem_iff_count]
    refine ⟨?_, ?_, ?_, ?_, ?_⟩
    · rw [g1]; omega
    · rw [g2]; omega
    · rw [g3]; omega
    · rw [g4]; omega
    · rw [ha]; omega

/-- Witness of C5: capacity 1 after `refer(1, Write)`, `refer(1, Read)`. -/
theorem arc_index_tag_consistency_witness :
    1 ≤ 1 ∧ ARCCache.engine.Reachable 1 ARCCache.sample ∧
    (ARCCache.sample.L2.Nodup ∧ ARCCache.sample.L1.Disjoint ARCCache.sample.L2 ∧
      (ARCCache.sample.key_set_map.find 1 = some ListSet.L2_SET ↔
        (1 : Int) ∈ ARCCache.sample.L2)) :=
  ⟨le_refl 1, ⟨Engine.sampleOps, rfl⟩,
    (arc_index_tag_consistency 1 (le_refl 1) ARCCache.sample
      ⟨Engine.sampleOps, rfl⟩).1.2.2.1,
    (arc_index_tag_consistency 1 (le_refl 1) ARCCache.sample
      ⟨Engine.sampleOps, rfl⟩).2.1.2.1,
    ((arc_index_tag_consistency 1 (le_refl 1) ARCCache.sample
      ⟨Engine.sampleOps, rfl⟩).2.2.2 1).2.2.1⟩

/-- Counterexample to C6 as stated: in each of the four engines of capacity 1
the calls `refer(1, Write)`, `refer(1, Read)`, `refresh` end with `hits = 0`
and `readHits + writeHits = 1`, because `refresh` zeroes `hits` but neither
`readHits` nor `writeHits`. -/
theorem hit_counts_after_refresh_counterexample :
    (ARCCache.engine.exec (ARCCache.init 1) (Engine.sampleOps ++ [Op.refresh])).map
        (fun s => (s.hits, s.readHits + s.writeHits)) = some (0, 1) ∧
    (CACHEUSCache.engine.exec (CACHEUSCache.init 1) (Engine.sampleOps ++ [Op.refresh])).map
        (fun s => (s.hits, s.readHits + s.writeHits)) = some (0, 1) ∧
    (LFUCache.engine.exec (LFUCache.init 1) (Engine.sampleOps ++ [Op.refresh])).map
        (fun s => (s.hits, s.readHits + s.writeHits)) = some (0, 1) ∧
    (LIRSCache.engine.exec (LIRSCache.init 1) (Engine.sampleOps ++ [Op.refresh])).map
        (fun s => (s.hits, s.readHits + s.writeHits)) = some (0, 1) :=
  ⟨rfl, rfl, rfl, rfl⟩

/-- C6, amended (hit-count consistency): for each of the four engines of
capacity `C ≥ 1`, after any sequence of `refer` and `refresh` calls on a fresh
engine, `hits ≤ calls` and `hits ≤ readHits + writeHits`; and
`readHits + writeHits = hits` when the sequence contains no `refresh`. -/
theorem hit_counts_consistency (C : Nat) (hC : 1 ≤ C) :
    (∀ ops s, ARCCache.engine.exec (ARCCache.init C) ops = some s →
      s.hits ≤ s.calls ∧ s.hits ≤ s.readHits + s.writeHits ∧
      (Op.refresh ∉ ops → s.readHits + s.writeHits = s.hits)) ∧
    (∀ ops s, CACHEUSCache.engine.exec (CACHEUSCache.init C) ops = some s →
      s.hits ≤ s.calls ∧ s.hits ≤ s.readHits + s.writeHits ∧
      (Op.refresh ∉ ops → s.readHits + s.writeHits = s.hits)) ∧
    (∀ ops s, LFUCache.engine.exec (LFUCache.init C) ops = some s →
      s.hits ≤ s.calls ∧ s.hits ≤ s.readHits + s.writeHits ∧
      (Op.refresh ∉ ops → s.readHits + s.writeHits = s.hits)) ∧
    (∀ ops s, LIRSCache.engine.exec (LIRSCache.init C) ops = some s →
      s.hits ≤ s.calls ∧ s.hits ≤ s.readHits + s.writeHits ∧
      (Op.refresh ∉ ops → s.readHits + s.writeHits = s.hits)) := by
  refine ⟨?_, ?_, ?_, ?_⟩
  · intro ops s h
    obtain ⟨i1, i2⟩ := Engine.counters_invariant ARCCache.engine (ARCCache.Inv C)
      (fun s => s.calls) (fun s => s.hits) (fun s => s.readHits + s.writeHits)
      (fun s x t s1 hI hr => ARCCache.arc_refer_inv C s s1 x t hI hr)
      (fun s hI => ARCCache.arc_inv_refresh C s hI)
      (fun s x t s1 hI hr => ARCCache.arc_counters_step C s s1 x t hI hr)
      (fun s => ⟨rfl, rfl, rfl⟩) ops (ARCCache.init C) s (ARCCache.arc_inv_init C) h
    obtain ⟨a, b⟩ := i1 (le_refl _) (Nat.zero_le _)
    exact ⟨a, b, fun hn => i2 hn rfl⟩
  · intro ops s h
    obtain ⟨i1, i2⟩ := Engine.counters_invariant CACHEUSCache.engine (CACHEUSCache.Inv C)
      (fun s => s.calls) (fun s => s.hits) (fun s => s.readHits + s.writeHits)
      (fun s x t s1 hI hr => CACHEUSCache.cacheus_refer_inv C hC s s1 x t hI hr)
      (fun s hI => CACHEUSCache.cacheus_inv_refresh C s hI)
      (fun s x t s1 hI hr => CACHEUSCache.cacheus_counters_step C hC s s1 x t hI hr)
      (fun s => ⟨rfl, rfl, rfl⟩) ops (CACHEUSCache.init C) s (CACHEUSCache.cacheus_inv_init C) h
    obtain ⟨a, b⟩ := i1 (le_refl _) (Nat.zero_le _)
    exact ⟨a, b, fun hn => i2 hn rfl⟩
  · intro ops s h
    obtain ⟨i1, i2⟩ := Engine.counters_invariant LFUCache.engine (LFUCache.Inv C)
      (fun s => s.calls) (fun s => s.hits) (fun s => s.readHits + s.writeHits)
      (fun s x t s1 hI hr => LFUCache.lfu_refer_inv C hC s s1 x t hI hr)
      (fun s hI => LFUCache.lfu_inv_refresh C s hI)
      (fun s x t s1 hI hr => LFUCache.lfu_counters_step C hC s s1 x t hI hr)
      (fun s => ⟨rfl, rfl, rfl⟩) ops (LFUCache.init C) s (LFUCache.lfu_inv_init C) h
    obtain ⟨a, b⟩ := i1 (le_refl _) (Nat.zero_le _)
    exact ⟨a, b, fun hn => i2 hn rfl⟩
  · intro ops s h
    obtain ⟨i1, i2⟩ := Engine.counters_invariant LIRSCache.engine (LIRSCache.Inv C)
      (fun s => s.calls) (fun s => s.hits) (fun s => s.readHits + s.writeHits)
      (fun s x t s1 hI hr => LIRSCache.lirs_refer_inv C s s1 x t hI hr)
      (fun s hI => LIRSCache.lirs_inv_refresh C s hI)
      (fun s x t s1 hI hr => LIRSCache.lirs_counters_step C s s1 x t hI hr)
      (fun s => ⟨rfl, rfl, rfl⟩) ops (LIRSCache.init C) s (LIRSCache.lirs_inv_init C) h
    obtain ⟨a, b⟩ := i1 (le_refl _) (Nat.zero_le _)
    exact ⟨a, b, fun hn => i2 hn rfl⟩

/-- Witness of the amended C6: Engine A of capacity 1 after `refer(1, Write)`,
`refer(1, Read)`. -/
theorem hit_counts_consistency_witness :
    1 ≤ 1 ∧
    ARCCache.engine.exec (ARCCache.init 1) Engine.sampleOps = some ARCCache.sample ∧
    (ARCCache.sample.hits ≤ ARCCache.sample.calls ∧
      ARCCache.sample.hits ≤ ARCCache.sample.readHits + ARCCache.sample.writeHits ∧
      (Op.refresh ∉ Engine.sampleOps →
        ARCCache.sample.readHits + ARCCache.sample.writeHits = ARCCache.sample.hits)) :=
  ⟨le_refl 1, rfl,
    (hit_counts_consistency 1 (le_refl 1)).1 Engine.sampleOps ARCCache.sample rfl⟩

/-- C7 (idempotent re-reference): the claim fails on the code of Engine D for
the key 0.  On a fresh engine of capacity 1 the call `refer(0, Read)` does not
return: its last step compares `HIR_nonresident_list.front()` with the key
without testing the list for emptiness, nothing ever appends to that list, the
front of the empty list reads as 0, and `pop_front()` is run on the empty
list.  So neither of the two calls `refer(0, Read)`, `refer(0, Read)` is a
hit, whereas the same two calls with the key 1 return and count one hit. -/
theorem lirs_rereference_abort :
    LIRSCache.refer (LIRSCache.init 1) 0 RW.Read = none ∧
    LIRSCache.engine.exec (LIRSCache.init 1)
      (Engine.refs [(0, RW.Read), (0, RW.Read)]) = none ∧
    (LIRSCache.engine.exec (LIRSCache.init 1)
      (Engine.refs [(1, RW.Read), (1, RW.Read)])).map
        (fun s => (s.calls, s.hits, s.readHits, s.resident_map.keys)) =
      some (2, 1, 1, [1]) := by
  refine ⟨rfl, rfl, rfl⟩

/-- Re-reference away from the defect: for Engines A, B and C of capacity
`C ≥ 1` and every key, and for Engine D and every key other than 0, from every
reachable state two calls `refer(x, t)` in a row both return, the second is a
hit (`hits` rises by exactly one, and so does `readHits` for a `Read` or
`writeHits` for a `Write`, the other one staying put), and the resident count
after the second call is the resident count after the first.  In Engine D no
call with the key 0 returns. -/
theorem rereference_hit_returning (C : Nat) (hC : 1 ≤ C) :
    (∀ s x t, ARCCache.engine.Reachable C s →
      ARCCache.engine.SecondIsHit (fun s => s.hits) (fun s => s.readHits)
        (fun s => s.writeHits) ARCCache.resident s x t) ∧
    (∀ s x t, CACHEUSCache.engine.Reachable C s →
      CACHEUSCache.engine.SecondIsHit (fun s => s.hits) (fun s => s.readHits)
        (fun s => s.writeHits) CACHEUSCache.resident s x t) ∧
    (∀ s x t, LFUCache.engine.Reachable C s →
      LFUCache.engine.SecondIsHit (fun s => s.hits) (fun s => s.readHits)
        (fun s => s.writeHits) LFUCache.resident s x t) ∧
    (∀ s x t, LIRSCache.engine.Reachable C s → x ≠ 0 →
      LIRSCache.engine.SecondIsHit (fun s => s.hits) (fun s => s.readHits)
        (fun s => s.writeHits) LIRSCache.resident s x t) ∧
    (∀ s t, LIRSCache.engine.Reachable C s → LIRSCache.refer s 0 t = none) :=
  ⟨fun s x t h => ARCCache.arc_secondIsHit C s x t (ARCCache.arc_reachable_inv C s h),
   fun s x t h => CACHEUSCache.cacheus_secondIsHit C hC s x t (CACHEUSCache.cacheus_reachable_inv C hC s h),
   fun s x t h => LFUCache.lfu_secondIsHit C hC s x t (LFUCache.lfu_reachable_inv C hC s h),
   fun s x t h hx =>
     LIRSCache.lirs_secondIsHit C s x t (LIRSCache.lirs_reachable_inv C s h) hx,
   fun s t h => LIRSCache.lirs_refer_zero C s t (LIRSCache.lirs_reachable_inv C s h)⟩

/-- C8 (dirty accounting in Engines A, B and C): for every capacity `C ≥ 1`
and every state reached from a fresh engine, with the bookkeeping `g` of the
calls made so far, every `refer` call returns and obeys `DirtyAccounting`:
evicting a resident key that was referenced with `Write` since it last became
resident raises `evictedDirtyPage` by exactly one, evicting a key only read
since then leaves it unchanged, a call that evicts no key leaves it unchanged,
and no call raises it by more than one.  `refresh` does not change it. -/
theorem dirty_accounting (C : Nat) (hC : 1 ≤ C) :
    ((∀ s g x t, ARCCache.engine.Traced C s g →
        ∃ s1, ARCCache.refer s x t = some s1 ∧
          ARCCache.engine.DirtyAccounting (fun s => s.evictedDirtyPage) s s1 g) ∧
      ∀ s : ARCCache, (ARCCache.refresh s).evictedDirtyPage = s.evictedDirtyPage) ∧
    ((∀ s g x t, CACHEUSCache.engine.Traced C s g →
        ∃ s1, CACHEUSCache.refer s x t = some s1 ∧
          CACHEUSCache.engine.DirtyAccounting (fun s => s.evictedDirtyPage) s s1 g) ∧
      ∀ s : CACHEUSCache,
        (CACHEUSCache.refresh s).evictedDirtyPage = s.evictedDirtyPage) ∧
    ((∀ s g x t, LFUCache.engine.Traced C s g →
        ∃ s1, LFUCache.refer s x t = some s1 ∧
          LFUCache.engine.DirtyAccounting (fun s => s.evictedDirtyPage) s s1 g) ∧
      ∀ s : LFUCache, (LFUCache.refresh s).evictedDirtyPage = s.evictedDirtyPage) :=
  ⟨⟨fun s g x t h => ARCCache.arc_accounting C s g x t h, fun _ => rfl⟩,
   ⟨fun s g x t h => CACHEUSCache.cacheus_accounting C hC s g x t h, fun _ => rfl⟩,
   ⟨fun s g x t h => LFUCache.lfu_accounting C hC s g x t h, fun _ => rfl⟩⟩

/-- Witness of C8: Engine B of capacity 1 after `refer(1, Write)`,
`refer(1, Read)`; the next call `refer(2, Read)` evicts the written key 1. -/
theorem dirty_accounting_witness :
    1 ≤ 1 ∧ CACHEUSCache.engine.Traced 1 CACHEUSCache.sample Ghost.sample ∧
    ∃ s1, CACHEUSCache.refer CACHEUSCache.sample 2 RW.Read = some s1 ∧
      CACHEUSCache.engine.DirtyAccounting (fun s => s.evictedDirtyPage)
        CACHEUSCache.sample s1 Ghost.sample :=
  ⟨le_refl 1, ⟨Engine.sampleOps, rfl⟩,
    (dirty_accounting 1 (le_refl 1)).2.1.1 CACHEUSCache.sample Ghost.sample 2 RW.Read
      ⟨Engine.sampleOps, rfl⟩⟩

/-- Counterexample to C9 as stated: in Engine A of capacity 1, after
`refer(1, Write)`, `refer(1, Read)` the most recent reference to key 1 is a
`Read`; the call `refer(2, Read)` then evicts key 1 and raises
`evictedDirtyPage` from 0 to 1. -/
theorem arc_dirty_last_access_counterexample :
    (ARCCache.engine.history (ARCCache.init 1) Ghost.start Engine.sampleOps).bind
        (fun r => (ARCCache.refer r.1 2 RW.Read).map
          (fun s1 => (r.2.lastType 1, ARCCache.engine.isResident r.1 1,
            ARCCache.engine.isResident s1 1, r.1.evictedDirtyPage,
            s1.evictedDirtyPage))) =
      some (some RW.Read, true, false, 0, 1) := by
  rfl

/-- C9, amended (dirty means written while resident, in Engine A): for every
capacity `C ≥ 1` and every state reached from a fresh engine, every `refer`
call returns, and whenever it evicts a resident key `v`, `evictedDirtyPage` is
incremented if and only if `v` was referenced with `Write` at least once since
it last became resident, which is what its recorded access type says; a key
only read since then is evicted without incrementing the counter, and a key
whose most recent reference was a `Write` is counted. -/
theorem arc_dirty_eviction (C : Nat) (hC : 1 ≤ C) (s : ARCCache) (g : Ghost)
    (x : Int) (t : RW) (h : ARCCache.engine.Traced C s g) :
    ∃ s1, ARCCache.refer s x t = some s1 ∧
      ∀ v, (v ∈ s.L1 ∨ v ∈ s.L2) → ¬ (v ∈ s1.L1 ∨ v ∈ s1.L2) →
        (s1.evictedDirtyPage = s.evictedDirtyPage + 1 ↔ g.written v = true) ∧
        (s.accessType.find v = some RW.Write ↔ g.written v = true) ∧
        (g.written v = false → s1.evictedDirtyPage = s.evictedDirtyPage) ∧
        (g.lastType v = some RW.Write →
          s1.evictedDirtyPage = s.evictedDirtyPage + 1) := by
  have _ := hC
  obtain ⟨s1, hr, a1, a2, _, _⟩ := ARCCache.arc_accounting C s g x t h
  obtain ⟨_, hG⟩ := ARCCache.arc_traced_inv C s g h
  refine ⟨s1, hr, ?_⟩
  intro v hv hv1
  have r0 : ARCCache.engine.isResident s v = true := by
    simpa [ARCCache.engine] using hv
  have r1 : ARCCache.engine.isResident s1 v = false := by
    simpa [ARCCache.engine] using hv1
  obtain ⟨g1, g2⟩ := hG v r0
  have b1 := a1 v r0 r1
  have b2 := a2 v r0 r1
  refine ⟨?_, ?_, b2, fun hl => b1 (g2 hl)⟩
  · constructor
    · intro e
      by_contra hw
      have hw2 : g.written v = false := by simpa using hw
      have := b2 hw2
      simp only at this e
      omega
    · exact b1
  · rw [← g1]
    simp [ARCCache.isDirty]

/-- Witness of the amended C9: Engine A of capacity 1 after `refer(1, Write)`,
`refer(1, Read)`; the next call is `refer(2, Read)`. -/
theorem arc_dirty_eviction_witness :
    1 ≤ 1 ∧ ARCCache.engine.Traced 1 ARCCache.sample Ghost.sample ∧
    ∃ s1, ARCCache.refer ARCCache.sample 2 RW.Read = some s1 ∧
      ∀ v, (v ∈ ARCCache.sample.L1 ∨ v ∈ ARCCache.sample.L2) →
        ¬ (v ∈ s1.L1 ∨ v ∈ s1.L2) →
        (s1.evictedDirtyPage = ARCCache.sample.evictedDirtyPage + 1 ↔
          Ghost.sample.written v = true) ∧
        (ARCCache.sample.accessType.find v = some RW.Write ↔
          Ghost.sample.written v = true) ∧
        (Ghost.sample.written v = false →
          s1.evictedDirtyPage = ARCCache.sample.evictedDirtyPage) ∧
        (Ghost.sample.lastType v = some RW.Write →
          s1.evictedDirtyPage = ARCCache.sample.evictedDirtyPage + 1) :=
  ⟨le_refl 1, ⟨Engine.sampleOps, rfl⟩,
    arc_dirty_eviction 1 (le_refl 1) ARCCache.sample Ghost.sample 2 RW.Read
      ⟨Engine.sampleOps, rfl⟩⟩

/-- C10 (Engine C victim choice): for every capacity `C ≥ 1` and every
reachable state whose resident count is `C`, a `refer` on a non-resident key
`x` returns and removes exactly one key `v`: `v` has the least frequency among
the resident keys and, among the resident keys of that frequency, the oldest
last reference; every other resident key keeps its frequency, no other key
becomes resident, `x` becomes resident with frequency 1 and the resident count
stays `C`.  Scenario: capacity 2 and the `Read` references 1, 2, 1, 3 end with
the resident keys 3 (frequency 1) and 1 (frequency 2) and `hits = 1`. -/
theorem lfu_victim_choice (C : Nat) (hC : 1 ≤ C) :
    (∀ s g x t, LFUCache.engine.Traced C s g → LFUCache.resident s = C →
      s.keyFreq.find x = none →
      ∃ s1 v fv, LFUCache.refer s x t = some s1 ∧
        s.keyFreq.find v = some fv ∧ s1.keyFreq.find v = none ∧
        (∀ k fk, k ≠ v → s.keyFreq.find k = some fk →
          fv ≤ fk ∧ (fk = fv → g.lastTime v < g.lastTime k) ∧
          s1.keyFreq.find k = some fk) ∧
        (∀ k, k ≠ x → s.keyFreq.find k = none → s1.keyFreq.find k = none) ∧
        s1.keyFreq.find x = some 1 ∧ LFUCache.resident s1 = C) ∧
    (LFUCache.engine.exec (LFUCache.init 2)
        (Engine.refs [(1, RW.Read), (2, RW.Read), (1, RW.Read), (3, RW.Read)]) =
      some LFUCache.scenario ∧
     LFUCache.scenario.keyFreq = [(3, 1), (1, 2)] ∧ LFUCache.scenario.hits = 1) :=
  ⟨fun s g x t h hfull hx => LFUCache.lfu_victim C hC s g x t h hfull hx, rfl, rfl, rfl⟩

/-- Witness of C10: Engine C of capacity 1 after `refer(1, Write)`,
`refer(1, Read)` is full; the next call is `refer(2, Read)`. -/
theorem lfu_victim_choice_witness :
    1 ≤ 1 ∧ LFUCache.engine.Traced 1 LFUCache.sample Ghost.sample ∧
    LFUCache.resident LFUCache.sample = 1 ∧ LFUCache.sample.keyFreq.find 2 = none ∧
    ∃ s1 v fv, LFUCache.refer LFUCache.sample 2 RW.Read = some s1 ∧
      LFUCache.sample.keyFreq.find v = some fv ∧ s1.keyFreq.find v = none ∧
      (∀ k fk, k ≠ v → LFUCache.sample.keyFreq.find k = some fk →
        fv ≤ fk ∧ (fk = fv → Ghost.sample.lastTime v < Ghost.sample.lastTime k) ∧
        s1.keyFreq.find k = some fk) ∧
      (∀ k, k ≠ 2 → LFUCache.sample.keyFreq.find k = none → s1.keyFreq.find k = none) ∧
      s1.keyFreq.find 2 = some 1 ∧ LFUCache.resident s1 = 1 :=
  ⟨le_refl 1, ⟨Engine.sampleOps, rfl⟩, rfl, rfl,
    (lfu_victim_choice 1 (le_refl 1)).1 LFUCache.sample Ghost.sample 2 RW.Read
      ⟨Engine.sampleOps, rfl⟩ rfl rfl⟩


/-! ## Engine A: trimming of the ghost lists, the pivot and the hit branches -/

namespace ARCCache

theorem arc_clean_ghost_list_trimT2 (s : ARCCache) (v : Int)
    (h : s.T1.length + s.T2.length > s.csize) (hv : s.T2.getLast? = some v) :
    clean_ghost_list s = clean_ghost_list (trimT2 s v) := by
  have hl : s.T1.length + s.T2.length = (s.T1.length + s.T2.dropLast.length) + 1 := by
    rw [length_of_getLast hv]; omega
  show clean_ghost_loop (s.T1.length + s.T2.length) s =
    clean_ghost_loop (s.T1.length + s.T2.dropLast.length) (trimT2 s v)
  rw [hl]
  conv_lhs => unfold clean_ghost_loop
  rw [if_pos h, hv]
  rfl

theorem arc_clean_ghost_list_trimT1 (s : ARCCache) (v : Int)
    (h : s.T1.length + s.T2.length > s.csize) (h2 : s.T2 = [])
    (hv : s.T1.getLast? = some v) :
    clean_ghost_list s = clean_ghost_list (trimT1 s v) := by
  have hl : s.T1.length + s.T2.length = (s.T1.dropLast.length + s.T2.length) + 1 := by
    rw [length_of_getLast hv]; omega
  have h3 : s.T2.getLast? = none := by rw [h2]; rfl
  show clean_ghost_loop (s.T1.length + s.T2.length) s =
    clean_ghost_loop (s.T1.dropLast.length + s.T2.length) (trimT1 s v)
  rw [hl]
  conv_lhs => unfold clean_ghost_loop
  rw [if_pos h, h3, hv]
  rfl

/-- A call of `replace` either changes nothing or ends with the trimming of
the ghost lists. -/
theorem arc_replace_ghost_bound (s m : ARCCache) (h : replace s = some m) :
    m = s ∨ m.T1.length + m.T2.length ≤ s.csize := by
  unfold replace at h
  split_ifs at h with h1
  · cases hv : s.L1.getLast? with
    | none => rw [hv] at h; cases h
    | some v =>
      rw [hv] at h
      simp only [Option.some.injEq] at h
      right
      rw [← h]
      exact arc_clean_ghost_list_bound _
  · cases hv : s.L2.getLast? with
    | none => rw [hv] at h; simp only [Option.some.injEq] at h; exact Or.inl h.symm
    | some v =>
      rw [hv] at h
      simp only [Option.some.injEq] at h
      right
      rw [← h]
      exact arc_clean_ghost_list_bound _

theorem arc_makeRoom_ghost_bound (s m : ARCCache) (h : makeRoom s = some m) :
    m = s ∨ m.T1.length + m.T2.length ≤ s.csize := by
  unfold makeRoom at h
  split_ifs at h with h1
  · exact arc_replace_ghost_bound s m h
  · simp only [Option.some.injEq] at h; exact Or.inl h.symm

/-- One `refer` keeps the ghost lists within the capacity. -/
theorem arc_referCase_ghost_bound (s s1 : ARCCache) (x : Int) (t : RW)
    (hb : s.T1.length + s.T2.length ≤ s.csize) (h : ReferCase s x t s1) :
    s1.T1.length + s1.T2.length ≤ s1.csize := by
  rcases h with ⟨_, e⟩ | ⟨_, e⟩ | ⟨_, _, _, m, hm, e⟩ | ⟨_, _, _, m, hm, e⟩ |
    ⟨_, _, _, _, m, hm, e⟩
  · rw [e]; exact hb
  · rw [e]; exact hb
  · rw [e]
    have := arc_clean_ghost_list_bound
      { pushL2 m x with accessType := m.accessType.insert x t }
    rw [(arc_afterGhost_frame m x t).1]
    exact this
  · rw [e]
    have := arc_clean_ghost_list_bound
      { pushL2 m x with accessType := m.accessType.insert x t }
    rw [(arc_afterGhost_frame m x t).1]
    exact this
  · rw [e]
    show m.T1.length + m.T2.length ≤ m.csize
    have hc : m.csize = s.csize := hm.2.2.1.1
    rcases arc_makeRoom_ghost_bound _ _ hm.1 with e1 | e1
    · rw [e1]; exact hb
    · rw [hc]; exact e1

theorem arc_reachable_ghost_bound (C : Nat) (s : ARCCache) (h : engine.Reachable C s) :
    Inv C s ∧ s.T1.length + s.T2.length ≤ s.csize := by
  refine Engine.reachable_invariant engine C
    (fun s => Inv C s ∧ s.T1.length + s.T2.length ≤ s.csize)
    ⟨arc_inv_init C, ?_⟩ ?_ ?_ h
  · show 0 + 0 ≤ C
    omega
  · intro s x t s1 hP hr
    have hc := arc_refer_referCase C s s1 x t hP.1 hr
    exact ⟨arc_referCase_inv C s s1 x t hP.1 hc,
      arc_referCase_ghost_bound s s1 x t hP.2 hc⟩
  · intro s hP
    exact ⟨arc_inv_refresh C s hP.1, hP.2⟩

/-- When the ghost lists exceed the capacity by one, trimming is a single
step: the LRU key of `T2`, or of `T1` when `T2` is empty. -/
theorem arc_trim_one (m : ARCCache) (hb : m.T1.length + m.T2.length = m.csize + 1) :
    (∃ w, m.T2.getLast? = some w ∧ clean_ghost_list m = trimT2 m w) ∨
    (∃ w, m.T2 = [] ∧ m.T1.getLast? = some w ∧ clean_ghost_list m = trimT1 m w) := by
  have hover : m.T1.length + m.T2.length > m.csize := by omega
  cases h2 : m.T2.getLast? with
  | some w =>
    left
    refine ⟨w, rfl, ?_⟩
    rw [arc_clean_ghost_list_trimT2 m w hover h2]
    apply arc_clean_ghost_list_id
    have hl := length_of_getLast h2
    show m.T1.length + m.T2.dropLast.length ≤ m.csize
    omega
  | none =>
    right
    have h2e : m.T2 = [] := List.getLast?_eq_none_iff.mp h2
    have hlen : m.T1.length = m.csize + 1 := by rw [h2e] at hb; simpa using hb
    cases h1 : m.T1.getLast? with
    | none =>
      have : m.T1 = [] := List.getLast?_eq_none_iff.mp h1
      rw [this] at hlen
      simp at hlen
    | some w =>
      refine ⟨w, h2e, rfl, ?_⟩
      rw [arc_clean_ghost_list_trimT1 m w hover h2e h1]
      apply arc_clean_ghost_list_id
      have hl := length_of_getLast h1
      show m.T1.dropLast.length + m.T2.length ≤ m.csize
      rw [h2e]
      simp only [List.length_nil]
      omega

/-- Trimming after the replacement keeps the fresh ghost entry at the MRU end
of its list. -/
theorem arc_trim_keeps_front (m : ARCCache) (v : Int) (r : List Int) (h1 : m.T1 = v :: r)
    (hb : r.length + m.T2.length ≤ m.csize) (hC : 1 ≤ m.csize) :
    ∃ r1, (clean_ghost_list m).T1 = v :: r1 ∧ r1 <+: r ∧
      (clean_ghost_list m).T2 <+: m.T2 := by
  by_cases hle : m.T1.length + m.T2.length ≤ m.csize
  · rw [arc_clean_ghost_list_id m hle]
    exact ⟨r, h1, List.prefix_refl r, List.prefix_refl _⟩
  · have hlen : m.T1.length = r.length + 1 := by rw [h1]; rfl
    have hb1 : m.T1.length + m.T2.length = m.csize + 1 := by omega
    rcases arc_trim_one m hb1 with ⟨w, hw, e⟩ | ⟨w, h2, hw, e⟩
    · rw [e]
      exact ⟨r, h1, List.prefix_refl r, List.dropLast_prefix _⟩
    · rw [e]
      have hr : r ≠ [] := by
        intro hr
        rw [hr] at hlen
        rw [h2] at hb1
        simp only [List.length_nil] at hlen hb1
        omega
      refine ⟨r.dropLast, ?_, List.dropLast_prefix _, ?_⟩
      · show m.T1.dropLast = v :: r.dropLast
        rw [h1]
        cases r with
        | nil => exact absurd rfl hr
        | cons a r2 => rfl
      · show m.T2 <+: m.T2
        exact List.prefix_refl _

/-- The miss on a full engine with `|L1| > p`: the exact result of `refer`. -/
theorem arc_miss_from_L1 (C : Nat) (s : ARCCache) (x : Int) (t : RW) (hI : Inv C s)
    (hfull : s.L1.length + s.L2.length = C) (hp : (s.L1.length : Int) > s.p)
    (hx : s.key_set_map.find x = none) :
    ∃ v, s.L1.getLast? = some v ∧
      refer s x t =
        some (insertL1 (clean_ghost_list (dirtyEvict (moveL1T1 (called s) v) v)) x t) := by
  obtain ⟨hc, hp0, _, _⟩ := hI
  cases hv : s.L1.getLast? with
  | none =>
    have : s.L1 = [] := List.getLast?_eq_none_iff.mp hv
    rw [this] at hp
    simp at hp
    omega
  | some v =>
    refine ⟨v, rfl, ?_⟩
    rw [arc_refer_miss s x t hx]
    have hm : makeRoom (called s) = replace (called s) := by
      unfold makeRoom
      have : (called s).L1.length + (called s).L2.length = (called s).csize := by
        show s.L1.length + s.L2.length = s.csize
        omega
      rw [if_pos this]
    rw [hm, arc_replace_L1 (called s) v hp hv]
    rfl

theorem arc_not_mem_count {L : List Int} {k : Int} (h : k ∉ L) : L.count k = 0 :=
  List.count_eq_zero.mpr h

theorem arc_tag_of_head (C : Nat) (s : ARCCache) (k : Int) (hI : Inv C s) :
    (∀ r, s.L1 = k :: r → s.key_set_map.find k = some ListSet.L1_SET) ∧
    (∀ r, s.T1 = k :: r → s.key_set_map.find k = some ListSet.T1_SET) ∧
    (∀ r, s.L2 = k :: r → s.key_set_map.find k = some ListSet.L2_SET) ∧
    (∀ r, s.T2 = k :: r → s.key_set_map.find k = some ListSet.T2_SET) := by
  have hk := hI.2.2.2 k
  have ht := arc_keyOK_tag s k hk
  have hle := hk.1
  refine ⟨fun r e => ?_, fun r e => ?_, fun r e => ?_, fun r e => ?_⟩
  · refine ht.1.mpr ?_
    rw [e, count_cons_eq] at hle ⊢
    simp only [if_true] at hle ⊢
    omega
  · refine ht.2.1.mpr ?_
    rw [e, count_cons_eq] at hle ⊢
    simp only [if_true] at hle ⊢
    omega
  · refine ht.2.2.1.mpr ?_
    rw [e, count_cons_eq] at hle ⊢
    simp only [if_true] at hle ⊢
    omega
  · refine ht.2.2.2.1.mpr ?_
    rw [e, count_cons_eq] at hle ⊢
    simp only [if_true] at hle ⊢
    omega

/-- The direction of the replacement on a miss with `|L1| > p`. -/
theorem arc_miss_L1_post (C : Nat) (s : ARCCache) (x : Int) (t : RW)
    (hr : engine.Reachable C s)
    (hfull : s.L1.length + s.L2.length = C) (hp : (s.L1.length : Int) > s.p)
    (hx : x ∉ s.L1 ∧ x ∉ s.T1 ∧ x ∉ s.L2 ∧ x ∉ s.T2) :
    ∃ v s1 r, s.L1.getLast? = some v ∧ refer s x t = some s1 ∧
      s1.L1 = x :: s.L1.dropLast ∧ s1.L2 = s.L2 ∧
      s1.T1 = v :: r ∧ r <+: s.T1 ∧ s1.T2 <+: s.T2 ∧
      s1.key_set_map.find v = some ListSet.T1_SET ∧
      s1.key_set_map.find x = some ListSet.L1_SET ∧
      s1.p = s.p ∧ s1.hits = s.hits := by
  obtain ⟨hI, hb⟩ := arc_reachable_ghost_bound C s hr
  have hfind : s.key_set_map.find x = none :=
    (arc_absent_iff s x (hI.2.2.2 x)).mpr
      ⟨arc_not_mem_count hx.1, arc_not_mem_count hx.2.1, arc_not_mem_count hx.2.2.1,
        arc_not_mem_count hx.2.2.2⟩
  obtain ⟨v, hv, hrefer⟩ := arc_miss_from_L1 C s x t hI hfull hp hfind
  have hC : 1 ≤ s.csize := by
    have := hI.2.1
    have h0 := hI.1
    have hl : (0 : Int) < s.L1.length := by omega
    omega
  obtain ⟨r1, e1, hp1, hp2⟩ :=
    arc_trim_keeps_front (dirtyEvict (moveL1T1 (called s) v) v) v s.T1 rfl hb hC
  have hf := arc_clean_ghost_list_frame (dirtyEvict (moveL1T1 (called s) v) v)
  have hI1 := arc_refer_inv C s _ x t hI hrefer
  have htag := arc_tag_of_head C _ v hI1
  have htagx := arc_tag_of_head C _ x hI1
  refine ⟨v, _, r1, hv, hrefer, ?_, ?_, e1, hp1, hp2, ?_, ?_, ?_, ?_⟩
  · show x :: (clean_ghost_list (dirtyEvict (moveL1T1 (called s) v) v)).L1 = _
    rw [hf.2.2.1]
    rfl
  · show (clean_ghost_list (dirtyEvict (moveL1T1 (called s) v) v)).L2 = _
    rw [hf.2.2.2.1]
    rfl
  · exact htag.2.1 r1 e1
  · exact htagx.1 _ rfl
  · show (clean_ghost_list (dirtyEvict (moveL1T1 (called s) v) v)).p = _
    rw [hf.2.1]
    rfl
  · show (clean_ghost_list (dirtyEvict (moveL1T1 (called s) v) v)).hits = _
    rw [hf.2.2.2.2.2.2.1]
    rfl

/-- Only a ghost hit moves the pivot. -/
theorem arc_pivot_same (s s1 : ARCCache) (x : Int) (t : RW)
    (h1 : s.T1.count x = 0) (h2 : s.T2.count x = 0) (h : ReferCase s x t s1) :
    s1.p = s.p := by
  rcases h with ⟨_, e⟩ | ⟨_, e⟩ | ⟨c, _⟩ | ⟨c, _⟩ | ⟨_, _, _, _, m, hm, e⟩
  · rw [e]; rfl
  · rw [e]; rfl
  · omega
  · omega
  · rw [e]
    show m.p = s.p
    exact hm.2.2.1.2.1

/-- The state after a ghost hit, whichever ghost list held the key. -/
theorem arc_afterGhost_post (C : Nat) (s m s1 : ARCCache) (x : Int) (t : RW)
    (hm : SameCounters s m) (e : s1 = afterGhost m x t) (hI1 : Inv C s1) :
    s1.p = s.p ∧ s1.hits = s.hits ∧ s1.readHits = s.readHits ∧
    s1.writeHits = s.writeHits ∧ x ∉ s1.T1 ∧ x ∉ s1.T2 ∧ s1.L2.head? = some x ∧
    s1.key_set_map.find x = some ListSet.L2_SET ∧ s1.accessType.find x = some t := by
  have hf := arc_afterGhost_frame m x t
  have hL2 : s1.L2 = x :: m.L2 := by rw [e]; exact hf.2.2.2.1
  have hk := (hI1.2.2.2 x).1
  rw [hL2, count_cons_eq] at hk
  simp only [if_true] at hk
  obtain ⟨_, c2, c3, c4, c5, c6, c7⟩ := hm
  refine ⟨?_, ?_, ?_, ?_, ?_, ?_, ?_, ?_, ?_⟩
  · rw [e, hf.2.1]; exact c2
  · rw [e, hf.2.2.2.2.2.2.1]; exact c4
  · rw [e, hf.2.2.2.2.2.2.2.1]; exact c5
  · rw [e, hf.2.2.2.2.2.2.2.2.1]; exact c6
  · intro hmem
    have := (mem_iff_count _ _).mp hmem
    omega
  · intro hmem
    have := (mem_iff_count _ _).mp hmem
    omega
  · rw [hL2]; rfl
  · exact (arc_tag_of_head C s1 x hI1).2.2.1 _ hL2
  · rw [e, hf.2.2.2.2.1]
    exact KMap.find_insert_self _ _ _

/-- The ghost-hit branch of `refer`, for a key of `T1` and for a key of `T2`. -/
theorem arc_ghost_hit_post (C : Nat) (s : ARCCache) (x : Int) (t : RW) (hI : Inv C s) :
    (x ∈ s.T1 → ∃ s1, refer s x t = some s1 ∧ s1.p = min (C : Int) (s.p + 1) ∧
      s1.hits = s.hits ∧ s1.readHits = s.readHits ∧ s1.writeHits = s.writeHits ∧
      x ∉ s1.T1 ∧ x ∉ s1.T2 ∧ s1.L2.head? = some x ∧
      s1.key_set_map.find x = some ListSet.L2_SET ∧ s1.accessType.find x = some t) ∧
    (x ∈ s.T2 → ∃ s1, refer s x t = some s1 ∧ s1.p = max 0 (s.p - 1) ∧
      s1.hits = s.hits ∧ s1.readHits = s.readHits ∧ s1.writeHits = s.writeHits ∧
      x ∉ s1.T1 ∧ x ∉ s1.T2 ∧ s1.L2.head? = some x ∧
      s1.key_set_map.find x = some ListSet.L2_SET ∧ s1.accessType.find x = some t) := by
  obtain ⟨s1, hr, hc⟩ := arc_refer_cases C s x t hI
  have hI1 := arc_referCase_inv C s s1 x t hI hc
  have hk := (hI.2.2.2 x).1
  have hcs := hI.1
  constructor
  · intro hx
    have hx1 := (mem_iff_count _ _).mp hx
    refine ⟨s1, hr, ?_⟩
    rcases hc with ⟨c, _⟩ | ⟨c, _⟩ | ⟨_, _, _, m, hm, e⟩ | ⟨c, _⟩ | ⟨_, c, _⟩
    · omega
    · omega
    · have hp := arc_afterGhost_post C (ghostT1 s x) m s1 x t hm.2.2.1 e hI1
      refine ⟨?_, hp.2⟩
      rw [hp.1, ← hcs]
      rfl
    · omega
    · omega
  · intro hx
    have hx1 := (mem_iff_count _ _).mp hx
    refine ⟨s1, hr, ?_⟩
    rcases hc with ⟨c, _⟩ | ⟨c, _⟩ | ⟨c, _⟩ | ⟨_, _, _, m, hm, e⟩ | ⟨_, _, _, c, _⟩
    · omega
    · omega
    · omega
    · have hp := arc_afterGhost_post C (ghostT2 s x) m s1 x t hm.2.2.1 e hI1
      exact ⟨hp.1, hp.2⟩
    · omega

/-- A key that is not the referenced one and is in no list stays in no list. -/
theorem arc_absent_stays (s s1 : ARCCache) (x k : Int) (t : RW) (hk : k ≠ x)
    (h0 : s.L1.count k = 0 ∧ s.T1.count k = 0 ∧ s.L2.count k = 0 ∧ s.T2.count k = 0)
    (h : ReferCase s x t s1) :
    s1.L1.count k = 0 ∧ s1.T1.count k = 0 ∧ s1.L2.count k = 0 ∧ s1.T2.count k = 0 := by
  obtain ⟨a1, a2, a3, a4⟩ := h0
  have hg : ∀ m : ARCCache, m.L1.count k = 0 → m.T1.count k = 0 → m.L2.count k = 0 →
      m.T2.count k = 0 →
      (afterGhost m x t).L1.count k = 0 ∧ (afterGhost m x t).T1.count k = 0 ∧
      (afterGhost m x t).L2.count k = 0 ∧ (afterGhost m x t).T2.count k = 0 := by
    intro m b1 b2 b3 b4
    have hf := arc_afterGhost_frame m x t
    have hcl := arc_clean_ghost_loop_count_le
      (({ pushL2 m x with accessType := m.accessType.insert x t } : ARCCache).T1.length +
        ({ pushL2 m x with accessType := m.accessType.insert x t } : ARCCache).T2.length)
      { pushL2 m x with accessType := m.accessType.insert x t } k
    refine ⟨?_, ?_, ?_, ?_⟩
    · rw [hf.2.2.1]; exact b1
    · exact Nat.eq_zero_of_le_zero (le_trans hcl.1 (le_of_eq b2))
    · rw [hf.2.2.2.1, count_cons_eq, if_neg hk]; omega
    · exact Nat.eq_zero_of_le_zero (le_trans hcl.2 (le_of_eq b4))
  rcases h with ⟨_, e⟩ | ⟨_, e⟩ | ⟨_, _, _, m, hm, e⟩ | ⟨_, _, _, m, hm, e⟩ |
    ⟨_, _, _, _, m, hm, e⟩
  · rw [e]
    refine ⟨?_, a2, ?_, a4⟩
    · show (s.L1.erase x).count k = 0
      rw [count_erase_eq]; omega
    · show (x :: s.L2).count k = 0
      rw [count_cons_eq, if_neg hk]; omega
  · rw [e]
    refine ⟨a1, a2, ?_, a4⟩
    show (x :: s.L2.erase x).count k = 0
    rw [count_cons_eq, if_neg hk, count_erase_eq]; omega
  · rw [e]
    have hm4 := hm.2.2.2.2 k
    have e1 : (ghostT1 s x).L1 = s.L1 := rfl
    have e2 : (ghostT1 s x).L2 = s.L2 := rfl
    have e3 : (ghostT1 s x).T1 = s.T1.erase x := rfl
    have e4 : (ghostT1 s x).T2 = s.T2 := rfl
    rw [e1, e2, e3, e4, count_erase_eq] at hm4
    exact hg m (by omega) (by omega) (by omega) (by omega)
  · rw [e]
    have hm4 := hm.2.2.2.2 k
    have e1 : (ghostT2 s x).L1 = s.L1 := rfl
    have e2 : (ghostT2 s x).L2 = s.L2 := rfl
    have e3 : (ghostT2 s x).T1 = s.T1 := rfl
    have e4 : (ghostT2 s x).T2 = s.T2.erase x := rfl
    rw [e1, e2, e3, e4, count_erase_eq] at hm4
    exact hg m (by omega) (by omega) (by omega) (by omega)
  · rw [e]
    have hm4 := hm.2.2.2.2 k
    have e1 : (called s).L1 = s.L1 := rfl
    have e2 : (called s).L2 = s.L2 := rfl
    have e3 : (called s).T1 = s.T1 := rfl
    have e4 : (called s).T2 = s.T2 := rfl
    rw [e1, e2, e3, e4] at hm4
    refine ⟨?_, ?_, ?_, ?_⟩
    · show (x :: m.L1).count k = 0
      rw [count_cons_eq, if_neg hk]; omega
    · show m.T1.count k = 0
      omega
    · show m.L2.count k = 0
      omega
    · show m.T2.count k = 0
      omega

/-- A key that was never referenced is in none of the four lists. -/
theorem arc_never_seen (C : Nat) (s : ARCCache) (g : Ghost) (h : engine.Traced C s g) :
    Inv C s ∧ ∀ k, g.lastType k = none →
      s.L1.count k = 0 ∧ s.T1.count k = 0 ∧ s.L2.count k = 0 ∧ s.T2.count k = 0 := by
  refine Engine.traced_invariant engine C
    (fun s g => Inv C s ∧ ∀ k, g.lastType k = none →
      s.L1.count k = 0 ∧ s.T1.count k = 0 ∧ s.L2.count k = 0 ∧ s.T2.count k = 0)
    ⟨arc_inv_init C, fun k _ => ⟨rfl, rfl, rfl, rfl⟩⟩ ?_ ?_ h
  · intro s g x t s1 hP hr
    have hc := arc_refer_referCase C s s1 x t hP.1 hr
    refine ⟨arc_referCase_inv C s s1 x t hP.1 hc, ?_⟩
    intro k hk
    simp only [Ghost.note] at hk
    by_cases hkx : k = x
    · rw [if_pos hkx] at hk; cases hk
    · rw [if_neg hkx] at hk
      exact arc_absent_stays s s1 x k t hkx (hP.2 k hk) hc
  · intro s g hP
    exact ⟨arc_inv_refresh C s hP.1, hP.2⟩

theorem arc_nodup_of_inv (C : Nat) (s : ARCCache) (hI : Inv C s) :
    s.L1.Nodup ∧ s.L2.Nodup := by
  constructor
  · rw [List.nodup_iff_count_le_one]
    intro a
    have := (hI.2.2.2 a).1
    omega
  · rw [List.nodup_iff_count_le_one]
    intro a
    have := (hI.2.2.2 a).1
    omega

theorem arc_erase_eq_filter {L : List Int} (h : L.Nodup) (x : Int) :
    L.erase x = L.filter (fun k => decide (k ≠ x)) := by
  rw [List.Nodup.erase_eq_filter h]
  apply List.filter_congr
  intro k _
  by_cases hk : k = x
  · subst hk; simp
  · simp [hk]

/-- The resident-hit branch of `refer`. -/
theorem arc_resident_hit_post (C : Nat) (s : ARCCache) (x : Int) (t : RW) (hI : Inv C s)
    (hx : x ∈ s.L1 ∨ x ∈ s.L2) :
    ∃ s1, refer s x t = some s1 ∧ s1.calls = s.calls + 1 ∧ s1.hits = s.hits + 1 ∧
      s1.readHits = s.readHits + (if t = RW.Read then 1 else 0) ∧
      s1.writeHits = s.writeHits + (if t = RW.Read then 0 else 1) ∧
      s1.p = s.p ∧ s1.T1 = s.T1 ∧ s1.T2 = s.T2 ∧ resident s1 = resident s ∧
      s1.L2.head? = some x ∧ s1.key_set_map.find x = some ListSet.L2_SET ∧
      s1.L1 = s.L1.filter (fun k => decide (k ≠ x)) ∧
      s1.L2 = x :: s.L2.filter (fun k => decide (k ≠ x)) := by
  obtain ⟨s1, hr, hc⟩ := arc_refer_cases C s x t hI
  have hI1 := arc_referCase_inv C s s1 x t hI hc
  have hk := (hI.2.2.2 x).1
  obtain ⟨n1, n2⟩ := arc_nodup_of_inv C s hI
  have hpos : 0 < resCount s x := by
    unfold resCount
    rcases hx with hx | hx
    · have := (mem_iff_count _ _).mp hx; omega
    · have := (mem_iff_count _ _).mp hx; omega
  have hcnt := arc_referCase_counters s s1 x t hc
  obtain ⟨k1, _, _, k4⟩ := hcnt
  have k5 : s1.hits = s.hits + 1 ∧
      s1.readHits = s.readHits + (if t = RW.Read then 1 else 0) ∧
      s1.writeHits = s.writeHits + (if t = RW.Read then 0 else 1) ∧
      resident s1 = resident s := by
    rcases k4 with ⟨_, a, b, c, d⟩ | ⟨z, _⟩
    · exact ⟨a, b, c, d⟩
    · omega
  have hL : s1.T1 = s.T1 ∧ s1.T2 = s.T2 ∧ s1.L1 = s.L1.erase x ∧
      s1.L2 = x :: s.L2.erase x := by
    unfold resCount at hpos
    rcases hc with ⟨c, e⟩ | ⟨c, e⟩ | ⟨_, c, d, _⟩ | ⟨_, c, d, _⟩ | ⟨c, _, d, _⟩
    · rw [e]
      refine ⟨rfl, rfl, rfl, ?_⟩
      show x :: s.L2 = x :: s.L2.erase x
      have : x ∉ s.L2 := by
        intro hm
        have := (mem_iff_count _ _).mp hm
        omega
      rw [List.erase_of_not_mem this]
    · rw [e]
      refine ⟨rfl, rfl, ?_, rfl⟩
      show s.L1 = s.L1.erase x
      have : x ∉ s.L1 := by
        intro hm
        have := (mem_iff_count _ _).mp hm
        omega
      rw [List.erase_of_not_mem this]
    · omega
    · omega
    · omega
  have hp : s1.p = s.p := by
    refine arc_pivot_same s s1 x t ?_ ?_ hc
    · unfold resCount at hpos; omega
    · unfold resCount at hpos; omega
  refine ⟨s1, hr, k1, k5.1, k5.2.1, k5.2.2.1, hp, hL.1, hL.2.1, k5.2.2.2, ?_, ?_, ?_, ?_⟩
  · rw [hL.2.2.2]; rfl
  · exact (arc_tag_of_head C s1 x hI1).2.2.1 _ hL.2.2.2
  · rw [hL.2.2.1]; exact arc_erase_eq_filter n1 x
  · rw [hL.2.2.2, arc_erase_eq_filter n2 x]

/-- Trimming only erases map entries: a key without an entry gets none. -/
theorem arc_clean_ghost_loop_find_none (n : Nat) (s : ARCCache) (k : Int) :
    (s.list_map.find k = none → (clean_ghost_loop n s).list_map.find k = none) ∧
    (s.key_set_map.find k = none → (clean_ghost_loop n s).key_set_map.find k = none) := by
  induction n generalizing s with
  | zero => exact ⟨fun h => h, fun h => h⟩
  | succ n ih =>
    unfold clean_ghost_loop
    by_cases hgt : s.T1.length + s.T2.length > s.csize
    · rw [if_pos hgt]
      have step : ∀ v : Int, ∀ a : ARCCache, a.list_map = s.list_map.erase v →
          a.key_set_map = s.key_set_map.erase v →
          (s.list_map.find k = none → (clean_ghost_loop n a).list_map.find k = none) ∧
          (s.key_set_map.find k = none →
            (clean_ghost_loop n a).key_set_map.find k = none) := by
        intro v a h1 h2
        refine ⟨fun h => (ih a).1 ?_, fun h => (ih a).2 ?_⟩
        · rw [h1, KMap.find_erase]
          split_ifs
          · rfl
          · exact h
        · rw [h2, KMap.find_erase]
          split_ifs
          · rfl
          · exact h
      cases h2 : s.T2.getLast? with
      | some v => exact step v _ rfl rfl
      | none =>
        cases h1 : s.T1.getLast? with
        | some v => exact step v _ rfl rfl
        | none => exact ⟨fun h => h, fun h => h⟩
    · rw [if_neg hgt]
      exact ⟨fun h => h, fun h => h⟩

/-- The key trimmed first has no map entry once trimming is over. -/
theorem arc_trim_erases (m : ARCCache) (v : Int)
    (h : m.T1.length + m.T2.length > m.csize)
    (hv : m.T2.getLast? = some v ∨ (m.T2 = [] ∧ m.T1.getLast? = some v)) :
    (clean_ghost_list m).list_map.find v = none ∧
    (clean_ghost_list m).key_set_map.find v = none := by
  rcases hv with hv | ⟨h2, hv⟩
  · rw [arc_clean_ghost_list_trimT2 m v h hv]
    have := arc_clean_ghost_loop_find_none
      ((trimT2 m v).T1.length + (trimT2 m v).T2.length) (trimT2 m v) v
    exact ⟨this.1 (KMap.find_erase_self _ _), this.2 (KMap.find_erase_self _ _)⟩
  · rw [arc_clean_ghost_list_trimT1 m v h h2 hv]
    have := arc_clean_ghost_loop_find_none
      ((trimT1 m v).T1.length + (trimT1 m v).T2.length) (trimT1 m v) v
    exact ⟨this.1 (KMap.find_erase_self _ _), this.2 (KMap.find_erase_self _ _)⟩

end ARCCache


/-! ## Engine B: victims, targets and placement -/

namespace CACHEUSCache

theorem cacheus_place_eq (s : CACHEUSCache) (x : Int) (t : RW) :
    (place s x t).Read_List = (if t = RW.Read then [x] else []) ++ s.Read_List ∧
    (place s x t).Write_List = (if t = RW.Read then [] else [x]) ++ s.Write_List ∧
    (∀ k, k ≠ x → (place s x t).list_map.find k = s.list_map.find k) ∧
    (∀ k, k ≠ x → (place s x t).key_segment_map.find k = s.key_segment_map.find k) ∧
    (∀ k, k ≠ x → (place s x t).accessType.find k = s.accessType.find k) ∧
    (t = RW.Write → (place s x t).accessType.find x = some RW.Write) := by
  cases t
  · have hp : place s x RW.Read =
        { s with Read_List := x :: s.Read_List,
                 key_segment_map := s.key_segment_map.insert x Segment.READ,
                 list_map := s.list_map.insert x Segment.READ } := by simp [place]
    rw [hp]
    refine ⟨rfl, rfl, ?_, ?_, ?_, ?_⟩
    · intro k hk; exact KMap.find_insert_ne _ _ hk
    · intro k hk; exact KMap.find_insert_ne _ _ hk
    · intro k _; rfl
    · intro h; cases h
  · have hp : place s x RW.Write =
        { s with Write_List := x :: s.Write_List,
                 key_segment_map := s.key_segment_map.insert x Segment.WRITE,
                 list_map := s.list_map.insert x Segment.WRITE,
                 accessType := s.accessType.insert x RW.Write } := by simp [place]
    rw [hp]
    refine ⟨rfl, rfl, ?_, ?_, ?_, ?_⟩
    · intro k hk; exact KMap.find_insert_ne _ _ hk
    · intro k hk; exact KMap.find_insert_ne _ _ hk
    · intro k hk; exact KMap.find_insert_ne _ _ hk
    · intro _; exact KMap.find_insert_self _ _ _

theorem cacheus_not_mem_count {L : List Int} {k : Int} (h : k ∉ L) : L.count k = 0 :=
  List.count_eq_zero.mpr h

theorem cacheus_mem_of_getLast {L : List Int} {v : Int} (h : L.getLast? = some v) :
    v ∈ L := by
  have h1 : L.dropLast ++ [v] = L := List.dropLast_append_getLast? v (by simp [h])
  rw [← h1]
  simp

/-- On a full engine a miss always evicts: the LRU key of a non-empty segment
leaves its list and all three maps. -/
theorem cacheus_full_miss_victim (C : Nat) (hC : 1 ≤ C) (s : CACHEUSCache) (x : Int)
    (t : RW) (hI : Inv C s) (hfull : s.Read_List.length + s.Write_List.length = C)
    (hx : x ∉ s.Read_List ∧ x ∉ s.Write_List) :
    ∃ v s1, refer s x t = some s1 ∧ chooseSegment s ≠ none ∧
      ((chooseSegment s = some true ∧ s.Read_List.getLast? = some v ∧
          s1.Read_List = (if t = RW.Read then [x] else []) ++ s.Read_List.dropLast ∧
          s1.Write_List = (if t = RW.Read then [] else [x]) ++ s.Write_List) ∨
       (chooseSegment s = some false ∧ s.Write_List.getLast? = some v ∧
          s1.Read_List = (if t = RW.Read then [x] else []) ++ s.Read_List ∧
          s1.Write_List = (if t = RW.Read then [] else [x]) ++ s.Write_List.dropLast)) ∧
      v ≠ x ∧ s1.list_map.find v = none ∧ s1.key_segment_map.find v = none ∧
      s1.accessType.find v = none ∧
      s1.Read_List.length + s1.Write_List.length = C := by
  obtain ⟨hcs, _, _, _, hK⟩ := hI
  have hres : resCount s x = 0 := by
    unfold resCount
    rw [cacheus_not_mem_count hx.1, cacheus_not_mem_count hx.2]
  have hfind : s.key_segment_map.find x = none :=
    (cacheus_keyOK_tag s x (hK x)).2.2.2.1.mpr hres
  have hfull2 : resident s = s.csize := by unfold resident; omega
  have hC2 : 1 ≤ s.csize := by omega
  obtain ⟨v, hv⟩ := cacheus_referMiss_full s x t hC2 hfull2
  have hr := cacheus_refer_miss s x t hfind
  rcases hv with ⟨hl, hch, e⟩ | ⟨hl, hch, e⟩
  · have hvx : v ≠ x := by
      intro h; rw [h] at hl; exact hx.1 (cacheus_mem_of_getLast hl)
    have hp := cacheus_place_eq (popRead (called s) v) x t
    refine ⟨v, _, hr, (by rw [hch]; exact Option.some_ne_none _), ?_, hvx, ?_, ?_, ?_, ?_⟩
    · left
      rw [e]
      exact ⟨hch, hl, hp.1, hp.2.1⟩
    · rw [e, hp.2.2.1 v hvx]
      exact KMap.find_erase_self _ _
    · rw [e, hp.2.2.2.1 v hvx]
      exact KMap.find_erase_self _ _
    · rw [e, hp.2.2.2.2.1 v hvx]
      exact KMap.find_erase_self _ _
    · rw [e, hp.1, hp.2.1]
      have hlen := length_of_getLast hl
      have e1 : (popRead (called s) v).Read_List = s.Read_List.dropLast := rfl
      have e2 : (popRead (called s) v).Write_List = s.Write_List := rfl
      rw [e1, e2]
      cases t <;> simp <;> omega
  · have hvx : v ≠ x := by
      intro h; rw [h] at hl; exact hx.2 (cacheus_mem_of_getLast hl)
    have hp := cacheus_place_eq (popWrite (called s) v) x t
    refine ⟨v, _, hr, (by rw [hch]; exact Option.some_ne_none _), ?_, hvx, ?_, ?_, ?_, ?_⟩
    · right
      rw [e]
      exact ⟨hch, hl, hp.1, hp.2.1⟩
    · rw [e, hp.2.2.1 v hvx]
      exact KMap.find_erase_self _ _
    · rw [e, hp.2.2.2.1 v hvx]
      exact KMap.find_erase_self _ _
    · rw [e, hp.2.2.2.2.1 v hvx]
      exact KMap.find_erase_self _ _
    · rw [e, hp.1, hp.2.1]
      have hlen := length_of_getLast hl
      have e1 : (popWrite (called s) v).Read_List = s.Read_List := rfl
      have e2 : (popWrite (called s) v).Write_List = s.Write_List.dropLast := rfl
      rw [e1, e2]
      cases t <;> simp <;> omega

theorem cacheus_referCase_place (s s1 : CACHEUSCache) (x : Int) (t : RW)
    (h : ReferCase s x t s1) : ∃ m, s1 = place m x t := by
  rcases h with ⟨_, e⟩ | ⟨_, e⟩ | ⟨_, _, e⟩ | ⟨_, _, v, _, _, e⟩ | ⟨_, _, v, _, _, e⟩
  · exact ⟨_, e⟩
  · exact ⟨_, e⟩
  · exact ⟨_, e⟩
  · exact ⟨_, e⟩
  · exact ⟨_, e⟩

/-- After `refer(x, t)` the key is at the MRU end of the segment of `t`, tagged
with it, and nowhere else. -/
theorem cacheus_placement (C : Nat) (hC : 1 ≤ C) (s : CACHEUSCache) (x : Int) (t : RW)
    (hI : Inv C s) :
    ∃ s1, refer s x t = some s1 ∧
      (t = RW.Read → ∃ r, s1.Read_List = x :: r ∧ x ∉ r ∧ x ∉ s1.Write_List ∧
        s1.key_segment_map.find x = some Segment.READ ∧
        s1.list_map.find x = some Segment.READ) ∧
      (t = RW.Write → ∃ r, s1.Write_List = x :: r ∧ x ∉ r ∧ x ∉ s1.Read_List ∧
        s1.key_segment_map.find x = some Segment.WRITE ∧
        s1.list_map.find x = some Segment.WRITE ∧
        s1.accessType.find x = some RW.Write) := by
  obtain ⟨s1, hr, hc⟩ := cacheus_refer_cases C hC s x t hI
  have hI1 := cacheus_referCase_inv C s s1 x t hI hc
  obtain ⟨m, e⟩ := cacheus_referCase_place s s1 x t hc
  have hp := cacheus_place_eq m x t
  have hk := hI1.2.2.2.2 x
  have htag := cacheus_keyOK_tag s1 x hk
  have hle := hk.1
  unfold resCount at hle
  refine ⟨s1, hr, ?_, ?_⟩
  · intro ht
    have e1 : s1.Read_List = x :: m.Read_List := by rw [e, hp.1, ht]; rfl
    rw [e1, count_cons_eq] at hle
    simp only [if_true] at hle
    have hcount : s1.Read_List.count x = 1 := by
      rw [e1, count_cons_eq]; simp only [if_true]; omega
    have hfind := htag.1.mpr hcount
    refine ⟨m.Read_List, e1, ?_, ?_, hfind, ?_⟩
    · intro hm
      have := (mem_iff_count _ _).mp hm
      omega
    · intro hm
      have := (mem_iff_count _ _).mp hm
      omega
    · rw [htag.2.2.2.2]; exact hfind
  · intro ht
    have e1 : s1.Write_List = x :: m.Write_List := by rw [e, hp.2.1, ht]; rfl
    rw [e1, count_cons_eq] at hle
    simp only [if_true] at hle
    have hcount : s1.Write_List.count x = 1 := by
      rw [e1, count_cons_eq]; simp only [if_true]; omega
    have hfind := htag.2.1.mpr hcount
    refine ⟨m.Write_List, e1, ?_, ?_, hfind, ?_, ?_⟩
    · intro hm
      have := (mem_iff_count _ _).mp hm
      omega
    · intro hm
      have := (mem_iff_count _ _).mp hm
      omega
    · rw [htag.2.2.2.2]; exact hfind
    · rw [e]; exact hp.2.2.2.2.2 ht

/-- The two targets as the constructor computes them. -/
theorem cacheus_init_targets (C : Nat) (hC : 1 ≤ C) :
    (init C).write_segment_size = max 1 ((C : Int) / 10) ∧
    (init C).read_segment_size = max 0 ((C : Int) - max 1 ((C : Int) / 10)) ∧
    (init C).write_segment_size + (init C).read_segment_size = C := by
  have hw : (init C).write_segment_size = max 1 ((C : Int) / 10) := rfl
  have hr : (init C).read_segment_size =
      if (C : Int) - max 1 ((C : Int) / 10) < 0 then 0
      else (C : Int) - max 1 ((C : Int) / 10) := rfl
  have h1 : max 1 ((C : Int) / 10) ≤ (C : Int) := by
    apply max_le
    · omega
    · omega
  have h2 : ¬ (C : Int) - max 1 ((C : Int) / 10) < 0 := by omega
  rw [hw, hr, if_neg h2]
  refine ⟨rfl, ?_, ?_⟩
  · exact (max_eq_right (by omega)).symm
  · omega

/-- Rounding to the nearest integer, on the rationals, is what `roundTenth`
computes. -/
theorem cacheus_roundTenth_eq (C : Nat) : roundTenth C = round ((1 / 10 : ℚ) * C) := by
  unfold roundTenth
  rw [round_eq]
  have : (1 / 10 : ℚ) * C + 1 / 2 = (((C : Int) + 5 : Int) : ℚ) / ((10 : Nat) : ℚ) := by
    push_cast
    ring
  rw [this, Rat.floor_intCast_div_natCast]
  rfl

end CACHEUSCache


/-! ## Engine C: the hit branch -/

namespace LFUCache

end LFUCache


/-! ## The per-run counters do not steer any engine -/

namespace Engine

/-- Overriding the per-run counters changes no outcome of a reference
sequence, provided `refer` commutes with the override. -/
theorem outcomes_shift {σ : Type} (E : Engine σ) (hits : σ → Nat)
    (W : σ → Nat → Nat → Nat → σ)
    (hW : ∀ s c h m, hits (W s c h m) = h)
    (hstep : ∀ s c h m x t, E.refer (W s c h m) x t =
      (E.refer s x t).map (fun s1 => W s1 (c + 1) (h + (hits s1 - hits s)) m)) :
    ∀ refs s c h m, E.outcomes hits (W s c h m) refs = E.outcomes hits s refs := by
  intro refs
  induction refs with
  | nil => intro s c h m; rfl
  | cons e rest ih =>
    intro s c h m
    simp only [outcomes]
    rw [hstep]
    cases hr : E.refer s e.1 e.2 with
    | none => rfl
    | some s1 =>
      simp only [Option.map_some', Option.some_bind]
      rw [ih s1, hW, hW]
      have : decide (h < h + (hits s1 - hits s)) = decide (hits s < hits s1) := by
        by_cases hlt : hits s < hits s1
        · have : h < h + (hits s1 - hits s) := by omega
          simp [hlt, this]
        · have : ¬ h < h + (hits s1 - hits s) := by omega
          simp [hlt, this]
      rw [this]

/-- Overriding the per-run counters changes nothing else in the state a call
sequence ends in. -/
theorem exec_shift {σ : Type} (E : Engine σ) (hits : σ → Nat)
    (W : σ → Nat → Nat → Nat → σ)
    (hWW : ∀ s c h m c1 h1 m1, W (W s c h m) c1 h1 m1 = W s c1 h1 m1)
    (hR : ∀ s, E.refresh s = W s 0 0 0)
    (hstep : ∀ s c h m x t, E.refer (W s c h m) x t =
      (E.refer s x t).map (fun s1 => W s1 (c + 1) (h + (hits s1 - hits s)) m)) :
    ∀ ops s c h m, (E.exec (W s c h m) ops).map E.refresh = (E.exec s ops).map E.refresh := by
  intro ops
  induction ops with
  | nil =>
    intro s c h m
    simp only [exec, Option.map_some', hR, hWW]
  | cons op rest ih =>
    intro s c h m
    cases op with
    | refer x t =>
      simp only [exec]
      rw [hstep]
      cases hr : E.refer s x t with
      | none => rfl
      | some s1 =>
        simp only [Option.map_some', Option.some_bind]
        exact ih s1 _ _ _
    | refresh =>
      simp only [exec]
      rw [hR, hR, hWW]

/-- A reference sequence run from a state with a kept invariant returns. -/
theorem outcomes_isSome {σ : Type} (E : Engine σ) (hits : σ → Nat) (P : σ → Prop)
    (hstep : ∀ s x t, P s → ∃ s1, E.refer s x t = some s1 ∧ P s1) :
    ∀ refs s, P s → ∃ l, E.outcomes hits s refs = some l := by
  intro refs
  induction refs with
  | nil => intro s _; exact ⟨[], rfl⟩
  | cons e rest ih =>
    intro s hP
    obtain ⟨s1, hr, hP1⟩ := hstep s e.1 e.2 hP
    obtain ⟨l, hl⟩ := ih s1 hP1
    refine ⟨decide (hits s < hits s1) :: l, ?_⟩
    simp only [outcomes, hr, Option.some_bind, hl, Option.map_some']

/-- A reference sequence run from a state with a kept invariant returns
exactly when every key of it is one on which `refer` returns. -/
theorem outcomes_isSome_iff {σ : Type} (E : Engine σ) (hits : σ → Nat) (P : σ → Prop)
    (ok : Int → Prop)
    (hstep : ∀ s x t, P s → ok x → ∃ s1, E.refer s x t = some s1 ∧ P s1)
    (hbad : ∀ s x t, P s → ¬ ok x → E.refer s x t = none) :
    ∀ refs s, P s → ((∃ l, E.outcomes hits s refs = some l) ↔ ∀ e ∈ refs, ok e.1) := by
  intro refs
  induction refs with
  | nil => intro s _; exact ⟨fun _ e he => (by cases he), fun _ => ⟨[], rfl⟩⟩
  | cons e rest ih =>
    intro s hP
    by_cases hk : ok e.1
    · obtain ⟨s1, hr, hP1⟩ := hstep s e.1 e.2 hP hk
      have hi := ih s1 hP1
      constructor
      · rintro ⟨l, hl⟩ a ha
        simp only [outcomes, hr, Option.some_bind] at hl
        rcases List.mem_cons.1 ha with rfl | ha
        · exact hk
        · cases ho : E.outcomes hits s1 rest with
          | none => rw [ho] at hl; cases hl
          | some l1 => exact hi.1 ⟨l1, ho⟩ a ha
      · intro hall
        obtain ⟨l, hl⟩ := hi.2 (fun a ha => hall a (List.mem_cons_of_mem _ ha))
        refine ⟨decide (hits s < hits s1) :: l, ?_⟩
        simp only [outcomes, hr, Option.some_bind, hl, Option.map_some']
    · have hr := hbad s e.1 e.2 hP hk
      constructor
      · rintro ⟨l, hl⟩
        simp only [outcomes, hr, Option.none_bind] at hl
        cases hl
      · intro hall
        exact absurd (hall e (List.mem_cons_self _ _)) hk

end Engine

namespace ARCCache

theorem arc_clean_ghost_loop_withStats (n : Nat) (s : ARCCache) (c h m : Nat) :
    clean_ghost_loop n (withStats s c h m) = withStats (clean_ghost_loop n s) c h m := by
  induction n generalizing s with
  | zero => rfl
  | succ n ih =>
    conv_lhs => unfold clean_ghost_loop
    conv_rhs => unfold clean_ghost_loop
    by_cases hgt : s.T1.length + s.T2.length > s.csize
    · have hgt2 : (withStats s c h m).T1.length + (withStats s c h m).T2.length >
          (withStats s c h m).csize := hgt
      rw [if_pos hgt, if_pos hgt2]
      have e2 : (withStats s c h m).T2 = s.T2 := rfl
      have e1 : (withStats s c h m).T1 = s.T1 := rfl
      rw [e2, e1]
      cases h2 : s.T2.getLast? with
      | some v => exact ih (trimT2 s v)
      | none =>
        cases h1 : s.T1.getLast? with
        | some v => exact ih (trimT1 s v)
        | none => rfl
    · have hgt2 : ¬ (withStats s c h m).T1.length + (withStats s c h m).T2.length >
          (withStats s c h m).csize := hgt
      rw [if_neg hgt, if_neg hgt2]

theorem arc_clean_ghost_list_withStats (s : ARCCache) (c h m : Nat) :
    clean_ghost_list (withStats s c h m) = withStats (clean_ghost_list s) c h m :=
  arc_clean_ghost_loop_withStats _ s c h m

theorem arc_replace_withStats (s : ARCCache) (c h m : Nat) :
    replace (withStats s c h m) = (replace s).map (fun s1 => withStats s1 c h m) := by
  unfold replace
  have e1 : (withStats s c h m).L1 = s.L1 := rfl
  have e2 : (withStats s c h m).L2 = s.L2 := rfl
  have e3 : (withStats s c h m).p = s.p := rfl
  rw [e1, e2, e3]
  by_cases hp : (s.L1.length : Int) > s.p
  · rw [if_pos hp, if_pos hp]
    cases hv : s.L1.getLast? with
    | none => rfl
    | some v =>
      simp only [Option.map_some', Option.some.injEq]
      exact arc_clean_ghost_list_withStats (dirtyEvict (moveL1T1 s v) v) c h m
  · rw [if_neg hp, if_neg hp]
    cases hv : s.L2.getLast? with
    | none => rfl
    | some v =>
      simp only [Option.map_some', Option.some.injEq]
      exact arc_clean_ghost_list_withStats (dirtyEvict (moveL2T2 s v) v) c h m

/-- A call of `replace` leaves `hits` alone. -/
theorem arc_replace_hits (s m : ARCCache) (h : replace s = some m) : m.hits = s.hits := by
  unfold replace at h
  split_ifs at h with h1
  · cases hv : s.L1.getLast? with
    | none => rw [hv] at h; cases h
    | some v =>
      rw [hv] at h
      simp only [Option.some.injEq] at h
      rw [← h, (arc_clean_ghost_list_frame _).2.2.2.2.2.2.1]
      rfl
  · cases hv : s.L2.getLast? with
    | none => rw [hv] at h; simp only [Option.some.injEq] at h; rw [h]
    | some v =>
      rw [hv] at h
      simp only [Option.some.injEq] at h
      rw [← h, (arc_clean_ghost_list_frame _).2.2.2.2.2.2.1]
      rfl

theorem arc_referHit_withStats (s : ARCCache) (cs : ListSet) (x : Int) (t : RW)
    (c h m : Nat) :
    referHit (withStats s c h m) cs x t =
      (referHit s cs x t).map (fun s1 => withStats s1 c (h + (s1.hits - s.hits)) m) := by
  unfold referHit
  by_cases h1 : cs = ListSet.L1_SET
  · cases t
    · cases he : eraseIter s.L1 ListSet.L1_SET (s.list_map.find x) x <;>
        simp [withStats, pushL2, h1, he]
    · cases he : eraseIter s.L1 ListSet.L1_SET (s.list_map.find x) x <;>
        simp [withStats, pushL2, h1, he]
  · cases t
    · cases he : eraseIter s.L2 ListSet.L2_SET (s.list_map.find x) x <;>
        simp [withStats, pushL2, h1, he]
    · cases he : eraseIter s.L2 ListSet.L2_SET (s.list_map.find x) x <;>
        simp [withStats, pushL2, h1, he]

theorem arc_makeRoom_withStats (s : ARCCache) (c h m : Nat) :
    makeRoom (withStats s c h m) = (makeRoom s).map (fun s1 => withStats s1 c h m) := by
  unfold makeRoom
  by_cases hf : s.L1.length + s.L2.length = s.csize
  · have hf2 : (withStats s c h m).L1.length + (withStats s c h m).L2.length =
        (withStats s c h m).csize := hf
    rw [if_pos hf, if_pos hf2]; exact arc_replace_withStats s c h m
  · have hf2 : ¬ (withStats s c h m).L1.length + (withStats s c h m).L2.length =
        (withStats s c h m).csize := hf
    rw [if_neg hf, if_neg hf2]; rfl

theorem arc_makeRoom_hits (s s1 : ARCCache) (h : makeRoom s = some s1) :
    s1.hits = s.hits := by
  unfold makeRoom at h
  split_ifs at h with hf
  · exact arc_replace_hits s s1 h
  · simp only [Option.some.injEq] at h; rw [h]

theorem arc_ghostTail_withStats (a : ARCCache) (x : Int) (t : RW) (c h m : Nat) :
    (makeRoom (withStats a c h m)).map (fun s => afterGhost s x t) =
      ((makeRoom a).map (fun s => afterGhost s x t)).map
        (fun s1 => withStats s1 c (h + (s1.hits - a.hits)) m) := by
  rw [arc_makeRoom_withStats]
  cases hm : makeRoom a with
  | none => rfl
  | some m1 =>
    simp only [Option.map_some', Option.some.injEq]
    have h1 : (afterGhost m1 x t).hits = a.hits := by
      rw [(arc_afterGhost_frame m1 x t).2.2.2.2.2.2.1]
      exact arc_makeRoom_hits a m1 hm
    rw [h1, Nat.sub_self, Nat.add_zero]
    exact arc_clean_ghost_list_withStats
      { pushL2 m1 x with accessType := m1.accessType.insert x t } c h m

theorem arc_referGhost_eq (s : ARCCache) (cs : ListSet) (x : Int) (t : RW) :
    referGhost s cs x t =
      (if cs = ListSet.T1_SET then
        (eraseIter s.T1 ListSet.T1_SET (s.list_map.find x) x).map
          (fun l => { s with p := min (s.csize : Int) (s.p + 1), T1 := l })
      else
        (eraseIter s.T2 ListSet.T2_SET (s.list_map.find x) x).map
          (fun l => { s with p := max 0 (s.p - 1), T2 := l })).bind
      (fun a => (makeRoom { a with list_map := a.list_map.erase x,
                                   key_set_map := a.key_set_map.erase x }).map
        (fun s => afterGhost s x t)) := rfl

theorem arc_referGhost_withStats (s : ARCCache) (cs : ListSet) (x : Int) (t : RW)
    (c h m : Nat) :
    referGhost (withStats s c h m) cs x t =
      (referGhost s cs x t).map (fun s1 => withStats s1 c (h + (s1.hits - s.hits)) m) := by
  rw [arc_referGhost_eq, arc_referGhost_eq]
  have e1 : (withStats s c h m).T1 = s.T1 := rfl
  have e2 : (withStats s c h m).T2 = s.T2 := rfl
  have e3 : (withStats s c h m).list_map = s.list_map := rfl
  rw [e1, e2, e3]
  by_cases h1 : cs = ListSet.T1_SET
  · rw [if_pos h1, if_pos h1]
    cases he : eraseIter s.T1 ListSet.T1_SET (s.list_map.find x) x with
    | none => rfl
    | some l =>
      simp only [Option.map_some', Option.some_bind]
      exact arc_ghostTail_withStats
        { s with p := min (s.csize : Int) (s.p + 1), T1 := l,
                 list_map := s.list_map.erase x,
                 key_set_map := s.key_set_map.erase x } x t c h m
  · rw [if_neg h1, if_neg h1]
    cases he : eraseIter s.T2 ListSet.T2_SET (s.list_map.find x) x with
    | none => rfl
    | some l =>
      simp only [Option.map_some', Option.some_bind]
      exact arc_ghostTail_withStats
        { s with p := max 0 (s.p - 1), T2 := l,
                 list_map := s.list_map.erase x,
                 key_set_map := s.key_set_map.erase x } x t c h m

theorem arc_referMiss_withStats (s : ARCCache) (x : Int) (t : RW) (c h m : Nat) :
    referMiss (withStats s c h m) x t =
      (referMiss s x t).map (fun s1 => withStats s1 c (h + (s1.hits - s.hits)) m) := by
  unfold referMiss
  by_cases hf : s.L1.length + s.L2.length = s.csize
  · have hf2 : (withStats s c h m).L1.length + (withStats s c h m).L2.length =
        (withStats s c h m).csize := hf
    simp only [if_pos hf, if_pos hf2]
    rw [arc_replace_withStats]
    cases hr : replace s with
    | none => rfl
    | some m1 =>
      have := arc_replace_hits s m1 hr
      simp [withStats, this]
  · have hf2 : ¬ (withStats s c h m).L1.length + (withStats s c h m).L2.length =
        (withStats s c h m).csize := hf
    simp only [if_neg hf, if_neg hf2]
    by_cases hg : s.T1.length + s.T2.length = s.csize
    · have hg2 : (withStats s c h m).T1.length + (withStats s c h m).T2.length =
          (withStats s c h m).csize := hg
      simp only [if_pos hg, if_pos hg2]
      rw [arc_clean_ghost_list_withStats]
      have := (arc_clean_ghost_list_frame s).2.2.2.2.2.2.1
      simp [withStats, this]
    · have hg2 : ¬ (withStats s c h m).T1.length + (withStats s c h m).T2.length =
          (withStats s c h m).csize := hg
      simp only [if_neg hg, if_neg hg2]
      simp [withStats]

theorem arc_refer_withStats (s : ARCCache) (c h m : Nat) (x : Int) (t : RW) :
    refer (withStats s c h m) x t =
      (refer s x t).map (fun s1 => withStats s1 (c + 1) (h + (s1.hits - s.hits)) m) := by
  have key : ∀ cs : ListSet,
      (if cs = ListSet.L1_SET ∨ cs = ListSet.L2_SET then
        referHit (withStats (called s) (c + 1) h m) cs x t
      else if cs = ListSet.T1_SET ∨ cs = ListSet.T2_SET then
        referGhost (withStats (called s) (c + 1) h m) cs x t
      else referMiss (withStats (called s) (c + 1) h m) x t) =
      (if cs = ListSet.L1_SET ∨ cs = ListSet.L2_SET then referHit (called s) cs x t
      else if cs = ListSet.T1_SET ∨ cs = ListSet.T2_SET then referGhost (called s) cs x t
      else referMiss (called s) x t).map
        (fun s1 => withStats s1 (c + 1) (h + (s1.hits - s.hits)) m) := by
    intro cs
    split_ifs
    · exact arc_referHit_withStats (called s) cs x t (c + 1) h m
    · exact arc_referGhost_withStats (called s) cs x t (c + 1) h m
    · exact arc_referMiss_withStats (called s) x t (c + 1) h m
  exact key _

end ARCCache

namespace CACHEUSCache

theorem cacheus_referHit_withStats (s : CACHEUSCache) (cs : Segment) (x : Int) (t : RW)
    (c h m : Nat) :
    referHit (withStats s c h m) cs x t =
      (referHit s cs x t).map (fun s1 => withStats s1 c (h + (s1.hits - s.hits)) m) := by
  unfold referHit
  by_cases h1 : cs = Segment.READ
  · cases t
    · cases he : eraseIter s.Read_List Segment.READ (s.list_map.find x) x <;>
        simp [withStats, place, adapt_segments, h1, he]
    · cases he : eraseIter s.Read_List Segment.READ (s.list_map.find x) x <;>
        simp [withStats, place, adapt_segments, h1, he]
  · cases t
    · cases he : eraseIter s.Write_List Segment.WRITE (s.list_map.find x) x <;>
        simp [withStats, place, adapt_segments, h1, he]
    · cases he : eraseIter s.Write_List Segment.WRITE (s.list_map.find x) x <;>
        simp [withStats, place, adapt_segments, h1, he]

theorem cacheus_referMiss_withStats (s : CACHEUSCache) (x : Int) (t : RW) (c h m : Nat) :
    referMiss (withStats s c h m) x t = withStats (referMiss s x t) c h m ∧
    (referMiss s x t).hits = s.hits := by
  unfold referMiss
  have ec : chooseSegment (withStats s c h m) = chooseSegment s := rfl
  by_cases hf : s.Read_List.length + s.Write_List.length = s.csize
  · have hf2 : (withStats s c h m).Read_List.length + (withStats s c h m).Write_List.length =
        (withStats s c h m).csize := hf
    rw [if_pos hf, if_pos hf2, ec]
    cases hch : chooseSegment s with
    | none => exact ⟨rfl, rfl⟩
    | some b =>
      cases b
      · cases hl : s.Write_List.getLast? <;> cases t <;>
          simp [withStats, place, adapt_segments, evict_write, dropVictim, hl]
      · cases hl : s.Read_List.getLast? <;> cases t <;>
          simp [withStats, place, adapt_segments, evict_read, dropVictim, hl]
  · have hf2 : ¬ (withStats s c h m).Read_List.length +
        (withStats s c h m).Write_List.length = (withStats s c h m).csize := hf
    rw [if_neg hf, if_neg hf2]
    cases t <;> simp [withStats, place, adapt_segments]

theorem cacheus_refer_withStats (s : CACHEUSCache) (c h m : Nat) (x : Int) (t : RW) :
    refer (withStats s c h m) x t =
      (refer s x t).map (fun s1 => withStats s1 (c + 1) (h + (s1.hits - s.hits)) m) := by
  have key : ∀ cs : Segment,
      (if cs ≠ Segment.NONE then referHit (withStats (called s) (c + 1) h m) cs x t
       else some (referMiss (withStats (called s) (c + 1) h m) x t)) =
      (if cs ≠ Segment.NONE then referHit (called s) cs x t
       else some (referMiss (called s) x t)).map
        (fun s1 => withStats s1 (c + 1) (h + (s1.hits - s.hits)) m) := by
    intro cs
    split_ifs
    · exact cacheus_referHit_withStats (called s) cs x t (c + 1) h m
    · have hm := cacheus_referMiss_withStats (called s) x t (c + 1) h m
      rw [hm.1]
      simp only [Option.map_some', Option.some.injEq]
      have e : (referMiss (called s) x t).hits - s.hits = 0 := by
        rw [hm.2]
        exact Nat.sub_self _
      rw [e]
      rfl
  exact key _

end CACHEUSCache

namespace LFUCache

theorem lfu_referHit_withStats (s : LFUCache) (f : Nat) (x : Int) (t : RW)
    (c h m : Nat) :
    referHit (withStats s c h m) f x t =
      (referHit s f x t).map (fun s1 => withStats s1 c (h + (s1.hits - s.hits)) m) := by
  unfold referHit
  have eb : bucket { withStats s c h m with hits := (withStats s c h m).hits + 1 } f =
      bucket s f := rfl
  have eb2 : bucket { s with hits := s.hits + 1 } f = bucket s f := rfl
  simp only [eb, eb2]
  have ek : (withStats s c h m).keyIterMap = s.keyIterMap := rfl
  rw [ek]
  cases he : eraseIter (bucket s f) f (s.keyIterMap.find x) x with
  | none => rfl
  | some b =>
    simp only [Option.map_some', Option.some.injEq]
    by_cases hb : b = []
    · simp only [hb, if_true]
      cases t <;> simp [withStats, place, bucket]
    · simp only [hb, if_false]
      cases t <;> simp [withStats, place, bucket]

theorem lfu_evict_withStats (s : LFUCache) (c h m : Nat) :
    evict (withStats s c h m) = (evict s).map (fun s1 => withStats s1 c h m) := by
  unfold evict
  have e1 : (withStats s c h m).freqList = s.freqList := rfl
  rw [e1]
  cases hm : s.freqList.minEntry with
  | none => rfl
  | some e =>
    obtain ⟨f, b⟩ := e
    cases hl : b.getLast? with
    | none => simp [hl]
    | some last =>
      by_cases hb : b.dropLast = [] <;> simp [withStats, hl, hb]

theorem lfu_evict_hits (s s1 : LFUCache) (h : evict s = some s1) : s1.hits = s.hits := by
  unfold evict at h
  cases hm : s.freqList.minEntry with
  | none => rw [hm] at h; cases h
  | some e =>
    obtain ⟨f, b⟩ := e
    rw [hm] at h
    cases hl : b.getLast? with
    | none => simp [hl] at h
    | some last =>
      simp only [hl, Option.some.injEq] at h
      rw [← h]
      split_ifs <;> rfl

theorem lfu_referMiss_withStats (s : LFUCache) (x : Int) (t : RW) (c h m : Nat) :
    referMiss (withStats s c h m) x t =
      (referMiss s x t).map (fun s1 => withStats s1 c (h + (s1.hits - s.hits)) m) := by
  unfold referMiss
  by_cases hf : s.keyIterMap.size = s.csize
  · have hf2 : (withStats s c h m).keyIterMap.size = (withStats s c h m).csize := hf
    simp only [if_pos hf, if_pos hf2]
    rw [lfu_evict_withStats]
    cases hr : evict s with
    | none => rfl
    | some m1 =>
      have := lfu_evict_hits s m1 hr
      simp [withStats, place, bucket, this]
  · have hf2 : ¬ (withStats s c h m).keyIterMap.size = (withStats s c h m).csize := hf
    simp only [if_neg hf, if_neg hf2]
    simp [withStats, place, bucket]

theorem lfu_refer_withStats (s : LFUCache) (c h m : Nat) (x : Int) (t : RW) :
    refer (withStats s c h m) x t =
      (refer s x t).map (fun s1 => withStats s1 (c + 1) (h + (s1.hits - s.hits)) m) := by
  have key : ∀ o : Option Nat,
      (match o with
       | none => referMiss (withStats (called s) (c + 1) h m) x t
       | some f => referHit (withStats (called s) (c + 1) h m) f x t) =
      (match o with
       | none => referMiss (called s) x t
       | some f => referHit (called s) f x t).map
        (fun s1 => withStats s1 (c + 1) (h + (s1.hits - s.hits)) m) := by
    intro o
    cases o with
    | none => exact lfu_referMiss_withStats (called s) x t (c + 1) h m
    | some f => exact lfu_referHit_withStats (called s) f x t (c + 1) h m
  exact key _

end LFUCache

namespace LIRSCache

theorem lirs_prune_loop_withStats (n : Nat) (s : LIRSCache) (c h m : Nat) :
    prune_loop n (withStats s c h m) = (prune_loop n s).map (fun s1 => withStats s1 c h m) := by
  induction n generalizing s with
  | zero => rfl
  | succ n ih =>
    conv_lhs => unfold prune_loop
    conv_rhs => unfold prune_loop
    have e1 : (withStats s c h m).R = s.R := rfl
    have e2 : (withStats s c h m).key_status_map = s.key_status_map := rfl
    rw [e1, e2]
    cases hl : s.R.getLast? with
    | none => rfl
    | some key =>
      dsimp only
      cases hs : s.key_status_map.find key with
      | none => rfl
      | some st =>
        dsimp only
        by_cases hst : st = Status.LIR
        · simp only [hst, if_true, Option.map_some']
        · simp only [hst, if_false]
          exact ih { s with R := s.R.dropLast, R_map := s.R_map.erase key }

theorem lirs_prune_loop_hits (n : Nat) (s s1 : LIRSCache) (h : prune_loop n s = some s1) :
    s1.hits = s.hits := by
  induction n generalizing s with
  | zero => simp only [prune_loop, Option.some.injEq] at h; rw [h]
  | succ n ih =>
    unfold prune_loop at h
    cases hl : s.R.getLast? with
    | none => rw [hl] at h; simp only [Option.some.injEq] at h; rw [h]
    | some key =>
      rw [hl] at h
      dsimp only at h
      cases hs : s.key_status_map.find key with
      | none => rw [hs] at h; cases h
      | some st =>
        rw [hs] at h
        dsimp only at h
        by_cases hst : st = Status.LIR
        · simp only [hst, if_true, Option.some.injEq] at h; rw [h]
        · simp only [hst, if_false] at h
          exact ih { s with R := s.R.dropLast, R_map := s.R_map.erase key } h

theorem lirs_prune_stack_withStats (s : LIRSCache) (c h m : Nat) :
    prune_stack (withStats s c h m) = (prune_stack s).map (fun s1 => withStats s1 c h m) :=
  lirs_prune_loop_withStats _ s c h m

theorem lirs_touchStack_withStats (s : LIRSCache) (x : Int) (c h m : Nat) :
    touchStack (withStats s c h m) x = (touchStack s x).map (fun s1 => withStats s1 c h m) ∧
    ∀ s1, touchStack s x = some s1 → s1.hits = s.hits := by
  unfold touchStack
  have e1 : (withStats s c h m).R_map = s.R_map := rfl
  have e2 : (withStats s c h m).R = s.R := rfl
  rw [e1, e2]
  by_cases hc : s.R_map.count x = true
  · simp only [hc, if_true]
    cases he : eraseIter s.R () (s.R_map.find x) x with
    | none => exact ⟨rfl, fun s1 h1 => by cases h1⟩
    | some l =>
      refine ⟨by simp [withStats], ?_⟩
      intro s1 h1
      simp only [Option.map_some', Option.some.injEq] at h1
      rw [← h1]
  · simp only [hc]
    refine ⟨by simp [withStats], ?_⟩
    intro s1 h1
    cases h1
    rfl

theorem lirs_prune_stack_hits (s s1 : LIRSCache) (h : prune_stack s = some s1) :
    s1.hits = s.hits :=
  lirs_prune_loop_hits _ s s1 h

theorem lirs_referHit_eq (s : LIRSCache) (x : Int) (t : RW) :
    referHit s x t =
      match s.key_status_map.find x with
      | none => none
      | some st =>
        if st = Status.LIR then prune_stack (hitCounted s x t)
        else if st = Status.RESIDENT_HIR then
          if (s.LIR_set.length : Int) < s.lir_size then
            prune_stack (promoted (hitCounted s x t) x)
          else some (hitCounted s x t)
        else some (hitCounted s x t) := by
  cases t <;> rfl

theorem lirs_pruned_withStats (a : LIRSCache) (c h m n : Nat) (hn : a.hits = n + 1) :
    prune_stack (withStats a c (h + 1) m) =
      (prune_stack a).map (fun s1 => withStats s1 c (h + (s1.hits - n)) m) := by
  rw [lirs_prune_stack_withStats]
  cases hp : prune_stack a with
  | none => rfl
  | some s1 =>
    have := lirs_prune_stack_hits a s1 hp
    simp only [Option.map_some', Option.some.injEq]
    have e : s1.hits - n = 1 := by omega
    rw [e]

theorem lirs_referHit_withStats (s : LIRSCache) (x : Int) (t : RW) (c h m : Nat) :
    referHit (withStats s c h m) x t =
      (referHit s x t).map (fun s1 => withStats s1 c (h + (s1.hits - s.hits)) m) := by
  rw [lirs_referHit_eq, lirs_referHit_eq]
  have e1 : (withStats s c h m).key_status_map = s.key_status_map := rfl
  have e2 : (withStats s c h m).LIR_set = s.LIR_set := rfl
  have e3 : (withStats s c h m).lir_size = s.lir_size := rfl
  have e4 : hitCounted (withStats s c h m) x t = withStats (hitCounted s x t) c (h + 1) m :=
    rfl
  have e5 : promoted (withStats (hitCounted s x t) c (h + 1) m) x =
      withStats (promoted (hitCounted s x t) x) c (h + 1) m := rfl
  have e6 : withStats (hitCounted s x t) c (h + 1) m =
      withStats (hitCounted s x t) c (h + ((hitCounted s x t).hits - s.hits)) m := by
    have : (hitCounted s x t).hits - s.hits = 1 := by
      show s.hits + 1 - s.hits = 1
      omega
    rw [this]
  rw [e1, e2, e3, e4, e5]
  cases hs : s.key_status_map.find x with
  | none => rfl
  | some st =>
    dsimp only
    split_ifs
    · exact lirs_pruned_withStats (hitCounted s x t) c h m s.hits rfl
    · exact lirs_pruned_withStats (promoted (hitCounted s x t) x) c h m s.hits rfl
    · simp only [Option.map_some', Option.some.injEq]; exact e6
    · simp only [Option.map_some', Option.some.injEq]; exact e6

theorem lirs_referMiss_withStats (s : LIRSCache) (x : Int) (t : RW) (c h m : Nat) :
    referMiss (withStats s c h m) x t = withStats (referMiss s x t) c h m ∧
    (referMiss s x t).hits = s.hits := by
  unfold referMiss
  by_cases hf : s.resident_map.size = s.csize
  · have hf2 : (withStats s c h m).resident_map.size = (withStats s c h m).csize := hf
    simp only [if_pos hf, if_pos hf2]
    cases hl : s.HIR_nonresident_list with
    | nil => simp [evict_HIR_block, withStats, hl]
    | cons v r => simp [evict_HIR_block, withStats, hl]
  · have hf2 : ¬ (withStats s c h m).resident_map.size = (withStats s c h m).csize := hf
    simp only [if_neg hf, if_neg hf2]
    exact ⟨rfl, trivial⟩

theorem lirs_finalPrune_withStats (s : LIRSCache) (x : Int) (c h m : Nat) :
    finalPrune (withStats s c h m) x = (finalPrune s x).map (fun s1 => withStats s1 c h m) ∧
    ∀ s1, finalPrune s x = some s1 → s1.hits = s.hits := by
  unfold finalPrune
  have e : (withStats s c h m).HIR_nonresident_list = s.HIR_nonresident_list := rfl
  rw [e]
  cases hl : s.HIR_nonresident_list with
  | nil =>
    dsimp only
    split_ifs
    · exact ⟨rfl, fun s1 h1 => by cases h1⟩
    · exact ⟨rfl, fun s1 h1 => by cases h1; rfl⟩
  | cons k r =>
    dsimp only
    split_ifs
    · exact ⟨rfl, fun s1 h1 => by cases h1; rfl⟩
    · exact ⟨rfl, fun s1 h1 => by cases h1; rfl⟩

theorem lirs_refer_withStats (s : LIRSCache) (c h m : Nat) (x : Int) (t : RW) :
    refer (withStats s c h m) x t =
      (refer s x t).map (fun s1 => withStats s1 (c + 1) (h + (s1.hits - s.hits)) m) := by
  unfold refer
  have e : ({ withStats s c h m with calls := (withStats s c h m).calls + 1 } : LIRSCache) =
      withStats { s with calls := s.calls + 1 } (c + 1) h m := rfl
  simp only [e]
  have ht := lirs_touchStack_withStats { s with calls := s.calls + 1 } x (c + 1) h m
  rw [ht.1]
  cases hto : touchStack { s with calls := s.calls + 1 } x with
  | none => rfl
  | some a =>
    have ha : a.hits = s.hits := ht.2 a hto
    simp only [Option.map_some', Option.some_bind]
    have er : (withStats a (c + 1) h m).resident_map = a.resident_map := rfl
    rw [er]
    by_cases hc : a.resident_map.count x = true
    · simp only [hc, if_true]
      rw [lirs_referHit_withStats]
      cases hh : referHit a x t with
      | none => rfl
      | some b =>
        simp only [Option.map_some', Option.some_bind]
        have hf := lirs_finalPrune_withStats b x (c + 1) (h + (b.hits - a.hits)) m
        rw [hf.1]
        cases hp : finalPrune b x with
        | none => rfl
        | some d =>
          simp only [Option.map_some', Option.some.injEq]
          rw [hf.2 d hp, ha]
    · simp only [hc]
      have hm := lirs_referMiss_withStats a x t (c + 1) h m
      have hf := lirs_finalPrune_withStats (referMiss a x t) x (c + 1) h m
      simp only [Bool.false_eq_true, if_false, Option.some_bind]
      rw [hm.1, hf.1]
      cases hp : finalPrune (referMiss a x t) x with
      | none => rfl
      | some d =>
        simp only [Option.map_some', Option.some.injEq]
        rw [hf.2 d hp, hm.2, ha, Nat.sub_self]
        rfl

end LIRSCache

/-! ### The reset frame rule, engine by engine -/

namespace ARCCache

theorem arc_reset_frame (C : Nat) (s : ARCCache) (hr : engine.Reachable C s)
    (refs : List (Int × RW)) :
    ∃ l, engine.outcomes (fun s => s.hits) s refs = some l ∧
      engine.outcomes (fun s => s.hits) (refresh s) refs = some l ∧
      (engine.exec (refresh s) (Engine.refs refs)).map refresh =
        (engine.exec s (Engine.refs refs)).map refresh := by
  obtain ⟨l, hl⟩ := Engine.outcomes_isSome engine (fun s => s.hits) (Inv C)
    (fun s x t hI => by
      obtain ⟨s1, h1, h2⟩ := arc_refer_cases C s x t hI
      exact ⟨s1, h1, arc_referCase_inv C s s1 x t hI h2⟩)
    refs s (arc_reachable_inv C s hr)
  refine ⟨l, hl, ?_, ?_⟩
  · rw [← hl]
    exact Engine.outcomes_shift engine (fun s => s.hits) withStats (fun _ _ _ _ => rfl)
      arc_refer_withStats refs s 0 0 0
  · exact Engine.exec_shift engine (fun s => s.hits) withStats (fun _ _ _ _ _ _ _ => rfl)
      (fun _ => rfl) arc_refer_withStats (Engine.refs refs) s 0 0 0

end ARCCache

namespace CACHEUSCache

theorem cacheus_reset_frame (C : Nat) (hC : 1 ≤ C) (s : CACHEUSCache)
    (hr : engine.Reachable C s) (refs : List (Int × RW)) :
    ∃ l, engine.outcomes (fun s => s.hits) s refs = some l ∧
      engine.outcomes (fun s => s.hits) (refresh s) refs = some l ∧
      (engine.exec (refresh s) (Engine.refs refs)).map refresh =
        (engine.exec s (Engine.refs refs)).map refresh := by
  obtain ⟨l, hl⟩ := Engine.outcomes_isSome engine (fun s => s.hits) (Inv C)
    (fun s x t hI => by
      obtain ⟨s1, h1, h2⟩ := cacheus_refer_cases C hC s x t hI
      exact ⟨s1, h1, cacheus_referCase_inv C s s1 x t hI h2⟩)
    refs s (cacheus_reachable_inv C hC s hr)
  refine ⟨l, hl, ?_, ?_⟩
  · rw [← hl]
    exact Engine.outcomes_shift engine (fun s => s.hits) withStats (fun _ _ _ _ => rfl)
      cacheus_refer_withStats refs s 0 0 0
  · exact Engine.exec_shift engine (fun s => s.hits) withStats (fun _ _ _ _ _ _ _ => rfl)
      (fun _ => rfl) cacheus_refer_withStats (Engine.refs refs) s 0 0 0

end CACHEUSCache

namespace LFUCache

theorem lfu_reset_frame (C : Nat) (hC : 1 ≤ C) (s : LFUCache)
    (hr : engine.Reachable C s) (refs : List (Int × RW)) :
    ∃ l, engine.outcomes (fun s => s.hits) s refs = some l ∧
      engine.outcomes (fun s => s.hits) (refresh s) refs = some l ∧
      (engine.exec (refresh s) (Engine.refs refs)).map refresh =
        (engine.exec s (Engine.refs refs)).map refresh := by
  obtain ⟨l, hl⟩ := Engine.outcomes_isSome engine (fun s => s.hits) (Inv C)
    (fun s x t hI => by
      obtain ⟨s1, h1, h2⟩ := lfu_refer_cases C hC s x t hI
      exact ⟨s1, h1, lfu_referCase_inv C s s1 x t hI h2⟩)
    refs s (lfu_reachable_inv C hC s hr)
  refine ⟨l, hl, ?_, ?_⟩
  · rw [← hl]
    exact Engine.outcomes_shift engine (fun s => s.hits) withStats (fun _ _ _ _ => rfl)
      lfu_refer_withStats refs s 0 0 0
  · exact Engine.exec_shift engine (fun s => s.hits) withStats (fun _ _ _ _ _ _ _ => rfl)
      (fun _ => rfl) lfu_refer_withStats (Engine.refs refs) s 0 0 0

end LFUCache

namespace LIRSCache

theorem lirs_reset_frame (C : Nat) (s : LIRSCache) (hr : engine.Reachable C s)
    (refs : List (Int × RW)) :
    engine.outcomes (fun s => s.hits) (refresh s) refs =
      engine.outcomes (fun s => s.hits) s refs ∧
    (engine.exec (refresh s) (Engine.refs refs)).map refresh =
      (engine.exec s (Engine.refs refs)).map refresh ∧
    ((∃ l, engine.outcomes (fun s => s.hits) s refs = some l) ↔ ∀ e ∈ refs, e.1 ≠ 0) := by
  refine ⟨?_, ?_, ?_⟩
  · exact Engine.outcomes_shift engine (fun s => s.hits) withStats (fun _ _ _ _ => rfl)
      lirs_refer_withStats refs s 0 0 0
  · exact Engine.exec_shift engine (fun s => s.hits) withStats (fun _ _ _ _ _ _ _ => rfl)
      (fun _ => rfl) lirs_refer_withStats (Engine.refs refs) s 0 0 0
  · exact Engine.outcomes_isSome_iff engine (fun s => s.hits) (Inv C) (fun x => x ≠ 0)
      (fun s x t hI hx => by
        obtain ⟨s1, h1, h2, _⟩ := lirs_refer_spec C s x t hI hx
        exact ⟨s1, h1, h2⟩)
      (fun s x t hI hx => by
        have e : x = 0 := not_not.1 hx
        subst e
        exact lirs_refer_zero C s t hI)
      refs s (lirs_reachable_inv C s hr)

end LIRSCache


/-! ## The stated properties, continued -/

/-- C11 (Engine A, direction of the replacement on a true miss): in every
reachable state with `|L1| + |L2| = C` and `|L1| > p`, a `refer` on a key `x`
that is in no list returns, moves the LRU (last) key `v` of `L1` to the MRU
(front) end of `T1` with tag `T1_SET`, leaves `L2` unchanged and puts `x` at
the MRU end of `L1`; the ghost lists are otherwise only trimmed, `p` and `hits`
are unchanged.  Scenario: capacity 4 and the `Read` references 1, 2, 3, 4, 1, 5
end with `L1 = [5, 4, 3]`, `L2 = [1]`, `T1 = [2]`, `T2` empty, `p = 0` and
`hits = 1`. -/
theorem arc_replacement_direction (C : Nat) (s : ARCCache) (x : Int) (t : RW)
    (hr : ARCCache.engine.Reachable C s)
    (hfull : s.L1.length + s.L2.length = C) (hp : (s.L1.length : Int) > s.p)
    (hx : x ∉ s.L1 ∧ x ∉ s.T1 ∧ x ∉ s.L2 ∧ x ∉ s.T2) :
    (∃ v s1 r, s.L1.getLast? = some v ∧ ARCCache.refer s x t = some s1 ∧
      s1.L1 = x :: s.L1.dropLast ∧ s1.L2 = s.L2 ∧
      s1.T1 = v :: r ∧ r <+: s.T1 ∧ s1.T2 <+: s.T2 ∧
      s1.key_set_map.find v = some ListSet.T1_SET ∧
      s1.key_set_map.find x = some ListSet.L1_SET ∧
      s1.p = s.p ∧ s1.hits = s.hits) ∧
    (ARCCache.engine.exec (ARCCache.init 4) (Engine.refs ARCCache.scenarioRefs) =
      some ARCCache.scenario ∧
     ARCCache.scenario.L1 = [5, 4, 3] ∧ ARCCache.scenario.L2 = [1] ∧
     ARCCache.scenario.T1 = [2] ∧ ARCCache.scenario.T2 = [] ∧
     ARCCache.scenario.p = 0 ∧ ARCCache.scenario.hits = 1) :=
  ⟨ARCCache.arc_miss_L1_post C s x t hr hfull hp hx, rfl, rfl, rfl, rfl, rfl, rfl, rfl⟩

/-- Witness of C11: Engine A of capacity 4 after the `Read` references
1, 2, 3, 4, 1 is full with `|L1| = 3 > p = 0`; the next call is
`refer(5, Read)`. -/
theorem arc_replacement_direction_witness :
    ARCCache.engine.Reachable 4 ARCCache.fullState ∧
    ARCCache.fullState.L1.length + ARCCache.fullState.L2.length = 4 ∧
    (ARCCache.fullState.L1.length : Int) > ARCCache.fullState.p ∧
    ∃ v s1 r, ARCCache.fullState.L1.getLast? = some v ∧
      ARCCache.refer ARCCache.fullState 5 RW.Read = some s1 ∧
      s1.L1 = 5 :: ARCCache.fullState.L1.dropLast ∧ s1.L2 = ARCCache.fullState.L2 ∧
      s1.T1 = v :: r ∧ r <+: ARCCache.fullState.T1 ∧ s1.T2 <+: ARCCache.fullState.T2 ∧
      s1.key_set_map.find v = some ListSet.T1_SET ∧
      s1.key_set_map.find 5 = some ListSet.L1_SET ∧
      s1.p = ARCCache.fullState.p ∧ s1.hits = ARCCache.fullState.hits :=
  ⟨⟨Engine.refs (ARCCache.scenarioRefs.take 5), rfl⟩, rfl, by decide,
    (arc_replacement_direction 4 ARCCache.fullState 5 RW.Read
      ⟨Engine.refs (ARCCache.scenarioRefs.take 5), rfl⟩ rfl (by decide) (by decide)).1⟩

/-- C12 (Engine B always finds a victim): for every capacity `C ≥ 1` and
every reachable state with `|Read_List| + |Write_List| = C`, a `refer` on a
non-resident key `x` returns; the victim-segment decision is not the early
`return`, the segment it selects has an LRU (last) key `v`, exactly `v` leaves
that segment (the other segment only receives `x` when the access type says
so), `v` has no entry left in `list_map`, `key_segment_map` and `accessType`,
and the engine is full again.  Scenario: capacity 10 and `Write` references to
1 .. 10 then 11 evict key 1 from the Write segment; the Read segment stays
empty. -/
theorem cacheus_always_finds_victim (C : Nat) (hC : 1 ≤ C) (s : CACHEUSCache) (x : Int)
    (t : RW) (hr : CACHEUSCache.engine.Reachable C s)
    (hfull : s.Read_List.length + s.Write_List.length = C)
    (hx : x ∉ s.Read_List ∧ x ∉ s.Write_List) :
    (∃ v s1, CACHEUSCache.refer s x t = some s1 ∧ CACHEUSCache.chooseSegment s ≠ none ∧
      ((CACHEUSCache.chooseSegment s = some true ∧ s.Read_List.getLast? = some v ∧
          s1.Read_List = (if t = RW.Read then [x] else []) ++ s.Read_List.dropLast ∧
          s1.Write_List = (if t = RW.Read then [] else [x]) ++ s.Write_List) ∨
       (CACHEUSCache.chooseSegment s = some false ∧ s.Write_List.getLast? = some v ∧
          s1.Read_List = (if t = RW.Read then [x] else []) ++ s.Read_List ∧
          s1.Write_List = (if t = RW.Read then [] else [x]) ++ s.Write_List.dropLast)) ∧
      v ≠ x ∧ s1.list_map.find v = none ∧ s1.key_segment_map.find v = none ∧
      s1.accessType.find v = none ∧
      s1.Read_List.length + s1.Write_List.length = C) ∧
    (CACHEUSCache.engine.exec (CACHEUSCache.init 10)
        (Engine.refs (CACHEUSCache.scenarioRefs.take 10)) = some CACHEUSCache.fullState ∧
     CACHEUSCache.fullState.Write_List = [10, 9, 8, 7, 6, 5, 4, 3, 2, 1] ∧
     CACHEUSCache.chooseSegment CACHEUSCache.fullState = some false ∧
     CACHEUSCache.refer CACHEUSCache.fullState 11 RW.Write = some CACHEUSCache.scenario ∧
     CACHEUSCache.scenario.Write_List = [11, 10, 9, 8, 7, 6, 5, 4, 3, 2] ∧
     CACHEUSCache.scenario.Read_List = [] ∧
     CACHEUSCache.scenario.key_segment_map.find 1 = none) :=
  ⟨CACHEUSCache.cacheus_full_miss_victim C hC s x t
      (CACHEUSCache.cacheus_reachable_inv C hC s hr) hfull hx,
    rfl, rfl, rfl, rfl, rfl, rfl, rfl⟩

/-- Witness of C12: Engine B of capacity 10 after `Write` references to
1 .. 10 is full; the next call is `refer(11, Write)`. -/
theorem cacheus_always_finds_victim_witness :
    1 ≤ 10 ∧ CACHEUSCache.engine.Reachable 10 CACHEUSCache.fullState ∧
    CACHEUSCache.fullState.Read_List.length + CACHEUSCache.fullState.Write_List.length
      = 10 ∧
    ∃ v s1, CACHEUSCache.refer CACHEUSCache.fullState 11 RW.Write = some s1 ∧
      CACHEUSCache.chooseSegment CACHEUSCache.fullState ≠ none ∧
      ((CACHEUSCache.chooseSegment CACHEUSCache.fullState = some true ∧
          CACHEUSCache.fullState.Read_List.getLast? = some v ∧
          s1.Read_List = (if RW.Write = RW.Read then [11] else []) ++
            CACHEUSCache.fullState.Read_List.dropLast ∧
          s1.Write_List = (if RW.Write = RW.Read then [] else [11]) ++
            CACHEUSCache.fullState.Write_List) ∨
       (CACHEUSCache.chooseSegment CACHEUSCache.fullState = some false ∧
          CACHEUSCache.fullState.Write_List.getLast? = some v ∧
          s1.Read_List = (if RW.Write = RW.Read then [11] else []) ++
            CACHEUSCache.fullState.Read_List ∧
          s1.Write_List = (if RW.Write = RW.Read then [] else [11]) ++
            CACHEUSCache.fullState.Write_List.dropLast)) ∧
      v ≠ 11 ∧ s1.list_map.find v = none ∧ s1.key_segment_map.find v = none ∧
      s1.accessType.find v = none ∧
      s1.Read_List.length + s1.Write_List.length = 10 :=
  ⟨by decide, ⟨Engine.refs (CACHEUSCache.scenarioRefs.take 10), rfl⟩, rfl,
    (cacheus_always_finds_victim 10 (by decide) CACHEUSCache.fullState 11 RW.Write
      ⟨Engine.refs (CACHEUSCache.scenarioRefs.take 10), rfl⟩ rfl (by decide)).1⟩

/-- C13 (reset frame rule): in each of the four engines of capacity `C ≥ 1`
and every reachable state `s`, `refresh` sets `calls`, `hits` and `migration`
to 0 and changes no other field; and for every reference sequence run after
it, each call is counted as a hit exactly when it is without the `refresh`,
and the two final states differ in `calls`, `hits` and `migration` only.  In
Engines A, B and C every sequence returns.  In Engine D a sequence returns
exactly when it has no key 0 (a call `refer(0, t)` pops the front of the empty
history list and does not return, with or without the `refresh`): the run
after `refresh` and the run without it give the same list of outcomes, or
both stop at the same call. -/
theorem reset_frame_rule (C : Nat) (hC : 1 ≤ C) (refs : List (Int × RW)) :
    (∀ s : ARCCache, ARCCache.engine.Reachable C s →
      ARCCache.refresh s = { s with calls := 0, hits := 0, migration := 0 } ∧
      ∃ l, ARCCache.engine.outcomes (fun s => s.hits) s refs = some l ∧
        ARCCache.engine.outcomes (fun s => s.hits) (ARCCache.refresh s) refs = some l ∧
        (ARCCache.engine.exec (ARCCache.refresh s) (Engine.refs refs)).map
            ARCCache.refresh =
          (ARCCache.engine.exec s (Engine.refs refs)).map ARCCache.refresh) ∧
    (∀ s : CACHEUSCache, CACHEUSCache.engine.Reachable C s →
      CACHEUSCache.refresh s = { s with calls := 0, hits := 0, migration := 0 } ∧
      ∃ l, CACHEUSCache.engine.outcomes (fun s => s.hits) s refs = some l ∧
        CACHEUSCache.engine.outcomes (fun s => s.hits) (CACHEUSCache.refresh s) refs
          = some l ∧
        (CACHEUSCache.engine.exec (CACHEUSCache.refresh s) (Engine.refs refs)).map
            CACHEUSCache.refresh =
          (CACHEUSCache.engine.exec s (Engine.refs refs)).map CACHEUSCache.refresh) ∧
    (∀ s : LFUCache, LFUCache.engine.Reachable C s →
      LFUCache.refresh s = { s with calls := 0, hits := 0, migration := 0 } ∧
      ∃ l, LFUCache.engine.outcomes (fun s => s.hits) s refs = some l ∧
        LFUCache.engine.outcomes (fun s => s.hits) (LFUCache.refresh s) refs = some l ∧
        (LFUCache.engine.exec (LFUCache.refresh s) (Engine.refs refs)).map
            LFUCache.refresh =
          (LFUCache.engine.exec s (Engine.refs refs)).map LFUCache.refresh) ∧
    (∀ s : LIRSCache, LIRSCache.engine.Reachable C s →
      LIRSCache.refresh s = { s with calls := 0, hits := 0, migration := 0 } ∧
      LIRSCache.engine.outcomes (fun s => s.hits) (LIRSCache.refresh s) refs =
        LIRSCache.engine.outcomes (fun s => s.hits) s refs ∧
      (LIRSCache.engine.exec (LIRSCache.refresh s) (Engine.refs refs)).map
          LIRSCache.refresh =
        (LIRSCache.engine.exec s (Engine.refs refs)).map LIRSCache.refresh ∧
      ((∃ l, LIRSCache.engine.outcomes (fun s => s.hits) s refs = some l) ↔
        ∀ e ∈ refs, e.1 ≠ 0)) :=
  ⟨fun s hr => ⟨rfl, ARCCache.arc_reset_frame C s hr refs⟩,
   fun s hr => ⟨rfl, CACHEUSCache.cacheus_reset_frame C hC s hr refs⟩,
   fun s hr => ⟨rfl, LFUCache.lfu_reset_frame C hC s hr refs⟩,
   fun s hr => ⟨rfl, LIRSCache.lirs_reset_frame C s hr refs⟩⟩

/-- Witness of C13: Engine A of capacity 1 after `refer(1, Write)`,
`refer(1, Read)`, followed by the references `(1, Read)`, `(2, Read)`,
`(1, Write)`. -/
theorem reset_frame_rule_witness :
    1 ≤ 1 ∧ ARCCache.engine.Reachable 1 ARCCache.sample ∧
    ARCCache.refresh ARCCache.sample =
      { ARCCache.sample with calls := 0, hits := 0, migration := 0 } ∧
    ∃ l, ARCCache.engine.outcomes (fun s => s.hits) ARCCache.sample
          [(1, RW.Read), (2, RW.Read), (1, RW.Write)] = some l ∧
      ARCCache.engine.outcomes (fun s => s.hits) (ARCCache.refresh ARCCache.sample)
          [(1, RW.Read), (2, RW.Read), (1, RW.Write)] = some l ∧
      (ARCCache.engine.exec (ARCCache.refresh ARCCache.sample)
          (Engine.refs [(1, RW.Read), (2, RW.Read), (1, RW.Write)])).map
          ARCCache.refresh =
        (ARCCache.engine.exec ARCCache.sample
          (Engine.refs [(1, RW.Read), (2, RW.Read), (1, RW.Write)])).map
          ARCCache.refresh :=
  ⟨le_refl 1, ⟨Engine.sampleOps, rfl⟩,
    (reset_frame_rule 1 (le_refl 1) [(1, RW.Read), (2, RW.Read), (1, RW.Write)]).1
      ARCCache.sample ⟨Engine.sampleOps, rfl⟩⟩

/-- C14 (Engine A pivot range): `p = 0` after construction, and
`0 ≤ p ≤ C` in every reachable state. -/
theorem arc_pivot_range (C : Nat) (s : ARCCache) (hr : ARCCache.engine.Reachable C s) :
    (ARCCache.init C).p = 0 ∧ 0 ≤ s.p ∧ s.p ≤ (C : Int) :=
  ⟨rfl, (ARCCache.arc_reachable_inv C s hr).2.1, (ARCCache.arc_reachable_inv C s hr).2.2.1⟩

/-- Witness of C14: Engine A of capacity 4 after the `Read` references
1, 2, 3, 4, 1, 5. -/
theorem arc_pivot_range_witness :
    ARCCache.engine.Reachable 4 ARCCache.scenario ∧
    (ARCCache.init 4).p = 0 ∧ 0 ≤ ARCCache.scenario.p ∧ ARCCache.scenario.p ≤ ((4 : Nat) : Int) :=
  ⟨⟨Engine.refs ARCCache.scenarioRefs, rfl⟩,
    arc_pivot_range 4 ARCCache.scenario ⟨Engine.refs ARCCache.scenarioRefs, rfl⟩⟩

/-- C15 (Engine A ghost bound): in every reachable state, and after every
further `refer`, `|T1| + |T2| ≤ C`.  The trimming `clean_ghost_list`, on any
state `m`: changes nothing when `|T1| + |T2| ≤ csize`; otherwise it first
drops the LRU (last) key of `T2` while `T2` is non-empty, the LRU key of `T1`
only when `T2` is empty, erases the dropped key from `list_map` and
`key_set_map`, and goes on; it ends with `|T1| + |T2| ≤ csize` and with no
map entry for the dropped key. -/
theorem arc_ghost_bound (C : Nat) (s : ARCCache) (hr : ARCCache.engine.Reachable C s) :
    s.T1.length + s.T2.length ≤ C ∧
    (∀ x t, ∃ s1, ARCCache.refer s x t = some s1 ∧ s1.T1.length + s1.T2.length ≤ C) ∧
    (∀ m : ARCCache,
      (ARCCache.clean_ghost_list m).T1.length + (ARCCache.clean_ghost_list m).T2.length
        ≤ m.csize ∧
      (m.T1.length + m.T2.length ≤ m.csize → ARCCache.clean_ghost_list m = m) ∧
      (∀ v, m.T1.length + m.T2.length > m.csize → m.T2.getLast? = some v →
        ARCCache.clean_ghost_list m =
          ARCCache.clean_ghost_list
            { m with T2 := m.T2.dropLast, list_map := m.list_map.erase v,
                     key_set_map := m.key_set_map.erase v } ∧
        (ARCCache.clean_ghost_list m).list_map.find v = none ∧
        (ARCCache.clean_ghost_list m).key_set_map.find v = none) ∧
      (∀ v, m.T1.length + m.T2.length > m.csize → m.T2 = [] → m.T1.getLast? = some v →
        ARCCache.clean_ghost_list m =
          ARCCache.clean_ghost_list
            { m with T1 := m.T1.dropLast, list_map := m.list_map.erase v,
                     key_set_map := m.key_set_map.erase v } ∧
        (ARCCache.clean_ghost_list m).list_map.find v = none ∧
        (ARCCache.clean_ghost_list m).key_set_map.find v = none)) := by
  obtain ⟨hI, hb⟩ := ARCCache.arc_reachable_ghost_bound C s hr
  have hc : s.csize = C := hI.1
  refine ⟨by omega, ?_, ?_⟩
  · intro x t
    obtain ⟨s1, h1, h2⟩ := ARCCache.arc_refer_cases C s x t hI
    have hI1 := ARCCache.arc_referCase_inv C s s1 x t hI h2
    have := ARCCache.arc_referCase_ghost_bound s s1 x t hb h2
    have hc1 : s1.csize = C := hI1.1
    exact ⟨s1, h1, by omega⟩
  · intro m
    refine ⟨ARCCache.arc_clean_ghost_list_bound m, ARCCache.arc_clean_ghost_list_id m, ?_, ?_⟩
    · intro v h hv
      exact ⟨ARCCache.arc_clean_ghost_list_trimT2 m v h hv,
        ARCCache.arc_trim_erases m v h (Or.inl hv)⟩
    · intro v h h2 hv
      exact ⟨ARCCache.arc_clean_ghost_list_trimT1 m v h h2 hv,
        ARCCache.arc_trim_erases m v h (Or.inr ⟨h2, hv⟩)⟩

/-- Witness of C15: Engine A of capacity 4 after the `Read` references
1, 2, 3, 4, 1, 5, where `T1 = [2]`. -/
theorem arc_ghost_bound_witness :
    ARCCache.engine.Reachable 4 ARCCache.scenario ∧
    ARCCache.scenario.T1.length + ARCCache.scenario.T2.length ≤ 4 ∧
    ∀ x t, ∃ s1, ARCCache.refer ARCCache.scenario x t = some s1 ∧
      s1.T1.length + s1.T2.length ≤ 4 :=
  ⟨⟨Engine.refs ARCCache.scenarioRefs, rfl⟩,
    (arc_ghost_bound 4 ARCCache.scenario ⟨Engine.refs ARCCache.scenarioRefs, rfl⟩).1,
    (arc_ghost_bound 4 ARCCache.scenario ⟨Engine.refs ARCCache.scenarioRefs, rfl⟩).2.1⟩

/-- C16 (Engine A ghost-hit postcondition): in every state reached from a
fresh engine, a `refer(x, t)` on a key of `T1` returns and sets `p` to
`min(C, p + 1)`, on a key of `T2` it sets `p` to `max(0, p - 1)`; in both
cases `hits`, `readHits` and `writeHits` are unchanged, and afterwards `x` is
in neither ghost list, is the MRU (front) entry of `L2` with tag `L2_SET`, and
has the recorded access type `t`.  A `refer` on a key outside the ghost lists,
so on a resident key and on a key never referenced before (which is in no
list), leaves `p` unchanged. -/
theorem arc_ghost_hit (C : Nat) (s : ARCCache) (g : Ghost) (x : Int) (t : RW)
    (h : ARCCache.engine.Traced C s g) :
    (x ∈ s.T1 → ∃ s1, ARCCache.refer s x t = some s1 ∧
      s1.p = min (C : Int) (s.p + 1) ∧
      s1.hits = s.hits ∧ s1.readHits = s.readHits ∧ s1.writeHits = s.writeHits ∧
      x ∉ s1.T1 ∧ x ∉ s1.T2 ∧ s1.L2.head? = some x ∧
      s1.key_set_map.find x = some ListSet.L2_SET ∧ s1.accessType.find x = some t) ∧
    (x ∈ s.T2 → ∃ s1, ARCCache.refer s x t = some s1 ∧
      s1.p = max 0 (s.p - 1) ∧
      s1.hits = s.hits ∧ s1.readHits = s.readHits ∧ s1.writeHits = s.writeHits ∧
      x ∉ s1.T1 ∧ x ∉ s1.T2 ∧ s1.L2.head? = some x ∧
      s1.key_set_map.find x = some ListSet.L2_SET ∧ s1.accessType.find x = some t) ∧
    (x ∉ s.T1 ∧ x ∉ s.T2 → ∃ s1, ARCCache.refer s x t = some s1 ∧ s1.p = s.p) ∧
    (x ∈ s.L1 ∨ x ∈ s.L2 → x ∉ s.T1 ∧ x ∉ s.T2) ∧
    (g.lastType x = none → x ∉ s.L1 ∧ x ∉ s.T1 ∧ x ∉ s.L2 ∧ x ∉ s.T2) := by
  obtain ⟨hI, hseen⟩ := ARCCache.arc_never_seen C s g h
  have hg := ARCCache.arc_ghost_hit_post C s x t hI
  have hk := (hI.2.2.2 x).1
  refine ⟨hg.1, hg.2, ?_, ?_, ?_⟩
  · intro hx
    obtain ⟨s1, h1, h2⟩ := ARCCache.arc_refer_cases C s x t hI
    exact ⟨s1, h1, ARCCache.arc_pivot_same s s1 x t
      (ARCCache.arc_not_mem_count hx.1) (ARCCache.arc_not_mem_count hx.2) h2⟩
  · intro hx
    constructor
    · intro hm
      have h1 := (mem_iff_count _ _).mp hm
      rcases hx with hx | hx
      · have := (mem_iff_count _ _).mp hx; omega
      · have := (mem_iff_count _ _).mp hx; omega
    · intro hm
      have h1 := (mem_iff_count _ _).mp hm
      rcases hx with hx | hx
      · have := (mem_iff_count _ _).mp hx; omega
      · have := (mem_iff_count _ _).mp hx; omega
  · intro hn
    obtain ⟨a, b, c, d⟩ := hseen x hn
    exact ⟨List.count_eq_zero.mp a, List.count_eq_zero.mp b, List.count_eq_zero.mp c,
      List.count_eq_zero.mp d⟩

/-- Witness of C16: Engine A of capacity 4 after the `Read` references
1, 2, 3, 4, 1, 5, where key 2 is in `T1`; the next call is `refer(2, Write)`. -/
theorem arc_ghost_hit_witness :
    ARCCache.engine.Traced 4 ARCCache.scenario ARCCache.scenarioGhost ∧
    (2 : Int) ∈ ARCCache.scenario.T1 ∧
    ∃ s1, ARCCache.refer ARCCache.scenario 2 RW.Write = some s1 ∧
      s1.p = min ((4 : Nat) : Int) (ARCCache.scenario.p + 1) ∧
      s1.hits = ARCCache.scenario.hits ∧ s1.readHits = ARCCache.scenario.readHits ∧
      s1.writeHits = ARCCache.scenario.writeHits ∧
      (2 : Int) ∉ s1.T1 ∧ (2 : Int) ∉ s1.T2 ∧ s1.L2.head? = some 2 ∧
      s1.key_set_map.find 2 = some ListSet.L2_SET ∧
      s1.accessType.find 2 = some RW.Write :=
  ⟨⟨Engine.refs ARCCache.scenarioRefs, rfl⟩, by decide,
    (arc_ghost_hit 4 ARCCache.scenario ARCCache.scenarioGhost 2 RW.Write
      ⟨Engine.refs ARCCache.scenarioRefs, rfl⟩).1 (by decide)⟩

/-- Counterexample to C17 as stated: at capacity 16 the constructor sets the
write target to 1, while `0.1 * 16 = 1.6` rounds to 2. -/
theorem cacheus_write_target_counterexample :
    (CACHEUSCache.init 16).write_segment_size = 1 ∧
    (CACHEUSCache.init 16).read_segment_size = 15 ∧
    max 1 (round ((1 / 10 : ℚ) * ((16 : Nat) : ℚ))) = 2 ∧
    CACHEUSCache.roundTenth 16 = round ((1 / 10 : ℚ) * ((16 : Nat) : ℚ)) := by
  have h := CACHEUSCache.cacheus_roundTenth_eq 16
  refine ⟨rfl, rfl, ?_, h⟩
  rw [← h]
  rfl

/-- C17, amended (Engine B target sizes): for every capacity `C ≥ 1` the
constructor sets the write target to `max(1, ⌊C / 10⌋)` (the product
`0.1 * C` is truncated, not rounded) and the read target to
`max(0, C - write target)`, so the two targets sum to `C`; every reachable
state has these targets, and no `refer` or `refresh` call changes either.
Capacity 10 gives write target 1 and read target 9. -/
theorem cacheus_target_sizes (C : Nat) (hC : 1 ≤ C) (s : CACHEUSCache)
    (hr : CACHEUSCache.engine.Reachable C s) :
    (CACHEUSCache.init C).write_segment_size = max 1 ((C : Int) / 10) ∧
    (CACHEUSCache.init C).read_segment_size = max 0 ((C : Int) - max 1 ((C : Int) / 10)) ∧
    (CACHEUSCache.init C).write_segment_size + (CACHEUSCache.init C).read_segment_size = C ∧
    s.write_segment_size = (CACHEUSCache.init C).write_segment_size ∧
    s.read_segment_size = (CACHEUSCache.init C).read_segment_size ∧
    (∀ x t, ∃ s1, CACHEUSCache.refer s x t = some s1 ∧
      s1.write_segment_size = s.write_segment_size ∧
      s1.read_segment_size = s.read_segment_size) ∧
    (CACHEUSCache.refresh s).write_segment_size = s.write_segment_size ∧
    (CACHEUSCache.refresh s).read_segment_size = s.read_segment_size ∧
    (CACHEUSCache.init 10).write_segment_size = 1 ∧
    (CACHEUSCache.init 10).read_segment_size = 9 := by
  have hI := CACHEUSCache.cacheus_reachable_inv C hC s hr
  obtain ⟨i1, i2, i3⟩ := CACHEUSCache.cacheus_init_targets C hC
  refine ⟨i1, i2, i3, hI.2.2.1, hI.2.2.2.1, ?_, rfl, rfl, rfl, rfl⟩
  intro x t
  obtain ⟨s1, h1, h2⟩ := CACHEUSCache.cacheus_refer_cases C hC s x t hI
  have hI1 := CACHEUSCache.cacheus_referCase_inv C s s1 x t hI h2
  exact ⟨s1, h1, by rw [hI1.2.2.1, hI.2.2.1], by rw [hI1.2.2.2.1, hI.2.2.2.1]⟩

/-- Witness of the amended C17: Engine B of capacity 10 after `Write`
references to 1 .. 10. -/
theorem cacheus_target_sizes_witness :
    1 ≤ 10 ∧ CACHEUSCache.engine.Reachable 10 CACHEUSCache.fullState ∧
    CACHEUSCache.fullState.write_segment_size = (CACHEUSCache.init 10).write_segment_size ∧
    CACHEUSCache.fullState.read_segment_size = (CACHEUSCache.init 10).read_segment_size ∧
    (CACHEUSCache.init 10).write_segment_size + (CACHEUSCache.init 10).read_segment_size
      = ((10 : Nat) : Int) :=
  ⟨by decide, ⟨Engine.refs (CACHEUSCache.scenarioRefs.take 10), rfl⟩,
    (cacheus_target_sizes 10 (by decide) CACHEUSCache.fullState
      ⟨Engine.refs (CACHEUSCache.scenarioRefs.take 10), rfl⟩).2.2.2.1,
    (cacheus_target_sizes 10 (by decide) CACHEUSCache.fullState
      ⟨Engine.refs (CACHEUSCache.scenarioRefs.take 10), rfl⟩).2.2.2.2.1,
    (cacheus_target_sizes 10 (by decide) CACHEUSCache.fullState
      ⟨Engine.refs (CACHEUSCache.scenarioRefs.take 10), rfl⟩).2.2.1⟩

/-- C18 (Engine B placement follows the current access type): for every
capacity `C ≥ 1`, every reachable state, key `x` and access type `t`,
`refer(x, t)` returns; afterwards `x` is the MRU (front) entry of the Read
segment when `t = Read` and of the Write segment when `t = Write`, both maps
tag it with that segment, and it occurs nowhere else in either list; after a
`Write` its recorded access type is `Write` (dirty). -/
theorem cacheus_placement_follows_access (C : Nat) (hC : 1 ≤ C) (s : CACHEUSCache)
    (x : Int) (t : RW) (hr : CACHEUSCache.engine.Reachable C s) :
    ∃ s1, CACHEUSCache.refer s x t = some s1 ∧
      (t = RW.Read → ∃ r, s1.Read_List = x :: r ∧ x ∉ r ∧ x ∉ s1.Write_List ∧
        s1.key_segment_map.find x = some Segment.READ ∧
        s1.list_map.find x = some Segment.READ) ∧
      (t = RW.Write → ∃ r, s1.Write_List = x :: r ∧ x ∉ r ∧ x ∉ s1.Read_List ∧
        s1.key_segment_map.find x = some Segment.WRITE ∧
        s1.list_map.find x = some Segment.WRITE ∧
        s1.accessType.find x = some RW.Write) :=
  CACHEUSCache.cacheus_placement C hC s x t (CACHEUSCache.cacheus_reachable_inv C hC s hr)

/-- Witness of C18: Engine B of capacity 10 after `Write` references to
1 .. 10; the call `refer(3, Read)` moves key 3 from the Write segment to the
front of the Read segment. -/
theorem cacheus_placement_follows_access_witness :
    1 ≤ 10 ∧ CACHEUSCache.engine.Reachable 10 CACHEUSCache.fullState ∧
    ∃ s1, CACHEUSCache.refer CACHEUSCache.fullState 3 RW.Read = some s1 ∧
      (RW.Read = RW.Read → ∃ r, s1.Read_List = 3 :: r ∧ (3 : Int) ∉ r ∧
        (3 : Int) ∉ s1.Write_List ∧
        s1.key_segment_map.find 3 = some Segment.READ ∧
        s1.list_map.find 3 = some Segment.READ) ∧
      (RW.Read = RW.Write → ∃ r, s1.Write_List = 3 :: r ∧ (3 : Int) ∉ r ∧
        (3 : Int) ∉ s1.Read_List ∧
        s1.key_segment_map.find 3 = some Segment.WRITE ∧
        s1.list_map.find 3 = some Segment.WRITE ∧
        s1.accessType.find 3 = some RW.Write) :=
  ⟨by decide, ⟨Engine.refs (CACHEUSCache.scenarioRefs.take 10), rfl⟩,
    cacheus_placement_follows_access 10 (by decide) CACHEUSCache.fullState 3 RW.Read
      ⟨Engine.refs (CACHEUSCache.scenarioRefs.take 10), rfl⟩⟩

/-- C19 (Engine A resident-hit postcondition): in every reachable state, a
`refer(x, t)` on a key of `L1` or `L2` returns; it raises `calls`, `hits` and
the counter matching `t` by one (the other one is unchanged), leaves `p`,
`T1`, `T2` and the resident count unchanged, and afterwards `x` is the MRU
(front) entry of `L2` with tag `L2_SET`, while the other keys of `L1` and `L2`
keep their relative order. -/
theorem arc_resident_hit (C : Nat) (s : ARCCache) (x : Int) (t : RW)
    (hr : ARCCache.engine.Reachable C s) (hx : x ∈ s.L1 ∨ x ∈ s.L2) :
    ∃ s1, ARCCache.refer s x t = some s1 ∧ s1.calls = s.calls + 1 ∧
      s1.hits = s.hits + 1 ∧
      s1.readHits = s.readHits + (if t = RW.Read then 1 else 0) ∧
      s1.writeHits = s.writeHits + (if t = RW.Read then 0 else 1) ∧
      s1.p = s.p ∧ s1.T1 = s.T1 ∧ s1.T2 = s.T2 ∧
      s1.L1.length + s1.L2.length = s.L1.length + s.L2.length ∧
      s1.L2.head? = some x ∧ s1.key_set_map.find x = some ListSet.L2_SET ∧
      s1.L1 = s.L1.filter (fun k => decide (k ≠ x)) ∧
      s1.L2 = x :: s.L2.filter (fun k => decide (k ≠ x)) :=
  ARCCache.arc_resident_hit_post C s x t (ARCCache.arc_reachable_inv C s hr) hx

/-- Witness of C19: Engine A of capacity 4 after the `Read` references
1, 2, 3, 4, 1, where `L1 = [4, 3, 2]` and `L2 = [1]`; the next call is
`refer(3, Write)`. -/
theorem arc_resident_hit_witness :
    ARCCache.engine.Reachable 4 ARCCache.fullState ∧
    ((3 : Int) ∈ ARCCache.fullState.L1 ∨ (3 : Int) ∈ ARCCache.fullState.L2) ∧
    ∃ s1, ARCCache.refer ARCCache.fullState 3 RW.Write = some s1 ∧
      s1.calls = ARCCache.fullState.calls + 1 ∧
      s1.hits = ARCCache.fullState.hits + 1 ∧
      s1.readHits = ARCCache.fullState.readHits + (if RW.Write = RW.Read then 1 else 0) ∧
      s1.writeHits = ARCCache.fullState.writeHits + (if RW.Write = RW.Read then 0 else 1) ∧
      s1.p = ARCCache.fullState.p ∧ s1.T1 = ARCCache.fullState.T1 ∧
      s1.T2 = ARCCache.fullState.T2 ∧
      s1.L1.length + s1.L2.length =
        ARCCache.fullState.L1.length + ARCCache.fullState.L2.length ∧
      s1.L2.head? = some 3 ∧ s1.key_set_map.find 3 = some ListSet.L2_SET ∧
      s1.L1 = ARCCache.fullState.L1.filter (fun k => decide (k ≠ 3)) ∧
      s1.L2 = 3 :: ARCCache.fullState.L2.filter (fun k => decide (k ≠ 3)) :=
  ⟨⟨Engine.refs (ARCCache.scenarioRefs.take 5), rfl⟩, by decide,
    arc_resident_hit 4 ARCCache.fullState 3 RW.Write
      ⟨Engine.refs (ARCCache.scenarioRefs.take 5), rfl⟩ (by decide)⟩

namespace LIRSCache

theorem lirs_pruned_nil (s : LIRSCache) (h : s.R = []) : pruned s = s := by
  have e1 : s.R.rdropWhile (fun k => !isLIR s k) = s.R := by rw [h]; rfl
  have e2 : prunedKeys s = [] := by unfold prunedKeys; rw [h]; rfl
  unfold pruned
  rw [e1, e2]
  rfl

theorem lirs_pruned_stop (s : LIRSCache) (key : Int) (hl : s.R.getLast? = some key)
    (hk : isLIR s key = true) : pruned s = s := by
  have h1 : s.R.dropLast ++ [key] = s.R := List.dropLast_append_getLast? key (by simp [hl])
  have e1 : s.R.rdropWhile (fun k => !isLIR s k) = s.R := by
    conv_lhs => rw [← h1]
    rw [List.rdropWhile_concat_neg _ _ _ (by simp [hk])]
    exact h1
  have e2 : prunedKeys s = [] := by
    unfold prunedKeys
    rw [← h1, List.reverse_append]
    simp [hk]
  unfold pruned
  rw [e1, e2]
  rfl

theorem lirs_pruned_step (s : LIRSCache) (key : Int) (hl : s.R.getLast? = some key)
    (hk : isLIR s key = false) :
    pruned s = pruned { s with R := s.R.dropLast, R_map := s.R_map.erase key } := by
  have h1 : s.R.dropLast ++ [key] = s.R := List.dropLast_append_getLast? key (by simp [hl])
  have e1 : s.R.rdropWhile (fun k => !isLIR s k) =
      s.R.dropLast.rdropWhile (fun k => !isLIR s k) := by
    conv_lhs => rw [← h1]
    rw [List.rdropWhile_concat_pos _ _ _ (by simp [hk])]
  have e2 : prunedKeys s = key :: s.R.dropLast.reverse.takeWhile (fun k => !isLIR s k) := by
    unfold prunedKeys
    conv_lhs => rw [← h1]
    rw [List.reverse_append]
    simp [hk]
  unfold pruned
  rw [e1, e2]
  rfl

/-- With at least `|R|` iterations the loop of `prune_stack` ends at the last
`LIR` key of the stack, provided every key of the stack has a status. -/
theorem lirs_prune_loop_exact (n : Nat) (s : LIRSCache) (hn : s.R.length ≤ n)
    (hst : ∀ k, k ∈ s.R → (s.key_status_map.find k).isSome = true) :
    prune_loop n s = some (pruned s) := by
  induction n generalizing s with
  | zero =>
    have hR : s.R = [] := List.length_eq_zero.mp (Nat.le_zero.mp hn)
    rw [lirs_pruned_nil s hR]
    rfl
  | succ n ih =>
    unfold prune_loop
    cases hl : s.R.getLast? with
    | none =>
      have hR : s.R = [] := List.getLast?_eq_none_iff.mp hl
      rw [lirs_pruned_nil s hR]
    | some key =>
      have hmem : key ∈ s.R := List.mem_of_mem_getLast? (by simp [hl])
      have hsome := hst key hmem
      dsimp only
      cases hs : s.key_status_map.find key with
      | none => rw [hs] at hsome; cases hsome
      | some st =>
        dsimp only
        by_cases hlir : st = Status.LIR
        · simp only [hlir, if_true]
          rw [lirs_pruned_stop s key hl (by simp [isLIR, hs, hlir])]
        · simp only [hlir, if_false]
          rw [lirs_pruned_step s key hl (by simp [isLIR, hs, hlir])]
          apply ih
          · show s.R.dropLast.length ≤ n
            have := length_of_getLast hl
            omega
          · intro k hk
            exact hst k ((List.dropLast_sublist _).subset hk)

theorem lirs_prune_stack_exact (s : LIRSCache)
    (hst : ∀ k, k ∈ s.R → (s.key_status_map.find k).isSome = true) :
    prune_stack s = some (pruned s) :=
  lirs_prune_loop_exact _ s (le_refl _) hst

/-- The stack splits into what pruning keeps and what it removes; every
removed key is not `LIR`, and the bottom key that is kept is `LIR`. -/
theorem lirs_pruned_split (s : LIRSCache) :
    s.R = (pruned s).R ++ (prunedKeys s).reverse ∧
    (∀ k, k ∈ prunedKeys s → isLIR s k = false) ∧
    (∀ b, (pruned s).R.getLast? = some b → isLIR s b = true) := by
  refine ⟨?_, ?_, ?_⟩
  · show s.R = s.R.rdropWhile (fun k => !isLIR s k) ++ (prunedKeys s).reverse
    unfold prunedKeys List.rdropWhile
    rw [← List.reverse_append, List.takeWhile_append_dropWhile, List.reverse_reverse]
  · intro k hk
    have := List.mem_takeWhile_imp hk
    simpa using this
  · intro b hb
    show isLIR s b = true
    have hne : s.R.rdropWhile (fun k => !isLIR s k) ≠ [] := by
      intro h
      have : (pruned s).R = [] := h
      rw [this] at hb
      cases hb
    have := List.rdropWhile_last_not (fun k => !isLIR s k) s.R hne
    have hb2 : (s.R.rdropWhile (fun k => !isLIR s k)).getLast? = some b := hb
    rw [List.getLast?_eq_getLast _ hne] at hb2
    have e := Option.some.inj hb2
    rw [e] at this
    simpa using this

theorem lirs_rdropWhile_cons (p : Int → Bool) (x : Int) (l : List Int) (h : p x = false) :
    (x :: l).rdropWhile p = x :: l.rdropWhile p := by
  induction l using List.reverseRecOn with
  | nil => simp [List.rdropWhile_singleton, h, List.rdropWhile_nil]
  | append_singleton l a ih =>
    have e : x :: (l ++ [a]) = (x :: l) ++ [a] := rfl
    rw [e]
    by_cases ha : p a = true
    · rw [List.rdropWhile_concat_pos _ _ _ ha, List.rdropWhile_concat_pos _ _ _ ha, ih]
    · rw [List.rdropWhile_concat_neg _ _ _ ha, List.rdropWhile_concat_neg _ _ _ ha]
      rfl

/-- Every `refer` with a key other than 0 on a consistent state returns, in one
of the ways listed in `ReferCase`. -/
theorem lirs_refer_cases (C : Nat) (s : LIRSCache) (x : Int) (t : RW) (hI : Inv C s)
    (hx : x ≠ 0) :
    ∃ s1, refer s x t = some s1 ∧ ReferCase s x t s1 := by
  obtain ⟨h1, h2, H, hst, hrs⟩ := hI
  rw [lirs_refer_unfold s x t (H x)]
  by_cases hres : s.resident_map.count x = true
  · have hres2 : (touched s x).resident_map.count x = true := hres
    rw [if_pos hres2, lirs_referHit_eq]
    have hk : (touched s x).key_status_map = s.key_status_map := rfl
    have hL : (touched s x).LIR_set = s.LIR_set := rfl
    have hz : (touched s x).lir_size = s.lir_size := rfl
    rw [hk, hL, hz]
    have hstt : ∀ k, k ∈ (touched s x).R → (s.key_status_map.find k).isSome = true := by
      intro k hk
      rcases lirs_mem_touched s x k hk with e | e
      · subst e; exact hrs k hres
      · exact hst k e
    have hp1 : prune_stack (hitCounted (touched s x) x t) =
        some (pruned (hitCounted (touched s x) x t)) :=
      lirs_prune_stack_exact _ hstt
    have hp2 : prune_stack (promoted (hitCounted (touched s x) x t) x) =
        some (pruned (promoted (hitCounted (touched s x) x t) x)) := by
      apply lirs_prune_stack_exact
      intro k hk
      show ((s.key_status_map.insert x Status.LIR).find k).isSome = true
      rw [KMap.find_insert]
      split_ifs
      · rfl
      · exact hstt k hk
    have hsx := hrs x hres
    cases hs : s.key_status_map.find x with
    | none => rw [hs] at hsx; cases hsx
    | some st =>
      dsimp only
      cases st with
      | LIR =>
        rw [if_pos rfl, hp1]
        refine ⟨_, ?_, Or.inl ⟨hres, hs, rfl⟩⟩
        rw [Option.some_bind,
          lirs_finalPrune_id (pruned (hitCounted (touched s x) x t)) x h2 hx]
      | RESIDENT_HIR =>
        rw [if_neg (by decide), if_pos rfl]
        by_cases hlt : (s.LIR_set.length : Int) < s.lir_size
        · rw [if_pos hlt, hp2]
          refine ⟨_, ?_, Or.inr (Or.inl ⟨hres, hs, hlt, rfl⟩)⟩
          rw [Option.some_bind,
            lirs_finalPrune_id (pruned (promoted (hitCounted (touched s x) x t) x)) x h2 hx]
        · rw [if_neg hlt]
          refine ⟨_, ?_, Or.inr (Or.inr (Or.inl ⟨hres, hs, hlt, rfl⟩))⟩
          rw [Option.some_bind, lirs_finalPrune_id (hitCounted (touched s x) x t) x h2 hx]
      | NON_RESIDENT_HIR =>
        rw [if_neg (by decide), if_neg (by decide)]
        refine ⟨_, ?_, Or.inr (Or.inr (Or.inr (Or.inl ⟨hres, hs, rfl⟩)))⟩
        rw [Option.some_bind, lirs_finalPrune_id (hitCounted (touched s x) x t) x h2 hx]
  · have hres2 : ¬ (touched s x).resident_map.count x = true := hres
    have hHIR : (touched s x).HIR_nonresident_list = [] := h2
    rw [if_neg hres2]
    have hH2 : (inserted (touched s x) x t).HIR_nonresident_list = [] := h2
    rw [lirs_referMiss_eq (touched s x) x t hHIR, Option.some_bind,
      lirs_finalPrune_id (inserted (touched s x) x t) x hH2 hx]
    exact ⟨_, rfl, Or.inr (Or.inr (Or.inr (Or.inr ⟨by simpa using hres, rfl⟩)))⟩

theorem lirs_refer_referCase (C : Nat) (s s1 : LIRSCache) (x : Int) (t : RW)
    (hI : Inv C s) (h : refer s x t = some s1) : ReferCase s x t s1 := by
  obtain ⟨s2, h2, hc⟩ := lirs_refer_cases C s x t hI (lirs_refer_key C s s1 x t hI h)
  rw [h2] at h
  have e : s2 = s1 := Option.some.inj h
  subst e
  exact hc

/-- The fields a `refer` call leaves as they are, case by case. -/
theorem lirs_referCase_fields (s s1 : LIRSCache) (x : Int) (t : RW)
    (h : ReferCase s x t s1) :
    s1.csize = s.csize ∧ s1.lir_size = s.lir_size ∧
    s1.HIR_nonresident_list = s.HIR_nonresident_list ∧
    s1.evictedDirtyPage = s.evictedDirtyPage ∧ s1.calls = s.calls + 1 ∧
    s1.hits = s.hits + (if s.resident_map.count x = true then 1 else 0) ∧
    s1.resident_map =
      (if s.resident_map.count x = true then s.resident_map
       else s.resident_map.insert x true) := by
  rcases h with ⟨hr, _, e⟩ | ⟨hr, _, _, e⟩ | ⟨hr, _, _, e⟩ | ⟨hr, _, e⟩ | ⟨hr, e⟩
  · rw [e, if_pos hr, if_pos hr]; exact ⟨rfl, rfl, rfl, rfl, rfl, rfl, rfl⟩
  · rw [e, if_pos hr, if_pos hr]; exact ⟨rfl, rfl, rfl, rfl, rfl, rfl, rfl⟩
  · rw [e, if_pos hr, if_pos hr]; exact ⟨rfl, rfl, rfl, rfl, rfl, rfl, rfl⟩
  · rw [e, if_pos hr, if_pos hr]; exact ⟨rfl, rfl, rfl, rfl, rfl, rfl, rfl⟩
  · have hr2 : ¬ s.resident_map.count x = true := by rw [hr]; decide
    rw [e, if_neg hr2, if_neg hr2]; exact ⟨rfl, rfl, rfl, rfl, rfl, rfl, rfl⟩

/-! ### Tags and sets -/

theorem lirs_tags_init (C : Nat) : Tags (init C) := by
  refine ⟨?_, ?_, ?_, ?_, ?_, rfl, ?_⟩
  · intro k; simp [init, KMap.find]
  · intro k; simp [init, KMap.count, KMap.find]
  · simp [init, KMap.keys]
  · simp [init]
  · intro k; simp [init, KMap.find]
  · show ((0 : Nat) : Int) ≤ max 1 ((C : Int) / 100)
    have : (1 : Int) ≤ max 1 ((C : Int) / 100) := le_max_left _ _
    omega

theorem lirs_tags_congr (s s1 : LIRSCache) (h1 : s1.LIR_set = s.LIR_set)
    (h2 : s1.key_status_map = s.key_status_map) (h3 : s1.resident_map = s.resident_map)
    (h4 : s1.evictedDirtyPage = s.evictedDirtyPage) (h5 : s1.lir_size = s.lir_size)
    (h : Tags s) : Tags s1 := by
  unfold Tags
  rw [h1, h2, h3, h4, h5]
  exact h

/-- A key without residency has no status at all. -/
theorem lirs_no_status (s : LIRSCache) (x : Int) (hT : Tags s)
    (hx : s.resident_map.count x = false) : s.key_status_map.find x = none := by
  obtain ⟨_, tb, _, _, tn, _, _⟩ := hT
  cases hs : s.key_status_map.find x with
  | none => rfl
  | some st =>
    cases st with
    | LIR =>
      have := (tb x).mpr (Or.inl hs)
      rw [hx] at this; cases this
    | RESIDENT_HIR =>
      have := (tb x).mpr (Or.inr hs)
      rw [hx] at this; cases this
    | NON_RESIDENT_HIR => exact absurd hs (tn x)

theorem lirs_count_insert (m : KMap Int Bool) (x k : Int) :
    (m.insert x true).count k = true ↔ (k = x ∨ m.count k = true) := by
  unfold KMap.count
  rw [KMap.find_insert]
  by_cases hk : k = x
  · simp [hk]
  · simp [hk]

theorem lirs_tags_promoted (s : LIRSCache) (x : Int) (hT : Tags s)
    (hr : s.resident_map.count x = true)
    (hs : s.key_status_map.find x = some Status.RESIDENT_HIR)
    (hlt : (s.LIR_set.length : Int) < s.lir_size) : Tags (promoted s x) := by
  obtain ⟨ta, tb, tc, td, tn, te, _⟩ := hT
  have hxn : x ∉ s.LIR_set := by
    intro hm
    have := (ta x).mp hm
    rw [hs] at this
    cases this
  refine ⟨?_, ?_, ?_, ?_, ?_, te, ?_⟩
  · intro k
    show k ∈ s.LIR_set.insert x ↔ (s.key_status_map.insert x Status.LIR).find k = _
    rw [KMap.find_insert, List.mem_insert_iff]
    by_cases hk : k = x
    · simp [hk]
    · rw [if_neg hk]
      simp only [hk, false_or]
      exact ta k
  · intro k
    show s.resident_map.count k = true ↔
      ((s.key_status_map.insert x Status.LIR).find k = _ ∨
       (s.key_status_map.insert x Status.LIR).find k = _)
    rw [KMap.find_insert]
    by_cases hk : k = x
    · rw [if_pos hk, hk]
      simp [hr]
    · rw [if_neg hk]
      exact tb k
  · exact KMap.nodup_insert _ _ _ tc
  · exact List.Nodup.insert td
  · intro k
    show (s.key_status_map.insert x Status.LIR).find k ≠ _
    rw [KMap.find_insert]
    split_ifs
    · intro h; cases h
    · exact tn k
  · show ((s.LIR_set.insert x).length : Int) ≤ s.lir_size
    rw [List.length_insert_of_not_mem hxn]
    push_cast
    omega

theorem lirs_tags_inserted (s : LIRSCache) (x : Int) (t : RW) (hT : Tags s)
    (hr : s.resident_map.count x = false) : Tags (inserted s x t) := by
  have hnone := lirs_no_status s x hT hr
  obtain ⟨ta, tb, tc, td, tn, te, tf⟩ := hT
  have hxn : x ∉ s.LIR_set := by
    intro hm
    have := (ta x).mp hm
    rw [hnone] at this
    cases this
  refine ⟨?_, ?_, ?_, td, ?_, te, tf⟩
  · intro k
    show k ∈ s.LIR_set ↔ (s.key_status_map.insert x Status.RESIDENT_HIR).find k = _
    rw [KMap.find_insert]
    by_cases hk : k = x
    · rw [if_pos hk, hk]
      simp [hxn]
    · rw [if_neg hk]
      exact ta k
  · intro k
    show (s.resident_map.insert x true).count k = true ↔
      ((s.key_status_map.insert x Status.RESIDENT_HIR).find k = _ ∨
       (s.key_status_map.insert x Status.RESIDENT_HIR).find k = _)
    rw [lirs_count_insert, KMap.find_insert]
    by_cases hk : k = x
    · rw [if_pos hk]
      simp [hk]
    · rw [if_neg hk]
      simp only [hk, false_or]
      exact tb k
  · exact KMap.nodup_insert _ _ _ tc
  · intro k
    show (s.key_status_map.insert x Status.RESIDENT_HIR).find k ≠ _
    rw [KMap.find_insert]
    split_ifs
    · intro h; cases h
    · exact tn k

theorem lirs_referCase_tags (s s1 : LIRSCache) (x : Int) (t : RW) (hT : Tags s)
    (h : ReferCase s x t s1) : Tags s1 := by
  rcases h with ⟨hr, hs, e⟩ | ⟨hr, hs, hlt, e⟩ | ⟨hr, hs, _, e⟩ | ⟨hr, hs, e⟩ | ⟨hr, e⟩
  · rw [e]
    exact lirs_tags_congr s _ rfl rfl rfl rfl rfl hT
  · rw [e]
    have := lirs_tags_promoted s x hT hr hs hlt
    exact lirs_tags_congr (promoted s x) _ rfl rfl rfl rfl rfl this
  · rw [e]
    exact lirs_tags_congr s _ rfl rfl rfl rfl rfl hT
  · exact absurd hs (hT.2.2.2.2.1 x)
  · rw [e]
    have := lirs_tags_inserted s x t hT hr
    exact lirs_tags_congr (inserted s x t) _ rfl rfl rfl rfl rfl this

theorem lirs_reachable_tags (C : Nat) (s : LIRSCache) (h : engine.Reachable C s) :
    Inv C s ∧ Tags s := by
  refine Engine.reachable_invariant engine C (fun s => Inv C s ∧ Tags s)
    ⟨lirs_inv_init C, lirs_tags_init C⟩ ?_ ?_ h
  · intro s x t s1 hP hr
    exact ⟨lirs_refer_inv C s s1 x t hP.1 hr,
      lirs_referCase_tags s s1 x t hP.2 (lirs_refer_referCase C s s1 x t hP.1 hr)⟩
  · intro s hP
    exact ⟨lirs_inv_refresh C s hP.1, lirs_tags_congr s _ rfl rfl rfl rfl rfl hP.2⟩

/-! ### The stack after a call -/

theorem lirs_isLIR_of_find (s : LIRSCache) (x : Int)
    (h : s.key_status_map.find x = some Status.LIR) : isLIR s x = true := by
  simp [isLIR, h]

theorem lirs_pruned_head (m : LIRSCache) (x : Int) (l : List Int) (hR : m.R = x :: l)
    (hx : isLIR m x = true) : ∃ l1, (pruned m).R = x :: l1 := by
  refine ⟨l.rdropWhile (fun k => !isLIR m k), ?_⟩
  show m.R.rdropWhile (fun k => !isLIR m k) = _
  rw [hR]
  exact lirs_rdropWhile_cons _ x l (by simp [hx])

/-- After `refer(x, t)` the key `x` is on top of the stack. -/
theorem lirs_referCase_head (s s1 : LIRSCache) (x : Int) (t : RW)
    (h : ReferCase s x t s1) : ∃ l1, s1.R = x :: l1 := by
  rcases h with ⟨_, hs, e⟩ | ⟨_, _, _, e⟩ | ⟨_, _, _, e⟩ | ⟨_, _, e⟩ | ⟨_, e⟩
  · rw [e]
    exact lirs_pruned_head _ x (s.R.erase x) rfl (lirs_isLIR_of_find _ x hs)
  · rw [e]
    refine lirs_pruned_head _ x (s.R.erase x) rfl (lirs_isLIR_of_find _ x ?_)
    exact KMap.find_insert_self _ _ _
  · rw [e]; exact ⟨_, rfl⟩
  · rw [e]; exact ⟨_, rfl⟩
  · rw [e]; exact ⟨_, rfl⟩

theorem lirs_stack_facts (C : Nat) (s : LIRSCache) (hI : Inv C s) :
    s.R.Nodup ∧ ∀ k, k ∈ s.R_map.keys ↔ k ∈ s.R := by
  obtain ⟨_, _, H, _, _⟩ := hI
  constructor
  · rw [List.nodup_iff_count_le_one]
    intro a
    exact (H a).1
  · intro k
    have h2 := (H k).2
    have h3 := KMap.find_eq_none_iff s.R_map k
    by_cases hk : k ∈ s.R
    · rw [if_pos hk] at h2
      constructor
      · intro _; exact hk
      · intro _
        by_contra hn
        rw [h3.mpr hn] at h2
        cases h2
    · rw [if_neg hk] at h2
      constructor
      · intro hm
        exact absurd hm (h3.mp h2)
      · intro hm
        exact absurd hm hk

/-- The stack after any `refer` with a key other than 0. -/
theorem lirs_stack_after_refer (C : Nat) (s : LIRSCache) (x : Int) (t : RW)
    (hI : Inv C s) (hx : x ≠ 0) :
    ∃ s1, refer s x t = some s1 ∧ s1.R.head? = some x ∧ s1.R.Nodup ∧
      ∀ k, k ∈ s1.R_map.keys ↔ k ∈ s1.R := by
  obtain ⟨s1, hr, hc⟩ := lirs_refer_cases C s x t hI hx
  have hI1 := lirs_refer_inv C s s1 x t hI hr
  obtain ⟨l1, hl⟩ := lirs_referCase_head s s1 x t hc
  obtain ⟨n1, n2⟩ := lirs_stack_facts C s1 hI1
  exact ⟨s1, hr, by rw [hl]; rfl, n1, n2⟩

/-- The resident hit on a `LIR` key. -/
theorem lirs_lir_hit (C : Nat) (s : LIRSCache) (x : Int) (t : RW) (hI : Inv C s)
    (hT : Tags s) (hx : x ≠ 0) (hs : s.key_status_map.find x = some Status.LIR) :
    ∃ s1 rem, refer s x t = some s1 ∧ s1.hits = s.hits + 1 ∧
      s1.key_status_map = s.key_status_map ∧
      s1.R ≠ [] ∧
      (∃ b, s1.R.getLast? = some b ∧ s1.key_status_map.find b = some Status.LIR) ∧
      x :: s.R.erase x = s1.R ++ rem ∧
      (∀ k, k ∈ rem → s.key_status_map.find k ≠ some Status.LIR) := by
  obtain ⟨s1, hr, hc⟩ := lirs_refer_cases C s x t hI hx
  have hres : s.resident_map.count x = true := (hT.2.1 x).mpr (Or.inl hs)
  have e : s1 = pruned (hitCounted (touched s x) x t) := by
    rcases hc with ⟨_, _, e⟩ | ⟨_, h2, _⟩ | ⟨_, h2, _⟩ | ⟨_, h2, _⟩ | ⟨h2, _⟩
    · exact e
    · rw [hs] at h2; cases h2
    · rw [hs] at h2; cases h2
    · rw [hs] at h2; cases h2
    · rw [hres] at h2; cases h2
  obtain ⟨l1, hl⟩ := lirs_referCase_head s s1 x t hc
  obtain ⟨p1, p2, p3⟩ := lirs_pruned_split (hitCounted (touched s x) x t)
  have hne : s1.R ≠ [] := by rw [hl]; exact List.cons_ne_nil _ _
  have hlir : ∀ k, isLIR (hitCounted (touched s x) x t) k =
      decide (s.key_status_map.find k = some Status.LIR) := fun _ => rfl
  refine ⟨s1, (prunedKeys (hitCounted (touched s x) x t)).reverse, hr, ?_, ?_, hne, ?_, ?_, ?_⟩
  · rw [e]; rfl
  · rw [e]; rfl
  · have hb : ∃ b, s1.R.getLast? = some b := by
      cases hg : s1.R.getLast? with
      | none => exact absurd (List.getLast?_eq_none_iff.mp hg) hne
      | some b => exact ⟨b, rfl⟩
    obtain ⟨b, hb⟩ := hb
    refine ⟨b, hb, ?_⟩
    rw [e] at hb ⊢
    have := p3 b hb
    rw [hlir] at this
    exact of_decide_eq_true this
  · rw [e]
    exact p1
  · intro k hk
    have := p2 k (List.mem_reverse.mp hk)
    rw [hlir] at this
    exact of_decide_eq_false this

/-! ### Nothing is evicted -/

/-- The key 0 is never resident: no call with it returns. -/
theorem lirs_reachable_zero (C : Nat) (s : LIRSCache) (h : engine.Reachable C s) :
    Inv C s ∧ s.resident_map.count 0 = false := by
  refine Engine.reachable_invariant engine C
    (fun s => Inv C s ∧ s.resident_map.count 0 = false)
    ⟨lirs_inv_init C, rfl⟩ ?_ ?_ h
  · intro s x t s1 hP hr
    have hx := lirs_refer_key C s s1 x t hP.1 hr
    have hc := lirs_refer_referCase C s s1 x t hP.1 hr
    refine ⟨lirs_refer_inv C s s1 x t hP.1 hr, ?_⟩
    rw [(lirs_referCase_fields s s1 x t hc).2.2.2.2.2.2]
    by_cases hres : s.resident_map.count x = true
    · rw [if_pos hres]; exact hP.2
    · rw [if_neg hres]
      cases hck : (s.resident_map.insert x true).count 0 with
      | false => rfl
      | true =>
        rcases (lirs_count_insert s.resident_map x 0).mp hck with e | e
        · exact absurd e.symm hx
        · rw [hP.2] at e; cases e
  · intro s hP; exact hP

/-- A key with a status in a reachable state is not 0. -/
theorem lirs_status_key (C : Nat) (s : LIRSCache) (x : Int) (st : Status)
    (h : engine.Reachable C s) (hs : s.key_status_map.find x = some st) : x ≠ 0 := by
  intro e
  subst e
  have hT := (lirs_reachable_tags C s h).2
  have hz := (lirs_reachable_zero C s h).2
  cases st with
  | LIR => rw [(hT.2.1 0).mpr (Or.inl hs)] at hz; cases hz
  | RESIDENT_HIR => rw [(hT.2.1 0).mpr (Or.inr hs)] at hz; cases hz
  | NON_RESIDENT_HIR => exact absurd hs (hT.2.2.2.2.1 0)

/-- The resident keys are the keys referenced so far. -/
theorem lirs_traced_resident (C : Nat) (s : LIRSCache) (g : Ghost)
    (h : engine.Traced C s g) :
    Inv C s ∧ Tags s ∧ ∀ k, s.resident_map.count k = (g.lastType k).isSome := by
  refine Engine.traced_invariant engine C
    (fun s g => Inv C s ∧ Tags s ∧ ∀ k, s.resident_map.count k = (g.lastType k).isSome)
    ⟨lirs_inv_init C, lirs_tags_init C, fun k => rfl⟩ ?_ ?_ h
  · intro s g x t s1 hP hr
    obtain ⟨hI, hT, hg⟩ := hP
    have hc := lirs_refer_referCase C s s1 x t hI hr
    refine ⟨lirs_refer_inv C s s1 x t hI hr, lirs_referCase_tags s s1 x t hT hc, ?_⟩
    intro k
    have hf := (lirs_referCase_fields s s1 x t hc).2.2.2.2.2.2
    simp only [Ghost.note]
    rw [hf]
    by_cases hk : k = x
    · rw [if_pos hk, hk]
      by_cases hres : s.resident_map.count x = true
      · rw [if_pos hres, hres]; rfl
      · rw [if_neg hres]
        exact (lirs_count_insert s.resident_map x x).mpr (Or.inl rfl)
    · rw [if_neg hk, ← hg k]
      by_cases hres : s.resident_map.count x = true
      · rw [if_pos hres]
      · rw [if_neg hres]
        have := lirs_count_insert s.resident_map x k
        simp only [hk, false_or] at this
        cases hck : s.resident_map.count k with
        | true => exact this.mpr hck
        | false =>
          cases hck2 : (s.resident_map.insert x true).count k with
          | false => rfl
          | true => rw [this.mp hck2] at hck; cases hck
  · intro s g hP
    exact ⟨lirs_inv_refresh C s hP.1, lirs_tags_congr s _ rfl rfl rfl rfl rfl hP.2.1, hP.2.2⟩

/-- The high-value set only grows, by the referenced key at most. -/
theorem lirs_referCase_lirset (s s1 : LIRSCache) (x : Int) (t : RW)
    (h : ReferCase s x t s1) :
    (∀ k, k ∈ s.LIR_set → k ∈ s1.LIR_set) ∧ (∀ k, k ∈ s1.LIR_set → k = x ∨ k ∈ s.LIR_set) := by
  rcases h with ⟨_, _, e⟩ | ⟨_, _, _, e⟩ | ⟨_, _, _, e⟩ | ⟨_, _, e⟩ | ⟨_, e⟩
  · rw [e]; exact ⟨fun k hk => hk, fun k hk => Or.inr hk⟩
  · rw [e]
    constructor
    · intro k hk
      show k ∈ s.LIR_set.insert x
      exact List.mem_insert_iff.mpr (Or.inr hk)
    · intro k hk
      have hk2 : k ∈ s.LIR_set.insert x := hk
      exact List.mem_insert_iff.mp hk2
  · rw [e]; exact ⟨fun k hk => hk, fun k hk => Or.inr hk⟩
  · rw [e]; exact ⟨fun k hk => hk, fun k hk => Or.inr hk⟩
  · rw [e]; exact ⟨fun k hk => hk, fun k hk => Or.inr hk⟩

theorem lirs_lir_size (C : Nat) (s : LIRSCache) (h : engine.Reachable C s) :
    Inv C s ∧ s.lir_size = max 1 ((C : Int) / 100) := by
  refine Engine.reachable_invariant engine C
    (fun s => Inv C s ∧ s.lir_size = max 1 ((C : Int) / 100))
    ⟨lirs_inv_init C, rfl⟩ ?_ ?_ h
  · intro s x t s1 hP hr
    have hc := lirs_refer_referCase C s s1 x t hP.1 hr
    refine ⟨lirs_refer_inv C s s1 x t hP.1 hr, ?_⟩
    rw [(lirs_referCase_fields s s1 x t hc).2.1]
    exact hP.2
  · intro s hP; exact hP

end LIRSCache


/-! ## Engines A, B and C: further step lemmas -/

namespace ARCCache

/-- A miss below capacity only inserts the key at the MRU end of `L1`. -/
theorem arc_miss_below (C : Nat) (s : ARCCache) (x : Int) (t : RW) (hI : Inv C s)
    (hne : s.L1.length + s.L2.length ≠ C)
    (hx : x ∉ s.L1 ∧ x ∉ s.T1 ∧ x ∉ s.L2 ∧ x ∉ s.T2) :
    refer s x t = some (insertL1 (called s) x t) := by
  have hfind : s.key_set_map.find x = none :=
    (arc_absent_iff s x (hI.2.2.2 x)).mpr
      ⟨arc_not_mem_count hx.1, arc_not_mem_count hx.2.1, arc_not_mem_count hx.2.2.1,
        arc_not_mem_count hx.2.2.2⟩
  rw [arc_refer_miss s x t hfind]
  have hm : makeRoom (called s) = some (called s) := by
    unfold makeRoom
    have : ¬ (called s).L1.length + (called s).L2.length = (called s).csize := by
      show ¬ s.L1.length + s.L2.length = s.csize
      rw [hI.1]
      exact hne
    rw [if_neg this]
  rw [hm]
  rfl

end ARCCache

namespace CACHEUSCache

/-- The victim-segment decision on a full engine, in the order the code
tests it, and in closed form. -/
theorem cacheus_priority (C : Nat) (hC : 1 ≤ C) (s : CACHEUSCache) (hI : Inv C s)
    (hfull : s.Read_List.length + s.Write_List.length = C) :
    ((s.Read_List.length : Int) > s.read_segment_size → chooseSegment s = some true) ∧
    (¬ (s.Read_List.length : Int) > s.read_segment_size →
      (s.Write_List.length : Int) > s.write_segment_size → chooseSegment s = some false) ∧
    (¬ (s.Read_List.length : Int) > s.read_segment_size →
      ¬ (s.Write_List.length : Int) > s.write_segment_size →
      s.Read_List ≠ [] → chooseSegment s = some true) ∧
    (¬ (s.Read_List.length : Int) > s.read_segment_size →
      ¬ (s.Write_List.length : Int) > s.write_segment_size →
      s.Read_List = [] → chooseSegment s = some false) ∧
    (chooseSegment s = some true ↔
      (s.Read_List ≠ [] ∧ (s.Read_List.length : Int) ≥ s.read_segment_size)) ∧
    s.write_segment_size + s.read_segment_size = C := by
  obtain ⟨_, _, hw, hr, _⟩ := hI
  obtain ⟨i1, i2, i3⟩ := cacheus_init_targets C hC
  have hw1 : (1 : Int) ≤ s.write_segment_size := by
    rw [hw, i1]; exact le_max_left _ _
  have hr0 : (0 : Int) ≤ s.read_segment_size := by
    rw [hr, i2]; exact le_max_left _ _
  have hsum : s.write_segment_size + s.read_segment_size = C := by rw [hw, hr]; exact i3
  have hRne : ∀ {L : List Int}, (0 : Int) < L.length → L ≠ [] := by
    intro L h e
    rw [e] at h
    simp at h
  have hlen0 : ∀ {L : List Int}, L ≠ [] → 0 < L.length := by
    intro L h
    exact List.length_pos.mpr h
  have hfullI : (s.Read_List.length : Int) + (s.Write_List.length : Int) = C := by
    exact_mod_cast hfull
  have c1 : (s.Read_List.length : Int) > s.read_segment_size → chooseSegment s = some true := by
    intro h
    have hne : s.Read_List ≠ [] := hRne (by omega)
    unfold chooseSegment
    rw [if_pos ⟨h, hne⟩]
  have c2 : ¬ (s.Read_List.length : Int) > s.read_segment_size →
      (s.Write_List.length : Int) > s.write_segment_size → chooseSegment s = some false := by
    intro h1 h2
    have hne : s.Write_List ≠ [] := hRne (by omega)
    unfold chooseSegment
    rw [if_neg (fun h => h1 h.1), if_pos ⟨h2, hne⟩]
  have c3 : ¬ (s.Read_List.length : Int) > s.read_segment_size →
      ¬ (s.Write_List.length : Int) > s.write_segment_size →
      s.Read_List ≠ [] → chooseSegment s = some true := by
    intro h1 h2 h3
    unfold chooseSegment
    rw [if_neg (fun h => h1 h.1), if_neg (fun h => h2 h.1), if_pos h3]
  have c4 : ¬ (s.Read_List.length : Int) > s.read_segment_size →
      ¬ (s.Write_List.length : Int) > s.write_segment_size →
      s.Read_List = [] → chooseSegment s = some false := by
    intro h1 h2 h3
    have hW : s.Write_List ≠ [] := by
      apply hRne
      rw [h3] at hfullI
      simp only [List.length_nil, Nat.cast_zero] at hfullI
      omega
    unfold chooseSegment
    rw [if_neg (fun h => h1 h.1), if_neg (fun h => h2 h.1), if_neg (fun h => h h3),
      if_pos hW]
  refine ⟨c1, c2, c3, c4, ?_, hsum⟩
  constructor
  · intro h
    have hne := cacheus_chooseSegment_true s h
    refine ⟨hne, ?_⟩
    by_contra hlt
    have h1 : ¬ (s.Read_List.length : Int) > s.read_segment_size := by omega
    have h2 : (s.Write_List.length : Int) > s.write_segment_size := by omega
    rw [c2 h1 h2] at h
    cases h
  · intro ⟨hne, hge⟩
    by_cases h1 : (s.Read_List.length : Int) > s.read_segment_size
    · exact c1 h1
    · have h2 : ¬ (s.Write_List.length : Int) > s.write_segment_size := by omega
      exact c3 h1 h2 hne

end CACHEUSCache

namespace LFUCache

end LFUCache


/-! ## The stated properties, concluded -/

/-- Counterexample to C21 as stated: no capacity and no call sequence on a
fresh Engine D makes `|LIR_set|` greater than `lir_size`, and for every
capacity `C` the bound `max(1, ⌊C / 100⌋)` is never exceeded, so the set does
not grow without bound. -/
theorem lirs_lir_set_unbounded_counterexample :
    (¬ ∃ (C : Nat) (ops : List Op) (s : LIRSCache), 1 ≤ C ∧
      LIRSCache.engine.exec (LIRSCache.init C) ops = some s ∧
      (s.LIR_set.length : Int) > s.lir_size) ∧
    (∀ C : Nat, ∃ n : Int, ∀ s, LIRSCache.engine.Reachable C s →
      (s.LIR_set.length : Int) ≤ n) := by
  constructor
  · rintro ⟨C, ops, s, _, hs, hgt⟩
    have := (LIRSCache.lirs_reachable_tags C s ⟨ops, hs⟩).2.2.2.2.2.2.2
    omega
  · intro C
    refine ⟨max 1 ((C : Int) / 100), ?_⟩
    intro s hr
    have h1 := (LIRSCache.lirs_reachable_tags C s hr).2.2.2.2.2.2.2
    have h2 := (LIRSCache.lirs_lir_size C s hr).2
    rw [h2] at h1
    exact h1

/-- C21, amended (Engine D's high-value set is bounded by its target): in
every state reached from a fresh engine of capacity `C`,
`|LIR_set| ≤ lir_size = max(1, ⌊C / 100⌋)`, a resident-ordinary hit promoting
only while `|LIR_set| < lir_size`; a `refer` returns exactly when its key is
not 0 (with the key 0 its last step pops the front of the empty history
list), and every `refer` that returns keeps every key of `LIR_set` in it
(nothing is demoted) and adds at most the referenced key.  The bound is
reached: capacity 1 with `refer(1, Write)`, `refer(1, Read)` gives
`|LIR_set| = 1 = lir_size`. -/
theorem lirs_lir_set_bounded (C : Nat) (s : LIRSCache)
    (hr : LIRSCache.engine.Reachable C s) :
    (s.LIR_set.length : Int) ≤ s.lir_size ∧
    s.lir_size = max 1 ((C : Int) / 100) ∧
    (∀ x t, ((∃ s1, LIRSCache.refer s x t = some s1) ↔ x ≠ 0) ∧
      ∀ s1, LIRSCache.refer s x t = some s1 →
        (∀ k, k ∈ s.LIR_set → k ∈ s1.LIR_set) ∧
        (∀ k, k ∈ s1.LIR_set → k = x ∨ k ∈ s.LIR_set)) ∧
    (LIRSCache.engine.exec (LIRSCache.init 1) Engine.sampleOps = some LIRSCache.sample ∧
     (LIRSCache.sample.LIR_set.length : Int) = LIRSCache.sample.lir_size) := by
  obtain ⟨hI, hT⟩ := LIRSCache.lirs_reachable_tags C s hr
  refine ⟨hT.2.2.2.2.2.2, (LIRSCache.lirs_lir_size C s hr).2, ?_, rfl, rfl⟩
  intro x t
  refine ⟨LIRSCache.lirs_refer_returns C s x t hI, ?_⟩
  intro s1 h1
  exact LIRSCache.lirs_referCase_lirset s s1 x t
    (LIRSCache.lirs_refer_referCase C s s1 x t hI h1)

/-- Witness of the amended C21: Engine D of capacity 3 after the references
1, 1, 2, 3, where key 1 alone is `LIR`; a further `refer(2, Read)` returns. -/
theorem lirs_lir_set_bounded_witness :
    LIRSCache.engine.Reachable 3 LIRSCache.stackState ∧
    (LIRSCache.stackState.LIR_set.length : Int) ≤ LIRSCache.stackState.lir_size ∧
    LIRSCache.stackState.lir_size = max 1 (((3 : Nat) : Int) / 100) ∧
    ((∃ s1, LIRSCache.refer LIRSCache.stackState 2 RW.Read = some s1) ↔ (2 : Int) ≠ 0) :=
  ⟨⟨Engine.refs LIRSCache.stackRefs, rfl⟩,
    (lirs_lir_set_bounded 3 LIRSCache.stackState ⟨Engine.refs LIRSCache.stackRefs, rfl⟩).1,
    (lirs_lir_set_bounded 3 LIRSCache.stackState
      ⟨Engine.refs LIRSCache.stackRefs, rfl⟩).2.1,
    ((lirs_lir_set_bounded 3 LIRSCache.stackState
      ⟨Engine.refs LIRSCache.stackRefs, rfl⟩).2.2.1 2 RW.Read).1⟩

/-- C22 (Engine D recency stack): the claim fails on the code for the key 0.
In the state reached on a fresh engine of capacity 3 by the references
1, 1, 2, 3, where `R = [3, 2, 1]`, the call `refer(0, Read)` does not return:
after the stack update its last step compares `HIR_nonresident_list.front()`
with the key without testing the list for emptiness, the front of the empty
list reads as 0, and `pop_front()` is run on the empty list.  So no state with
the key 0 on top of `R` is ever produced, whereas `refer(2, Read)` returns
with `R = [2, 3, 1]`. -/
theorem lirs_recency_abort :
    LIRSCache.engine.exec (LIRSCache.init 3) (Engine.refs LIRSCache.stackRefs) =
      some LIRSCache.stackState ∧
    LIRSCache.stackState.R = [3, 2, 1] ∧
    LIRSCache.refer LIRSCache.stackState 0 RW.Read = none ∧
    (LIRSCache.refer LIRSCache.stackState 2 RW.Read).map (fun s => s.R) =
      some [2, 3, 1] := by
  refine ⟨rfl, rfl, rfl, rfl⟩

/-- The recency stack away from the defect: from every reachable state a
`refer(x, t)` returns exactly when `x` is not 0, and after every `refer` that
returns `x` is the top (front) entry of the stack `R`, `R` holds every key at
most once, and the keys of `R_map` are exactly the keys occurring in `R`. -/
theorem lirs_stack_top (C : Nat) (s : LIRSCache) (x : Int) (t : RW)
    (hr : LIRSCache.engine.Reachable C s) :
    ((∃ s1, LIRSCache.refer s x t = some s1) ↔ x ≠ 0) ∧
    ∀ s1, LIRSCache.refer s x t = some s1 →
      s1.R.head? = some x ∧ s1.R.Nodup ∧ ∀ k, k ∈ s1.R_map.keys ↔ k ∈ s1.R := by
  have hI := LIRSCache.lirs_reachable_inv C s hr
  refine ⟨LIRSCache.lirs_refer_returns C s x t hI, ?_⟩
  intro s1 h1
  obtain ⟨s2, h2, h3⟩ := LIRSCache.lirs_stack_after_refer C s x t hI
    (LIRSCache.lirs_refer_key C s s1 x t hI h1)
  rw [h1] at h2
  cases h2
  exact h3

/-- C24 (Engine B eviction priority): for every capacity `C ≥ 1` and every
reachable state with `|Read| + |Write| = C`, a `refer` on a non-resident key
returns and evicts the LRU (last) key `v` of the segment that the decision
names.  The decision is: Read if `|Read| >` read target; otherwise Write if
`|Write| >` write target; otherwise Read if Read is non-empty, and Write if
Read is empty.  As the targets sum to `C`, the victim comes from Read exactly
when Read is non-empty and `|Read| ≥` read target. -/
theorem cacheus_eviction_priority (C : Nat) (hC : 1 ≤ C) (s : CACHEUSCache) (x : Int)
    (t : RW) (hr : CACHEUSCache.engine.Reachable C s)
    (hfull : s.Read_List.length + s.Write_List.length = C)
    (hx : x ∉ s.Read_List ∧ x ∉ s.Write_List) :
    (∃ v s1, CACHEUSCache.refer s x t = some s1 ∧
      ((CACHEUSCache.chooseSegment s = some true ∧ s.Read_List.getLast? = some v ∧
          s1.Read_List = (if t = RW.Read then [x] else []) ++ s.Read_List.dropLast ∧
          s1.Write_List = (if t = RW.Read then [] else [x]) ++ s.Write_List) ∨
       (CACHEUSCache.chooseSegment s = some false ∧ s.Write_List.getLast? = some v ∧
          s1.Read_List = (if t = RW.Read then [x] else []) ++ s.Read_List ∧
          s1.Write_List = (if t = RW.Read then [] else [x]) ++ s.Write_List.dropLast)) ∧
      s1.key_segment_map.find v = none) ∧
    ((s.Read_List.length : Int) > s.read_segment_size →
      CACHEUSCache.chooseSegment s = some true) ∧
    (¬ (s.Read_List.length : Int) > s.read_segment_size →
      (s.Write_List.length : Int) > s.write_segment_size →
      CACHEUSCache.chooseSegment s = some false) ∧
    (¬ (s.Read_List.length : Int) > s.read_segment_size →
      ¬ (s.Write_List.length : Int) > s.write_segment_size →
      s.Read_List ≠ [] → CACHEUSCache.chooseSegment s = some true) ∧
    (¬ (s.Read_List.length : Int) > s.read_segment_size →
      ¬ (s.Write_List.length : Int) > s.write_segment_size →
      s.Read_List = [] → CACHEUSCache.chooseSegment s = some false) ∧
    (CACHEUSCache.chooseSegment s = some true ↔
      (s.Read_List ≠ [] ∧ (s.Read_List.length : Int) ≥ s.read_segment_size)) ∧
    s.write_segment_size + s.read_segment_size = C := by
  have hI := CACHEUSCache.cacheus_reachable_inv C hC s hr
  obtain ⟨v, s1, h1, _, h3, _, _, h6, _⟩ :=
    CACHEUSCache.cacheus_full_miss_victim C hC s x t hI hfull hx
  exact ⟨⟨v, s1, h1, h3, h6⟩, CACHEUSCache.cacheus_priority C hC s hI hfull⟩

/-- Witness of C24: Engine B of capacity 10 after `Write` references to
1 .. 10 (Read empty, Write over its target 1); the next call is
`refer(11, Read)`, and the decision is the Write segment. -/
theorem cacheus_eviction_priority_witness :
    1 ≤ 10 ∧ CACHEUSCache.engine.Reachable 10 CACHEUSCache.fullState ∧
    CACHEUSCache.fullState.Read_List.length + CACHEUSCache.fullState.Write_List.length
      = 10 ∧
    (¬ (CACHEUSCache.fullState.Read_List.length : Int) >
        CACHEUSCache.fullState.read_segment_size →
      (CACHEUSCache.fullState.Write_List.length : Int) >
        CACHEUSCache.fullState.write_segment_size →
      CACHEUSCache.chooseSegment CACHEUSCache.fullState = some false) ∧
    (CACHEUSCache.chooseSegment CACHEUSCache.fullState = some true ↔
      (CACHEUSCache.fullState.Read_List ≠ [] ∧
       (CACHEUSCache.fullState.Read_List.length : Int) ≥
         CACHEUSCache.fullState.read_segment_size)) :=
  ⟨by decide, ⟨Engine.refs (CACHEUSCache.scenarioRefs.take 10), rfl⟩, rfl,
    (cacheus_eviction_priority 10 (by decide) CACHEUSCache.fullState 11 RW.Read
      ⟨Engine.refs (CACHEUSCache.scenarioRefs.take 10), rfl⟩ rfl (by decide)).2.2.1,
    (cacheus_eviction_priority 10 (by decide) CACHEUSCache.fullState 11 RW.Read
      ⟨Engine.refs (CACHEUSCache.scenarioRefs.take 10), rfl⟩ rfl (by decide)).2.2.2.2.2.1⟩

/-- C26 (Engine D stack pruning): in every reachable state the loop of
`prune_stack` ends within `|R|` iterations, every status lookup it makes
succeeds, and more iterations change nothing: the stack is cut back to its
last `LIR` key; a `refer`, with the pruning it may call, returns exactly when
its key is not 0 (with the key 0 its last step pops the front of the empty
history list), and no key with a status is 0.  A `refer` on a key `x` of
status `LIR` returns as a hit;
afterwards the status of `x` is still `LIR` (no status changes), `R` is
non-empty, its bottom (last) entry is `LIR`, and the entries the call removed
from the stack, once `x` was moved to the top, are exactly the non-`LIR`
entries below the last `LIR` entry. -/
theorem lirs_stack_pruning (C : Nat) (s : LIRSCache) (x : Int) (t : RW)
    (hr : LIRSCache.engine.Reachable C s) :
    (∀ n, s.R.length ≤ n →
      LIRSCache.prune_loop n s = some (LIRSCache.pruned s) ∧
      LIRSCache.prune_stack s = some (LIRSCache.pruned s)) ∧
    (∀ k, k ∈ s.R → (s.key_status_map.find k).isSome = true) ∧
    ((∃ s1, LIRSCache.refer s x t = some s1) ↔ x ≠ 0) ∧
    (s.key_status_map.find x = some Status.LIR →
      ∃ s1 rem, LIRSCache.refer s x t = some s1 ∧ s1.hits = s.hits + 1 ∧
        s1.key_status_map = s.key_status_map ∧
        s1.key_status_map.find x = some Status.LIR ∧
        s1.R ≠ [] ∧
        (∃ b, s1.R.getLast? = some b ∧ s1.key_status_map.find b = some Status.LIR) ∧
        x :: s.R.erase x = s1.R ++ rem ∧
        (∀ k, k ∈ rem → s.key_status_map.find k ≠ some Status.LIR)) := by
  obtain ⟨hI, hT⟩ := LIRSCache.lirs_reachable_tags C s hr
  refine ⟨?_, hI.2.2.2.1, ?_, ?_⟩
  · intro n hn
    exact ⟨LIRSCache.lirs_prune_loop_exact n s hn hI.2.2.2.1,
      LIRSCache.lirs_prune_stack_exact s hI.2.2.2.1⟩
  · exact LIRSCache.lirs_refer_returns C s x t hI
  · intro hs
    obtain ⟨s1, rem, h1, h2, h3, h4, h5, h6, h7⟩ :=
      LIRSCache.lirs_lir_hit C s x t hI hT
        (LIRSCache.lirs_status_key C s x Status.LIR hr hs) hs
    exact ⟨s1, rem, h1, h2, h3, by rw [h3]; exact hs, h4, h5, h6, h7⟩

/-- Witness of C26: Engine D of capacity 3 after the references 1, 1, 2, 3,
where `R = [3, 2, 1]` and key 1 is `LIR`; the call `refer(1, Read)` moves key
1 to the top and prunes the ordinary keys 3 and 2 below it. -/
theorem lirs_stack_pruning_witness :
    LIRSCache.engine.Reachable 3 LIRSCache.stackState ∧
    LIRSCache.stackState.key_status_map.find 1 = some Status.LIR ∧
    ∃ s1 rem, LIRSCache.refer LIRSCache.stackState 1 RW.Read = some s1 ∧
      s1.hits = LIRSCache.stackState.hits + 1 ∧
      s1.key_status_map = LIRSCache.stackState.key_status_map ∧
      s1.key_status_map.find 1 = some Status.LIR ∧
      s1.R ≠ [] ∧
      (∃ b, s1.R.getLast? = some b ∧ s1.key_status_map.find b = some Status.LIR) ∧
      1 :: LIRSCache.stackState.R.erase 1 = s1.R ++ rem ∧
      (∀ k, k ∈ rem → LIRSCache.stackState.key_status_map.find k ≠ some Status.LIR) :=
  ⟨⟨Engine.refs LIRSCache.stackRefs, rfl⟩, rfl,
    (lirs_stack_pruning 3 LIRSCache.stackState 1 RW.Read
      ⟨Engine.refs LIRSCache.stackRefs, rfl⟩).2.2.2 rfl⟩

/-- C27 (Engine D tag consistency): in every reachable state a key is in
`LIR_set` exactly when its status is `LIR`, it is in `resident_map` exactly
when its status is `LIR` or `RESIDENT_HIR`, and `key_status_map` has at most
one entry per key. -/
theorem lirs_tag_consistency (C : Nat) (s : LIRSCache)
    (hr : LIRSCache.engine.Reachable C s) :
    (∀ k, k ∈ s.LIR_set ↔ s.key_status_map.find k = some Status.LIR) ∧
    (∀ k, s.resident_map.count k = true ↔
      (s.key_status_map.find k = some Status.LIR ∨
       s.key_status_map.find k = some Status.RESIDENT_HIR)) ∧
    s.key_status_map.keys.Nodup ∧ s.LIR_set.Nodup := by
  obtain ⟨_, hT⟩ := LIRSCache.lirs_reachable_tags C s hr
  exact ⟨hT.1, hT.2.1, hT.2.2.1, hT.2.2.2.1⟩

/-- Witness of C27: Engine D of capacity 3 after the references 1, 1, 2, 3:
key 1 is `LIR`, keys 2 and 3 are `RESIDENT_HIR`. -/
theorem lirs_tag_consistency_witness :
    LIRSCache.engine.Reachable 3 LIRSCache.stackState ∧
    (∀ k, k ∈ LIRSCache.stackState.LIR_set ↔
      LIRSCache.stackState.key_status_map.find k = some Status.LIR) ∧
    (∀ k, LIRSCache.stackState.resident_map.count k = true ↔
      (LIRSCache.stackState.key_status_map.find k = some Status.LIR ∨
       LIRSCache.stackState.key_status_map.find k = some Status.RESIDENT_HIR)) ∧
    LIRSCache.stackState.key_status_map.keys.Nodup ∧ LIRSCache.stackState.LIR_set.Nodup :=
  ⟨⟨Engine.refs LIRSCache.stackRefs, rfl⟩,
    lirs_tag_consistency 3 LIRSCache.stackState ⟨Engine.refs LIRSCache.stackRefs, rfl⟩⟩

/-- C28 (Engine D never evicts): in every state reached from a fresh engine
the history list is empty, `evictedDirtyPage` is 0, no key has the status
`NON_RESIDENT_HIR`, and the keys of `resident_map` are exactly the keys
referenced so far.  A `refer(x, t)` returns exactly when `x` is not 0: the
front of the empty history list reads as 0, which is no key of the list for
every other `x`, while with the key 0 the last step pops the empty list; the
key 0 is therefore never among the keys referenced so far.  A `refer(x, t)` is
counted as a hit (it returns with `hits` one higher) exactly when `x` was
referenced before, and a `refer` that returns on a key not referenced before
leaves `hits` as it is. -/
theorem lirs_never_evicts (C : Nat) (s : LIRSCache) (g : Ghost) (x : Int) (t : RW)
    (h : LIRSCache.engine.Traced C s g) :
    s.HIR_nonresident_list = [] ∧ s.evictedDirtyPage = 0 ∧
    (∀ k, s.key_status_map.find k ≠ some Status.NON_RESIDENT_HIR) ∧
    (∀ k, s.resident_map.count k = true ↔ g.lastType k ≠ none) ∧
    ((∃ s1, LIRSCache.refer s x t = some s1) ↔ x ≠ 0) ∧
    g.lastType 0 = none ∧
    ((∃ s1, LIRSCache.refer s x t = some s1 ∧ s1.hits = s.hits + 1) ↔
      g.lastType x ≠ none) ∧
    (∀ s1, LIRSCache.refer s x t = some s1 → g.lastType x = none →
      s1.hits = s.hits) := by
  obtain ⟨hI, hT, hg⟩ := LIRSCache.lirs_traced_resident C s g h
  have hres : ∀ k, s.resident_map.count k = true ↔ g.lastType k ≠ none := by
    intro k
    rw [hg k]
    cases g.lastType k <;> simp
  have hz : g.lastType 0 = none := by
    have h0 := (LIRSCache.lirs_reachable_zero C s (Engine.traced_reachable _ C h)).2
    cases hl : g.lastType 0 with
    | none => rfl
    | some a =>
      have := (hres 0).mpr (by rw [hl]; exact Option.some_ne_none a)
      rw [h0] at this
      cases this
  have hstep : ∀ s1, LIRSCache.refer s x t = some s1 →
      s1.hits = s.hits + (if s.resident_map.count x = true then 1 else 0) := fun s1 h1 =>
    (LIRSCache.lirs_referCase_fields s s1 x t
      (LIRSCache.lirs_refer_referCase C s s1 x t hI h1)).2.2.2.2.2.1
  refine ⟨hI.2.1, hT.2.2.2.2.2.1, hT.2.2.2.2.1, hres,
    LIRSCache.lirs_refer_returns C s x t hI, hz, ?_, ?_⟩
  · constructor
    · rintro ⟨s1, h1, h2⟩ hn
      have hc : ¬ s.resident_map.count x = true := fun hc => (hres x).mp hc hn
      have := hstep s1 h1
      rw [if_neg hc] at this
      omega
    · intro hx
      have hx0 : x ≠ 0 := by
        intro e
        rw [e] at hx
        exact hx hz
      obtain ⟨s1, h1⟩ := (LIRSCache.lirs_refer_returns C s x t hI).mpr hx0
      refine ⟨s1, h1, ?_⟩
      rw [hstep s1 h1, if_pos ((hres x).mpr hx)]
  · intro s1 h1 hx
    have hc : ¬ s.resident_map.count x = true := fun hc => (hres x).mp hc hx
    rw [hstep s1 h1, if_neg hc]
    rfl

/-- Witness of C28: Engine D of capacity 3 after the references 1, 1, 2, 3;
the resident count has reached 3, and the call `refer(4, Read)` on a key not
referenced before is a miss. -/
theorem lirs_never_evicts_witness :
    LIRSCache.engine.Traced 3 LIRSCache.stackState LIRSCache.stackGhost ∧
    LIRSCache.stackState.HIR_nonresident_list = [] ∧
    LIRSCache.stackState.evictedDirtyPage = 0 ∧
    (∀ k, LIRSCache.stackState.key_status_map.find k ≠ some Status.NON_RESIDENT_HIR) ∧
    (∀ k, LIRSCache.stackState.resident_map.count k = true ↔
      LIRSCache.stackGhost.lastType k ≠ none) ∧
    ((∃ s1, LIRSCache.refer LIRSCache.stackState 4 RW.Read = some s1) ↔ (4 : Int) ≠ 0) ∧
    LIRSCache.stackGhost.lastType 0 = none ∧
    ((∃ s1, LIRSCache.refer LIRSCache.stackState 4 RW.Read = some s1 ∧
        s1.hits = LIRSCache.stackState.hits + 1) ↔
      LIRSCache.stackGhost.lastType 4 ≠ none) ∧
    (∀ s1, LIRSCache.refer LIRSCache.stackState 4 RW.Read = some s1 →
      LIRSCache.stackGhost.lastType 4 = none → s1.hits = LIRSCache.stackState.hits) :=
  ⟨⟨Engine.refs LIRSCache.stackRefs, rfl⟩,
    lirs_never_evicts 3 LIRSCache.stackState LIRSCache.stackGhost 4 RW.Read
      ⟨Engine.refs LIRSCache.stackRefs, rfl⟩⟩

/-- C29 (Engine A, a true miss below capacity leaves the history untouched):
in every reachable state with `|L1| + |L2| ≠ C`, a `refer(x, t)` on a key in
no list returns and changes neither `T1`, `T2` nor `p` (the trimming tried
when `|T1| + |T2| = C` removes nothing); it counts the call, puts `x` at the
MRU (front) end of `L1` with tag `L1_SET` and records its access type, and
changes nothing else. -/
theorem arc_miss_below_capacity (C : Nat) (s : ARCCache) (x : Int) (t : RW)
    (hr : ARCCache.engine.Reachable C s) (hne : s.L1.length + s.L2.length ≠ C)
    (hx : x ∉ s.L1 ∧ x ∉ s.T1 ∧ x ∉ s.L2 ∧ x ∉ s.T2) :
    ∃ s1, ARCCache.refer s x t = some s1 ∧
      s1.T1 = s.T1 ∧ s1.T2 = s.T2 ∧ s1.p = s.p ∧ s1.L1 = x :: s.L1 ∧ s1.L2 = s.L2 ∧
      s1 = { s with calls := s.calls + 1, L1 := x :: s.L1,
                    list_map := s.list_map.insert x ListSet.L1_SET,
                    key_set_map := s.key_set_map.insert x ListSet.L1_SET,
                    accessType := s.accessType.insert x t } ∧
      (s.T1.length + s.T2.length = s.csize → ARCCache.clean_ghost_list s = s) :=
  ⟨_, ARCCache.arc_miss_below C s x t (ARCCache.arc_reachable_inv C s hr) hne hx,
    rfl, rfl, rfl, rfl, rfl, rfl,
    fun h => ARCCache.arc_clean_ghost_list_id s (le_of_eq h)⟩

/-- Witness of C29: Engine A of capacity 4 after `refer(1, Read)`,
`refer(2, Write)`; the next call is `refer(3, Read)`. -/
theorem arc_miss_below_capacity_witness :
    ARCCache.engine.Reachable 4 ARCCache.fillState ∧
    ARCCache.fillState.L1.length + ARCCache.fillState.L2.length ≠ 4 ∧
    ∃ s1, ARCCache.refer ARCCache.fillState 3 RW.Read = some s1 ∧
      s1.T1 = ARCCache.fillState.T1 ∧ s1.T2 = ARCCache.fillState.T2 ∧
      s1.p = ARCCache.fillState.p ∧ s1.L1 = 3 :: ARCCache.fillState.L1 ∧
      s1.L2 = ARCCache.fillState.L2 ∧
      s1 = { ARCCache.fillState with
              calls := ARCCache.fillState.calls + 1, L1 := 3 :: ARCCache.fillState.L1,
              list_map := ARCCache.fillState.list_map.insert 3 ListSet.L1_SET,
              key_set_map := ARCCache.fillState.key_set_map.insert 3 ListSet.L1_SET,
              accessType := ARCCache.fillState.accessType.insert 3 RW.Read } ∧
      (ARCCache.fillState.T1.length + ARCCache.fillState.T2.length =
          ARCCache.fillState.csize →
        ARCCache.clean_ghost_list ARCCache.fillState = ARCCache.fillState) :=
  ⟨⟨Engine.refs [(1, RW.Read), (2, RW.Write)], rfl⟩, by decide,
    arc_miss_below_capacity 4 ARCCache.fillState 3 RW.Read
      ⟨Engine.refs [(1, RW.Read), (2, RW.Write)], rfl⟩ (by decide) (by decide)⟩
